import Mathlib

/-! The order-matching engine of `maximus/backtest`.

A shallow embedding of `backtest/broker.go`, `backtest/order.go`,
`backtest/trade.go` and `backtest/util.go`.

Modelling decisions, all of them local to this file:

* `float64` is read as exact rational arithmetic (`ℚ`); `math.Floor` is the
  integer floor.  NaN and the infinities have no counterpart: a division by a
  zero price gives `0` here.
* Orders and trades are heap objects referred to by pointers.  Every object is
  created with a fresh `uuid` that is never changed afterwards, and the code
  compares objects by `Id` only, so a pointer is modelled by the `Id`, a
  natural number drawn from the counter `nextId`.  The heaps `orderHeap` and
  `tradeHeap` give the current fields of every object.
* `b.orders` and `b.trades` are Go slices: a backing array and a length.
  `append(s[:i], s[i+1:]...)` shifts the elements of the backing array in
  place, and a `for ... range` loop keeps reading the array it started on, so
  the arrays are part of the state (`arrays`).  `append([]T{x}, s...)` always
  builds a new array.  `append(s, x)` either writes the next free slot or moves
  to a larger array, depending on the capacity; no loop of the program reads
  the array of `s` after such an append, so the model always moves to a new
  array.
* `log.Fatalf` / `log.Fatalln` and runtime panics end the process.  They are
  results `Except.error (fault, state)`, the state being the ledger at the
  point of the abort.
* `broker.processOrders` is recursive; the model takes a bound on the number
  of passes (`fuel`) and reports `Fault.outOfFuel` when it is exhausted.
-/

namespace Backtest

/-- The side of an order or trade (`backtest.go`). -/
inductive Side where
  | Buy
  | Sell
  deriving DecidableEq, Repr

/-- The type an order was hit at (`order.go`); the unset marker `""` is `none`. -/
inductive OrderType where
  | Market
  | Limit
  | Stop
  deriving DecidableEq, Repr

/-- The price fields of `marketdata.Bar` read by the engine. -/
structure Bar where
  Open : ℚ
  High : ℚ
  Low : ℚ
  Close : ℚ
  deriving DecidableEq, Repr

/-- The type `Data` of `backtest.go`: the bars up to the current one. -/
structure Data where
  bars : List Bar
  deriving DecidableEq, Repr

/-- The type `Opts` of `backtest.go`. -/
structure Opts where
  cash : ℚ
  orderSize : ℚ
  margin : ℚ
  commision : ℚ
  tradeOnClose : Bool
  exclusiveOrder : Bool
  fractionable : Bool
  deriving DecidableEq, Repr

/-- The type `Order` of `order.go`, without `Id` (the heap key) and `broker`
(there is one ledger). -/
structure Order where
  Size : ℚ
  Side : Side
  Stop : ℚ
  Limit : ℚ
  SL : ℚ
  TP : ℚ
  trade : Option Nat
  hitAtOt : Option OrderType
  deriving DecidableEq, Repr

/-- The type `Trade` of `trade.go`, without `Id` and `broker`; `legs` is the
two-slot array `[2]*Order`. -/
structure Trade where
  Size : ℚ
  Side : Side
  EntryPrice : ℚ
  ExitPrice : ℚ
  EntryBar : Int
  ExitBar : Int
  legs0 : Option Nat
  legs1 : Option Nat
  deriving DecidableEq, Repr

/-- A Go slice of pointers: the backing array it points into and its length. -/
structure Slice where
  arr : Nat
  len : Nat
  deriving DecidableEq, Repr

/-- The type `broker` of `broker.go` together with the heap it points into. -/
structure broker where
  opts : Opts
  data : Data
  orders : Slice
  trades : Slice
  closedTrades : List Nat
  equities : List ℚ
  cash : ℚ
  orderHeap : Nat → Order
  tradeHeap : Nat → Trade
  arrays : Nat → List Nat
  nextId : Nat
  nextArr : Nat

/-- The type `newOrderOpts` of `broker.go`. -/
structure newOrderOpts where
  size : ℚ
  side : Side
  stop : ℚ
  limit : ℚ
  sl : ℚ
  tp : ℚ
  trade : Option Nat
  deriving DecidableEq, Repr

/-- The ways a run ends early: the `log.Fatal` calls of the engine, the two
runtime panics it can raise, and the exhaustion of the pass bound. -/
inductive Fault where
  | fractionalSize
  | longSlTp
  | longSl
  | longTp
  | shortSlTp
  | shortSl
  | shortTp
  | priceNotPositive
  | noOrderFound
  | sizeTooLarge
  | blewUp
  | indexOutOfRange
  | sliceBounds
  | outOfFuel
  deriving DecidableEq, Repr

/-- Computations of the engine: a value, or the fault and the ledger at the
abort. -/
abbrev Run (α : Type) := Except (Fault × broker) α

/-- The function `reverseSide` of `util.go`. -/
def reverseSide (side : Side) : Side :=
  if side = Side.Buy then Side.Sell else Side.Buy

/-- The function `isWhole` of `util.go`. -/
def isWhole (n : ℚ) : Bool := decide (((⌈n⌉ : Int) : ℚ) = n)

/-- The method `Data.LastBar`; `none` is the index panic on an empty series. -/
def Data.LastBar (d : Data) : Option Bar := d.bars.getLast?

/-- The method `Data.LastClose`. -/
def Data.LastClose (d : Data) : Option ℚ := d.LastBar.map Bar.Close

/-- The method `Order.IsLong`. -/
def Order.IsLong (o : Order) : Bool := decide (o.Side = Side.Buy)

/-- The method `Order.IsShort`. -/
def Order.IsShort (o : Order) : Bool := !o.IsLong

/-- The method `Trade.IsLong`. -/
def Trade.IsLong (t : Trade) : Bool := decide (t.Side = Side.Buy)

/-- The method `Trade.IsShort`. -/
def Trade.IsShort (t : Trade) : Bool := decide (t.Side = Side.Sell)

/-- The elements of a slice. -/
def broker.live (b : broker) (s : Slice) : List Nat := (b.arrays s.arr).take s.len

/-- The order queue `b.orders`, front first. -/
def broker.queue (b : broker) : List Nat := b.live b.orders

/-- The open trades `b.trades`. -/
def broker.openTrades (b : broker) : List Nat := b.live b.trades

/-- The slice expression `append(s[:i], s[i+1:]...)`: the elements after `i`
move one slot down in the backing array, whose last live slot keeps its
value. -/
def broker.sliceRemove (b : broker) (s : Slice) (i : Nat) : (Nat → List Nat) × Slice :=
  let a := b.arrays s.arr
  (Function.update b.arrays s.arr ((a.take s.len).eraseIdx i ++ a.drop (s.len - 1)),
    { arr := s.arr, len := s.len - 1 })

/-- The slice expression `append([]T{x}, s...)`: a new array. -/
def broker.slicePrepend (b : broker) (s : Slice) (x : Nat) : (Nat → List Nat) × Slice :=
  (Function.update b.arrays b.nextArr (x :: b.live s),
    { arr := b.nextArr, len := (b.live s).length + 1 })

/-- The slice expression `append(s, x)`, see the header. -/
def broker.sliceAppend (b : broker) (s : Slice) (x : Nat) : (Nat → List Nat) × Slice :=
  (Function.update b.arrays b.nextArr (b.live s ++ [x]),
    { arr := b.nextArr, len := (b.live s).length + 1 })

/-- Index of the first occurrence, `none` for `-1`. -/
def indexIn (x : Nat) (l : List Nat) : Option Nat :=
  if x ∈ l then some (l.indexOf x) else none

/-- The method `Order.indexOf`. -/
def Order.indexOf (b : broker) (o : Nat) : Option Nat := indexIn o b.queue

/-- The method `Trade.indexOf`. -/
def Trade.indexOf (b : broker) (t : Nat) : Option Nat := indexIn t b.openTrades

/-- The method `Order.remove`. -/
def Order.remove (b : broker) (o : Nat) : Run broker :=
  match Order.indexOf b o with
  | none => .error (Fault.noOrderFound, b)
  | some i =>
    let r := b.sliceRemove b.orders i
    .ok { b with arrays := r.1, orders := r.2 }

/-- The method `Order.Cancel`.  Its loop over the parent's legs assigns `nil`
to the loop variable only, which changes nothing; what is left is `remove`. -/
def Order.Cancel (b : broker) (o : Nat) : Run broker :=
  Order.remove b o

/-- The method `Trade.Pnl`. -/
def Trade.Pnl (b : broker) (t : Nat) : Run ℚ :=
  match b.data.LastClose with
  | none => .error (Fault.indexOutOfRange, b)
  | some c =>
    let tr := b.tradeHeap t
    let price := if tr.ExitPrice > 0 then tr.ExitPrice else c
    if tr.IsLong then .ok ((price - tr.EntryPrice) * tr.Size)
    else .ok ((tr.EntryPrice - price) * tr.Size)

/-- The method `Trade.Close`: a market order for the whole trade, at the front
of the queue. -/
def Trade.Close (b : broker) (t : Nat) : broker :=
  let tr := b.tradeHeap t
  let o : Order :=
    { Size := tr.Size, Side := reverseSide tr.Side, Stop := 0, Limit := 0, SL := 0, TP := 0,
      trade := some t, hitAtOt := none }
  let r := b.slicePrepend b.orders b.nextId
  { b with
    orderHeap := Function.update b.orderHeap b.nextId o
    nextId := b.nextId + 1
    arrays := r.1
    nextArr := b.nextArr + 1
    orders := r.2 }

/-- The first loop of the exclusive-order branch of `newOrder`:
`for _, o := range b.orders { if o.trade == nil { o.Cancel() } }`, reading
slot `i` of the array `hs` the loop started on, `n` slots to go. -/
def broker.cancelUnbound (hs : Nat) : Nat → Nat → broker → Run broker
  | 0, _, b => .ok b
  | n + 1, i, b =>
    match (b.arrays hs)[i]? with
    | none => .error (Fault.indexOutOfRange, b)
    | some o =>
      if (b.orderHeap o).trade = none then
        match Order.Cancel b o with
        | .error e => .error e
        | .ok b1 => broker.cancelUnbound hs n (i + 1) b1
      else broker.cancelUnbound hs n (i + 1) b

/-- The second loop of the exclusive-order branch of `newOrder`:
`for _, t := range b.trades { t.Close() }`. -/
def broker.closeAll (hs : Nat) : Nat → Nat → broker → Run broker
  | 0, _, b => .ok b
  | n + 1, i, b =>
    match (b.arrays hs)[i]? with
    | none => .error (Fault.indexOutOfRange, b)
    | some t => broker.closeAll hs n (i + 1) (Trade.Close b t)

/-- The reference price of `newOrder`: the limit, else the stop, else the last
close. -/
def broker.refPrice (b : broker) (opts : newOrderOpts) : Option ℚ :=
  if opts.limit > 0 then some opts.limit
  else if opts.stop > 0 then some opts.stop
  else b.data.LastClose

/-- The price assertions of `newOrder`: the fault raised for the reference
price `price`, if any. -/
def checkPrices (opts : newOrderOpts) (price : ℚ) : Option Fault :=
  let long : Option Fault :=
    if opts.side = Side.Buy then
      if opts.sl > 0 ∧ opts.tp > 0 ∧ ¬ (opts.sl < price ∧ opts.tp > price) then some Fault.longSlTp
      else if opts.sl > 0 ∧ opts.sl > price then some Fault.longSl
      else if opts.tp > 0 ∧ opts.tp < price then some Fault.longTp
      else none
    else none
  match long with
  | some f => some f
  | none =>
    if opts.side = Side.Sell then
      if opts.sl > 0 ∧ opts.tp > 0 ∧ ¬ (opts.sl > price ∧ opts.tp < price) then some Fault.shortSlTp
      else if opts.sl > 0 ∧ opts.sl < price then some Fault.shortSl
      else if opts.tp > 0 ∧ opts.tp > price then some Fault.shortTp
      else none
    else none

/-- The method `broker.newOrder`; the result is the ledger and the new order. -/
def broker.newOrder (b : broker) (opts : newOrderOpts) : Run (broker × Nat) :=
  if !b.opts.fractionable ∧ opts.size > 1 ∧ !isWhole opts.size then
    .error (Fault.fractionalSize, b)
  else
    match b.refPrice opts with
    | none => .error (Fault.indexOutOfRange, b)
    | some price =>
      match checkPrices opts price with
      | some f => .error (f, b)
      | none =>
        let id := b.nextId
        let order : Order :=
          { Size := opts.size, Side := opts.side, Stop := opts.stop, Limit := opts.limit,
            SL := opts.sl, TP := opts.tp, trade := opts.trade, hitAtOt := none }
        let b0 : broker :=
          { b with orderHeap := Function.update b.orderHeap id order, nextId := id + 1 }
        if opts.trade.isSome ∧ (opts.trade.bind (Trade.indexOf b0)).isSome then
          let r := b0.slicePrepend b0.orders id
          .ok ({ b0 with arrays := r.1, nextArr := b0.nextArr + 1, orders := r.2 }, id)
        else
          let excl : Run broker :=
            if b0.opts.exclusiveOrder then
              match broker.cancelUnbound b0.orders.arr b0.orders.len 0 b0 with
              | .error e => .error e
              | .ok b1 => broker.closeAll b1.trades.arr b1.trades.len 0 b1
            else .ok b0
          match excl with
          | .error e => .error e
          | .ok b2 =>
            let r := b2.sliceAppend b2.orders id
            .ok ({ b2 with arrays := r.1, nextArr := b2.nextArr + 1, orders := r.2 }, id)

/-- The method `Trade.setContingent`; slot `0` is the stop loss, any other the
take profit. -/
def Trade.setContingent (b : broker) (t : Nat) (i : Nat) (price : ℚ) : Run broker :=
  if price ≤ 0 then .error (Fault.priceNotPositive, b)
  else
    let slot := if i = 0 then (b.tradeHeap t).legs0 else (b.tradeHeap t).legs1
    let removed : Run broker :=
      match slot with
      | some o => Order.remove b o
      | none => .ok b
    match removed with
    | .error e => .error e
    | .ok b1 =>
      let tr := b1.tradeHeap t
      match b1.newOrder
          { size := tr.Size, side := reverseSide tr.Side, stop := 0, limit := 0, sl := 0, tp := 0,
            trade := some t } with
      | .error e => .error e
      | .ok (b2, o) =>
        let ord := b2.orderHeap o
        let ord1 : Order := if i = 0 then { ord with Stop := price } else { ord with Limit := price }
        let tr2 := b2.tradeHeap t
        let tr3 : Trade := if i = 0 then { tr2 with legs0 := some o } else { tr2 with legs1 := some o }
        .ok { b2 with
          orderHeap := Function.update b2.orderHeap o ord1
          tradeHeap := Function.update b2.tradeHeap t tr3 }

/-- The method `Trade.SetSL`. -/
def Trade.SetSL (b : broker) (t : Nat) (price : ℚ) : Run broker :=
  Trade.setContingent b t 0 price

/-- The method `Trade.SetTP`. -/
def Trade.SetTP (b : broker) (t : Nat) (price : ℚ) : Run broker :=
  Trade.setContingent b t 1 price

/-- The loop `for _, t := range b.trades { sum += t.Pnl() }` of `equity`, over
the trades that are left, with the sum so far. -/
def broker.sumPnl (b : broker) : List Nat → ℚ → Run ℚ
  | [], sum => .ok sum
  | t :: ts, sum =>
    match Trade.Pnl b t with
    | .error e => .error e
    | .ok pnl => broker.sumPnl b ts (sum + pnl)

/-- The method `broker.equity`. -/
def broker.equity (b : broker) : Run ℚ :=
  match b.sumPnl b.openTrades 0 with
  | .error e => .error e
  | .ok sum => .ok (sum + b.cash)

/-- The method `broker.openTrade`. -/
def broker.openTrade (b : broker) (side : Side) (size price slPrice tpPrice : ℚ)
    (processedAtBarI : Int) : Run broker :=
  let id := b.nextId
  let trade : Trade :=
    { Size := size, Side := side, EntryPrice := price, ExitPrice := 0,
      EntryBar := processedAtBarI, ExitBar := 0, legs0 := none, legs1 := none }
  let r := b.sliceAppend b.trades id
  let b1 : broker :=
    { b with
      tradeHeap := Function.update b.tradeHeap id trade
      nextId := id + 1
      arrays := r.1
      nextArr := b.nextArr + 1
      trades := r.2 }
  let withSL : Run broker := if slPrice > 0 then Trade.SetSL b1 id slPrice else .ok b1
  match withSL with
  | .error e => .error e
  | .ok b2 => if tpPrice > 0 then Trade.SetTP b2 id tpPrice else .ok b2

/-- The loop `for _, o := range trade.legs { if o != nil { o.remove() } }` of
`closeTrade`, over a copy of the two slots. -/
def broker.removeLegs (b : broker) (legs0 legs1 : Option Nat) : Run broker :=
  let first : Run broker :=
    match legs0 with
    | some o => Order.remove b o
    | none => .ok b
  match first with
  | .error e => .error e
  | .ok b1 =>
    match legs1 with
    | some o => Order.remove b1 o
    | none => .ok b1

/-- The method `broker.closeTrade`.  With `indexOf` at `-1` the slice
expression `b.trades[:i]` panics, after the trade was appended to the closed
trades. -/
def broker.closeTrade (b : broker) (trade : Nat) (price : ℚ) (processedAtBarI : Int) :
    Run broker :=
  let tr := b.tradeHeap trade
  let b1 : broker :=
    { b with
      tradeHeap := Function.update b.tradeHeap trade
        { tr with ExitPrice := price, ExitBar := processedAtBarI } }
  let i := Trade.indexOf b1 trade
  let b2 : broker := { b1 with closedTrades := b1.closedTrades ++ [trade] }
  match i with
  | none => .error (Fault.sliceBounds, b2)
  | some i =>
    let r := b2.sliceRemove b2.trades i
    let b3 : broker := { b2 with arrays := r.1, trades := r.2 }
    match b3.removeLegs (b3.tradeHeap trade).legs0 (b3.tradeHeap trade).legs1 with
    | .error e => .error e
    | .ok b4 =>
      match Trade.Pnl b4 trade with
      | .error e => .error e
      | .ok pnl => .ok { b4 with cash := b4.cash + pnl }

/-- The size update of the live legs in `reduceTrade`:
`for _, o := range trade.legs { if o != nil { o.Size = trade.Size } }`. -/
def broker.resizeLegs (b : broker) (trade : Nat) : broker :=
  let tr := b.tradeHeap trade
  let h0 : Nat → Order :=
    match tr.legs0 with
    | some o => Function.update b.orderHeap o { b.orderHeap o with Size := tr.Size }
    | none => b.orderHeap
  let h1 : Nat → Order :=
    match tr.legs1 with
    | some o => Function.update h0 o { h0 o with Size := tr.Size }
    | none => h0
  { b with orderHeap := h1 }

/-- The method `broker.reduceTrade`. -/
def broker.reduceTrade (b : broker) (trade : Nat) (size price : ℚ) (processedAtBarI : Int) :
    Run broker :=
  let sizeLeft := (b.tradeHeap trade).Size - size
  if sizeLeft < 0 then .error (Fault.sizeTooLarge, b)
  else if sizeLeft = 0 then b.closeTrade trade price processedAtBarI
  else
    let b1 : broker :=
      { b with
        tradeHeap := Function.update b.tradeHeap trade
          { b.tradeHeap trade with Size := sizeLeft } }
    let b2 := b1.resizeLegs trade
    let id := b2.nextId
    let closedTrade : Trade := { b2.tradeHeap trade with Size := size, legs0 := none, legs1 := none }
    let r := b2.sliceAppend b2.trades id
    let b3 : broker :=
      { b2 with
        tradeHeap := Function.update b2.tradeHeap id closedTrade
        nextId := id + 1
        arrays := r.1
        nextArr := b2.nextArr + 1
        trades := r.2 }
    b3.closeTrade id price processedAtBarI

/-- Assignment `o.hitAtOt = ot`. -/
def broker.setHit (b : broker) (o : Nat) (ot : OrderType) : broker :=
  { b with orderHeap := Function.update b.orderHeap o { b.orderHeap o with hitAtOt := some ot } }

/-- The stop check that opens the loop body of `processOrders`: `none` when the
order is skipped (`continue`), else the ledger with the marker set. -/
def broker.stopStep (b : broker) (o : Nat) (bar : Bar) : Option broker :=
  let ord := b.orderHeap o
  if ord.Stop > 0 ∧ ord.hitAtOt = none then
    if (ord.IsLong ∧ bar.High ≥ ord.Stop) ∨ (ord.IsShort ∧ bar.Low ≤ ord.Stop) then
      some (b.setHit o OrderType.Stop)
    else none
  else some b

/-- The price of the fill, next in the loop body of `processOrders`: `none`
when a limit order is skipped (`continue`), else the ledger with the marker set
and the price. -/
def broker.priceStep (b : broker) (o : Nat) (bar prevBar : Bar) : Option (broker × ℚ) :=
  let ord := b.orderHeap o
  if ord.Limit > 0 ∧ ord.hitAtOt = none then
    if (ord.IsLong ∧ bar.Low < ord.Limit) ∨ (ord.IsShort ∧ bar.High > ord.Limit) then
      let price := if ord.IsLong then min bar.Open ord.Limit else max bar.Open ord.Limit
      some (b.setHit o OrderType.Limit, price)
    else none
  else
    let base := if b.opts.tradeOnClose then prevBar.Close else bar.Open
    let price :=
      if ord.Stop > 0 then (if ord.IsLong then max base ord.Stop else min base ord.Stop)
      else base
    some (b.setHit o OrderType.Market, price)

/-- The bar index `processedAtBarI` of the loop body of `processOrders`. -/
def broker.barOfRecord (b : broker) (o : Nat) (barI : Nat) : Int :=
  if (b.orderHeap o).hitAtOt = some OrderType.Market ∧ b.opts.tradeOnClose then (barI : Int) - 1
  else (barI : Int)

/-- The size of the fill in the loop body of `processOrders`. -/
def broker.resolveSize (b : broker) (o : Nat) (price : ℚ) : ℚ :=
  let ord := b.orderHeap o
  if b.opts.fractionable then
    if ord.Size = 0 then max ((b.opts.orderSize * b.cash) / price) 0
    else max ord.Size 0
  else
    if ord.Size = 0 then max ((⌊(b.opts.orderSize * b.cash) / price⌋ : Int) : ℚ) 0
    else if ord.Size < 1 then max ((⌊(ord.Size * b.cash) / price⌋ : Int) : ℚ) 0
    else max ((⌊ord.Size⌋ : Int) : ℚ) 0

/-- The loop `for _, trade := range b.trades` of `processOrders`, reading slot
`i` of the array `hs` the loop started on, `n` slots to go; the result carries
the size that is left. -/
def broker.matchTrades (hs : Nat) (o : Nat) (price : ℚ) (processedAtBarI : Int) :
    Nat → Nat → ℚ → broker → Run (broker × ℚ)
  | 0, _, size, b => .ok (b, size)
  | n + 1, i, size, b =>
    match (b.arrays hs)[i]? with
    | none => .error (Fault.indexOutOfRange, b)
    | some trade =>
      if (b.tradeHeap trade).Side = (b.orderHeap o).Side then
        broker.matchTrades hs o price processedAtBarI n (i + 1) size b
      else
        let step : Run (broker × ℚ) :=
          if size ≥ (b.tradeHeap trade).Size then
            match b.closeTrade trade price processedAtBarI with
            | .error e => .error e
            | .ok b1 => .ok (b1, size - (b1.tradeHeap trade).Size)
          else
            match b.reduceTrade trade size price processedAtBarI with
            | .error e => .error e
            | .ok b1 => .ok (b1, 0)
        match step with
        | .error e => .error e
        | .ok (b1, size1) =>
          if size1 = 0 then .ok (b1, size1)
          else broker.matchTrades hs o price processedAtBarI n (i + 1) size1 b1

/-- The body of the loop `for _, o := range b.orders` of `processOrders` for
the order `o`, on the ledger and the flag `reprocess`. -/
def broker.processOrder (b : broker) (reprocess : Bool) (o : Nat) (barI : Nat)
    (bar prevBar : Bar) : Run (broker × Bool) :=
  match b.stopStep o bar with
  | none => .ok (b, reprocess)
  | some b1 =>
    match b1.priceStep o bar prevBar with
    | none => .ok (b1, reprocess)
    | some (b2, price) =>
      let processedAtBarI := b2.barOfRecord o barI
      let size := b2.resolveSize o price
      if size = 0 then
        match Order.Cancel b2 o with
        | .error e => .error e
        | .ok b3 => .ok (b3, reprocess)
      else
        let ord := b2.orderHeap o
        let bound : Option Nat :=
          match ord.trade with
          | some t => if (b2.tradeHeap t).Side ≠ ord.Side then some t else none
          | none => none
        match bound with
        | some t =>
          if (Trade.indexOf b2 t).isSome then
            match b2.reduceTrade t size price processedAtBarI with
            | .error e => .error e
            | .ok b3 => .ok (b3, reprocess)
          else
            match Order.Cancel b2 o with
            | .error e => .error e
            | .ok b3 => .ok (b3, reprocess)
        | none =>
          match broker.matchTrades b2.trades.arr o price processedAtBarI b2.trades.len 0 size b2 with
          | .error e => .error e
          | .ok (b3, size1) =>
            let opened : Run (broker × Bool) :=
              if size1 > 0 then
                match b3.openTrade (b3.orderHeap o).Side size1 price (b3.orderHeap o).SL
                    (b3.orderHeap o).TP processedAtBarI with
                | .error e => .error e
                | .ok b4 =>
                  .ok (b4, if (b4.orderHeap o).hitAtOt = some OrderType.Market ∧
                      ((b4.orderHeap o).SL > 0 ∨ (b4.orderHeap o).TP > 0) then true else reprocess)
              else .ok (b3, reprocess)
            match opened with
            | .error e => .error e
            | .ok (b5, reprocess1) =>
              match Order.remove b5 o with
              | .error e => .error e
              | .ok b6 => .ok (b6, reprocess1)

/-- The loop `for _, o := range b.orders` of `processOrders`, reading slot `i`
of the array `hs` the loop started on, `n` slots to go. -/
def broker.ordersLoop (hs : Nat) (barI : Nat) (bar prevBar : Bar) :
    Nat → Nat → broker → Bool → Run (broker × Bool)
  | 0, _, b, reprocess => .ok (b, reprocess)
  | n + 1, i, b, reprocess =>
    match (b.arrays hs)[i]? with
    | none => .error (Fault.indexOutOfRange, b)
    | some o =>
      match b.processOrder reprocess o barI bar prevBar with
      | .error e => .error e
      | .ok (b1, reprocess1) => broker.ordersLoop hs barI bar prevBar n (i + 1) b1 reprocess1

/-- The method `broker.processOrders`, with a bound on the number of passes. -/
def broker.processOrders : Nat → broker → Run broker
  | 0, b => .error (Fault.outOfFuel, b)
  | fuel + 1, b =>
    let barI := b.data.bars.length - 1
    match b.data.bars[barI]?, b.data.bars[max 0 (barI - 1)]? with
    | some bar, some prevBar =>
      match broker.ordersLoop b.orders.arr barI bar prevBar b.orders.len 0 b false with
      | .error e => .error e
      | .ok (b1, reprocess) =>
        if reprocess then broker.processOrders fuel b1 else .ok b1
    | _, _ => .error (Fault.indexOutOfRange, b)

/-- The loop `for _, t := range b.trades { b.closeTrade(t, b.data.LastBar().Close, i) }`
of `next`, reading slot `k` of the array `hs` the loop started on, `n` slots to go. -/
def broker.closeOpen (hs : Nat) (i : Int) : Nat → Nat → broker → Run broker
  | 0, _, b => .ok b
  | n + 1, k, b =>
    match (b.arrays hs)[k]? with
    | none => .error (Fault.indexOutOfRange, b)
    | some t =>
      match b.data.LastBar with
      | none => .error (Fault.indexOutOfRange, b)
      | some bar =>
        match b.closeTrade t bar.Close i with
        | .error e => .error e
        | .ok b1 => broker.closeOpen hs i n (k + 1) b1

/-- The method `broker.next`.  The run ends in `Fault.blewUp` when the account
is ruined; the ledger of the error is the one left by the ruin handling. -/
def broker.next (fuel : Nat) (b : broker) : Run broker :=
  match broker.processOrders fuel b with
  | .error e => .error e
  | .ok b1 =>
    let i := b1.data.bars.length - 1
    match b1.equity with
    | .error e => .error e
    | .ok equity =>
      if b1.data.bars.length = 0 ∨ b1.equities.length ≤ i then .error (Fault.indexOutOfRange, b1)
      else
        let b2 : broker := { b1 with equities := b1.equities.set i equity }
        if equity ≤ 0 then
          match broker.closeOpen b2.trades.arr (i : Int) b2.trades.len 0 b2 with
          | .error e => .error e
          | .ok b3 => .error (Fault.blewUp, { b3 with cash := 0 })
        else .ok b2

/-- The method `Position.Close`: `for _, t := range p.broker.trades { t.Close() }`. -/
def Position.Close (b : broker) : Run broker :=
  broker.closeAll b.trades.arr b.trades.len 0 b

/-- The type `TradeOpts` of `strategy.go`. -/
structure TradeOpts where
  Size : ℚ
  Stop : ℚ
  Limit : ℚ
  SL : ℚ
  TP : ℚ
  Trade : Option Nat
  deriving DecidableEq, Repr

/-- The method `Strategy.Buy`. -/
def Strategy.Buy (b : broker) (opts : TradeOpts) : Run broker :=
  match b.newOrder
      { side := Side.Buy, size := opts.Size, stop := opts.Stop, limit := opts.Limit,
        sl := opts.SL, tp := opts.TP, trade := opts.Trade } with
  | .error e => .error e
  | .ok r => .ok r.1

/-- The method `Strategy.Sell`. -/
def Strategy.Sell (b : broker) (opts : TradeOpts) : Run broker :=
  match b.newOrder
      { side := Side.Sell, size := opts.Size, stop := opts.Stop, limit := opts.Limit,
        sl := opts.SL, tp := opts.TP, trade := opts.Trade } with
  | .error e => .error e
  | .ok r => .ok r.1

/-- The ledger built by `New` for a series of `n` bars.  The two slices are
nil; they are given two distinct empty arrays. -/
def New (n : Nat) (opts : Opts) : broker :=
  let opts1 : Opts := if opts.cash = 0 then { opts with cash := 100000 } else opts
  let opts2 : Opts := if opts1.orderSize = 0 then { opts1 with orderSize := 3 / 100 } else opts1
  { opts := opts2
    data := { bars := [] }
    orders := { arr := 0, len := 0 }
    trades := { arr := 1, len := 0 }
    closedTrades := []
    equities := List.replicate n 0
    cash := opts2.cash
    orderHeap := fun _ =>
      { Size := 0, Side := Side.Buy, Stop := 0, Limit := 0, SL := 0, TP := 0, trade := none,
        hitAtOt := none }
    tradeHeap := fun _ =>
      { Size := 0, Side := Side.Buy, EntryPrice := 0, ExitPrice := 0, EntryBar := 0, ExitBar := 0,
        legs0 := none, legs1 := none }
    arrays := fun _ => []
    nextId := 0
    nextArr := 2 }

/-- The assignment `bt.broker.data.bars = bt.data.bars[:i+1]` of `Backtest.Run`. -/
def broker.atBar (b : broker) (bars : List Bar) (i : Nat) : broker :=
  { b with data := { bars := bars.take (i + 1) } }

/-- One turn of the loop of `Backtest.Run`: the bars up to `i`, the strategy
callback, `next`. -/
def runBar (bars : List Bar) (i : Nat) (strategy : broker → Run broker) (fuel : Nat)
    (b : broker) : Run broker :=
  match strategy (b.atBar bars i) with
  | .error e => .error e
  | .ok b1 => b1.next fuel

/-- The fault a computation ended in, if any. -/
def faultOf {α : Type} : Run α → Option Fault
  | .ok _ => none
  | .error e => some e.1

/-- The ledger a computation ended on. -/
def endState : Run broker → broker
  | .ok b => b
  | .error e => e.2

/-- The options of the examples: whole units, fills at the open. -/
def exOpts (cash : ℚ) : Opts :=
  { cash := cash, orderSize := 3 / 100, margin := 0, commision := 0, tradeOnClose := false,
    exclusiveOrder := false, fractionable := false }

/-- A bar with the four prices equal. -/
def flatBar (p : ℚ) : Bar := { Open := p, High := p, Low := p, Close := p }

/-- No options: a market order of the default size. -/
def noOpts : TradeOpts := { Size := 0, Stop := 0, Limit := 0, SL := 0, TP := 0, Trade := none }

/-- Example for C1: a long trade of size 10 is opened at 50 on the first bar;
on the second bar the strategy closes the position, which queues the closing
order of `Trade.Close`, and the queue is settled. -/
def closeScenario : Run broker :=
  let bars := [flatBar 50, flatBar 60]
  match runBar bars 0 (fun b => Strategy.Buy b { noOpts with Size := 10 }) 3 (New 2 (exOpts 10000)) with
  | .error e => .error e
  | .ok b1 =>
    match Position.Close (b1.atBar bars 1) with
    | .error e => .error e
    | .ok b2 => b2.processOrders 3

/-- Example for C2: three short trades of size 1 are opened on three bars; on
the fourth bar a market buy of size 3 is settled. -/
def coverScenario : Run broker :=
  let bars := [flatBar 100, flatBar 100, flatBar 100, flatBar 100]
  let sell := fun b => Strategy.Sell b { noOpts with Size := 1 }
  match runBar bars 0 sell 3 (New 4 (exOpts 10000)) with
  | .error e => .error e
  | .ok b1 =>
    match runBar bars 1 sell 3 b1 with
    | .error e => .error e
    | .ok b2 =>
      match runBar bars 2 sell 3 b2 with
      | .error e => .error e
      | .ok b3 =>
        match Strategy.Buy (b3.atBar bars 3) { noOpts with Size := 3 } with
        | .error e => .error e
        | .ok b4 => b4.processOrders 3

/-- Example for C3: on a single bar with open 100, high 105, low 95 and close
102, a market buy with stop loss 96 and take profit 104 is submitted and the
bar is settled. -/
def bracketScenario : Run broker :=
  let bars : List Bar := [{ Open := 100, High := 105, Low := 95, Close := 102 }]
  match Strategy.Buy ((New 1 (exOpts 10000)).atBar bars 0) { noOpts with SL := 96, TP := 104 } with
  | .error e => .error e
  | .ok b1 => b1.processOrders 3

/-- Example for C4, the ledger before the last bar: with cash 100, three long
trades of size 1 are opened at 100 on three bars. -/
def ruinStart : Run broker :=
  let bars := [flatBar 100, flatBar 100, flatBar 100, flatBar 10]
  let buy := fun b => Strategy.Buy b { noOpts with Size := 1 }
  match runBar bars 0 buy 3 (New 4 (exOpts 100)) with
  | .error e => .error e
  | .ok b1 =>
    match runBar bars 1 buy 3 b1 with
    | .error e => .error e
    | .ok b2 => runBar bars 2 buy 3 b2

/-- Example for C4: the fourth bar closes at 10, which brings the equity to
`100 + 3 * (10 - 100) = -170`. -/
def ruinScenario : Run broker :=
  match ruinStart with
  | .error e => .error e
  | .ok b3 => runBar [flatBar 100, flatBar 100, flatBar 100, flatBar 10] 3 (fun b => .ok b) 3 b3

/-! ## Notions used by the statements -/

/-- The list without the order of a leg slot, if the slot is set. -/
def eraseOpt (l : List Nat) : Option Nat → List Nat
  | none => l
  | some o => l.erase o

/-- The ledger `b1` differs from `b` in the order queue at most: the slice
`orders` stays on its array, whose contents may have changed. -/
structure QueueOnly (b b1 : broker) : Prop where
  arr : b1.orders.arr = b.orders.arr
  arrays : ∀ k, k ≠ b.orders.arr → b1.arrays k = b.arrays k
  trades : b1.trades = b.trades
  closedTrades : b1.closedTrades = b.closedTrades
  cash : b1.cash = b.cash
  orderHeap : b1.orderHeap = b.orderHeap
  tradeHeap : b1.tradeHeap = b.tradeHeap
  nextId : b1.nextId = b.nextId
  nextArr : b1.nextArr = b.nextArr
  data : b1.data = b.data
  opts : b1.opts = b.opts
  equities : b1.equities = b.equities

/-- The profit or loss of `Trade.Pnl` for a trade of side `side`, size `size`
and entry price `entry` at the price `price`. -/
def pnlAt (side : Side) (size entry price : ℚ) : ℚ :=
  if side = Side.Buy then (price - entry) * size else (entry - price) * size

/-- One call `reduceTrade(trade, size, price, bar)`. -/
structure Reduction where
  size : ℚ
  price : ℚ
  bar : Int
  deriving DecidableEq, Repr

/-- The calls `reduceTrade(t, r.size, r.price, r.bar)` for the reductions `r` of
a list, one after the other. -/
def broker.reduceAll (b : broker) (t : Nat) : List Reduction → Run broker
  | [] => .ok b
  | r :: rs =>
    match b.reduceTrade t r.size r.price r.bar with
    | .error e => .error e
    | .ok b1 => broker.reduceAll b1 t rs

/-- The realized profit or loss of a closed-trade record, from its own side,
size, entry price and exit price. -/
def Trade.realized (t : Trade) : ℚ := pnlAt t.Side t.Size t.EntryPrice t.ExitPrice

/-- The ledger `b1` has the options, the bars and the equity series of `b`. -/
structure Frame (b b1 : broker) : Prop where
  opts : b1.opts = b.opts
  data : b1.data = b.data
  equities : b1.equities = b.equities

/-- Example for C6 and C8: on a bar with open 100, high 101, low 99 and close
100, a market buy of size 10 with stop loss 96 and take profit 104 is settled;
no leg is hit, so the trade (id 1) is open with its two legs queued. -/
def heldScenario : Run broker :=
  let bars : List Bar := [{ Open := 100, High := 101, Low := 99, Close := 100 }]
  match Strategy.Buy ((New 1 (exOpts 10000)).atBar bars 0)
      { noOpts with Size := 10, SL := 96, TP := 104 } with
  | .error e => .error e
  | .ok b1 => b1.processOrders 3

/-- The ledger at the end of `heldScenario`. -/
def held : broker := endState heldScenario

/-- Example for C9: a long trade of size 10 is opened at 50 on the first bar;
on the second bar, which opens at 60, the strategy submits a sell of size 4
bound to that trade (id 1). -/
def trimScenario : Run broker :=
  let bars := [flatBar 50, flatBar 60]
  match runBar bars 0 (fun b => Strategy.Buy b { noOpts with Size := 10 }) 3 (New 2 (exOpts 10000)) with
  | .error e => .error e
  | .ok b1 => Strategy.Sell (b1.atBar bars 1) { noOpts with Size := 4, Trade := some 1 }

/-- The ledger at the end of `trimScenario`, before the second bar is settled. -/
def trimReady : broker := endState trimScenario

/-- Example for C5 and C10: the fresh ledger on a bar with open 100, high 105,
low 95 and close 102. -/
def firstBar : broker :=
  (New 1 (exOpts 10000)).atBar [{ Open := 100, High := 105, Low := 95, Close := 102 }] 0

/-- Example for C5: a market buy of the default size is queued on `firstBar`. -/
def buyQueued : broker :=
  endState (Strategy.Buy firstBar noOpts)

/-- The ledger is well formed on its trade side: the two slices live on
different arrays that have been allocated, no open trade is listed twice, the
ids of the open trades have been drawn, and no open trade has an exit price. -/
structure Sound (b : broker) : Prop where
  arrNe : b.orders.arr ≠ b.trades.arr
  ordersArr : b.orders.arr < b.nextArr
  tradesArr : b.trades.arr < b.nextArr
  nodup : b.openTrades.Nodup
  fresh : ∀ t ∈ b.openTrades, t < b.nextId
  unset : ∀ t ∈ b.openTrades, (b.tradeHeap t).ExitPrice ≤ 0

/-- The ledger `b1` has the open trades of `b`, with their exit prices, and
its order slice is where it was or on an array allocated since. -/
structure TradesKept (b b1 : broker) : Prop where
  trades : b1.trades = b.trades
  tradeArr : b1.arrays b.trades.arr = b.arrays b.trades.arr
  exit : ∀ t, (b1.tradeHeap t).ExitPrice = (b.tradeHeap t).ExitPrice
  nextId : b.nextId ≤ b1.nextId
  nextArr : b.nextArr ≤ b1.nextArr
  ordersArr : b1.orders.arr = b.orders.arr ∨ (b.nextArr ≤ b1.orders.arr ∧ b1.orders.arr < b1.nextArr)

/-- The ledger is well formed but for the exit price of the trade `t`. -/
structure SoundBut (b : broker) (t : Nat) : Prop where
  arrNe : b.orders.arr ≠ b.trades.arr
  ordersArr : b.orders.arr < b.nextArr
  tradesArr : b.trades.arr < b.nextArr
  nodup : b.openTrades.Nodup
  fresh : ∀ x ∈ b.openTrades, x < b.nextId
  unset : ∀ x ∈ b.openTrades, x ≠ t → (b.tradeHeap x).ExitPrice ≤ 0

/-- The method `Position.Size`: `for _, t := range p.broker.trades { sum += t.Size }`. -/
def Position.Size (b : broker) : ℚ :=
  b.openTrades.foldl (fun sum t => sum + (b.tradeHeap t).Size) 0

/-- The loop of the function `SMA` of `indicators/trend.go` over the values that
are left, with the index `i` and the running `sum`; `none` is the index panic
of `values[i-period]`. -/
def SMA.loop (period : Int) (values : List ℚ) : List ℚ → Nat → ℚ → Option (List ℚ)
  | [], _, _ => some []
  | v :: rest, i, sum =>
    let sum1 := sum + v
    if (i : Int) ≥ period then
      match values[((i : Int) - period).toNat]? with
      | none => none
      | some w =>
        (SMA.loop period values rest (i + 1) (sum1 - w)).map
          (fun rs => (sum1 - w) / (period : ℚ) :: rs)
    else
      (SMA.loop period values rest (i + 1) sum1).map
        (fun rs => sum1 / (((i + 1 : Nat) : Int) : ℚ) :: rs)

/-- The function `SMA` of `indicators/trend.go`. -/
def SMA (period : Int) (values : List ℚ) : Option (List ℚ) :=
  SMA.loop period values values 0 0

/-- The loop body of `processOrders` from the bar of record on, for the order
`o` filled at `price`: size, matching against the open trades, new trade,
removal of the order. -/
def broker.fillOrder (b2 : broker) (reprocess : Bool) (o : Nat) (barI : Nat) (price : ℚ) :
    Run (broker × Bool) :=
  let processedAtBarI := b2.barOfRecord o barI
  let size := b2.resolveSize o price
  if size = 0 then
    match Order.Cancel b2 o with
    | .error e => .error e
    | .ok b3 => .ok (b3, reprocess)
  else
    let ord := b2.orderHeap o
    let bound : Option Nat :=
      match ord.trade with
      | some t => if (b2.tradeHeap t).Side ≠ ord.Side then some t else none
      | none => none
    match bound with
    | some t =>
      if (Trade.indexOf b2 t).isSome then
        match b2.reduceTrade t size price processedAtBarI with
        | .error e => .error e
        | .ok b3 => .ok (b3, reprocess)
      else
        match Order.Cancel b2 o with
        | .error e => .error e
        | .ok b3 => .ok (b3, reprocess)
    | none =>
      match broker.matchTrades b2.trades.arr o price processedAtBarI b2.trades.len 0 size b2 with
      | .error e => .error e
      | .ok (b3, size1) =>
        let opened : Run (broker × Bool) :=
          if size1 > 0 then
            match b3.openTrade (b3.orderHeap o).Side size1 price (b3.orderHeap o).SL
                (b3.orderHeap o).TP processedAtBarI with
            | .error e => .error e
            | .ok b4 =>
              .ok (b4, if (b4.orderHeap o).hitAtOt = some OrderType.Market ∧
                  ((b4.orderHeap o).SL > 0 ∨ (b4.orderHeap o).TP > 0) then true else reprocess)
          else .ok (b3, reprocess)
        match opened with
        | .error e => .error e
        | .ok (b5, reprocess1) =>
          match Order.remove b5 o with
          | .error e => .error e
          | .ok b6 => .ok (b6, reprocess1)

/-- A trade record without its leg slots. -/
def Trade.bare (t : Trade) : Trade := { t with legs0 := none, legs1 := none }

/-- The ledger `b1` has the trade records (leg slots apart), the closed trades
and the cash of `b`. -/
structure BooksKept (b b1 : broker) : Prop where
  records : ∀ t, (b1.tradeHeap t).bare = (b.tradeHeap t).bare
  closedTrades : b1.closedTrades = b.closedTrades
  cash : b1.cash = b.cash

/-- No id is withdrawn, and every order of `b` whose marker is set has it set
in `b1`. -/
structure MarkersKept (b b1 : broker) : Prop where
  nextId : b.nextId ≤ b1.nextId
  marker : ∀ o, o < b.nextId → (b.orderHeap o).hitAtOt ≠ none → (b1.orderHeap o).hitAtOt ≠ none

/-- A well-formed ledger whose open trades all have a positive size. -/
structure Healthy (b : broker) : Prop where
  sound : Sound b
  positive : ∀ t ∈ b.openTrades, 0 < (b.tradeHeap t).Size

/-- The ledgers that can be reached from the one built by `New`: the bars move
on, orders are submitted (`newOrder`, which `Strategy.Buy` and `Strategy.Sell`
call), positions and trades are asked to close, legs are set, orders are
cancelled, and bars are settled (`processOrders`, `next`). -/
inductive Reachable : broker → Prop where
  | init (n : Nat) (opts : Opts) : Reachable (New n opts)
  | bars (b : broker) (bars : List Bar) (i : Nat) : Reachable b → Reachable (b.atBar bars i)
  | submit (b : broker) (opts : newOrderOpts) (b1 : broker) (id : Nat) :
      Reachable b → b.newOrder opts = .ok (b1, id) → Reachable b1
  | closeTrade (b : broker) (t : Nat) : Reachable b → Reachable (Trade.Close b t)
  | closePosition (b b1 : broker) : Reachable b → Position.Close b = .ok b1 → Reachable b1
  | setLeg (b : broker) (t i : Nat) (price : ℚ) (b1 : broker) :
      Reachable b → Trade.setContingent b t i price = .ok b1 → Reachable b1
  | cancel (b : broker) (o : Nat) (b1 : broker) :
      Reachable b → Order.Cancel b o = .ok b1 → Reachable b1
  | settle (b : broker) (fuel : Nat) (b1 : broker) :
      Reachable b → b.processOrders fuel = .ok b1 → Reachable b1
  | next (b : broker) (fuel : Nat) (b1 : broker) :
      Reachable b → b.next fuel = .ok b1 → Reachable b1

/-- A ledger outside the runs, for a remark on C13: three buys with a stop at
200 are queued on `firstBar` with exclusive orders off, and the mode is switched
on afterwards. -/
def exclusiveQueue : broker :=
  let stop : TradeOpts := { noOpts with Stop := 200 }
  let b :=
    match Strategy.Buy firstBar stop with
    | .error e => e.2
    | .ok b1 =>
      match Strategy.Buy b1 stop with
      | .error e => e.2
      | .ok b2 => endState (Strategy.Buy b2 stop)
  { b with opts := { b.opts with exclusiveOrder := true } }

/-- Example for C17: a market sell of size 5 is settled on a flat bar at 100,
which opens a short trade of size 5. -/
def shortFive : broker :=
  endState (runBar [flatBar 100] 0 (fun b => Strategy.Sell b { noOpts with Size := 5 }) 3
    (New 1 (exOpts 10000)))

/-- Example for C16: `trimReady` after one settlement.  The bound sell of size
4 (id 2) has reduced trade 1 to size 6 and is still queued, with its marker
set. -/
def trimmed : broker := endState (trimReady.processOrders 1)

/-- Following the words of the specification of `SMA`: the arithmetic mean of
`values[max(0, i-period+1) .. i]`, for a period `p` of at least one. -/
def windowMean (p : Nat) (values : List ℚ) (i : Nat) : ℚ :=
  ((values.take (i + 1)).drop (i + 1 - p)).sum / ((min (i + 1) p : Nat) : ℚ)

/-- The ledger is well formed on its order side: the two slices live on
different arrays that have been allocated and lie within them, no order is
queued twice, and the ids of the queued orders have been drawn. -/
structure Orderly (b : broker) : Prop where
  arrNe : b.orders.arr ≠ b.trades.arr
  ordersArr : b.orders.arr < b.nextArr
  tradesArr : b.trades.arr < b.nextArr
  ordersIn : b.orders.len ≤ (b.arrays b.orders.arr).length
  tradesIn : b.trades.len ≤ (b.arrays b.trades.arr).length
  queueNodup : b.queue.Nodup
  queueFresh : ∀ o ∈ b.queue, o < b.nextId

/-- From `b` to `b1` no order without a parent trade has entered the queue:
every queued order of `b1` was queued in `b` or is a new order with a parent,
and the orders of `b` have kept their parent. -/
structure Tame (b b1 : broker) : Prop where
  nextId : b.nextId ≤ b1.nextId
  members : ∀ o ∈ b1.queue, o ∈ b.queue ∨ (b.nextId ≤ o ∧ (b1.orderHeap o).trade ≠ none)
  parents : ∀ o, o < b.nextId → (b1.orderHeap o).trade = (b.orderHeap o).trade

/-- At most one queued order has no parent trade. -/
def Lone (b : broker) : Prop :=
  ∀ o1 ∈ b.queue, ∀ o2 ∈ b.queue,
    (b.orderHeap o1).trade = none → (b.orderHeap o2).trade = none → o1 = o2

/-- The order that `Trade.Close` builds for the trade `t`: opposite side, the
size of the trade, bound to the trade. -/
def Trade.closingOrder (b : broker) (t : Nat) : Order :=
  { Size := (b.tradeHeap t).Size, Side := reverseSide (b.tradeHeap t).Side, Stop := 0, Limit := 0,
    SL := 0, TP := 0, trade := some t, hitAtOt := none }

/-- Example for C13, in exclusive mode: a long trade of size 10 is opened at 100
on the first bar; on the second bar the strategy submits a buy with a stop at
200 (id 2), which queues a closing order for the trade (id 3) in front of it. -/
def exclusiveScenario : Run broker :=
  let bars := [flatBar 100, flatBar 100]
  match runBar bars 0 (fun b => Strategy.Buy b { noOpts with Size := 10 }) 3
      (New 2 { exOpts 10000 with exclusiveOrder := true }) with
  | .error e => .error e
  | .ok b1 => Strategy.Buy (b1.atBar bars 1) { noOpts with Stop := 200 }

/-- The ledger at the end of `exclusiveScenario`. -/
def exclusiveReady : broker := endState exclusiveScenario

/-- The lookup `t.broker.data.bars[t.EntryBar]` of the method `Trade.EntryTime`,
which returns the `Timestamp` of that bar; `none` is the index panic. -/
def Trade.EntryTime (b : broker) (t : Nat) : Option Bar :=
  if (b.tradeHeap t).EntryBar < 0 then none
  else b.data.bars[((b.tradeHeap t).EntryBar).toNat]?

/-- The lookup `t.broker.data.bars[t.ExitBar]` of the method `Trade.ExitTime`;
`none` is the index panic. -/
def Trade.ExitTime (b : broker) (t : Nat) : Option Bar :=
  if (b.tradeHeap t).ExitBar < 0 then none
  else b.data.bars[((b.tradeHeap t).ExitBar).toNat]?

/-- Example for C21: on `firstBar` the strategy submits three market buys of
size 1 (ids 0, 1 and 2), exclusive orders off. -/
def tripleBuy : broker :=
  let buy : TradeOpts := { noOpts with Size := 1 }
  endState
    (match Strategy.Buy firstBar buy with
      | .error e => .error e
      | .ok b1 =>
        match Strategy.Buy b1 buy with
        | .error e => .error e
        | .ok b2 => Strategy.Buy b2 buy)

/-- Example for C25: short trades of sizes 1, 1 and 3 (ids 1, 3 and 5) are
opened at 100 on three bars; on the fourth bar, flat at 90, a market buy of
size 5 is submitted and the bar is completed by `next`. -/
def unevenCover : Run broker :=
  let bars := [flatBar 100, flatBar 100, flatBar 100, flatBar 90]
  match runBar bars 0 (fun b => Strategy.Sell b { noOpts with Size := 1 }) 3
      (New 4 (exOpts 10000)) with
  | .error e => .error e
  | .ok b1 =>
    match runBar bars 1 (fun b => Strategy.Sell b { noOpts with Size := 1 }) 3 b1 with
    | .error e => .error e
    | .ok b2 =>
      match runBar bars 2 (fun b => Strategy.Sell b { noOpts with Size := 3 }) 3 b2 with
      | .error e => .error e
      | .ok b3 => runBar bars 3 (fun b => Strategy.Buy b { noOpts with Size := 5 }) 3 b3

/-- Example for C26: with `tradeOnClose` on, a market buy of the default size is
submitted on the first bar (index 0), flat at 100, and the bar is completed by
`next`. -/
def closeFirstBar : Run broker :=
  runBar [flatBar 100] 0 (fun b => Strategy.Buy b noOpts) 3
    (New 1 { exOpts 10000 with tradeOnClose := true })

/-- From `b` to `b1` the orders of `b` have kept their marker. -/
structure HitsKept (b b1 : broker) : Prop where
  nextId : b.nextId ≤ b1.nextId
  marker : ∀ o, o < b.nextId → (b1.orderHeap o).hitAtOt = (b.orderHeap o).hitAtOt

/-- The price at which the loop body of `processOrders` fills the order `o`,
`none` when the order is skipped (`continue`) by the stop or the limit check. -/
def broker.fillPrice (b : broker) (o : Nat) (bar prevBar : Bar) : Option ℚ :=
  (b.stopStep o bar).bind (fun b1 => (b1.priceStep o bar prevBar).map Prod.snd)

/-- The ledger with the limit of the order `o` replaced by `limit`. -/
def broker.withLimit (b : broker) (o : Nat) (limit : ℚ) : broker :=
  { b with orderHeap := Function.update b.orderHeap o { b.orderHeap o with Limit := limit } }

/-- Example for C22: a buy of size 1 with a stop at 103 and a limit at 101 is
queued on `firstBar` (id 0). -/
def stopLimitQueued : broker :=
  endState (Strategy.Buy firstBar { noOpts with Size := 1, Stop := 103, Limit := 101 })

/-- The order carries a stop loss or a take profit (`o.SL > 0 || o.TP > 0`). -/
def Order.hasLevels (o : Order) : Bool := decide (o.SL > 0 ∨ o.TP > 0)

/-- The number of queued orders that carry a stop loss or a take profit. -/
def broker.load (b : broker) : Nat := b.queue.countP (fun o => (b.orderHeap o).hasLevels)

/-- From `b` to `b1` the orders of `b` carry the levels they carried, and no
more queued orders carry a stop loss or a take profit. -/
structure Lighter (b b1 : broker) : Prop where
  nextId : b.nextId ≤ b1.nextId
  levels : ∀ o, o < b.nextId → (b1.orderHeap o).hasLevels = (b.orderHeap o).hasLevels
  load : b1.load ≤ b.load

/-- Example for C23: a market buy of size 10 with stop loss 96 and take profit
104 is queued on a bar with open 100, high 101, low 99 and close 100 (the
ledger of `heldScenario` before it is settled). -/
def bracketQueued : broker :=
  endState (Strategy.Buy
    ((New 1 (exOpts 10000)).atBar [{ Open := 100, High := 101, Low := 99, Close := 100 }] 0)
    { noOpts with Size := 10, SL := 96, TP := 104 })

/-! # Theorems -/

/-! ## Slices -/

theorem take_removed (a : List Nat) (n i : Nat) (hi : i < (a.take n).length) :
    (((a.take n).eraseIdx i) ++ a.drop (n - 1)).take (n - 1) = (a.take n).eraseIdx i := by
  rcases Nat.lt_or_ge a.length n with h | h
  · have h1 : a.drop (n - 1) = [] := List.drop_of_length_le (by omega)
    have h2 : a.take n = a := List.take_of_length_le (by omega)
    rw [h1, h2, List.append_nil]
    apply List.take_of_length_le
    rw [List.length_eraseIdx]
    split <;> omega
  · apply List.take_left'
    rw [List.length_eraseIdx, if_pos hi, List.length_take]
    omega

theorem indexIn_eq_some {x : Nat} {l : List Nat} (h : x ∈ l) :
    indexIn x l = some (l.indexOf x) := by
  simp [indexIn, h]

theorem indexIn_eq_none {x : Nat} {l : List Nat} (h : x ∉ l) : indexIn x l = none := by
  simp [indexIn, h]

theorem QueueOnly.same (b : broker) : QueueOnly b b :=
  ⟨rfl, fun _ _ => rfl, rfl, rfl, rfl, rfl, rfl, rfl, rfl, rfl, rfl, rfl⟩

theorem QueueOnly.chain {b b1 b2 : broker} (h1 : QueueOnly b b1) (h2 : QueueOnly b1 b2) :
    QueueOnly b b2 where
  arr := h2.arr.trans h1.arr
  arrays := fun k hk => (h2.arrays k (by rw [h1.arr]; exact hk)).trans (h1.arrays k hk)
  trades := h2.trades.trans h1.trades
  closedTrades := h2.closedTrades.trans h1.closedTrades
  cash := h2.cash.trans h1.cash
  orderHeap := h2.orderHeap.trans h1.orderHeap
  tradeHeap := h2.tradeHeap.trans h1.tradeHeap
  nextId := h2.nextId.trans h1.nextId
  nextArr := h2.nextArr.trans h1.nextArr
  data := h2.data.trans h1.data
  opts := h2.opts.trans h1.opts
  equities := h2.equities.trans h1.equities

theorem QueueOnly.sameTrades {b b1 : broker} (h : QueueOnly b b1)
    (hne : b.orders.arr ≠ b.trades.arr) : b1.openTrades = b.openTrades := by
  simp only [broker.openTrades, broker.live, h.trades]
  rw [h.arrays _ (Ne.symm hne)]

theorem Order.remove_ok (b : broker) (o : Nat) (h : o ∈ b.queue) :
    ∃ b1, Order.remove b o = .ok b1 ∧ b1.queue = b.queue.erase o ∧ QueueOnly b b1 := by
  have hi : (b.queue).indexOf o < (b.queue).length := List.indexOf_lt_length.mpr h
  refine ⟨{ b with arrays := (b.sliceRemove b.orders (b.queue.indexOf o)).1,
                   orders := (b.sliceRemove b.orders (b.queue.indexOf o)).2 }, ?_, ?_, ?_⟩
  · simp [Order.remove, Order.indexOf, indexIn_eq_some h]
  · simp only [broker.queue, broker.live, broker.sliceRemove, Function.update_same]
    simp only [broker.queue, broker.live] at hi
    rw [take_removed _ _ _ hi]
    exact List.eraseIdx_indexOf_eq_erase _ _
  · refine ⟨rfl, ?_, rfl, rfl, rfl, rfl, rfl, rfl, rfl, rfl, rfl, rfl⟩
    intro k hk
    simp [broker.sliceRemove, Function.update_noteq hk]

theorem Order.remove_missing (b : broker) (o : Nat) (h : o ∉ b.queue) :
    Order.remove b o = .error (Fault.noOrderFound, b) := by
  simp [Order.remove, Order.indexOf, indexIn_eq_none h]

theorem broker.removeLegs_ok (b : broker) (l0 l1 : Option Nat)
    (h0 : ∀ o, l0 = some o → o ∈ b.queue) (h1 : ∀ o, l1 = some o → o ∈ b.queue)
    (hd : ∀ o, l0 = some o → l1 ≠ some o) :
    ∃ b1, b.removeLegs l0 l1 = .ok b1 ∧ b1.queue = eraseOpt (eraseOpt b.queue l0) l1 ∧
      QueueOnly b b1 := by
  cases l0 with
  | none =>
    cases l1 with
    | none => exact ⟨b, rfl, rfl, QueueOnly.same b⟩
    | some o1 =>
      obtain ⟨b1, e1, q1, f1⟩ := Order.remove_ok b o1 (h1 o1 rfl)
      exact ⟨b1, by simp [broker.removeLegs, e1], by simp [eraseOpt, q1], f1⟩
  | some o0 =>
    obtain ⟨b1, e1, q1, f1⟩ := Order.remove_ok b o0 (h0 o0 rfl)
    cases l1 with
    | none => exact ⟨b1, by simp [broker.removeLegs, e1], by simp [eraseOpt, q1], f1⟩
    | some o1 =>
      have hne : o1 ≠ o0 := fun h => hd o0 rfl (by rw [h])
      have hm : o1 ∈ b1.queue := by
        rw [q1]; exact (List.mem_erase_of_ne hne).mpr (h1 o1 rfl)
      obtain ⟨b2, e2, q2, f2⟩ := Order.remove_ok b1 o1 hm
      exact ⟨b2, by simp [broker.removeLegs, e1, e2], by simp [eraseOpt, q2, q1], f1.chain f2⟩

theorem Trade.Pnl_eq (b : broker) (t : Nat) (c : ℚ) (hc : b.data.LastClose = some c) :
    Trade.Pnl b t = .ok (pnlAt (b.tradeHeap t).Side (b.tradeHeap t).Size (b.tradeHeap t).EntryPrice
      (if (b.tradeHeap t).ExitPrice > 0 then (b.tradeHeap t).ExitPrice else c)) := by
  simp only [Trade.Pnl, hc, Trade.IsLong, pnlAt]
  by_cases h : (b.tradeHeap t).Side = Side.Buy <;> simp [h]

/-- What `closeTrade` does to an open trade whose leg slots are empty or
queued. -/
theorem broker.closeTrade_spec (b : broker) (t : Nat) (p : ℚ) (bar : Int) (c : ℚ)
    (hopen : t ∈ b.openTrades) (harr : b.orders.arr ≠ b.trades.arr)
    (hc : b.data.LastClose = some c)
    (h0 : ∀ o, (b.tradeHeap t).legs0 = some o → o ∈ b.queue)
    (h1 : ∀ o, (b.tradeHeap t).legs1 = some o → o ∈ b.queue)
    (hd : ∀ o, (b.tradeHeap t).legs0 = some o → (b.tradeHeap t).legs1 ≠ some o) :
    ∃ b1, b.closeTrade t p bar = .ok b1 ∧
      b1.openTrades = b.openTrades.erase t ∧
      b1.queue = eraseOpt (eraseOpt b.queue (b.tradeHeap t).legs0) (b.tradeHeap t).legs1 ∧
      b1.closedTrades = b.closedTrades ++ [t] ∧
      b1.tradeHeap = Function.update b.tradeHeap t
        { b.tradeHeap t with ExitPrice := p, ExitBar := bar } ∧
      b1.cash = b.cash + pnlAt (b.tradeHeap t).Side (b.tradeHeap t).Size
        (b.tradeHeap t).EntryPrice (if p > 0 then p else c) ∧
      b1.orderHeap = b.orderHeap ∧ b1.orders.arr = b.orders.arr ∧
      b1.trades.arr = b.trades.arr ∧ b1.nextId = b.nextId ∧ b1.nextArr = b.nextArr ∧
      b1.data = b.data ∧ b1.opts = b.opts ∧ b1.equities = b.equities := by
  have hi : (b.openTrades).indexOf t < (b.openTrades).length := List.indexOf_lt_length.mpr hopen
  -- the ledger after the trade has left the open trades
  let b3 : broker :=
    { b with
      tradeHeap := Function.update b.tradeHeap t { b.tradeHeap t with ExitPrice := p, ExitBar := bar }
      closedTrades := b.closedTrades ++ [t]
      arrays := (b.sliceRemove b.trades (b.openTrades.indexOf t)).1
      trades := (b.sliceRemove b.trades (b.openTrades.indexOf t)).2 }
  have hq3 : b3.queue = b.queue := by
    simp only [b3, broker.queue, broker.live, broker.sliceRemove]
    rw [Function.update_noteq harr]
  have ht3 : b3.openTrades = b.openTrades.erase t := by
    simp only [b3, broker.openTrades, broker.live, broker.sliceRemove, Function.update_same]
    simp only [broker.openTrades, broker.live] at hi
    rw [take_removed _ _ _ hi]
    exact List.eraseIdx_indexOf_eq_erase _ _
  have hl0 : (b3.tradeHeap t).legs0 = (b.tradeHeap t).legs0 := by simp [b3]
  have hl1 : (b3.tradeHeap t).legs1 = (b.tradeHeap t).legs1 := by simp [b3]
  obtain ⟨b4, e4, q4, f4⟩ := b3.removeLegs_ok (b3.tradeHeap t).legs0 (b3.tradeHeap t).legs1
    (by rw [hl0, hq3]; exact h0) (by rw [hl1, hq3]; exact h1) (by rw [hl0, hl1]; exact hd)
  have hc4 : b4.data.LastClose = some c := by rw [f4.data]; exact hc
  have hne3 : b3.orders.arr ≠ b3.trades.arr := harr
  refine ⟨{ b4 with cash := (b4.cash + pnlAt (b.tradeHeap t).Side (b.tradeHeap t).Size
        (b.tradeHeap t).EntryPrice (if p > 0 then p else c)) }, ?_, ?_, ?_, ?_, ?_, ?_, ?_, ?_, ?_, ?_, ?_, ?_, ?_, ?_⟩
  · have hp : Trade.Pnl b4 t = .ok (pnlAt (b.tradeHeap t).Side (b.tradeHeap t).Size
        (b.tradeHeap t).EntryPrice (if p > 0 then p else c)) := by
      rw [Trade.Pnl_eq b4 t c hc4, f4.tradeHeap]
      simp [b3]
    have hidx : Trade.indexOf
        { b with tradeHeap := (Function.update b.tradeHeap t
            { b.tradeHeap t with ExitPrice := p, ExitBar := bar }) } t
        = some (b.openTrades.indexOf t) := indexIn_eq_some hopen
    simp only [broker.closeTrade, hidx]
    change (match b3.removeLegs (b3.tradeHeap t).legs0 (b3.tradeHeap t).legs1 with
      | Except.error e => Except.error e
      | Except.ok b4 => match Trade.Pnl b4 t with
        | Except.error e => Except.error e
        | Except.ok pnl => Except.ok { b4 with cash := b4.cash + pnl }) = _
    rw [e4]
    simp only [hp]
  · show b4.openTrades = _
    rw [f4.sameTrades hne3, ht3]
  · show b4.queue = _
    rw [q4, hq3, hl0, hl1]
  · show b4.closedTrades = _
    rw [f4.closedTrades]
  · show b4.tradeHeap = _
    rw [f4.tradeHeap]
  · show b4.cash + _ = _
    rw [f4.cash]
  · show b4.orderHeap = _
    rw [f4.orderHeap]
  · show b4.orders.arr = _
    rw [f4.arr]
  · show b4.trades.arr = _
    rw [f4.trades]
    rfl
  · exact f4.nextId
  · exact f4.nextArr
  · exact f4.data
  · exact f4.opts
  · exact f4.equities

theorem lastClose_of_getElem (d : Data) (bar : Bar)
    (h : d.bars[d.bars.length - 1]? = some bar) : d.LastClose = some bar.Close := by
  have : d.bars.getLast? = some bar := by
    rw [List.getLast?_eq_getElem?]; exact h
  simp [Data.LastClose, Data.LastBar, this]

/-! ## Closing and reducing a trade -/

theorem live_sliceAppend (b : broker) (s : Slice) (x : Nat) :
    ((b.sliceAppend s x).1 (b.sliceAppend s x).2.arr).take (b.sliceAppend s x).2.len
      = b.live s ++ [x] := by
  simp [broker.sliceAppend]

theorem live_slicePrepend (b : broker) (s : Slice) (x : Nat) :
    ((b.slicePrepend s x).1 (b.slicePrepend s x).2.arr).take (b.slicePrepend s x).2.len
      = x :: b.live s := by
  simp [broker.slicePrepend]

/-- The order heap after the legs of `trade` took the size `sz`. -/
theorem broker.resizeLegs_orderHeap (b : broker) (trade : Nat) (o : Nat) :
    (b.resizeLegs trade).orderHeap o =
      if (b.tradeHeap trade).legs0 = some o ∨ (b.tradeHeap trade).legs1 = some o then
        { b.orderHeap o with Size := (b.tradeHeap trade).Size }
      else b.orderHeap o := by
  cases h0 : (b.tradeHeap trade).legs0 with
  | none =>
    cases h1 : (b.tradeHeap trade).legs1 with
    | none => simp [broker.resizeLegs, h0, h1]
    | some o1 =>
      simp only [broker.resizeLegs, h0, h1]
      by_cases h : o1 = o
      · subst h; simp
      · simp [h, Function.update_noteq (Ne.symm h)]
  | some o0 =>
    cases h1 : (b.tradeHeap trade).legs1 with
    | none =>
      simp only [broker.resizeLegs, h0, h1]
      by_cases h : o0 = o
      · subst h; simp
      · simp [h, Function.update_noteq (Ne.symm h)]
    | some o1 =>
      simp only [broker.resizeLegs, h0, h1]
      by_cases h : o1 = o
      · subst h
        by_cases h' : o0 = o1
        · subst h'; simp
        · simp [h', Function.update_noteq (Ne.symm h')]
      · by_cases h' : o0 = o
        · subst h'; simp [h, Function.update_noteq (Ne.symm h)]
        · simp [h, h', Function.update_noteq (Ne.symm h), Function.update_noteq (Ne.symm h')]

/-- What `reduceTrade` does when a remainder is left: the trade and its legs
shrink, and a copy of the trade with the reduced size is closed. -/
theorem broker.reduceTrade_remainder (b : broker) (t : Nat) (size p : ℚ) (bar : Int) (c : ℚ)
    (hfresh : ∀ x ∈ b.openTrades, x < b.nextId)
    (hord : b.orders.arr < b.nextArr) (hc : b.data.LastClose = some c)
    (hlt : size < (b.tradeHeap t).Size) :
    ∃ b1, b.reduceTrade t size p bar = .ok b1 ∧
      b1.openTrades = b.openTrades ∧ b1.queue = b.queue ∧
      b1.closedTrades = b.closedTrades ++ [b.nextId] ∧
      b1.tradeHeap = Function.update
        (Function.update b.tradeHeap t { b.tradeHeap t with Size := (b.tradeHeap t).Size - size })
        b.nextId
        { b.tradeHeap t with Size := size, legs0 := none, legs1 := none, ExitPrice := p,
                             ExitBar := bar } ∧
      (∀ o, b1.orderHeap o =
        if (b.tradeHeap t).legs0 = some o ∨ (b.tradeHeap t).legs1 = some o then
          { b.orderHeap o with Size := (b.tradeHeap t).Size - size }
        else b.orderHeap o) ∧
      b1.cash = b.cash + pnlAt (b.tradeHeap t).Side size (b.tradeHeap t).EntryPrice
        (if p > 0 then p else c) ∧
      b1.orders.arr = b.orders.arr ∧ b1.trades.arr = b.nextArr ∧ b1.nextId = b.nextId + 1 ∧
      b1.nextArr = b.nextArr + 1 ∧ b1.data = b.data ∧ b1.opts = b.opts ∧
      b1.equities = b.equities := by
  have hnot : b.nextId ∉ b.openTrades := fun h => Nat.lt_irrefl _ (hfresh _ h)
  have hs1 : ¬ (b.tradeHeap t).Size - size < 0 := by linarith
  have hs2 : ¬ (b.tradeHeap t).Size - size = 0 := by
    intro h; linarith
  -- the ledger with the copy appended to the open trades
  let b1 : broker :=
    { b with
      tradeHeap := (Function.update b.tradeHeap t
          { b.tradeHeap t with Size := (b.tradeHeap t).Size - size }) }
  let b2 := b1.resizeLegs t
  let b3 : broker :=
    { b2 with
      tradeHeap := (Function.update b2.tradeHeap b2.nextId
        { b2.tradeHeap t with Size := size, legs0 := none, legs1 := none })
      nextId := b2.nextId + 1
      arrays := (b2.sliceAppend b2.trades b2.nextId).1
      nextArr := b2.nextArr + 1
      trades := (b2.sliceAppend b2.trades b2.nextId).2 }
  have hred : b.reduceTrade t size p bar = b3.closeTrade b.nextId p bar := by
    simp only [broker.reduceTrade, hs1, hs2, if_false]
    rfl
  have hot3 : b3.openTrades = b.openTrades ++ [b.nextId] := by
    show ((b2.sliceAppend b2.trades b2.nextId).1 (b2.sliceAppend b2.trades b2.nextId).2.arr).take
      (b2.sliceAppend b2.trades b2.nextId).2.len = _
    rw [live_sliceAppend]
    rfl
  have hq3 : b3.queue = b.queue := by
    show ((b2.sliceAppend b2.trades b2.nextId).1 b.orders.arr).take b.orders.len = _
    simp only [broker.sliceAppend]
    have hn : b2.nextArr = b.nextArr := rfl
    rw [hn, Function.update_noteq (Nat.ne_of_lt hord)]
    rfl
  have hth3 : b3.tradeHeap b.nextId =
      { b.tradeHeap t with Size := size, legs0 := none, legs1 := none } := by
    show Function.update b2.tradeHeap b2.nextId _ b.nextId = _
    have : b2.nextId = b.nextId := rfl
    rw [this, Function.update_same]
    show ({ b1.tradeHeap t with Size := size, legs0 := none, legs1 := none } : Trade) = _
    simp [b1]
  obtain ⟨b4, e4, o4, q4, c4, t4, m4, oh4, oa4, ta4, n4, na4, d4, op4, eq4⟩ :=
    b3.closeTrade_spec b.nextId p bar c (by rw [hot3]; simp)
      (by show b.orders.arr ≠ b.nextArr; exact Nat.ne_of_lt hord) hc
      (by rw [hth3]; intro o h; cases h) (by rw [hth3]; intro o h; cases h)
      (by rw [hth3]; intro o h; cases h)
  refine ⟨b4, hred.trans e4, ?_, ?_, ?_, ?_, ?_, ?_, ?_, ?_, ?_, ?_, ?_, ?_, ?_⟩
  · rw [o4, hot3, List.erase_append_right _ hnot]
    simp
  · rw [q4, hq3, hth3]
    rfl
  · rw [c4]; rfl
  · rw [t4, hth3]
    show Function.update (Function.update b2.tradeHeap b2.nextId _) b.nextId _ = _
    have : b2.nextId = b.nextId := rfl
    rw [this, Function.update_idem]
    rfl
  · intro o
    rw [oh4]
    show (b1.resizeLegs t).orderHeap o = _
    rw [broker.resizeLegs_orderHeap]
    simp [b1]
  · rw [m4, hth3]; rfl
  · rw [oa4]; rfl
  · rw [ta4]; rfl
  · rw [n4]; rfl
  · rw [na4]; rfl
  · rw [d4]; rfl
  · rw [op4]; rfl
  · rw [eq4]; rfl

theorem pnlAt_add (side : Side) (s1 s2 e p : ℚ) :
    pnlAt side (s1 + s2) e p = pnlAt side s1 e p + pnlAt side s2 e p := by
  unfold pnlAt
  split <;> ring

theorem pnlAt_sum (side : Side) (e p : ℚ) (l : List ℚ) :
    (l.map (fun s => pnlAt side s e p)).sum = pnlAt side l.sum e p := by
  induction l with
  | nil => simp [pnlAt]
  | cons s l ih => simp [ih, pnlAt_add]

/-- What a list of reductions that uses up the trade does. -/
theorem broker.reduceAll_spec (rs : List Reduction) :
    ∀ (b : broker) (t : Nat) (c : ℚ),
    t ∈ b.openTrades → (∀ x ∈ b.openTrades, x < b.nextId) →
    b.orders.arr < b.nextArr → b.orders.arr ≠ b.trades.arr →
    b.data.LastClose = some c →
    (∀ o, (b.tradeHeap t).legs0 = some o → o ∈ b.queue) →
    (∀ o, (b.tradeHeap t).legs1 = some o → o ∈ b.queue) →
    (∀ o, (b.tradeHeap t).legs0 = some o → (b.tradeHeap t).legs1 ≠ some o) →
    rs ≠ [] → (∀ r ∈ rs, 0 < r.size) →
    (rs.map Reduction.size).sum = (b.tradeHeap t).Size →
    ∃ b1 recs, b.reduceAll t rs = .ok b1 ∧
      b1.closedTrades = b.closedTrades ++ recs ∧
      recs.map (fun r => ({ b1.tradeHeap r with legs0 := none, legs1 := none } : Trade)) =
        rs.map (fun r => ({ b.tradeHeap t with
          Size := r.size, ExitPrice := r.price, ExitBar := r.bar, legs0 := none, legs1 := none } : Trade)) ∧
      b1.cash = b.cash + (rs.map (fun r => pnlAt (b.tradeHeap t).Side r.size
        (b.tradeHeap t).EntryPrice (if r.price > 0 then r.price else c))).sum ∧
      b1.openTrades = b.openTrades.erase t ∧
      (∀ x, x ≠ t → x < b.nextId → b1.tradeHeap x = b.tradeHeap x) := by
  induction rs with
  | nil => intro b t c _ _ _ _ _ _ _ _ hne; exact absurd rfl hne
  | cons r rest ih =>
    intro b t c hopen hfresh hord harr hc h0 h1 hd _ hpos hsum
    have hrpos : 0 < r.size := hpos r (List.mem_cons_self _ _)
    by_cases hrest : rest = []
    · -- the last reduction closes the trade
      subst hrest
      have hsz : r.size = (b.tradeHeap t).Size := by simpa using hsum
      obtain ⟨b1, e1, o1, _, c1, t1, m1, _⟩ :=
        b.closeTrade_spec t r.price r.bar c hopen harr hc h0 h1 hd
      have hred : b.reduceTrade t r.size r.price r.bar = .ok b1 := by
        rw [← e1, hsz]
        simp [broker.reduceTrade]
      refine ⟨b1, [t], by simp [broker.reduceAll, hred], c1, ?_, ?_, o1, ?_⟩
      · simp [t1, hsz]
      · simp [m1, hsz]
      · intro x hx _
        rw [t1, Function.update_noteq hx]
    · -- a reduction that leaves a remainder
      have hrestpos : 0 < (rest.map Reduction.size).sum := by
        cases rest with
        | nil => exact absurd rfl hrest
        | cons r2 rest2 =>
          have h2 : 0 < r2.size := hpos r2 (by simp)
          have h3 : 0 ≤ (rest2.map Reduction.size).sum := by
            apply List.sum_nonneg
            intro x hx
            obtain ⟨y, hy, rfl⟩ := List.mem_map.mp hx
            exact le_of_lt (hpos y (by simp [hy]))
          simp only [List.map_cons, List.sum_cons]
          linarith
      have hlt : r.size < (b.tradeHeap t).Size := by
        simp only [List.map_cons, List.sum_cons] at hsum
        linarith
      have htlt : t < b.nextId := hfresh t hopen
      obtain ⟨b1, e1, o1, q1, c1, t1, oh1, m1, oa1, ta1, n1, na1, d1, _, _⟩ :=
        b.reduceTrade_remainder t r.size r.price r.bar c hfresh hord hc hlt
      have hth : b1.tradeHeap t =
          { b.tradeHeap t with Size := (b.tradeHeap t).Size - r.size } := by
        rw [t1, Function.update_noteq (Nat.ne_of_lt htlt), Function.update_same]
      obtain ⟨b2, recs, e2, c2, r2, m2, o2, f2⟩ := ih b1 t c (by rw [o1]; exact hopen)
        (by rw [o1, n1]; intro x hx; exact Nat.lt_succ_of_lt (hfresh x hx))
        (by rw [oa1, na1]; exact Nat.lt_succ_of_lt hord)
        (by rw [oa1, ta1]; exact Nat.ne_of_lt hord)
        (by rw [d1]; exact hc)
        (by rw [hth, q1]; exact h0) (by rw [hth, q1]; exact h1) (by rw [hth]; exact hd)
        hrest (fun x hx => hpos x (List.mem_cons_of_mem _ hx))
        (by rw [hth]; simp only [List.map_cons, List.sum_cons] at hsum; simp; linarith)
      have hkeep : b2.tradeHeap b.nextId = b1.tradeHeap b.nextId :=
        f2 b.nextId (Nat.ne_of_gt htlt) (by rw [n1]; exact Nat.lt_succ_self _)
      refine ⟨b2, b.nextId :: recs, by simp [broker.reduceAll, e1, e2], ?_, ?_, ?_, ?_, ?_⟩
      · rw [c2, c1]; simp
      · simp only [List.map_cons]
        rw [r2, hkeep, hth, t1, Function.update_same]
      · rw [m2, m1, hth]
        simp only [List.map_cons, List.sum_cons]
        ring
      · rw [o2, o1]
      · intro x hx hlt2
        rw [f2 x hx (by rw [n1]; exact Nat.lt_succ_of_lt hlt2), t1,
          Function.update_noteq (Nat.ne_of_lt hlt2), Function.update_noteq hx]

/-! ## What settlement leaves alone -/

theorem Frame.unchanged (b : broker) : Frame b b := ⟨rfl, rfl, rfl⟩

theorem Frame.andThen {b b1 b2 : broker} (h1 : Frame b b1) (h2 : Frame b1 b2) : Frame b b2 :=
  ⟨h2.opts.trans h1.opts, h2.data.trans h1.data, h2.equities.trans h1.equities⟩

theorem Frame.of_eq {b b0 b1 : broker} (h : Frame b0 b1) (ho : b0.opts = b.opts)
    (hd : b0.data = b.data) (he : b0.equities = b.equities) : Frame b b1 :=
  ⟨h.opts.trans ho, h.data.trans hd, h.equities.trans he⟩

theorem Order.remove_frame (b : broker) (o : Nat) : Frame b (endState (Order.remove b o)) := by
  unfold Order.remove
  split
  · exact Frame.unchanged b
  · exact ⟨rfl, rfl, rfl⟩

theorem frame_of_ok {b b1 : broker} {r : Run broker} (h : Frame b (endState r))
    (hr : r = .ok b1) : Frame b b1 := by
  subst hr; exact h

theorem frame_of_error {b : broker} {e : Fault × broker} {r : Run broker}
    (h : Frame b (endState r)) (hr : r = .error e) : Frame b e.2 := by
  subst hr; exact h

theorem Trade.Close_frame (b : broker) (t : Nat) : Frame b (Trade.Close b t) := ⟨rfl, rfl, rfl⟩

theorem broker.cancelUnbound_frame (hs : Nat) :
    ∀ (n i : Nat) (b b1 : broker), broker.cancelUnbound hs n i b = .ok b1 → Frame b b1 := by
  intro n
  induction n with
  | zero =>
    intro i b b1 h
    simp only [broker.cancelUnbound, Except.ok.injEq] at h
    subst h; exact Frame.unchanged b
  | succ n ih =>
    intro i b b1 h
    simp only [broker.cancelUnbound] at h
    split at h
    · cases h
    · split at h
      · split at h
        · cases h
        · rename_i b2 h2
          exact (frame_of_ok (Order.remove_frame b _) h2).andThen (ih _ _ _ h)
      · exact ih _ _ _ h

theorem broker.closeAll_frame (hs : Nat) :
    ∀ (n i : Nat) (b b1 : broker), broker.closeAll hs n i b = .ok b1 → Frame b b1 := by
  intro n
  induction n with
  | zero =>
    intro i b b1 h
    simp only [broker.closeAll, Except.ok.injEq] at h
    subst h; exact Frame.unchanged b
  | succ n ih =>
    intro i b b1 h
    simp only [broker.closeAll] at h
    split at h
    · cases h
    · exact (Trade.Close_frame b _).andThen (ih _ _ _ h)

theorem broker.newOrder_frame (b : broker) (opts : newOrderOpts) (b1 : broker) (id : Nat)
    (h : b.newOrder opts = .ok (b1, id)) : Frame b b1 := by
  simp only [broker.newOrder] at h
  split at h
  · cases h
  · split at h
    · cases h
    · split at h
      · cases h
      · split at h
        · simp only [Except.ok.injEq, Prod.mk.injEq] at h
          rw [← h.1]; exact ⟨rfl, rfl, rfl⟩
        · split at h
          · cases h
          · rename_i b2 h2
            simp only [Except.ok.injEq, Prod.mk.injEq] at h
            rw [← h.1]
            have fb2 : Frame b b2 := by
              split at h2
              · split at h2
                · cases h2
                · rename_i b3 h3
                  have f3 : Frame b b3 := (broker.cancelUnbound_frame _ _ _ _ _ h3).of_eq rfl rfl rfl
                  exact f3.andThen (broker.closeAll_frame _ _ _ _ _ h2)
              · simp only [Except.ok.injEq] at h2
                rw [← h2]; exact ⟨rfl, rfl, rfl⟩
            exact fb2.andThen ⟨rfl, rfl, rfl⟩

theorem Trade.setContingent_frame (b : broker) (t i : Nat) (price : ℚ) (b1 : broker)
    (h : Trade.setContingent b t i price = .ok b1) : Frame b b1 := by
  simp only [Trade.setContingent] at h
  split at h
  · cases h
  · split at h
    · cases h
    · rename_i b2 h2
      have f2 : Frame b b2 := by
        split at h2
        · exact frame_of_ok (Order.remove_frame b _) h2
        · simp only [Except.ok.injEq] at h2
          rw [← h2]; exact Frame.unchanged b
      split at h
      · cases h
      · rename_i b3 o h3
        simp only [Except.ok.injEq] at h
        rw [← h]
        exact (f2.andThen (broker.newOrder_frame _ _ _ _ h3)).andThen ⟨rfl, rfl, rfl⟩

theorem broker.openTrade_frame (b : broker) (side : Side) (size price sl tp : ℚ) (bar : Int)
    (b1 : broker) (h : b.openTrade side size price sl tp bar = .ok b1) : Frame b b1 := by
  simp only [broker.openTrade] at h
  split at h
  · cases h
  · rename_i b2 h2
    have f2 : Frame b b2 := by
      split at h2
      · exact (Trade.setContingent_frame _ _ _ _ _ h2).of_eq rfl rfl rfl
      · simp only [Except.ok.injEq] at h2
        rw [← h2]; exact ⟨rfl, rfl, rfl⟩
    split at h
    · exact f2.andThen (Trade.setContingent_frame _ _ _ _ _ h)
    · simp only [Except.ok.injEq] at h
      rw [← h]; exact f2

theorem broker.removeLegs_frame (b : broker) (l0 l1 : Option Nat) :
    Frame b (endState (b.removeLegs l0 l1)) := by
  cases l0 with
  | none =>
    cases l1 with
    | none => exact Frame.unchanged b
    | some o1 => exact Order.remove_frame b o1
  | some o0 =>
    have f0 := Order.remove_frame b o0
    cases h0 : Order.remove b o0 with
    | error e =>
      rw [h0] at f0
      simp only [broker.removeLegs, h0]
      exact f0
    | ok b1 =>
      rw [h0] at f0
      cases l1 with
      | none =>
        simp only [broker.removeLegs, h0]
        exact f0
      | some o1 =>
        simp only [broker.removeLegs, h0]
        exact f0.andThen (Order.remove_frame b1 o1)

theorem Trade.Pnl_state (b : broker) (t : Nat) (e : Fault × broker)
    (h : Trade.Pnl b t = .error e) : e.2 = b := by
  simp only [Trade.Pnl] at h
  split at h
  · cases h; rfl
  · split at h <;> cases h

theorem broker.closeTrade_frame (b : broker) (t : Nat) (p : ℚ) (bar : Int) :
    Frame b (endState (b.closeTrade t p bar)) := by
  simp only [broker.closeTrade]
  split
  · exact ⟨rfl, rfl, rfl⟩
  · split
    · rename_i e he
      have f3 := frame_of_error (broker.removeLegs_frame _ _ _) he
      exact f3.of_eq rfl rfl rfl
    · rename_i b4 h4
      have f3 := frame_of_ok (broker.removeLegs_frame _ _ _) h4
      have f4 : Frame b b4 := f3.of_eq rfl rfl rfl
      split
      · rename_i e he
        show Frame b e.2
        rw [Trade.Pnl_state _ _ _ he]; exact f4
      · exact f4.andThen ⟨rfl, rfl, rfl⟩

theorem broker.reduceTrade_frame (b : broker) (t : Nat) (size p : ℚ) (bar : Int) (b1 : broker)
    (h : b.reduceTrade t size p bar = .ok b1) : Frame b b1 := by
  simp only [broker.reduceTrade] at h
  split at h
  · cases h
  · split at h
    · exact frame_of_ok (broker.closeTrade_frame _ _ _ _) h
    · have f := frame_of_ok (broker.closeTrade_frame _ _ _ _) h
      exact f.of_eq rfl rfl rfl

theorem broker.stopStep_frame (b : broker) (o : Nat) (bar : Bar) (b1 : broker)
    (h : b.stopStep o bar = some b1) : Frame b b1 := by
  simp only [broker.stopStep] at h
  split at h
  · split at h
    · simp only [Option.some.injEq] at h
      rw [← h]; exact ⟨rfl, rfl, rfl⟩
    · cases h
  · simp only [Option.some.injEq] at h
    rw [← h]; exact Frame.unchanged b

theorem broker.priceStep_frame (b : broker) (o : Nat) (bar prevBar : Bar) (b1 : broker) (p : ℚ)
    (h : b.priceStep o bar prevBar = some (b1, p)) : Frame b b1 := by
  simp only [broker.priceStep] at h
  split at h
  · split at h
    · simp only [Option.some.injEq, Prod.mk.injEq] at h
      rw [← h.1]; exact ⟨rfl, rfl, rfl⟩
    · cases h
  · simp only [Option.some.injEq, Prod.mk.injEq] at h
    rw [← h.1]; exact ⟨rfl, rfl, rfl⟩

theorem broker.matchTrades_frame (hs o : Nat) (price : ℚ) (bar : Int) :
    ∀ (n i : Nat) (size : ℚ) (b b1 : broker) (size1 : ℚ),
      broker.matchTrades hs o price bar n i size b = .ok (b1, size1) → Frame b b1 := by
  intro n
  induction n with
  | zero =>
    intro i size b b1 size1 h
    simp only [broker.matchTrades, Except.ok.injEq, Prod.mk.injEq] at h
    rw [← h.1]; exact Frame.unchanged b
  | succ n ih =>
    intro i size b b1 size1 h
    simp only [broker.matchTrades] at h
    split at h
    · cases h
    · split at h
      · exact ih _ _ _ _ _ h
      · split at h
        · cases h
        · rename_i b2 size2 h2
          have f2 : Frame b b2 := by
            split at h2
            · split at h2
              · cases h2
              · rename_i b3 h3
                simp only [Except.ok.injEq, Prod.mk.injEq] at h2
                rw [← h2.1]
                exact frame_of_ok (broker.closeTrade_frame _ _ _ _) h3
            · split at h2
              · cases h2
              · rename_i b3 h3
                simp only [Except.ok.injEq, Prod.mk.injEq] at h2
                rw [← h2.1]
                exact broker.reduceTrade_frame _ _ _ _ _ _ h3
          split at h
          · simp only [Except.ok.injEq, Prod.mk.injEq] at h
            rw [← h.1]; exact f2
          · exact f2.andThen (ih _ _ _ _ _ h)

theorem broker.processOrder_frame (b : broker) (reprocess : Bool) (o barI : Nat)
    (bar prevBar : Bar) (b1 : broker) (re1 : Bool)
    (h : b.processOrder reprocess o barI bar prevBar = .ok (b1, re1)) : Frame b b1 := by
  simp only [broker.processOrder] at h
  split at h
  · simp only [Except.ok.injEq, Prod.mk.injEq] at h
    rw [← h.1]; exact Frame.unchanged b
  · rename_i b2 h2
    have f2 := broker.stopStep_frame _ _ _ _ h2
    split at h
    · simp only [Except.ok.injEq, Prod.mk.injEq] at h
      rw [← h.1]; exact f2
    · rename_i b3 price h3
      have f3 : Frame b b3 := f2.andThen (broker.priceStep_frame _ _ _ _ _ _ h3)
      split at h
      · split at h
        · cases h
        · rename_i b4 h4
          simp only [Except.ok.injEq, Prod.mk.injEq] at h
          rw [← h.1]
          exact f3.andThen (frame_of_ok (Order.remove_frame _ _) h4)
      · split at h
        · split at h
          · split at h
            · cases h
            · rename_i b4 h4
              simp only [Except.ok.injEq, Prod.mk.injEq] at h
              rw [← h.1]
              exact f3.andThen (broker.reduceTrade_frame _ _ _ _ _ _ h4)
          · split at h
            · cases h
            · rename_i b4 h4
              simp only [Except.ok.injEq, Prod.mk.injEq] at h
              rw [← h.1]
              exact f3.andThen (frame_of_ok (Order.remove_frame _ _) h4)
        · split at h
          · cases h
          · rename_i b4 size1 h4
            have f4 : Frame b b4 := f3.andThen (broker.matchTrades_frame _ _ _ _ _ _ _ _ _ _ h4)
            split at h
            · cases h
            · rename_i b5 re5 h5
              have f5 : Frame b b5 := by
                split at h5
                · split at h5
                  · cases h5
                  · rename_i b6 h6
                    simp only [Except.ok.injEq, Prod.mk.injEq] at h5
                    rw [← h5.1]
                    exact f4.andThen (broker.openTrade_frame _ _ _ _ _ _ _ _ h6)
                · simp only [Except.ok.injEq, Prod.mk.injEq] at h5
                  rw [← h5.1]; exact f4
              split at h
              · cases h
              · rename_i b6 h6
                simp only [Except.ok.injEq, Prod.mk.injEq] at h
                rw [← h.1]
                exact f5.andThen (frame_of_ok (Order.remove_frame _ _) h6)

theorem broker.ordersLoop_frame (hs barI : Nat) (bar prevBar : Bar) :
    ∀ (n i : Nat) (b : broker) (re : Bool) (b1 : broker) (re1 : Bool),
      broker.ordersLoop hs barI bar prevBar n i b re = .ok (b1, re1) → Frame b b1 := by
  intro n
  induction n with
  | zero =>
    intro i b re b1 re1 h
    simp only [broker.ordersLoop, Except.ok.injEq, Prod.mk.injEq] at h
    rw [← h.1]; exact Frame.unchanged b
  | succ n ih =>
    intro i b re b1 re1 h
    simp only [broker.ordersLoop] at h
    split at h
    · cases h
    · split at h
      · cases h
      · rename_i b2 re2 h2
        exact (broker.processOrder_frame _ _ _ _ _ _ _ _ h2).andThen (ih _ _ _ _ _ h)

theorem broker.processOrders_frame :
    ∀ (fuel : Nat) (b b1 : broker), b.processOrders fuel = .ok b1 → Frame b b1 := by
  intro fuel
  induction fuel with
  | zero => intro b b1 h; cases h
  | succ fuel ih =>
    intro b b1 h
    simp only [broker.processOrders] at h
    split at h
    · split at h
      · cases h
      · rename_i b2 re h2
        have f2 := broker.ordersLoop_frame _ _ _ _ _ _ _ _ _ _ h2
        split at h
        · exact f2.andThen (ih _ _ h)
        · simp only [Except.ok.injEq] at h
          rw [← h]; exact f2
    · cases h

theorem broker.closeOpen_frame (hs : Nat) (k : Int) :
    ∀ (n i : Nat) (b : broker), Frame b (endState (broker.closeOpen hs k n i b)) := by
  intro n
  induction n with
  | zero => intro i b; exact Frame.unchanged b
  | succ n ih =>
    intro i b
    simp only [broker.closeOpen]
    split
    · exact Frame.unchanged b
    · split
      · exact Frame.unchanged b
      · split
        · rename_i e he
          exact frame_of_error (broker.closeTrade_frame _ _ _ _) he
        · rename_i b2 h2
          exact (frame_of_ok (broker.closeTrade_frame _ _ _ _) h2).andThen (ih _ _)

/-! ## Well-formed ledgers -/

theorem TradesKept.asIs (b : broker) : TradesKept b b :=
  ⟨rfl, rfl, fun _ => rfl, Nat.le_refl _, Nat.le_refl _, Or.inl rfl⟩

theorem TradesKept.followedBy {b b1 b2 : broker} (h1 : TradesKept b b1) (h2 : TradesKept b1 b2) :
    TradesKept b b2 where
  trades := h2.trades.trans h1.trades
  tradeArr := by
    have := h2.tradeArr
    rw [h1.trades] at this
    exact this.trans h1.tradeArr
  exit := fun t => (h2.exit t).trans (h1.exit t)
  nextId := Nat.le_trans h1.nextId h2.nextId
  nextArr := Nat.le_trans h1.nextArr h2.nextArr
  ordersArr := by
    rcases h2.ordersArr with e2 | ⟨l2, u2⟩
    · rcases h1.ordersArr with e1 | ⟨l1, u1⟩
      · exact Or.inl (e2.trans e1)
      · exact Or.inr ⟨by rw [e2]; exact l1, by rw [e2]; exact Nat.lt_of_lt_of_le u1 h2.nextArr⟩
    · exact Or.inr ⟨Nat.le_trans h1.nextArr l2, u2⟩

theorem TradesKept.sameOpen {b b1 : broker} (h : TradesKept b b1) :
    b1.openTrades = b.openTrades := by
  simp only [broker.openTrades, broker.live, h.trades, h.tradeArr]

theorem Sound.kept {b b1 : broker} (hs : Sound b) (h : TradesKept b b1) : Sound b1 where
  arrNe := by
    rw [h.trades]
    rcases h.ordersArr with e | ⟨l, _⟩
    · rw [e]; exact hs.arrNe
    · exact fun heq => absurd hs.tradesArr (by rw [← heq]; exact Nat.not_lt.mpr l)
  ordersArr := by
    rcases h.ordersArr with e | ⟨_, u⟩
    · rw [e]; exact Nat.lt_of_lt_of_le hs.ordersArr h.nextArr
    · exact u
  tradesArr := by rw [h.trades]; exact Nat.lt_of_lt_of_le hs.tradesArr h.nextArr
  nodup := by rw [h.sameOpen]; exact hs.nodup
  fresh := by
    rw [h.sameOpen]
    exact fun t ht => Nat.lt_of_lt_of_le (hs.fresh t ht) h.nextId
  unset := by
    rw [h.sameOpen]
    exact fun t ht => by rw [h.exit t]; exact hs.unset t ht

theorem Order.remove_kept (b b1 : broker) (o : Nat) (hne : b.orders.arr ≠ b.trades.arr)
    (h : Order.remove b o = .ok b1) : TradesKept b b1 := by
  simp only [Order.remove] at h
  split at h
  · cases h
  · simp only [Except.ok.injEq] at h
    rw [← h]
    refine ⟨rfl, ?_, fun _ => rfl, Nat.le_refl _, Nat.le_refl _, Or.inl rfl⟩
    simp only [broker.sliceRemove]
    rw [Function.update_noteq (Ne.symm hne)]

theorem Trade.Close_kept (b : broker) (t : Nat) (hs : Sound b) : TradesKept b (Trade.Close b t) := by
  refine ⟨rfl, ?_, fun _ => rfl, Nat.le_succ _, Nat.le_succ _, Or.inr ⟨Nat.le_refl _, Nat.lt_succ_self _⟩⟩
  simp only [Trade.Close, broker.slicePrepend]
  rw [Function.update_noteq (Nat.ne_of_lt hs.tradesArr)]

theorem broker.cancelUnbound_kept (hs : Nat) :
    ∀ (n i : Nat) (b b1 : broker), Sound b → broker.cancelUnbound hs n i b = .ok b1 →
      TradesKept b b1 := by
  intro n
  induction n with
  | zero =>
    intro i b b1 _ h
    simp only [broker.cancelUnbound, Except.ok.injEq] at h
    subst h; exact TradesKept.asIs b
  | succ n ih =>
    intro i b b1 hsd h
    simp only [broker.cancelUnbound] at h
    split at h
    · cases h
    · split at h
      · split at h
        · cases h
        · rename_i b2 h2
          have k2 := Order.remove_kept b b2 _ hsd.arrNe h2
          exact k2.followedBy (ih _ _ _ (hsd.kept k2) h)
      · exact ih _ _ _ hsd h

theorem broker.closeAll_kept (hs : Nat) :
    ∀ (n i : Nat) (b b1 : broker), Sound b → broker.closeAll hs n i b = .ok b1 →
      TradesKept b b1 := by
  intro n
  induction n with
  | zero =>
    intro i b b1 _ h
    simp only [broker.closeAll, Except.ok.injEq] at h
    subst h; exact TradesKept.asIs b
  | succ n ih =>
    intro i b b1 hsd h
    simp only [broker.closeAll] at h
    split at h
    · cases h
    · rename_i t _
      have k2 := Trade.Close_kept b t hsd
      exact k2.followedBy (ih _ _ _ (hsd.kept k2) h)

theorem broker.newOrder_kept (b : broker) (opts : newOrderOpts) (b1 : broker) (id : Nat)
    (hs : Sound b) (h : b.newOrder opts = .ok (b1, id)) : TradesKept b b1 := by
  have hs0 : Sound { b with
      orderHeap := (Function.update b.orderHeap b.nextId
        { Size := opts.size, Side := opts.side, Stop := opts.stop, Limit := opts.limit,
          SL := opts.sl, TP := opts.tp, trade := opts.trade, hitAtOt := none })
      nextId := b.nextId + 1 } :=
    hs.kept ⟨rfl, rfl, fun _ => rfl, Nat.le_succ _, Nat.le_refl _, Or.inl rfl⟩
  simp only [broker.newOrder] at h
  split at h
  · cases h
  · split at h
    · cases h
    · split at h
      · cases h
      · split at h
        · simp only [Except.ok.injEq, Prod.mk.injEq] at h
          rw [← h.1]
          refine ⟨rfl, ?_, fun _ => rfl, Nat.le_succ _, Nat.le_succ _,
            Or.inr ⟨Nat.le_refl _, Nat.lt_succ_self _⟩⟩
          simp only [broker.slicePrepend]
          rw [Function.update_noteq (Nat.ne_of_lt hs.tradesArr)]
        · split at h
          · cases h
          · rename_i b2 h2
            simp only [Except.ok.injEq, Prod.mk.injEq] at h
            rw [← h.1]
            have k2 : TradesKept b b2 := by
              split at h2
              · split at h2
                · cases h2
                · rename_i b3 h3
                  have k3 := broker.cancelUnbound_kept _ _ _ _ _ hs0 h3
                  have k4 := broker.closeAll_kept _ _ _ _ _ (hs0.kept k3) h2
                  have k34 := k3.followedBy k4
                  exact ⟨k34.trades, k34.tradeArr, k34.exit, Nat.le_of_succ_le k34.nextId,
                    k34.nextArr, k34.ordersArr⟩
              · simp only [Except.ok.injEq] at h2
                rw [← h2]
                exact ⟨rfl, rfl, fun _ => rfl, Nat.le_succ _, Nat.le_refl _, Or.inl rfl⟩
            have hs2 : Sound b2 := hs.kept k2
            refine k2.followedBy ⟨rfl, ?_, fun _ => rfl, Nat.le_refl _, Nat.le_succ _,
              Or.inr ⟨Nat.le_refl _, Nat.lt_succ_self _⟩⟩
            simp only [broker.sliceAppend]
            rw [Function.update_noteq (Nat.ne_of_lt hs2.tradesArr)]

theorem Trade.setContingent_kept (b : broker) (t i : Nat) (price : ℚ) (b1 : broker)
    (hs : Sound b) (h : Trade.setContingent b t i price = .ok b1) : TradesKept b b1 := by
  simp only [Trade.setContingent] at h
  split at h
  · cases h
  · split at h
    · cases h
    · rename_i b2 h2
      have k2 : TradesKept b b2 := by
        split at h2
        · exact Order.remove_kept b b2 _ hs.arrNe h2
        · simp only [Except.ok.injEq] at h2
          rw [← h2]; exact TradesKept.asIs b
      split at h
      · cases h
      · rename_i b3 o h3
        have k3 := broker.newOrder_kept _ _ _ _ (hs.kept k2) h3
        simp only [Except.ok.injEq] at h
        rw [← h]
        refine (k2.followedBy k3).followedBy ⟨rfl, rfl, ?_, Nat.le_refl _, Nat.le_refl _, Or.inl rfl⟩
        intro x
        by_cases hx : x = t
        · subst hx
          simp only [Function.update_same]
          split <;> rfl
        · simp only [Function.update_noteq hx]

theorem broker.removeLegs_kept (b : broker) (l0 l1 : Option Nat) (b1 : broker)
    (h : b.removeLegs l0 l1 = .ok b1) (hne : b.orders.arr ≠ b.trades.arr) :
    TradesKept b b1 := by
  cases l0 with
  | none =>
    cases l1 with
    | none =>
      simp only [broker.removeLegs, Except.ok.injEq] at h
      rw [← h]; exact TradesKept.asIs b
    | some o1 =>
      simp only [broker.removeLegs] at h
      exact Order.remove_kept b b1 o1 hne h
  | some o0 =>
    cases h0 : Order.remove b o0 with
    | error e => simp [broker.removeLegs, h0] at h
    | ok b2 =>
      have k2 := Order.remove_kept b b2 o0 hne h0
      cases l1 with
      | none =>
        simp only [broker.removeLegs, h0, Except.ok.injEq] at h
        rw [← h]; exact k2
      | some o1 =>
        simp only [broker.removeLegs, h0] at h
        have hne2 : b2.orders.arr ≠ b2.trades.arr := by
          rw [k2.trades]
          rcases k2.ordersArr with e | ⟨l, u⟩
          · rw [e]; exact hne
          · have : b2.nextArr = b.nextArr := by
              simp only [Order.remove] at h0
              split at h0
              · cases h0
              · simp only [Except.ok.injEq] at h0
                rw [← h0]
            omega
        exact k2.followedBy (Order.remove_kept b2 b1 o1 hne2 h)

theorem Sound.but {b : broker} (hs : Sound b) (t : Nat) : SoundBut b t :=
  ⟨hs.arrNe, hs.ordersArr, hs.tradesArr, hs.nodup, hs.fresh, fun x hx _ => hs.unset x hx⟩

theorem indexIn_some_mem {x i : Nat} {l : List Nat} (h : indexIn x l = some i) :
    x ∈ l ∧ i = l.indexOf x := by
  unfold indexIn at h
  split at h
  · rename_i hm
    simp only [Option.some.injEq] at h
    exact ⟨hm, h.symm⟩
  · cases h

theorem broker.closeTrade_sound (b : broker) (t : Nat) (p : ℚ) (bar : Int) (b1 : broker)
    (hs : SoundBut b t) (h : b.closeTrade t p bar = .ok b1) : Sound b1 := by
  simp only [broker.closeTrade] at h
  split at h
  · cases h
  · rename_i i hi
    obtain ⟨hmem, hidx⟩ := indexIn_some_mem hi
    have hmem' : t ∈ b.openTrades := hmem
    have hlt : b.openTrades.indexOf t < b.openTrades.length := List.indexOf_lt_length.mpr hmem'
    split at h
    · cases h
    · rename_i b4 h4
      -- the ledger after the trade has left the open trades
      have ho3 : ∀ (b3 : broker), b3.trades = (b.sliceRemove b.trades i).2 →
          b3.arrays = (b.sliceRemove b.trades i).1 → b3.openTrades = b.openTrades.erase t := by
        intro b3 e1 e2
        simp only [broker.openTrades, broker.live, e1, e2, broker.sliceRemove, Function.update_same]
        simp only [broker.openTrades, broker.live] at hlt hidx
        rw [hidx, take_removed _ _ _ hlt]
        exact List.eraseIdx_indexOf_eq_erase _ _
      have k4 := broker.removeLegs_kept _ _ _ _ h4 hs.arrNe
      have hs3 : Sound
          { b with
            tradeHeap := (Function.update b.tradeHeap t
              { b.tradeHeap t with ExitPrice := p, ExitBar := bar })
            closedTrades := b.closedTrades ++ [t]
            arrays := (b.sliceRemove b.trades i).1
            trades := (b.sliceRemove b.trades i).2 } := by
        refine ⟨hs.arrNe, hs.ordersArr, hs.tradesArr, ?_, ?_, ?_⟩
        · rw [ho3 _ rfl rfl]; exact hs.nodup.erase t
        · rw [ho3 _ rfl rfl]
          exact fun x hx => hs.fresh x (List.mem_of_mem_erase hx)
        · rw [ho3 _ rfl rfl]
          intro x hx
          have hxt : x ≠ t := (hs.nodup.mem_erase_iff.mp hx).1
          show (Function.update b.tradeHeap t _ x).ExitPrice ≤ 0
          rw [Function.update_noteq hxt]
          exact hs.unset x (List.mem_of_mem_erase hx) hxt
      have hs4 : Sound b4 := hs3.kept k4
      split at h
      · cases h
      · simp only [Except.ok.injEq] at h
        rw [← h]
        exact hs4.kept ⟨rfl, rfl, fun _ => rfl, Nat.le_refl _, Nat.le_refl _, Or.inl rfl⟩

theorem sound_append (b : broker) (tr : Trade) (hs : Sound b) :
    SoundBut
      { b with
        tradeHeap := (Function.update b.tradeHeap b.nextId tr)
        nextId := b.nextId + 1
        arrays := (b.sliceAppend b.trades b.nextId).1
        nextArr := b.nextArr + 1
        trades := (b.sliceAppend b.trades b.nextId).2 } b.nextId := by
  have hnot : b.nextId ∉ b.openTrades := fun h => Nat.lt_irrefl _ (hs.fresh _ h)
  have ho : ∀ (b3 : broker), b3.trades = (b.sliceAppend b.trades b.nextId).2 →
      b3.arrays = (b.sliceAppend b.trades b.nextId).1 →
      b3.openTrades = b.openTrades ++ [b.nextId] := by
    intro b3 e1 e2
    simp only [broker.openTrades, broker.live, e1, e2]
    exact live_sliceAppend b b.trades b.nextId
  refine ⟨?_, Nat.lt_succ_of_lt hs.ordersArr, Nat.lt_succ_self _, ?_, ?_, ?_⟩
  · exact Nat.ne_of_lt hs.ordersArr
  · rw [ho _ rfl rfl]
    exact List.Nodup.append hs.nodup (List.nodup_singleton _)
      (fun a ha hb => hnot (by rw [List.mem_singleton.mp hb] at ha; exact ha))
  · rw [ho _ rfl rfl]
    intro x hx
    rcases List.mem_append.mp hx with hx | hx
    · exact Nat.lt_succ_of_lt (hs.fresh x hx)
    · rw [List.mem_singleton.mp hx]; exact Nat.lt_succ_self _
  · rw [ho _ rfl rfl]
    intro x hx hne
    rcases List.mem_append.mp hx with hx | hx
    · show (Function.update b.tradeHeap b.nextId tr x).ExitPrice ≤ 0
      rw [Function.update_noteq hne]
      exact hs.unset x hx
    · exact absurd (List.mem_singleton.mp hx) hne

theorem SoundBut.sound {b : broker} {t : Nat} (hs : SoundBut b t)
    (h : (b.tradeHeap t).ExitPrice ≤ 0) : Sound b :=
  ⟨hs.arrNe, hs.ordersArr, hs.tradesArr, hs.nodup, hs.fresh, fun x hx => by
    by_cases hxt : x = t
    · rw [hxt]; exact h
    · exact hs.unset x hx hxt⟩

theorem broker.openTrade_sound (b : broker) (side : Side) (size price sl tp : ℚ) (bar : Int)
    (b1 : broker) (hs : Sound b) (h : b.openTrade side size price sl tp bar = .ok b1) :
    Sound b1 := by
  have hs0 := (sound_append b
    { Size := size, Side := side, EntryPrice := price, ExitPrice := 0,
      EntryBar := bar, ExitBar := 0, legs0 := none, legs1 := none } hs).sound
    (by show (Function.update b.tradeHeap b.nextId _ b.nextId).ExitPrice ≤ 0
        rw [Function.update_same])
  simp only [broker.openTrade] at h
  split at h
  · cases h
  · rename_i b2 h2
    have hs2 : Sound b2 := by
      split at h2
      · exact hs0.kept (Trade.setContingent_kept _ _ _ _ _ hs0 h2)
      · simp only [Except.ok.injEq] at h2
        rw [← h2]; exact hs0
    split at h
    · exact hs2.kept (Trade.setContingent_kept _ _ _ _ _ hs2 h)
    · simp only [Except.ok.injEq] at h
      rw [← h]; exact hs2

theorem broker.reduceTrade_sound (b : broker) (t : Nat) (size p : ℚ) (bar : Int) (b1 : broker)
    (hs : Sound b) (h : b.reduceTrade t size p bar = .ok b1) : Sound b1 := by
  simp only [broker.reduceTrade] at h
  split at h
  · cases h
  · split at h
    · exact broker.closeTrade_sound b t p bar b1 (hs.but t) h
    · have hs1 : Sound (({ b with
          tradeHeap := (Function.update b.tradeHeap t
            { b.tradeHeap t with Size := (b.tradeHeap t).Size - size }) } : broker).resizeLegs t) := by
        refine hs.kept ⟨rfl, rfl, ?_, Nat.le_refl _, Nat.le_refl _, Or.inl rfl⟩
        intro x
        show (Function.update b.tradeHeap t _ x).ExitPrice = _
        by_cases hx : x = t
        · subst hx; rw [Function.update_same]
        · rw [Function.update_noteq hx]
      exact broker.closeTrade_sound _ _ p bar b1 (sound_append _ _ hs1) h

theorem broker.setHit_kept (b : broker) (o : Nat) (ot : OrderType) :
    TradesKept b (b.setHit o ot) :=
  ⟨rfl, rfl, fun _ => rfl, Nat.le_refl _, Nat.le_refl _, Or.inl rfl⟩

theorem broker.stopStep_kept (b : broker) (o : Nat) (bar : Bar) (b1 : broker)
    (h : b.stopStep o bar = some b1) : TradesKept b b1 := by
  simp only [broker.stopStep] at h
  split at h
  · split at h
    · simp only [Option.some.injEq] at h
      rw [← h]; exact broker.setHit_kept b o _
    · cases h
  · simp only [Option.some.injEq] at h
    rw [← h]; exact TradesKept.asIs b

theorem broker.priceStep_kept (b : broker) (o : Nat) (bar prevBar : Bar) (b1 : broker) (p : ℚ)
    (h : b.priceStep o bar prevBar = some (b1, p)) : TradesKept b b1 := by
  simp only [broker.priceStep] at h
  split at h
  · split at h
    · simp only [Option.some.injEq, Prod.mk.injEq] at h
      rw [← h.1]; exact broker.setHit_kept b o _
    · cases h
  · simp only [Option.some.injEq, Prod.mk.injEq] at h
    rw [← h.1]; exact broker.setHit_kept b o _

theorem broker.matchTrades_sound (hs o : Nat) (price : ℚ) (bar : Int) :
    ∀ (n i : Nat) (size : ℚ) (b b1 : broker) (size1 : ℚ), Sound b →
      broker.matchTrades hs o price bar n i size b = .ok (b1, size1) → Sound b1 := by
  intro n
  induction n with
  | zero =>
    intro i size b b1 size1 hsd h
    simp only [broker.matchTrades, Except.ok.injEq, Prod.mk.injEq] at h
    rw [← h.1]; exact hsd
  | succ n ih =>
    intro i size b b1 size1 hsd h
    simp only [broker.matchTrades] at h
    split at h
    · cases h
    · split at h
      · exact ih _ _ _ _ _ hsd h
      · split at h
        · cases h
        · rename_i b2 size2 h2
          have hs2 : Sound b2 := by
            split at h2
            · split at h2
              · cases h2
              · rename_i b3 h3
                simp only [Except.ok.injEq, Prod.mk.injEq] at h2
                rw [← h2.1]
                exact broker.closeTrade_sound _ _ _ _ _ (hsd.but _) h3
            · split at h2
              · cases h2
              · rename_i b3 h3
                simp only [Except.ok.injEq, Prod.mk.injEq] at h2
                rw [← h2.1]
                exact broker.reduceTrade_sound _ _ _ _ _ _ hsd h3
          split at h
          · simp only [Except.ok.injEq, Prod.mk.injEq] at h
            rw [← h.1]; exact hs2
          · exact ih _ _ _ _ _ hs2 h

theorem broker.processOrder_sound (b : broker) (reprocess : Bool) (o barI : Nat)
    (bar prevBar : Bar) (b1 : broker) (re1 : Bool) (hsd : Sound b)
    (h : b.processOrder reprocess o barI bar prevBar = .ok (b1, re1)) : Sound b1 := by
  simp only [broker.processOrder] at h
  split at h
  · simp only [Except.ok.injEq, Prod.mk.injEq] at h
    rw [← h.1]; exact hsd
  · rename_i b2 h2
    have hs2 : Sound b2 := hsd.kept (broker.stopStep_kept _ _ _ _ h2)
    split at h
    · simp only [Except.ok.injEq, Prod.mk.injEq] at h
      rw [← h.1]; exact hs2
    · rename_i b3 price h3
      have hs3 : Sound b3 := hs2.kept (broker.priceStep_kept _ _ _ _ _ _ h3)
      split at h
      · split at h
        · cases h
        · rename_i b4 h4
          simp only [Except.ok.injEq, Prod.mk.injEq] at h
          rw [← h.1]
          exact hs3.kept (Order.remove_kept _ _ _ hs3.arrNe h4)
      · split at h
        · split at h
          · split at h
            · cases h
            · rename_i b4 h4
              simp only [Except.ok.injEq, Prod.mk.injEq] at h
              rw [← h.1]
              exact broker.reduceTrade_sound _ _ _ _ _ _ hs3 h4
          · split at h
            · cases h
            · rename_i b4 h4
              simp only [Except.ok.injEq, Prod.mk.injEq] at h
              rw [← h.1]
              exact hs3.kept (Order.remove_kept _ _ _ hs3.arrNe h4)
        · split at h
          · cases h
          · rename_i b4 size1 h4
            have hs4 : Sound b4 := broker.matchTrades_sound _ _ _ _ _ _ _ _ _ _ hs3 h4
            split at h
            · cases h
            · rename_i b5 re5 h5
              have hs5 : Sound b5 := by
                split at h5
                · split at h5
                  · cases h5
                  · rename_i b6 h6
                    simp only [Except.ok.injEq, Prod.mk.injEq] at h5
                    rw [← h5.1]
                    exact broker.openTrade_sound _ _ _ _ _ _ _ _ hs4 h6
                · simp only [Except.ok.injEq, Prod.mk.injEq] at h5
                  rw [← h5.1]; exact hs4
              split at h
              · cases h
              · rename_i b6 h6
                simp only [Except.ok.injEq, Prod.mk.injEq] at h
                rw [← h.1]
                exact hs5.kept (Order.remove_kept _ _ _ hs5.arrNe h6)

theorem broker.ordersLoop_sound (hs barI : Nat) (bar prevBar : Bar) :
    ∀ (n i : Nat) (b : broker) (re : Bool) (b1 : broker) (re1 : Bool), Sound b →
      broker.ordersLoop hs barI bar prevBar n i b re = .ok (b1, re1) → Sound b1 := by
  intro n
  induction n with
  | zero =>
    intro i b re b1 re1 hsd h
    simp only [broker.ordersLoop, Except.ok.injEq, Prod.mk.injEq] at h
    rw [← h.1]; exact hsd
  | succ n ih =>
    intro i b re b1 re1 hsd h
    simp only [broker.ordersLoop] at h
    split at h
    · cases h
    · split at h
      · cases h
      · rename_i b2 re2 h2
        exact ih _ _ _ _ _ (broker.processOrder_sound _ _ _ _ _ _ _ _ hsd h2) h

/-- Settlement keeps the ledger well formed. -/
theorem broker.processOrders_sound :
    ∀ (fuel : Nat) (b b1 : broker), Sound b → b.processOrders fuel = .ok b1 → Sound b1 := by
  intro fuel
  induction fuel with
  | zero => intro b b1 _ h; cases h
  | succ fuel ih =>
    intro b b1 hsd h
    simp only [broker.processOrders] at h
    split at h
    · split at h
      · cases h
      · rename_i b2 re h2
        have hs2 := broker.ordersLoop_sound _ _ _ _ _ _ _ _ _ _ hsd h2
        split at h
        · exact ih _ _ hs2 h
        · simp only [Except.ok.injEq] at h
          rw [← h]; exact hs2
    · cases h

/-- The ledger built by `New` is well formed. -/
theorem New_sound (n : Nat) (opts : Opts) : Sound (New n opts) :=
  ⟨by simp [New], by simp [New], by simp [New], List.nodup_nil, fun _ h => absurd h (List.not_mem_nil _),
    fun _ h => absurd h (List.not_mem_nil _)⟩

theorem broker.atBar_sound (b : broker) (bars : List Bar) (i : Nat) (hs : Sound b) :
    Sound (b.atBar bars i) :=
  hs.kept ⟨rfl, rfl, fun _ => rfl, Nat.le_refl _, Nat.le_refl _, Or.inl rfl⟩

theorem Strategy.Buy_sound (b : broker) (opts : TradeOpts) (b1 : broker) (hs : Sound b)
    (h : Strategy.Buy b opts = .ok b1) : Sound b1 := by
  simp only [Strategy.Buy] at h
  split at h
  · cases h
  · rename_i r hr
    simp only [Except.ok.injEq] at h
    rw [← h]
    exact hs.kept (broker.newOrder_kept b _ r.1 r.2 hs hr)

theorem Strategy.Sell_sound (b : broker) (opts : TradeOpts) (b1 : broker) (hs : Sound b)
    (h : Strategy.Sell b opts = .ok b1) : Sound b1 := by
  simp only [Strategy.Sell] at h
  split at h
  · cases h
  · rename_i r hr
    simp only [Except.ok.injEq] at h
    rw [← h]
    exact hs.kept (broker.newOrder_kept b _ r.1 r.2 hs hr)

theorem Position.Close_sound (b b1 : broker) (hs : Sound b) (h : Position.Close b = .ok b1) :
    Sound b1 :=
  hs.kept (broker.closeAll_kept _ _ _ _ _ hs h)

/-- A bar that `next` completes keeps the ledger well formed. -/
theorem broker.next_sound (fuel : Nat) (b b1 : broker) (hs : Sound b)
    (h : b.next fuel = .ok b1) : Sound b1 := by
  simp only [broker.next] at h
  split at h
  · cases h
  · rename_i b2 h2
    have hs2 := broker.processOrders_sound fuel b b2 hs h2
    split at h
    · cases h
    · split at h
      · cases h
      · split at h
        · split at h <;> cases h
        · simp only [Except.ok.injEq] at h
          rw [← h]
          exact hs2.kept ⟨rfl, rfl, fun _ => rfl, Nat.le_refl _, Nat.le_refl _, Or.inl rfl⟩

/-! ## The claims -/

theorem ok_of_faultOf_none {r : Run broker} (h : faultOf r = none) : r = .ok (endState r) := by
  cases r with
  | error e => cases h
  | ok b => rfl

/-- C1, at the failing inputs.  First, the closing order queued by
`Trade.Close` is filled by the settlement (it closes trade 1 at 60, cash goes
from 10000 to 10100), the settlement returns, and the order (id 2) is still in
the queue with its marker set.  Second, on `trimReady` the sell of size 4 bound
to the trade of size 10 reduces it to 6 and stays queued; a second settlement
fills it again and reduces the trade to 2. -/
theorem C1_filled_bound_order_stays_queued :
    (faultOf closeScenario = none ∧
      (endState closeScenario).queue = [2] ∧
      ((endState closeScenario).orderHeap 2).trade = some 1 ∧
      ((endState closeScenario).orderHeap 2).hitAtOt = some OrderType.Market ∧
      (endState closeScenario).openTrades = [] ∧
      (endState closeScenario).closedTrades = [1] ∧
      ((endState closeScenario).tradeHeap 1).ExitPrice = 60 ∧
      (endState closeScenario).cash = 10100) ∧
    (faultOf (trimReady.processOrders 1) = none ∧
      (endState (trimReady.processOrders 1)).queue = [2] ∧
      ((endState (trimReady.processOrders 1)).tradeHeap 1).Size = 6 ∧
      faultOf ((endState (trimReady.processOrders 1)).processOrders 1) = none ∧
      (endState ((endState (trimReady.processOrders 1)).processOrders 1)).queue = [2] ∧
      ((endState ((endState (trimReady.processOrders 1)).processOrders 1)).tradeHeap 1).Size = 2 ∧
      (endState ((endState (trimReady.processOrders 1)).processOrders 1)).closedTrades.length = 2) := by
  decide!

/-- C2, at the failing input: with three open short trades of size 1 (ids 1, 3
and 5) a market buy of size 3 closes trade 1, skips trade 3, closes trade 5 and
then takes trade 5 again from the last slot of the array: the run ends in the
slice panic of `closeTrade`, with trade 3 still open and trade 5 twice among
the closed trades. -/
theorem C2_third_opposite_trade_is_skipped :
    faultOf coverScenario = some Fault.sliceBounds ∧
    (endState coverScenario).openTrades = [3] ∧
    (endState coverScenario).closedTrades = [1, 5, 5] := by
  decide!

/-- C3, at the failing input: the take-profit leg (id 3) fills first and closes
the trade once (one closed record, cash 10000 + (104 - 100) * 3); the stop-loss
leg (id 2), already taken off the queue by that closure, is still evaluated by
the loop, its stop is hit, and cancelling it ends the run in the fatal
`No order found`: the settlement does not complete. -/
theorem C3_second_leg_aborts_the_run :
    faultOf bracketScenario = some Fault.noOrderFound ∧
    (endState bracketScenario).queue = [] ∧
    (endState bracketScenario).openTrades = [] ∧
    (endState bracketScenario).closedTrades = [1] ∧
    ((endState bracketScenario).tradeHeap 1).legs0 = some 2 ∧
    ((endState bracketScenario).tradeHeap 1).legs1 = some 3 ∧
    ((endState bracketScenario).tradeHeap 1).ExitPrice = 104 ∧
    ((endState bracketScenario).orderHeap 2).hitAtOt = some OrderType.Market ∧
    (endState bracketScenario).cash = 10012 := by
  decide!

/-- C4, at the failing input: with three open long trades (ids 1, 3 and 5) and
equity -170 the ruin handling closes trade 1, skips trade 3, closes trade 5 and
takes trade 5 again: the run ends in the slice panic of `closeTrade` before
the cash is zeroed, with trade 3 still open, trade 5 twice among the closed
trades and cash -80. -/
theorem C4_ruin_leaves_a_trade_open :
    (faultOf ruinStart = none ∧ (endState ruinStart).openTrades = [1, 3, 5]) ∧
    faultOf ruinScenario = some Fault.sliceBounds ∧
    (endState ruinScenario).equities = [100, 100, 100, -170] ∧
    (endState ruinScenario).openTrades = [3] ∧
    (endState ruinScenario).closedTrades = [1, 5, 5] ∧
    (endState ruinScenario).cash = -80 := by
  decide!

theorem broker.processOrders_bars (fuel : Nat) (b b1 : broker)
    (h : b.processOrders fuel = .ok b1) :
    ∃ bar, b.data.bars[b.data.bars.length - 1]? = some bar := by
  cases fuel with
  | zero => cases h
  | succ fuel =>
    simp only [broker.processOrders] at h
    split at h
    · rename_i bar prevBar hbar _
      exact ⟨bar, hbar⟩
    · cases h

theorem broker.sumPnl_eq (b : broker) (c : ℚ) (hc : b.data.LastClose = some c) :
    ∀ (l : List Nat) (acc : ℚ), (∀ t ∈ l, (b.tradeHeap t).ExitPrice ≤ 0) →
      b.sumPnl l acc =
        .ok (acc + (l.map (fun t => pnlAt (b.tradeHeap t).Side (b.tradeHeap t).Size
          (b.tradeHeap t).EntryPrice c)).sum) := by
  intro l
  induction l with
  | nil => intro acc _; simp [broker.sumPnl]
  | cons t l ih =>
    intro acc h
    have ht : ¬ (b.tradeHeap t).ExitPrice > 0 := not_lt.mpr (h t (List.mem_cons_self _ _))
    simp only [broker.sumPnl, Trade.Pnl_eq b t c hc, if_neg ht]
    rw [ih _ (fun x hx => h x (List.mem_cons_of_mem _ hx))]
    simp only [List.map_cons, List.sum_cons, add_assoc]

/-- C5: on a well-formed ledger, when the settlement of `next` succeeds with
ledger `b1`, `next` stores in the slot of the current bar the cash of `b1` plus
the unrealized profit of every trade open in `b1` at the close of the bar, and
the rest of the equity series is as it was before `next`; this holds whether
`next` returns or ends in the ruin handling. -/
theorem C5_equity_recorded (b : broker) (fuel : Nat) (b1 : broker) (hs : Sound b)
    (hsettle : b.processOrders fuel = .ok b1)
    (hslot : b.data.bars.length - 1 < b.equities.length) :
    ∃ c, b.data.LastClose = some c ∧
      (endState (b.next fuel)).equities =
        b.equities.set (b.data.bars.length - 1)
          (b1.cash + (b1.openTrades.map (fun t =>
            if (b1.tradeHeap t).Side = Side.Buy then
              (c - (b1.tradeHeap t).EntryPrice) * (b1.tradeHeap t).Size
            else ((b1.tradeHeap t).EntryPrice - c) * (b1.tradeHeap t).Size)).sum) := by
  obtain ⟨bar, hbar⟩ := broker.processOrders_bars fuel b b1 hsettle
  have hunset := (broker.processOrders_sound fuel b b1 hs hsettle).unset
  have hc : b.data.LastClose = some bar.Close := lastClose_of_getElem _ _ hbar
  have f1 := broker.processOrders_frame fuel b b1 hsettle
  have hc1 : b1.data.LastClose = some bar.Close := by rw [f1.data]; exact hc
  have hne : b.data.bars.length ≠ 0 := by
    intro h0
    have : b.data.bars = [] := List.length_eq_zero.mp h0
    rw [this] at hbar
    simp at hbar
  have heq : b1.equity = .ok ((b1.openTrades.map (fun t => pnlAt (b1.tradeHeap t).Side
      (b1.tradeHeap t).Size (b1.tradeHeap t).EntryPrice bar.Close)).sum + b1.cash) := by
    simp only [broker.equity, broker.sumPnl_eq b1 bar.Close hc1 _ 0 hunset, zero_add]
  refine ⟨bar.Close, hc, ?_⟩
  have hguard : ¬ (b1.data.bars.length = 0 ∨ b1.equities.length ≤ b1.data.bars.length - 1) := by
    rw [f1.data, f1.equities]
    rintro (h | h)
    · exact hne h
    · omega
  simp only [broker.next, hsettle, heq, if_neg hguard]
  have hval : (b1.openTrades.map (fun t => pnlAt (b1.tradeHeap t).Side
      (b1.tradeHeap t).Size (b1.tradeHeap t).EntryPrice bar.Close)).sum + b1.cash =
      b1.cash + (b1.openTrades.map (fun t =>
            if (b1.tradeHeap t).Side = Side.Buy then
              (bar.Close - (b1.tradeHeap t).EntryPrice) * (b1.tradeHeap t).Size
            else ((b1.tradeHeap t).EntryPrice - bar.Close) * (b1.tradeHeap t).Size)).sum := by
    rw [add_comm]; rfl
  rw [hval, f1.data, f1.equities]
  split
  · split
    · rename_i e he
      exact (frame_of_error (broker.closeOpen_frame _ _ _ _ _) he).equities
    · rename_i b3 h3
      exact (frame_of_ok (broker.closeOpen_frame _ _ _ _ _) h3).equities
  · rfl

/-- Witness for C5 on `buyQueued`: the settlement opens a long trade of size 3
at 100, and `next` stores 10000 + (102 - 100) * 3 = 10006 in slot 0. -/
theorem C5_equity_recorded_witness :
    (faultOf (buyQueued.processOrders 3) = none ∧
      (endState (buyQueued.next 3)).equities = [10006]) ∧
    ∃ c, buyQueued.data.LastClose = some c ∧
      (endState (buyQueued.next 3)).equities =
        buyQueued.equities.set (buyQueued.data.bars.length - 1)
          ((endState (buyQueued.processOrders 3)).cash +
            ((endState (buyQueued.processOrders 3)).openTrades.map (fun t =>
              if ((endState (buyQueued.processOrders 3)).tradeHeap t).Side = Side.Buy then
                (c - ((endState (buyQueued.processOrders 3)).tradeHeap t).EntryPrice)
                  * ((endState (buyQueued.processOrders 3)).tradeHeap t).Size
              else (((endState (buyQueued.processOrders 3)).tradeHeap t).EntryPrice - c)
                  * ((endState (buyQueued.processOrders 3)).tradeHeap t).Size)).sum) :=
  ⟨by decide!,
    C5_equity_recorded buyQueued 3 (endState (buyQueued.processOrders 3))
      ⟨by decide!, by decide!, by decide!, by decide!, by decide!, by decide!⟩
      (ok_of_faultOf_none (by decide!)) (by decide!)⟩

theorem eraseOpt_eq_filter (l : List Nat) (l0 l1 : Option Nat) (hnd : l.Nodup) :
    eraseOpt (eraseOpt l l0) l1 = l.filter (fun o => decide (l0 ≠ some o ∧ l1 ≠ some o)) := by
  have key : ∀ (m : List Nat) (x : Option Nat), m.Nodup →
      eraseOpt m x = m.filter (fun o => decide (x ≠ some o)) := by
    intro m x hm
    cases x with
    | none => simp [eraseOpt]
    | some a =>
      simp only [eraseOpt]
      rw [hm.erase_eq_filter]
      apply List.filter_congr
      intro o _
      by_cases h : o = a
      · simp [h]
      · simp [h, Ne.symm h]
  have hnd0 : (eraseOpt l l0).Nodup := by
    cases l0 with
    | none => exact hnd
    | some a => exact hnd.erase a
  rw [key _ _ hnd0, key _ _ hnd, List.filter_filter]
  apply List.filter_congr
  intro o _
  by_cases h0 : l0 = some o <;> by_cases h1 : l1 = some o <;> simp [h0, h1]

/-- C6: `closeTrade` on an open trade at a positive price sets the exit price
and bar, moves the trade from the open to the closed trades, takes its pending
leg orders off the queue (the other orders keep their order), changes the cash
by `(p - entry) * size` for a long and `(entry - p) * size` for a short trade,
and leaves every other trade as it was. -/
theorem C6_closeTrade_effect (b : broker) (t : Nat) (p : ℚ) (bar : Int) (c : ℚ)
    (hopen : t ∈ b.openTrades) (hnd : b.openTrades.Nodup) (hqnd : b.queue.Nodup)
    (harr : b.orders.arr ≠ b.trades.arr) (hc : b.data.LastClose = some c)
    (h0 : ∀ o ∈ (b.tradeHeap t).legs0, o ∈ b.queue)
    (h1 : ∀ o ∈ (b.tradeHeap t).legs1, o ∈ b.queue)
    (hd : (b.tradeHeap t).legs0 = none ∨ (b.tradeHeap t).legs0 ≠ (b.tradeHeap t).legs1)
    (hp : 0 < p) :
    ∃ b1, b.closeTrade t p bar = .ok b1 ∧
      b1.tradeHeap t = { b.tradeHeap t with ExitPrice := p, ExitBar := bar } ∧
      t ∉ b1.openTrades ∧ b1.openTrades = b.openTrades.erase t ∧
      b1.closedTrades = b.closedTrades ++ [t] ∧
      b1.queue = b.queue.filter
        (fun o => decide ((b.tradeHeap t).legs0 ≠ some o ∧ (b.tradeHeap t).legs1 ≠ some o)) ∧
      b1.cash = b.cash +
        (if (b.tradeHeap t).Side = Side.Buy then
          (p - (b.tradeHeap t).EntryPrice) * (b.tradeHeap t).Size
        else ((b.tradeHeap t).EntryPrice - p) * (b.tradeHeap t).Size) ∧
      (∀ x, x ≠ t → b1.tradeHeap x = b.tradeHeap x) := by
  obtain ⟨b1, e1, o1, q1, c1, t1, m1, _⟩ := b.closeTrade_spec t p bar c hopen harr hc
    (fun o h => h0 o h) (fun o h => h1 o h)
    (by
      intro o h h'
      rcases hd with hd | hd
      · rw [hd] at h; cases h
      · exact hd (h.trans h'.symm))
  refine ⟨b1, e1, ?_, ?_, o1, c1, ?_, ?_, ?_⟩
  · rw [t1, Function.update_same]
  · rw [o1]
    exact fun h => (hnd.mem_erase_iff.mp h).1 rfl
  · rw [q1, eraseOpt_eq_filter _ _ _ hqnd]
  · rw [m1, if_pos hp]
    rfl
  · intro x hx
    rw [t1, Function.update_noteq hx]

/-- Witness for C6 on `held`: closing trade 1 (long, size 10, entry 100) at 103
takes its two legs off the queue and adds 30 to the cash. -/
theorem C6_closeTrade_effect_witness :
    (held.openTrades = [1] ∧ held.queue = [3, 2] ∧ (held.tradeHeap 1).legs0 = some 2 ∧
      (held.tradeHeap 1).legs1 = some 3 ∧
      (endState (held.closeTrade 1 103 0)).queue = [] ∧
      (endState (held.closeTrade 1 103 0)).cash = 10030) ∧
    ∃ b1, held.closeTrade 1 103 0 = .ok b1 ∧
      b1.tradeHeap 1 = { held.tradeHeap 1 with ExitPrice := 103, ExitBar := 0 } ∧
      1 ∉ b1.openTrades ∧ b1.openTrades = held.openTrades.erase 1 ∧
      b1.closedTrades = held.closedTrades ++ [1] ∧
      b1.queue = held.queue.filter
        (fun o => decide ((held.tradeHeap 1).legs0 ≠ some o ∧ (held.tradeHeap 1).legs1 ≠ some o)) ∧
      b1.cash = held.cash +
        (if (held.tradeHeap 1).Side = Side.Buy then
          (103 - (held.tradeHeap 1).EntryPrice) * (held.tradeHeap 1).Size
        else ((held.tradeHeap 1).EntryPrice - 103) * (held.tradeHeap 1).Size) ∧
      (∀ x, x ≠ 1 → b1.tradeHeap x = held.tradeHeap x) :=
  ⟨by decide!,
    C6_closeTrade_effect held 1 103 0 100 (by decide!) (by decide!) (by decide!) (by decide!)
      (by decide!) (by decide!) (by decide!) (by decide!) (by decide!)⟩

/-- C7: reducing a trade by its whole size is closing it: `reduceTrade` with
the size of the trade and `closeTrade` are the same computation, with the same
result on every ledger. -/
theorem C7_reduce_whole_is_close (b : broker) (t : Nat) (p : ℚ) (bar : Int) :
    b.reduceTrade t (b.tradeHeap t).Size p bar = b.closeTrade t p bar := by
  simp [broker.reduceTrade]

/-- C8: positive reductions that add up to the size of an open trade succeed,
the last one closing the trade; the closed records they append have the sizes
of the reductions, the side, entry price and entry bar of the trade and the
prices and bars of the reductions as exit; and when all reductions are at one
positive price `p`, the realized profits of the records add up to the profit
of closing the whole trade at `p`, which is also the change of the cash. -/
theorem C8_reductions_split_the_trade (b : broker) (t : Nat) (rs : List Reduction) (c : ℚ)
    (hopen : t ∈ b.openTrades) (hfresh : ∀ x ∈ b.openTrades, x < b.nextId)
    (hord : b.orders.arr < b.nextArr) (harr : b.orders.arr ≠ b.trades.arr)
    (hc : b.data.LastClose = some c)
    (h0 : ∀ o ∈ (b.tradeHeap t).legs0, o ∈ b.queue)
    (h1 : ∀ o ∈ (b.tradeHeap t).legs1, o ∈ b.queue)
    (hd : (b.tradeHeap t).legs0 = none ∨ (b.tradeHeap t).legs0 ≠ (b.tradeHeap t).legs1)
    (hne : rs ≠ []) (hpos : ∀ r ∈ rs, 0 < r.size)
    (hsum : (rs.map Reduction.size).sum = (b.tradeHeap t).Size) :
    ∃ b1 recs, b.reduceAll t rs = .ok b1 ∧
      b1.closedTrades = b.closedTrades ++ recs ∧
      recs.map (fun r => (b1.tradeHeap r).Size) = rs.map Reduction.size ∧
      (recs.map (fun r => (b1.tradeHeap r).Size)).sum = (b.tradeHeap t).Size ∧
      (∀ r ∈ recs, (b1.tradeHeap r).Side = (b.tradeHeap t).Side ∧
        (b1.tradeHeap r).EntryPrice = (b.tradeHeap t).EntryPrice ∧
        (b1.tradeHeap r).EntryBar = (b.tradeHeap t).EntryBar) ∧
      recs.map (fun r => (b1.tradeHeap r).ExitPrice) = rs.map Reduction.price ∧
      recs.map (fun r => (b1.tradeHeap r).ExitBar) = rs.map Reduction.bar ∧
      (∀ p, 0 < p → (∀ r ∈ rs, r.price = p) →
        (recs.map (fun r => (b1.tradeHeap r).realized)).sum =
          pnlAt (b.tradeHeap t).Side (b.tradeHeap t).Size (b.tradeHeap t).EntryPrice p ∧
        b1.cash = b.cash +
          pnlAt (b.tradeHeap t).Side (b.tradeHeap t).Size (b.tradeHeap t).EntryPrice p) := by
  obtain ⟨b1, recs, e1, c1, r1, m1, _, _⟩ := broker.reduceAll_spec rs b t c hopen hfresh hord harr hc
    (fun o h => h0 o h) (fun o h => h1 o h)
    (by
      intro o h h'
      rcases hd with hd | hd
      · rw [hd] at h; cases h
      · exact hd (h.trans h'.symm))
    hne hpos hsum
  have hsize : recs.map (fun r => (b1.tradeHeap r).Size) = rs.map Reduction.size := by
    have := congrArg (List.map Trade.Size) r1
    simpa [List.map_map, Function.comp_def] using this
  have hexit : recs.map (fun r => (b1.tradeHeap r).ExitPrice) = rs.map Reduction.price := by
    have := congrArg (List.map Trade.ExitPrice) r1
    simpa [List.map_map, Function.comp_def] using this
  have hreal : recs.map (fun r => (b1.tradeHeap r).realized) =
      rs.map (fun r => pnlAt (b.tradeHeap t).Side r.size (b.tradeHeap t).EntryPrice r.price) := by
    have := congrArg (List.map Trade.realized) r1
    simpa [List.map_map, Function.comp_def, Trade.realized] using this
  refine ⟨b1, recs, e1, c1, hsize, by rw [hsize, hsum], ?_, hexit, ?_, ?_⟩
  · intro r hr
    have hmem : ({ b1.tradeHeap r with legs0 := none, legs1 := none } : Trade) ∈
        rs.map (fun r => ({ b.tradeHeap t with
          Size := r.size, ExitPrice := r.price, ExitBar := r.bar, legs0 := none,
          legs1 := none } : Trade)) := by
      rw [← r1]
      exact List.mem_map.mpr ⟨r, hr, rfl⟩
    obtain ⟨x, _, hx⟩ := List.mem_map.mp hmem
    have hs := congrArg Trade.Side hx
    have he := congrArg Trade.EntryPrice hx
    have hb := congrArg Trade.EntryBar hx
    exact ⟨hs.symm, he.symm, hb.symm⟩
  · have := congrArg (List.map Trade.ExitBar) r1
    simpa [List.map_map, Function.comp_def] using this
  · intro p hp hall
    have hmap : rs.map (fun r => pnlAt (b.tradeHeap t).Side r.size (b.tradeHeap t).EntryPrice
        (if r.price > 0 then r.price else c)) =
        (rs.map Reduction.size).map
          (fun s => pnlAt (b.tradeHeap t).Side s (b.tradeHeap t).EntryPrice p) := by
      rw [List.map_map]
      apply List.map_congr_left
      intro r hr
      simp [hall r hr, hp]
    have hmap2 : rs.map (fun r => pnlAt (b.tradeHeap t).Side r.size (b.tradeHeap t).EntryPrice
        r.price) =
        (rs.map Reduction.size).map
          (fun s => pnlAt (b.tradeHeap t).Side s (b.tradeHeap t).EntryPrice p) := by
      rw [List.map_map]
      apply List.map_congr_left
      intro r hr
      simp [hall r hr]
    constructor
    · rw [hreal, hmap2, pnlAt_sum, hsum]
    · rw [m1, hmap, pnlAt_sum, hsum]

/-- Witness for C8 on `held`: trade 1 (long, size 10, entry 100) is reduced by
4 and then by 6 at 103; the two records have sizes 4 and 6 and the cash grows
by (103 - 100) * 10 = 30. -/
theorem C8_reductions_split_the_trade_witness :
    ((endState (held.reduceAll 1 [⟨4, 103, 0⟩, ⟨6, 103, 0⟩])).closedTrades = [4, 1] ∧
      (endState (held.reduceAll 1 [⟨4, 103, 0⟩, ⟨6, 103, 0⟩])).cash = 10030) ∧
    ∃ b1 recs, held.reduceAll 1 [⟨4, 103, 0⟩, ⟨6, 103, 0⟩] = .ok b1 ∧
      b1.closedTrades = held.closedTrades ++ recs ∧
      recs.map (fun r => (b1.tradeHeap r).Size) = [4, 6] ∧
      (recs.map (fun r => (b1.tradeHeap r).Size)).sum = (held.tradeHeap 1).Size ∧
      (∀ r ∈ recs, (b1.tradeHeap r).Side = (held.tradeHeap 1).Side ∧
        (b1.tradeHeap r).EntryPrice = (held.tradeHeap 1).EntryPrice ∧
        (b1.tradeHeap r).EntryBar = (held.tradeHeap 1).EntryBar) ∧
      recs.map (fun r => (b1.tradeHeap r).ExitPrice) = [103, 103] ∧
      recs.map (fun r => (b1.tradeHeap r).ExitBar) = [0, 0] ∧
      (∀ p, 0 < p → (∀ r ∈ [(⟨4, 103, 0⟩ : Reduction), ⟨6, 103, 0⟩], r.price = p) →
        (recs.map (fun r => (b1.tradeHeap r).realized)).sum =
          pnlAt (held.tradeHeap 1).Side (held.tradeHeap 1).Size (held.tradeHeap 1).EntryPrice p ∧
        b1.cash = held.cash +
          pnlAt (held.tradeHeap 1).Side (held.tradeHeap 1).Size (held.tradeHeap 1).EntryPrice p) :=
  ⟨by decide!,
    C8_reductions_split_the_trade held 1 [⟨4, 103, 0⟩, ⟨6, 103, 0⟩] 100 (by decide!) (by decide!)
      (by decide!) (by decide!) (by decide!) (by decide!) (by decide!) (by decide!) (by decide!)
      (by decide!) (by decide!)⟩

/-- The loop body of `processOrders` for a market order bound to an open
opposite-side trade: the trade is reduced and the order is left where it is. -/
theorem broker.processOrder_bound (b : broker) (reprocess : Bool) (o t barI : Nat)
    (bar prevBar : Bar)
    (hstop : (b.orderHeap o).Stop = 0) (hlimit : (b.orderHeap o).Limit = 0)
    (htrade : (b.orderHeap o).trade = some t)
    (hside : (b.tradeHeap t).Side ≠ (b.orderHeap o).Side)
    (hopen : t ∈ b.openTrades)
    (hpos : 0 < b.resolveSize o (if b.opts.tradeOnClose then prevBar.Close else bar.Open)) :
    ∀ b3, (b.setHit o OrderType.Market).reduceTrade t
        (b.resolveSize o (if b.opts.tradeOnClose then prevBar.Close else bar.Open))
        (if b.opts.tradeOnClose then prevBar.Close else bar.Open)
        (if b.opts.tradeOnClose then (barI : Int) - 1 else (barI : Int)) = .ok b3 →
      b.processOrder reprocess o barI bar prevBar = .ok (b3, reprocess) := by
  intro b3 hb3
  have h1 : b.stopStep o bar = some b := by simp [broker.stopStep, hstop]
  have h2 : b.priceStep o bar prevBar =
      some (b.setHit o OrderType.Market, if b.opts.tradeOnClose then prevBar.Close else bar.Open) := by
    simp [broker.priceStep, hstop, hlimit]
  have h3 : ∀ p, (b.setHit o OrderType.Market).resolveSize o p = b.resolveSize o p := by
    intro p; simp [broker.resolveSize, broker.setHit]
  have h4 : (b.setHit o OrderType.Market).barOfRecord o barI =
      if b.opts.tradeOnClose then (barI : Int) - 1 else (barI : Int) := by
    simp [broker.barOfRecord, broker.setHit]
  have h5 : Trade.indexOf (b.setHit o OrderType.Market) t = some (b.openTrades.indexOf t) :=
    indexIn_eq_some hopen
  simp only [broker.processOrder, h1, h2, h3, h4]
  rw [if_neg (ne_of_gt hpos)]
  have h6 : ((b.setHit o OrderType.Market).orderHeap o).trade = some t := by
    simp [broker.setHit, htrade]
  have h7 : ((b.setHit o OrderType.Market).orderHeap o).Side = (b.orderHeap o).Side := by
    simp [broker.setHit]
  have h8 : (b.setHit o OrderType.Market).tradeHeap = b.tradeHeap := rfl
  simp only [h6, h7, h8, h5, hside, ne_eq, not_false_eq_true, if_true, Option.isSome_some, hb3]

/-- C9: a market order (no stop, no limit) bound to an open opposite-side trade
of size `N`, alone in the queue, with resolved size `s`, `0 < s < N`, and fill
price `price > 0` (the open of the bar, or the previous close when trading on
close): settling the bar leaves the trade open with size `N - s`, gives its
legs the size `N - s`, appends one closed record of size `s` with the entry of
the trade and the fill price and bar as exit, and adds `(price - entry) * s`
(long) or `(entry - price) * s` (short) to the cash. -/
theorem C9_bound_order_reduces_trade (b : broker) (fuel o t : Nat) (bar prevBar : Bar)
    (s price : ℚ) (fillBar : Int)
    (hq : b.queue = [o]) (hlen : b.orders.len ≤ (b.arrays b.orders.arr).length)
    (hbar : b.data.bars[b.data.bars.length - 1]? = some bar)
    (hprev : b.data.bars[b.data.bars.length - 1 - 1]? = some prevBar)
    (hstop : (b.orderHeap o).Stop = 0) (hlimit : (b.orderHeap o).Limit = 0)
    (htrade : (b.orderHeap o).trade = some t)
    (hside : (b.tradeHeap t).Side ≠ (b.orderHeap o).Side)
    (hopen : t ∈ b.openTrades) (hfresh : ∀ x ∈ b.openTrades, x < b.nextId)
    (hord : b.orders.arr < b.nextArr)
    (hfill : price = if b.opts.tradeOnClose then prevBar.Close else bar.Open)
    (hfillBar : fillBar = if b.opts.tradeOnClose then ((b.data.bars.length - 1 : Nat) : Int) - 1
      else ((b.data.bars.length - 1 : Nat) : Int))
    (hsize : b.resolveSize o price = s) (hpos : 0 < s) (hlt : s < (b.tradeHeap t).Size)
    (hprice : 0 < price) :
    ∃ b1, b.processOrders (fuel + 1) = .ok b1 ∧
      b1.openTrades = b.openTrades ∧
      b1.tradeHeap t = { b.tradeHeap t with Size := (b.tradeHeap t).Size - s } ∧
      (∀ leg, (b.tradeHeap t).legs0 = some leg ∨ (b.tradeHeap t).legs1 = some leg →
        (b1.orderHeap leg).Size = (b.tradeHeap t).Size - s) ∧
      b1.closedTrades = b.closedTrades ++ [b.nextId] ∧
      b1.tradeHeap b.nextId = { b.tradeHeap t with
        Size := s, ExitPrice := price, ExitBar := fillBar, legs0 := none, legs1 := none } ∧
      b1.cash = b.cash +
        (if (b.tradeHeap t).Side = Side.Buy then (price - (b.tradeHeap t).EntryPrice) * s
        else ((b.tradeHeap t).EntryPrice - price) * s) := by
  subst hsize
  have hc : b.data.LastClose = some bar.Close := lastClose_of_getElem _ _ hbar
  have hlen1 : b.orders.len = 1 := by
    have h := congrArg List.length hq
    simp only [broker.queue, broker.live, List.length_take, List.length_singleton] at h
    omega
  have hslot : (b.arrays b.orders.arr)[0]? = some o := by
    have h : (b.queue)[0]? = some o := by rw [hq]; rfl
    simp only [broker.queue, broker.live, hlen1] at h
    rw [List.getElem?_take_of_lt (by omega)] at h
    exact h
  have htlt : t < b.nextId := hfresh t hopen
  obtain ⟨b1, e1, o1, _, c1, t1, oh1, m1, _⟩ :=
    (b.setHit o OrderType.Market).reduceTrade_remainder t (b.resolveSize o price) price fillBar
      bar.Close hfresh hord hc hlt
  have hpos2 : 0 < b.resolveSize o (if b.opts.tradeOnClose then prevBar.Close else bar.Open) := by
    rw [← hfill]; exact hpos
  have hbody := b.processOrder_bound false o t (b.data.bars.length - 1) bar prevBar
    hstop hlimit htrade hside hopen hpos2 b1 (by rw [← hfill, ← hfillBar]; exact e1)
  have hn : (b.setHit o OrderType.Market).nextId = b.nextId := rfl
  have hth : (b.setHit o OrderType.Market).tradeHeap = b.tradeHeap := rfl
  rw [hn, hth] at t1
  rw [hth] at oh1 m1
  refine ⟨b1, ?_, o1, ?_, ?_, c1, ?_, ?_⟩
  · simp only [broker.processOrders, Nat.zero_max, hbar, hprev, hlen1, broker.ordersLoop, hslot,
      hbody]
    rfl
  · rw [t1, Function.update_noteq (Nat.ne_of_lt htlt), Function.update_same]
  · intro leg hleg
    rw [oh1 leg]
    rw [if_pos hleg]
  · rw [t1, Function.update_same]
  · rw [m1, if_pos hprice]
    rfl

/-- Witness for C9 on `trimReady`: the long trade of size 10 entered at 50 is
reduced by the bound sell of size 4, filled at the open 60 of bar 1: the trade
stays open with size 6, one closed record of size 4 is appended, and the cash
grows by (60 - 50) * 4 = 40. -/
theorem C9_bound_order_reduces_trade_witness :
    (trimReady.queue = [2] ∧ trimReady.openTrades = [1] ∧ (trimReady.tradeHeap 1).Size = 10 ∧
      (trimReady.tradeHeap 1).EntryPrice = 50 ∧ trimReady.cash = 10000 ∧
      trimReady.resolveSize 2 60 = 4) ∧
    ∃ b1, trimReady.processOrders (0 + 1) = .ok b1 ∧
      b1.openTrades = trimReady.openTrades ∧
      b1.tradeHeap 1 = { trimReady.tradeHeap 1 with Size := (trimReady.tradeHeap 1).Size - 4 } ∧
      (∀ leg, (trimReady.tradeHeap 1).legs0 = some leg ∨ (trimReady.tradeHeap 1).legs1 = some leg →
        (b1.orderHeap leg).Size = (trimReady.tradeHeap 1).Size - 4) ∧
      b1.closedTrades = trimReady.closedTrades ++ [trimReady.nextId] ∧
      b1.tradeHeap trimReady.nextId = { trimReady.tradeHeap 1 with
        Size := 4, ExitPrice := 60, ExitBar := 1, legs0 := none, legs1 := none } ∧
      b1.cash = trimReady.cash +
        (if (trimReady.tradeHeap 1).Side = Side.Buy then
          (60 - (trimReady.tradeHeap 1).EntryPrice) * 4
        else ((trimReady.tradeHeap 1).EntryPrice - 60) * 4) :=
  ⟨by decide!,
    C9_bound_order_reduces_trade trimReady 0 2 1 (flatBar 60) (flatBar 50) 4 60 1 (by decide!)
      (by decide!) (by decide!) (by decide!) (by decide!) (by decide!) (by decide!) (by decide!)
      (by decide!) (by decide!) (by decide!) (by decide!) (by decide!) (by decide!) (by decide!)
      (by decide!) (by decide!)⟩

theorem broker.cancelUnbound_fault (hs : Nat) :
    ∀ (n i : Nat) (b : broker), ∀ f ∈ faultOf (broker.cancelUnbound hs n i b),
      f = Fault.noOrderFound ∨ f = Fault.indexOutOfRange := by
  intro n
  induction n with
  | zero => intro i b f hf; simp [broker.cancelUnbound, faultOf] at hf
  | succ n ih =>
    intro i b f hf
    simp only [broker.cancelUnbound] at hf
    cases hslot : (b.arrays hs)[i]? with
    | none =>
      simp only [hslot, faultOf, Option.mem_def, Option.some.injEq] at hf
      exact Or.inr hf.symm
    | some o =>
      simp only [hslot] at hf
      by_cases hb : (b.orderHeap o).trade = none
      · simp only [hb, if_true, Order.Cancel] at hf
        by_cases hm : o ∈ b.queue
        · obtain ⟨b1, e1, _⟩ := Order.remove_ok b o hm
          simp only [e1] at hf
          exact ih _ _ f hf
        · rw [Order.remove_missing b o hm] at hf
          simp only [faultOf, Option.mem_def, Option.some.injEq] at hf
          exact Or.inl hf.symm
      · simp only [hb, if_false] at hf
        exact ih _ _ f hf

theorem broker.closeAll_fault (hs : Nat) :
    ∀ (n i : Nat) (b : broker), ∀ f ∈ faultOf (broker.closeAll hs n i b),
      f = Fault.indexOutOfRange := by
  intro n
  induction n with
  | zero => intro i b f hf; simp [broker.closeAll, faultOf] at hf
  | succ n ih =>
    intro i b f hf
    simp only [broker.closeAll] at hf
    cases hslot : (b.arrays hs)[i]? with
    | none =>
      simp only [hslot, faultOf, Option.mem_def, Option.some.injEq] at hf
      exact hf.symm
    | some t =>
      simp only [hslot] at hf
      exact ih _ _ f hf

theorem checkPrices_both (opts : newOrderOpts) (r : ℚ) (hsl : 0 < opts.sl) (htp : 0 < opts.tp) :
    checkPrices opts r =
      if (opts.side = Side.Buy ∧ opts.sl < r ∧ r < opts.tp) ∨
          (opts.side = Side.Sell ∧ opts.sl > r ∧ r > opts.tp) then none
      else some (if opts.side = Side.Buy then Fault.longSlTp else Fault.shortSlTp) := by
  unfold checkPrices
  cases hside : opts.side with
  | Buy =>
    by_cases h : opts.sl < r ∧ r < opts.tp
    · have h1 : ¬ opts.sl > r := not_lt.mpr (le_of_lt h.1)
      have h2 : ¬ opts.tp < r := not_lt.mpr (le_of_lt h.2)
      simp [hsl, htp, h, h1, h2, h.1, h.2]
    · have h' : ¬ (opts.sl < r ∧ opts.tp > r) := h
      simp [hsl, htp, h, h']
  | Sell =>
    by_cases h : opts.sl > r ∧ r > opts.tp
    · have h1 : ¬ opts.sl < r := not_lt.mpr (le_of_lt h.1)
      have h2 : ¬ opts.tp > r := not_lt.mpr (le_of_lt h.2)
      simp [hsl, htp, h, h1, h2, h.1, h.2]
    · have h' : ¬ (opts.sl > r ∧ opts.tp < r) := h
      simp [hsl, htp, h, h']

/-- C10: with a stop loss and a take profit both supplied and a size that
passes the size check, `newOrder` aborts with the ordering violation, on the
unchanged ledger, exactly when the reference price `r` (limit, else stop, else
last close) fails `SL < r < TP` for a buy, `SL > r > TP` for a sell; when the
ordering holds no validation fault is raised, and with exclusive orders off the
order is accepted and queued. -/
theorem C10_sl_tp_ordering (b : broker) (opts : newOrderOpts) (r : ℚ)
    (hsl : 0 < opts.sl) (htp : 0 < opts.tp) (hr : b.refPrice opts = some r)
    (hsize : b.opts.fractionable = true ∨ opts.size ≤ 1 ∨ isWhole opts.size = true) :
    (¬ ((opts.side = Side.Buy ∧ opts.sl < r ∧ r < opts.tp) ∨
        (opts.side = Side.Sell ∧ opts.sl > r ∧ r > opts.tp)) →
      b.newOrder opts =
        .error (if opts.side = Side.Buy then Fault.longSlTp else Fault.shortSlTp, b)) ∧
    (((opts.side = Side.Buy ∧ opts.sl < r ∧ r < opts.tp) ∨
        (opts.side = Side.Sell ∧ opts.sl > r ∧ r > opts.tp)) →
      (∀ f ∈ faultOf (b.newOrder opts), f = Fault.noOrderFound ∨ f = Fault.indexOutOfRange) ∧
      (b.opts.exclusiveOrder = false →
        ∃ b1, b.newOrder opts = .ok (b1, b.nextId) ∧
          (b1.queue = b.nextId :: b.queue ∨ b1.queue = b.queue ++ [b.nextId]) ∧
          b1.orderHeap b.nextId =
            { Size := opts.size, Side := opts.side, Stop := opts.stop, Limit := opts.limit,
              SL := opts.sl, TP := opts.tp, trade := opts.trade, hitAtOt := none })) := by
  have hsz : ¬ ((!b.opts.fractionable) = true ∧ opts.size > 1 ∧ (!isWhole opts.size) = true) := by
    rintro ⟨h1, h2, h3⟩
    rcases hsize with h | h | h
    · simp [h] at h1
    · exact absurd h2 (not_lt.mpr h)
    · simp [h] at h3
  have hcp := checkPrices_both opts r hsl htp
  constructor
  · intro hbad
    rw [if_neg hbad] at hcp
    simp only [broker.newOrder, if_neg hsz, hr, hcp]
  · intro hgood
    rw [if_pos hgood] at hcp
    constructor
    · intro f hf
      simp only [broker.newOrder, if_neg hsz, hr, hcp] at hf
      split at hf
      · simp [faultOf] at hf
      · split at hf
        · rename_i e he
          split at he
          · rename_i hx
            split at he
            · rename_i e1 he1
              have := broker.cancelUnbound_fault _ _ _ _ f (by rw [he1]; cases he; exact hf)
              exact this
            · rename_i b1 he1
              have := broker.closeAll_fault _ _ _ _ f (by rw [he]; exact hf)
              exact Or.inr this
          · cases he
        · simp [faultOf] at hf
    · intro hex
      simp only [broker.newOrder, if_neg hsz, hr, hcp, hex]
      split
      · refine ⟨_, rfl, Or.inl ?_, ?_⟩
        · simp [broker.queue, broker.live, broker.slicePrepend]
        · simp
      · refine ⟨_, rfl, Or.inr ?_, ?_⟩
        · simp [broker.queue, broker.live, broker.sliceAppend]
        · simp

/-- Witness for C10 on `firstBar` (last close 102): a buy with stop loss 96 and
take profit 104 is accepted and queued; with stop loss 103 it is refused with
the ordering violation. -/
theorem C10_sl_tp_ordering_witness :
    (firstBar.refPrice ⟨0, Side.Buy, 0, 0, 96, 104, none⟩ = some 102 ∧
      faultOf (firstBar.newOrder ⟨0, Side.Buy, 0, 0, 96, 104, none⟩) = none ∧
      faultOf (firstBar.newOrder ⟨0, Side.Buy, 0, 0, 103, 104, none⟩) = some Fault.longSlTp) ∧
    ((¬ (((⟨0, Side.Buy, 0, 0, 96, 104, none⟩ : newOrderOpts).side = Side.Buy ∧
          (⟨0, Side.Buy, 0, 0, 96, 104, none⟩ : newOrderOpts).sl < 102 ∧
          102 < (⟨0, Side.Buy, 0, 0, 96, 104, none⟩ : newOrderOpts).tp) ∨
        ((⟨0, Side.Buy, 0, 0, 96, 104, none⟩ : newOrderOpts).side = Side.Sell ∧
          (⟨0, Side.Buy, 0, 0, 96, 104, none⟩ : newOrderOpts).sl > 102 ∧
          102 > (⟨0, Side.Buy, 0, 0, 96, 104, none⟩ : newOrderOpts).tp)) →
      firstBar.newOrder ⟨0, Side.Buy, 0, 0, 96, 104, none⟩ =
        .error (if (⟨0, Side.Buy, 0, 0, 96, 104, none⟩ : newOrderOpts).side = Side.Buy
          then Fault.longSlTp else Fault.shortSlTp, firstBar)) ∧
    ((((⟨0, Side.Buy, 0, 0, 96, 104, none⟩ : newOrderOpts).side = Side.Buy ∧
          (⟨0, Side.Buy, 0, 0, 96, 104, none⟩ : newOrderOpts).sl < 102 ∧
          102 < (⟨0, Side.Buy, 0, 0, 96, 104, none⟩ : newOrderOpts).tp) ∨
        ((⟨0, Side.Buy, 0, 0, 96, 104, none⟩ : newOrderOpts).side = Side.Sell ∧
          (⟨0, Side.Buy, 0, 0, 96, 104, none⟩ : newOrderOpts).sl > 102 ∧
          102 > (⟨0, Side.Buy, 0, 0, 96, 104, none⟩ : newOrderOpts).tp)) →
      (∀ f ∈ faultOf (firstBar.newOrder ⟨0, Side.Buy, 0, 0, 96, 104, none⟩),
        f = Fault.noOrderFound ∨ f = Fault.indexOutOfRange) ∧
      (firstBar.opts.exclusiveOrder = false →
        ∃ b1, firstBar.newOrder ⟨0, Side.Buy, 0, 0, 96, 104, none⟩ = .ok (b1, firstBar.nextId) ∧
          (b1.queue = firstBar.nextId :: firstBar.queue ∨
            b1.queue = firstBar.queue ++ [firstBar.nextId]) ∧
          b1.orderHeap firstBar.nextId =
            { Size := 0, Side := Side.Buy, Stop := 0, Limit := 0,
              SL := 96, TP := 104, trade := none, hitAtOt := none }))) :=
  ⟨by decide!,
    C10_sl_tp_ordering firstBar ⟨0, Side.Buy, 0, 0, 96, 104, none⟩ 102 (by decide!) (by decide!)
      (by decide!) (by decide!)⟩

/-- C11, at the failing inputs: on `firstBar` the reference price is the last
close 102; a buy with only a stop loss of 102, a buy with only a take profit of
102, a sell with only a stop loss of 102 and a sell with only a take profit of
102 are all accepted and queued, although the level equals the reference
price. -/
theorem C11_level_equal_to_price_is_accepted :
    firstBar.refPrice ⟨0, Side.Buy, 0, 0, 102, 0, none⟩ = some 102 ∧
    (faultOf (firstBar.newOrder ⟨0, Side.Buy, 0, 0, 102, 0, none⟩) = none ∧
      (endState (Strategy.Buy firstBar { noOpts with SL := 102 })).queue = [0]) ∧
    (faultOf (firstBar.newOrder ⟨0, Side.Buy, 0, 0, 0, 102, none⟩) = none ∧
      (endState (Strategy.Buy firstBar { noOpts with TP := 102 })).queue = [0]) ∧
    (faultOf (firstBar.newOrder ⟨0, Side.Sell, 0, 0, 102, 0, none⟩) = none ∧
      (endState (Strategy.Sell firstBar { noOpts with SL := 102 })).queue = [0]) ∧
    (faultOf (firstBar.newOrder ⟨0, Side.Sell, 0, 0, 0, 102, none⟩) = none ∧
      (endState (Strategy.Sell firstBar { noOpts with TP := 102 })).queue = [0]) := by
  decide!

/-- C12: a submission that passes the validation of `newOrder`, with exclusive
orders off, puts the new order in front of the previous queue when its parent
trade is set and open, and behind it otherwise; the open trades, the closed
trades, the cash, the trade records and the other orders are as before. -/
theorem C12_queue_placement (b : broker) (opts : newOrderOpts) (r : ℚ)
    (hsize : b.opts.fractionable = true ∨ opts.size ≤ 1 ∨ isWhole opts.size = true)
    (hr : b.refPrice opts = some r) (hvalid : checkPrices opts r = none)
    (hex : b.opts.exclusiveOrder = false) (harr : b.trades.arr < b.nextArr) :
    ∃ b1, b.newOrder opts = .ok (b1, b.nextId) ∧
      (∀ t, opts.trade = some t → t ∈ b.openTrades → b1.queue = b.nextId :: b.queue) ∧
      ((∀ t, opts.trade = some t → t ∉ b.openTrades) → b1.queue = b.queue ++ [b.nextId]) ∧
      b1.openTrades = b.openTrades ∧ b1.closedTrades = b.closedTrades ∧ b1.cash = b.cash ∧
      b1.tradeHeap = b.tradeHeap ∧ (∀ o, o ≠ b.nextId → b1.orderHeap o = b.orderHeap o) ∧
      b1.orderHeap b.nextId =
        { Size := opts.size, Side := opts.side, Stop := opts.stop, Limit := opts.limit,
          SL := opts.sl, TP := opts.tp, trade := opts.trade, hitAtOt := none } := by
  have hsz : ¬ ((!b.opts.fractionable) = true ∧ opts.size > 1 ∧ (!isWhole opts.size) = true) := by
    rintro ⟨h1, h2, h3⟩
    rcases hsize with h | h | h
    · simp [h] at h1
    · exact absurd h2 (not_lt.mpr h)
    · simp [h] at h3
  have hne : b.nextArr ≠ b.trades.arr := Ne.symm (Nat.ne_of_lt harr)
  by_cases hfront : ∃ t, opts.trade = some t ∧ t ∈ b.openTrades
  · obtain ⟨t, ht, hmem⟩ := hfront
    have hcond : opts.trade.isSome = true ∧
        (opts.trade.bind (Trade.indexOf { b with
          orderHeap := (Function.update b.orderHeap b.nextId
            { Size := opts.size, Side := opts.side, Stop := opts.stop, Limit := opts.limit,
              SL := opts.sl, TP := opts.tp, trade := opts.trade, hitAtOt := none })
          nextId := b.nextId + 1 })).isSome = true := by
      rw [ht]
      refine ⟨rfl, ?_⟩
      simp only [Option.some_bind]
      have : Trade.indexOf { b with
          orderHeap := (Function.update b.orderHeap b.nextId
            { Size := opts.size, Side := opts.side, Stop := opts.stop, Limit := opts.limit,
              SL := opts.sl, TP := opts.tp, trade := some t, hitAtOt := none })
          nextId := b.nextId + 1 } t = some (b.openTrades.indexOf t) := indexIn_eq_some hmem
      rw [this]; rfl
    simp only [broker.newOrder, if_neg hsz, hr, hvalid, if_pos hcond]
    refine ⟨_, rfl, ?_, ?_, ?_, rfl, rfl, rfl, ?_, ?_⟩
    · intro _ _ _
      simp [broker.queue, broker.live, broker.slicePrepend]
    · intro hnot
      exact absurd hmem (hnot t ht)
    · simp only [broker.openTrades, broker.live, broker.slicePrepend]
      rw [Function.update_noteq (Ne.symm hne)]
    · intro o ho
      simp [Function.update_noteq ho]
    · simp
  · have hcond : ¬ (opts.trade.isSome = true ∧
        (opts.trade.bind (Trade.indexOf { b with
          orderHeap := (Function.update b.orderHeap b.nextId
            { Size := opts.size, Side := opts.side, Stop := opts.stop, Limit := opts.limit,
              SL := opts.sl, TP := opts.tp, trade := opts.trade, hitAtOt := none })
          nextId := b.nextId + 1 })).isSome = true) := by
      rintro ⟨h1, h2⟩
      cases ht : opts.trade with
      | none => rw [ht] at h1; cases h1
      | some t =>
        rw [ht] at h2
        simp only [Option.some_bind] at h2
        have hmem : t ∈ b.openTrades := by
          by_contra hn
          have h2a : (indexIn t b.openTrades).isSome = true := h2
          rw [indexIn_eq_none hn] at h2a
          cases h2a
        exact hfront ⟨t, ht, hmem⟩
    simp only [broker.newOrder, if_neg hsz, hr, hvalid, if_neg hcond, hex]
    refine ⟨_, rfl, ?_, ?_, ?_, rfl, rfl, rfl, ?_, ?_⟩
    · intro t ht hmem
      exact absurd ⟨t, ht, hmem⟩ hfront
    · intro _
      simp [broker.queue, broker.live, broker.sliceAppend]
    · simp only [broker.openTrades, broker.live, broker.sliceAppend]
      rw [Function.update_noteq (Ne.symm hne)]
    · intro o ho
      simp [Function.update_noteq ho]
    · simp

/-- Witness for C12 on `held`: a sell bound to the open trade 1 goes to the
front of the queue `[3, 2]`. -/
theorem C12_queue_placement_witness :
    (held.queue = [3, 2] ∧ held.openTrades = [1] ∧ held.nextId = 4 ∧
      (endState (Strategy.Sell held { noOpts with Size := 4, Trade := some 1 })).queue
        = [4, 3, 2] ∧
      (endState (Strategy.Sell held { noOpts with Size := 4 })).queue = [3, 2, 4]) ∧
    ∃ b1, held.newOrder ⟨4, Side.Sell, 0, 0, 0, 0, some 1⟩ = .ok (b1, held.nextId) ∧
      (∀ t, (⟨4, Side.Sell, 0, 0, 0, 0, some 1⟩ : newOrderOpts).trade = some t →
        t ∈ held.openTrades → b1.queue = held.nextId :: held.queue) ∧
      ((∀ t, (⟨4, Side.Sell, 0, 0, 0, 0, some 1⟩ : newOrderOpts).trade = some t →
        t ∉ held.openTrades) → b1.queue = held.queue ++ [held.nextId]) ∧
      b1.openTrades = held.openTrades ∧ b1.closedTrades = held.closedTrades ∧
      b1.cash = held.cash ∧ b1.tradeHeap = held.tradeHeap ∧
      (∀ o, o ≠ held.nextId → b1.orderHeap o = held.orderHeap o) ∧
      b1.orderHeap held.nextId =
        { Size := 4, Side := Side.Sell, Stop := 0, Limit := 0,
          SL := 0, TP := 0, trade := some 1, hitAtOt := none } :=
  ⟨by decide!,
    C12_queue_placement held ⟨4, Side.Sell, 0, 0, 0, 0, some 1⟩ 100 (by decide!) (by decide!)
      (by decide!) (by decide!) (by decide!)⟩

theorem broker.processOrder_eq_fill (b : broker) (reprocess : Bool) (o barI : Nat)
    (bar prevBar : Bar) :
    b.processOrder reprocess o barI bar prevBar =
      match b.stopStep o bar with
      | none => .ok (b, reprocess)
      | some b1 =>
        match b1.priceStep o bar prevBar with
        | none => .ok (b1, reprocess)
        | some (b2, price) => b2.fillOrder reprocess o barI price := by
  rfl

theorem ok_of_no_fault {α : Type} {r : Run α} (h : faultOf r = none) : ∃ v, r = .ok v := by
  cases r with
  | error e => cases h
  | ok v => exact ⟨v, rfl⟩

theorem Reachable.buy {b b1 : broker} (opts : TradeOpts) (hr : Reachable b)
    (h : Strategy.Buy b opts = .ok b1) : Reachable b1 := by
  simp only [Strategy.Buy] at h
  split at h
  · cases h
  · rename_i r hr2
    simp only [Except.ok.injEq] at h
    rw [← h]
    exact Reachable.submit b _ r.1 r.2 hr hr2

theorem Reachable.sell {b b1 : broker} (opts : TradeOpts) (hr : Reachable b)
    (h : Strategy.Sell b opts = .ok b1) : Reachable b1 := by
  simp only [Strategy.Sell] at h
  split at h
  · cases h
  · rename_i r hr2
    simp only [Except.ok.injEq] at h
    rw [← h]
    exact Reachable.submit b _ r.1 r.2 hr hr2

theorem firstBar_reachable : Reachable firstBar :=
  Reachable.bars _ _ _ (Reachable.init 1 (exOpts 10000))

theorem buyQueued_reachable : Reachable buyQueued := by
  obtain ⟨v, hv⟩ := ok_of_no_fault (show faultOf (Strategy.Buy firstBar noOpts) = none by decide!)
  have h : buyQueued = v := by
    show endState (Strategy.Buy firstBar noOpts) = v
    rw [hv]; rfl
  rw [h]
  exact firstBar_reachable.buy noOpts hv

theorem held_reachable : Reachable held := by
  have h0 : Reachable ((New 1 (exOpts 10000)).atBar
      [{ Open := 100, High := 101, Low := 99, Close := 100 }] 0) :=
    Reachable.bars _ _ _ (Reachable.init 1 (exOpts 10000))
  obtain ⟨v, hv⟩ := ok_of_no_fault (show faultOf (Strategy.Buy ((New 1 (exOpts 10000)).atBar
      [{ Open := 100, High := 101, Low := 99, Close := 100 }] 0)
      { noOpts with Size := 10, SL := 96, TP := 104 }) = none by decide!)
  have h1 : Reachable v := h0.buy _ hv
  have h2 : heldScenario = v.processOrders 3 := by
    simp only [heldScenario, hv]
  have h3 : heldScenario = .ok held := ok_of_faultOf_none (by decide!)
  exact Reachable.settle v 3 held h1 (h2 ▸ h3)

/-! ## The queue under the operations -/

theorem Tame.still (b : broker) : Tame b b :=
  ⟨Nat.le_refl _, fun _ h => Or.inl h, fun _ _ => rfl⟩

theorem Tame.followed {b b0 b1 : broker} (h1 : Tame b b0) (hf : ∀ o ∈ b0.queue, o < b0.nextId)
    (h2 : Tame b0 b1) : Tame b b1 where
  nextId := Nat.le_trans h1.nextId h2.nextId
  members := by
    intro o ho
    rcases h2.members o ho with h | ⟨hge, hb⟩
    · rcases h1.members o h with h' | ⟨hge, hb⟩
      · exact Or.inl h'
      · exact Or.inr ⟨hge, by rw [h2.parents o (hf o h)]; exact hb⟩
    · exact Or.inr ⟨Nat.le_trans h1.nextId hge, hb⟩
  parents := fun o ho =>
    (h2.parents o (Nat.lt_of_lt_of_le ho h1.nextId)).trans (h1.parents o ho)

theorem Lone.tame {b b1 : broker} (hl : Lone b) (hf : ∀ o ∈ b.queue, o < b.nextId)
    (ht : Tame b b1) : Lone b1 := by
  intro o1 h1 o2 h2 u1 u2
  have old : ∀ o ∈ b1.queue, (b1.orderHeap o).trade = none →
      o ∈ b.queue ∧ (b.orderHeap o).trade = none := by
    intro o ho hu
    rcases ht.members o ho with h | ⟨_, hb⟩
    · exact ⟨h, by rw [← ht.parents o (hf o h)]; exact hu⟩
    · exact absurd hu hb
  exact hl o1 (old o1 h1 u1).1 o2 (old o2 h2 u2).1 (old o1 h1 u1).2 (old o2 h2 u2).2

theorem Orderly.sameQueue {b b1 : broker} (h : Orderly b) (ho : b1.orders = b.orders)
    (ha : b1.arrays b.orders.arr = b.arrays b.orders.arr)
    (h1 : b1.orders.arr ≠ b1.trades.arr) (h2 : b1.orders.arr < b1.nextArr)
    (h3 : b1.trades.arr < b1.nextArr) (h4 : b1.trades.len ≤ (b1.arrays b1.trades.arr).length)
    (hn : b.nextId ≤ b1.nextId)
    (hp : ∀ o, o < b.nextId → (b1.orderHeap o).trade = (b.orderHeap o).trade) :
    Orderly b1 ∧ Tame b b1 := by
  have hq : b1.queue = b.queue := by
    simp only [broker.queue, broker.live, ho, ha]
  refine ⟨⟨h1, h2, h3, ?_, h4, ?_, ?_⟩, ⟨hn, ?_, hp⟩⟩
  · rw [ho, ha]; exact h.ordersIn
  · rw [hq]; exact h.queueNodup
  · rw [hq]; exact fun o hm => Nat.lt_of_lt_of_le (h.queueFresh o hm) hn
  · rw [hq]; exact fun o hm => Or.inl hm

theorem removed_length (a : List Nat) (n i : Nat) (hn : n ≤ a.length) (hi : i < n) :
    ((a.take n).eraseIdx i ++ a.drop (n - 1)).length = a.length := by
  rw [List.length_append, List.length_eraseIdx, List.length_drop, List.length_take]
  rw [if_pos (by omega)]
  omega

theorem Order.remove_orderly (b b1 : broker) (o : Nat) (h : Orderly b)
    (hr : Order.remove b o = .ok b1) : Orderly b1 ∧ Tame b b1 := by
  have hk := Order.remove_kept b b1 o h.arrNe hr
  have hnext : b1.nextArr = b.nextArr := by
    simp only [Order.remove] at hr
    split at hr
    · cases hr
    · simp only [Except.ok.injEq] at hr
      rw [← hr]
  have harr : b1.orders.arr = b.orders.arr := by
    simp only [Order.remove] at hr
    split at hr
    · cases hr
    · simp only [Except.ok.injEq] at hr
      rw [← hr]; rfl
  simp only [Order.remove] at hr
  split at hr
  · cases hr
  · rename_i i hi
    obtain ⟨hmem, hidx⟩ := indexIn_some_mem hi
    have hmem2 : o ∈ b.queue := hmem
    have hlt : b.queue.indexOf o < b.queue.length := List.indexOf_lt_length.mpr hmem2
    simp only [Except.ok.injEq] at hr
    have hq : b1.queue = b.queue.erase o := by
      rw [← hr]
      simp only [broker.queue, broker.live, broker.sliceRemove, Function.update_same]
      simp only [broker.queue, broker.live] at hlt hidx
      rw [hidx, take_removed _ _ _ hlt]
      exact List.eraseIdx_indexOf_eq_erase _ _
    have hilen : i < b.orders.len := by
      have : b.queue.length ≤ b.orders.len := by
        simp only [broker.queue, broker.live, List.length_take]; omega
      omega
    refine ⟨⟨?_, ?_, ?_, ?_, ?_, ?_, ?_⟩, ⟨?_, ?_, ?_⟩⟩
    · rw [harr, hk.trades]; exact h.arrNe
    · rw [harr, hnext]; exact h.ordersArr
    · rw [hk.trades, hnext]; exact h.tradesArr
    · rw [← hr]
      show b.orders.len - 1 ≤ ((b.sliceRemove b.orders i).1 b.orders.arr).length
      simp only [broker.sliceRemove, Function.update_same]
      rw [removed_length _ _ _ h.ordersIn hilen]
      exact Nat.le_trans (Nat.sub_le _ _) h.ordersIn
    · rw [hk.trades, hk.tradeArr]; exact h.tradesIn
    · rw [hq]; exact h.queueNodup.erase o
    · rw [hq]
      intro x hx
      have := h.queueFresh x (List.mem_of_mem_erase hx)
      rw [← hr]; exact this
    · rw [← hr]
    · rw [hq]
      exact fun x hx => Or.inl (List.mem_of_mem_erase hx)
    · intro x _
      rw [← hr]

theorem Trade.Close_orderly (b : broker) (t : Nat) (h : Orderly b) :
    Orderly (Trade.Close b t) ∧ Tame b (Trade.Close b t) := by
  have hk : (Trade.Close b t).arrays b.trades.arr = b.arrays b.trades.arr := by
    simp only [Trade.Close, broker.slicePrepend]
    rw [Function.update_noteq (Nat.ne_of_lt h.tradesArr)]
  have hq : (Trade.Close b t).queue = b.nextId :: b.queue := by
    simp only [Trade.Close, broker.queue, broker.live]
    exact live_slicePrepend b b.orders b.nextId
  have hnot : b.nextId ∉ b.queue := fun hm => Nat.lt_irrefl _ (h.queueFresh _ hm)
  refine ⟨⟨?_, ?_, ?_, ?_, ?_, ?_, ?_⟩, ⟨Nat.le_succ _, ?_, ?_⟩⟩
  · exact fun e => Nat.lt_irrefl _ (e ▸ h.tradesArr)
  · exact Nat.lt_succ_self _
  · exact Nat.lt_succ_of_lt h.tradesArr
  · simp [Trade.Close, broker.slicePrepend]
  · show b.trades.len ≤ ((Trade.Close b t).arrays b.trades.arr).length
    rw [hk]; exact h.tradesIn
  · rw [hq]; exact List.nodup_cons.mpr ⟨hnot, h.queueNodup⟩
  · rw [hq]
    intro x hx
    rcases List.mem_cons.mp hx with hx | hx
    · rw [hx]; exact Nat.lt_succ_self _
    · exact Nat.lt_succ_of_lt (h.queueFresh x hx)
  · rw [hq]
    intro x hx
    rcases List.mem_cons.mp hx with hx | hx
    · refine Or.inr ⟨by rw [hx], ?_⟩
      rw [hx]
      show (Function.update b.orderHeap b.nextId _ b.nextId).trade ≠ none
      rw [Function.update_same]
      exact Option.some_ne_none _
    · exact Or.inl hx
  · intro x hx
    show (Function.update b.orderHeap b.nextId _ x).trade = _
    rw [Function.update_noteq (Nat.ne_of_lt hx)]

theorem broker.cancelUnbound_orderly (hs : Nat) :
    ∀ (n i : Nat) (b b1 : broker), Orderly b → broker.cancelUnbound hs n i b = .ok b1 →
      Orderly b1 ∧ Tame b b1 := by
  intro n
  induction n with
  | zero =>
    intro i b b1 ho h
    simp only [broker.cancelUnbound, Except.ok.injEq] at h
    subst h; exact ⟨ho, Tame.still b⟩
  | succ n ih =>
    intro i b b1 ho h
    simp only [broker.cancelUnbound] at h
    split at h
    · cases h
    · split at h
      · split at h
        · cases h
        · rename_i b2 h2
          obtain ⟨o2, t2⟩ := Order.remove_orderly b b2 _ ho h2
          obtain ⟨o3, t3⟩ := ih _ _ _ o2 h
          exact ⟨o3, t2.followed o2.queueFresh t3⟩
      · exact ih _ _ _ ho h

theorem broker.closeAll_orderly (hs : Nat) :
    ∀ (n i : Nat) (b b1 : broker), Orderly b → broker.closeAll hs n i b = .ok b1 →
      Orderly b1 ∧ Tame b b1 := by
  intro n
  induction n with
  | zero =>
    intro i b b1 ho h
    simp only [broker.closeAll, Except.ok.injEq] at h
    subst h; exact ⟨ho, Tame.still b⟩
  | succ n ih =>
    intro i b b1 ho h
    simp only [broker.closeAll] at h
    split at h
    · cases h
    · rename_i t _
      obtain ⟨o2, t2⟩ := Trade.Close_orderly b t ho
      obtain ⟨o3, t3⟩ := ih _ _ _ o2 h
      exact ⟨o3, t2.followed o2.queueFresh t3⟩

theorem Orderly.registered (b : broker) (ord : Order) (h : Orderly b) :
    Orderly { b with
      orderHeap := (Function.update b.orderHeap b.nextId ord), nextId := b.nextId + 1 } ∧
    Tame b { b with
      orderHeap := (Function.update b.orderHeap b.nextId ord), nextId := b.nextId + 1 } := by
  refine ⟨⟨h.arrNe, h.ordersArr, h.tradesArr,
    h.ordersIn, h.tradesIn, h.queueNodup, fun o ho => Nat.lt_succ_of_lt (h.queueFresh o ho)⟩,
    ⟨Nat.le_succ _, fun o ho => Or.inl ho, ?_⟩⟩
  intro x hx
  show (Function.update b.orderHeap b.nextId _ x).trade = _
  rw [Function.update_noteq (Nat.ne_of_lt hx)]

theorem queue_pushed (b : broker) (id : Nat) :
    ({ b with
        arrays := (b.sliceAppend b.orders id).1
        nextArr := b.nextArr + 1
        orders := (b.sliceAppend b.orders id).2 } : broker).queue = b.queue ++ [id] := by
  simp only [broker.queue, broker.live]
  exact live_sliceAppend b b.orders id

theorem queue_fronted (b : broker) (id : Nat) :
    ({ b with
        arrays := (b.slicePrepend b.orders id).1
        nextArr := b.nextArr + 1
        orders := (b.slicePrepend b.orders id).2 } : broker).queue = id :: b.queue := by
  simp only [broker.queue, broker.live]
  exact live_slicePrepend b b.orders id

theorem Orderly.pushed (b : broker) (id : Nat) (h : Orderly b) (hid : id < b.nextId)
    (hnot : id ∉ b.queue) :
    Orderly { b with
      arrays := (b.sliceAppend b.orders id).1
      nextArr := b.nextArr + 1
      orders := (b.sliceAppend b.orders id).2 } := by
  have hk : (b.sliceAppend b.orders id).1 b.trades.arr = b.arrays b.trades.arr := by
    simp only [broker.sliceAppend]
    rw [Function.update_noteq (Nat.ne_of_lt h.tradesArr)]
  refine ⟨?_, ?_, ?_, ?_, ?_, ?_, ?_⟩
  · exact fun e => Nat.lt_irrefl _ (e ▸ h.tradesArr)
  · exact Nat.lt_succ_self _
  · exact Nat.lt_succ_of_lt h.tradesArr
  · simp [broker.sliceAppend]
  · show b.trades.len ≤ ((b.sliceAppend b.orders id).1 b.trades.arr).length
    rw [hk]; exact h.tradesIn
  · rw [queue_pushed]
    exact List.Nodup.append h.queueNodup (List.nodup_singleton _)
      (fun a ha hb => hnot (by rw [List.mem_singleton.mp hb] at ha; exact ha))
  · rw [queue_pushed]
    intro x hx
    rcases List.mem_append.mp hx with hx | hx
    · exact h.queueFresh x hx
    · rw [List.mem_singleton.mp hx]; exact hid

theorem Orderly.fronted (b : broker) (id : Nat) (h : Orderly b) (hid : id < b.nextId)
    (hnot : id ∉ b.queue) :
    Orderly { b with
      arrays := (b.slicePrepend b.orders id).1
      nextArr := b.nextArr + 1
      orders := (b.slicePrepend b.orders id).2 } := by
  have hk : (b.slicePrepend b.orders id).1 b.trades.arr = b.arrays b.trades.arr := by
    simp only [broker.slicePrepend]
    rw [Function.update_noteq (Nat.ne_of_lt h.tradesArr)]
  refine ⟨?_, ?_, ?_, ?_, ?_, ?_, ?_⟩
  · exact fun e => Nat.lt_irrefl _ (e ▸ h.tradesArr)
  · exact Nat.lt_succ_self _
  · exact Nat.lt_succ_of_lt h.tradesArr
  · simp [broker.slicePrepend]
  · show b.trades.len ≤ ((b.slicePrepend b.orders id).1 b.trades.arr).length
    rw [hk]; exact h.tradesIn
  · rw [queue_fronted]
    exact List.nodup_cons.mpr ⟨hnot, h.queueNodup⟩
  · rw [queue_fronted]
    intro x hx
    rcases List.mem_cons.mp hx with hx | hx
    · rw [hx]; exact hid
    · exact h.queueFresh x hx

theorem Orderly.mem_fronted {b : broker} (_h : Orderly b) {id x : Nat}
    (hx : x ∈ ({ b with
        arrays := (b.slicePrepend b.orders id).1
        nextArr := b.nextArr + 1
        orders := (b.slicePrepend b.orders id).2 } : broker).queue) : x = id ∨ x ∈ b.queue := by
  rw [queue_fronted] at hx
  exact List.mem_cons.mp hx

theorem Orderly.mem_pushed {b : broker} (_h : Orderly b) {id x : Nat}
    (hx : x ∈ ({ b with
        arrays := (b.sliceAppend b.orders id).1
        nextArr := b.nextArr + 1
        orders := (b.sliceAppend b.orders id).2 } : broker).queue) : x ∈ b.queue ∨ x = id := by
  rw [queue_pushed] at hx
  rcases List.mem_append.mp hx with hx | hx
  · exact Or.inl hx
  · exact Or.inr (List.mem_singleton.mp hx)

theorem Tame.afterRegister {b b0 b2 : broker} {tr : Option Nat} (ho : Orderly b)
    (t0 : Tame b b0) (o0 : Orderly b0) (hq : b0.queue = b.queue) (hn : b0.nextId = b.nextId + 1)
    (hreg : (b0.orderHeap b.nextId).trade = tr) (t2 : Tame b0 b2) :
    Tame b b2 ∧ b.nextId < b2.nextId ∧ b.nextId ∉ b2.queue ∧
      (b2.orderHeap b.nextId).trade = tr := by
  have hlt : b.nextId < b2.nextId := by
    have := t2.nextId
    omega
  refine ⟨t0.followed o0.queueFresh t2, hlt, ?_, ?_⟩
  · intro hm
    rcases t2.members _ hm with h | ⟨hge, _⟩
    · rw [hq] at h
      exact Nat.lt_irrefl _ (ho.queueFresh _ h)
    · omega
  · rw [t2.parents b.nextId (by omega)]
    exact hreg

theorem broker.newOrder_orderly (b : broker) (opts : newOrderOpts) (b1 : broker) (id : Nat)
    (ho : Orderly b) (h : b.newOrder opts = .ok (b1, id)) :
    Orderly b1 ∧ (opts.trade ≠ none → Tame b b1) := by
  obtain ⟨o0, t0⟩ := Orderly.registered b
    { Size := opts.size, Side := opts.side, Stop := opts.stop, Limit := opts.limit,
      SL := opts.sl, TP := opts.tp, trade := opts.trade, hitAtOt := none } ho
  simp only [broker.newOrder] at h
  split at h
  · cases h
  · split at h
    · cases h
    · split at h
      · cases h
      · split at h
        · simp only [Except.ok.injEq, Prod.mk.injEq] at h
          rw [← h.1]
          have hnot : b.nextId ∉ b.queue := fun hm => Nat.lt_irrefl _ (ho.queueFresh _ hm)
          refine ⟨Orderly.fronted _ b.nextId o0 (Nat.lt_succ_self _) hnot, fun hb => ?_⟩
          refine ⟨Nat.le_succ _, ?_, t0.parents⟩
          intro x hx
          rcases o0.mem_fronted hx with hx | hx
          · refine Or.inr ⟨by rw [hx], ?_⟩
            rw [hx]
            show (Function.update b.orderHeap b.nextId _ b.nextId).trade ≠ none
            rw [Function.update_same]
            exact hb
          · exact Or.inl hx
        · split at h
          · cases h
          · rename_i b2 h2
            simp only [Except.ok.injEq, Prod.mk.injEq] at h
            rw [← h.1]
            have k2 : Orderly b2 ∧ Tame b b2 ∧ b.nextId < b2.nextId ∧ b.nextId ∉ b2.queue ∧
                (b2.orderHeap b.nextId).trade = opts.trade := by
              split at h2
              · split at h2
                · cases h2
                · rename_i b3 h3
                  obtain ⟨o3, t3⟩ := broker.cancelUnbound_orderly _ _ _ _ _ o0 h3
                  obtain ⟨o4, t4⟩ := broker.closeAll_orderly _ _ _ _ _ o3 h2
                  exact ⟨o4, Tame.afterRegister ho t0 o0 rfl rfl (by simp)
                    (t3.followed o3.queueFresh t4)⟩
              · simp only [Except.ok.injEq] at h2
                rw [← h2]
                exact ⟨o0, Tame.afterRegister ho t0 o0 rfl rfl (by simp) (Tame.still _)⟩
            obtain ⟨o2, t02, hlt, hnot, htr⟩ := k2
            refine ⟨Orderly.pushed b2 b.nextId o2 hlt hnot, fun hb => ?_⟩
            refine ⟨t02.nextId, ?_, t02.parents⟩
            intro x hx
            rcases o2.mem_pushed hx with hx | hx
            · exact t02.members x hx
            · refine Or.inr ⟨by rw [hx], ?_⟩
              rw [hx]
              show (b2.orderHeap b.nextId).trade ≠ none
              rw [htr]
              exact hb

theorem Orderly.thenSame {b0 b b1 : broker} (t0 : Tame b0 b) (h : Orderly b)
    (ho : b1.orders = b.orders) (ha : b1.arrays b.orders.arr = b.arrays b.orders.arr)
    (h1 : b1.orders.arr ≠ b1.trades.arr) (h2 : b1.orders.arr < b1.nextArr)
    (h3 : b1.trades.arr < b1.nextArr) (h4 : b1.trades.len ≤ (b1.arrays b1.trades.arr).length)
    (hn : b.nextId ≤ b1.nextId)
    (hp : ∀ o, o < b.nextId → (b1.orderHeap o).trade = (b.orderHeap o).trade) :
    Orderly b1 ∧ Tame b0 b1 := by
  obtain ⟨o1, t1⟩ := h.sameQueue ho ha h1 h2 h3 h4 hn hp
  exact ⟨o1, t0.followed h.queueFresh t1⟩

theorem Trade.setContingent_orderly (b : broker) (t i : Nat) (price : ℚ) (b1 : broker)
    (ho : Orderly b) (h : Trade.setContingent b t i price = .ok b1) :
    Orderly b1 ∧ Tame b b1 := by
  simp only [Trade.setContingent] at h
  split at h
  · cases h
  · split at h
    · cases h
    · rename_i b2 h2
      have k2 : Orderly b2 ∧ Tame b b2 := by
        split at h2
        · exact Order.remove_orderly b b2 _ ho h2
        · simp only [Except.ok.injEq] at h2
          rw [← h2]; exact ⟨ho, Tame.still b⟩
      obtain ⟨o2, t2⟩ := k2
      split at h
      · cases h
      · rename_i b3 o h3
        obtain ⟨o3, t3⟩ := broker.newOrder_orderly _ _ _ _ o2 h3
        have t23 := t2.followed o2.queueFresh (t3 (Option.some_ne_none _))
        simp only [Except.ok.injEq] at h
        rw [← h]
        refine Orderly.thenSame t23 o3 rfl rfl o3.arrNe o3.ordersArr o3.tradesArr o3.tradesIn
          (Nat.le_refl _) ?_
        intro x _
        show (Function.update b3.orderHeap o _ x).trade = _
        by_cases hxo : x = o
        · subst hxo
          rw [Function.update_same]
          split <;> rfl
        · rw [Function.update_noteq hxo]

theorem broker.removeLegs_orderly (b : broker) (l0 l1 : Option Nat) (b1 : broker)
    (ho : Orderly b) (h : b.removeLegs l0 l1 = .ok b1) : Orderly b1 ∧ Tame b b1 := by
  cases l0 with
  | none =>
    cases l1 with
    | none =>
      simp only [broker.removeLegs, Except.ok.injEq] at h
      rw [← h]; exact ⟨ho, Tame.still b⟩
    | some o1 =>
      simp only [broker.removeLegs] at h
      exact Order.remove_orderly b b1 o1 ho h
  | some o0 =>
    cases h0 : Order.remove b o0 with
    | error e => simp [broker.removeLegs, h0] at h
    | ok b2 =>
      obtain ⟨o2, t2⟩ := Order.remove_orderly b b2 o0 ho h0
      cases l1 with
      | none =>
        simp only [broker.removeLegs, h0, Except.ok.injEq] at h
        rw [← h]; exact ⟨o2, t2⟩
      | some o1 =>
        simp only [broker.removeLegs, h0] at h
        obtain ⟨o3, t3⟩ := Order.remove_orderly b2 b1 o1 o2 h
        exact ⟨o3, t2.followed o2.queueFresh t3⟩

theorem broker.closeTrade_orderly (b : broker) (t : Nat) (p : ℚ) (bar : Int) (b1 : broker)
    (ho : Orderly b) (h : b.closeTrade t p bar = .ok b1) : Orderly b1 ∧ Tame b b1 := by
  simp only [broker.closeTrade] at h
  split at h
  · cases h
  · rename_i i hi
    obtain ⟨hmem, hidx⟩ := indexIn_some_mem hi
    have hmem2 : t ∈ b.openTrades := hmem
    have hlt : b.openTrades.indexOf t < b.openTrades.length := List.indexOf_lt_length.mpr hmem2
    have hilen : i < b.trades.len := by
      have : b.openTrades.length ≤ b.trades.len := by
        simp only [broker.openTrades, broker.live, List.length_take]; omega
      have hidx2 : i = b.openTrades.indexOf t := hidx
      omega
    split at h
    · cases h
    · rename_i b4 h4
      have k3 : Orderly
          { b with
            tradeHeap := (Function.update b.tradeHeap t
              { b.tradeHeap t with ExitPrice := p, ExitBar := bar })
            closedTrades := b.closedTrades ++ [t]
            arrays := (b.sliceRemove b.trades i).1
            trades := (b.sliceRemove b.trades i).2 } ∧ Tame b
          { b with
            tradeHeap := (Function.update b.tradeHeap t
              { b.tradeHeap t with ExitPrice := p, ExitBar := bar })
            closedTrades := b.closedTrades ++ [t]
            arrays := (b.sliceRemove b.trades i).1
            trades := (b.sliceRemove b.trades i).2 } := by
        refine ho.sameQueue rfl ?_ ho.arrNe ho.ordersArr ho.tradesArr ?_ (Nat.le_refl _)
          (fun _ _ => rfl)
        · simp only [broker.sliceRemove]
          rw [Function.update_noteq ho.arrNe]
        · show b.trades.len - 1 ≤ ((b.sliceRemove b.trades i).1 b.trades.arr).length
          simp only [broker.sliceRemove, Function.update_same]
          rw [removed_length _ _ _ ho.tradesIn hilen]
          exact Nat.le_trans (Nat.sub_le _ _) ho.tradesIn
      obtain ⟨o3, t3⟩ := k3
      obtain ⟨o4, t4⟩ := broker.removeLegs_orderly _ _ _ _ o3 h4
      have t34 := t3.followed o3.queueFresh t4
      split at h
      · cases h
      · simp only [Except.ok.injEq] at h
        rw [← h]
        exact Orderly.thenSame t34 o4 rfl rfl o4.arrNe o4.ordersArr o4.tradesArr o4.tradesIn
          (Nat.le_refl _) (fun _ _ => rfl)

theorem Orderly.opened (b : broker) (tr : Trade) (ho : Orderly b) :
    Orderly { b with
        tradeHeap := (Function.update b.tradeHeap b.nextId tr)
        nextId := b.nextId + 1
        arrays := (b.sliceAppend b.trades b.nextId).1
        nextArr := b.nextArr + 1
        trades := (b.sliceAppend b.trades b.nextId).2 } ∧
    Tame b { b with
        tradeHeap := (Function.update b.tradeHeap b.nextId tr)
        nextId := b.nextId + 1
        arrays := (b.sliceAppend b.trades b.nextId).1
        nextArr := b.nextArr + 1
        trades := (b.sliceAppend b.trades b.nextId).2 } := by
  refine ho.sameQueue rfl ?_ ?_ ?_ ?_ ?_ (Nat.le_succ _) (fun _ _ => rfl)
  · simp only [broker.sliceAppend]
    rw [Function.update_noteq (Nat.ne_of_lt ho.ordersArr)]
  · exact Nat.ne_of_lt ho.ordersArr
  · exact Nat.lt_succ_of_lt ho.ordersArr
  · exact Nat.lt_succ_self _
  · simp [broker.sliceAppend]

theorem broker.openTrade_orderly (b : broker) (side : Side) (size price sl tp : ℚ) (bar : Int)
    (b1 : broker) (ho : Orderly b) (h : b.openTrade side size price sl tp bar = .ok b1) :
    Orderly b1 ∧ Tame b b1 := by
  obtain ⟨o0, t0⟩ := Orderly.opened b
    { Size := size, Side := side, EntryPrice := price, ExitPrice := 0,
      EntryBar := bar, ExitBar := 0, legs0 := none, legs1 := none } ho
  simp only [broker.openTrade] at h
  split at h
  · cases h
  · rename_i b2 h2
    have k2 : Orderly b2 ∧ Tame b b2 := by
      split at h2
      · obtain ⟨o2, t2⟩ := Trade.setContingent_orderly _ _ _ _ _ o0 h2
        exact ⟨o2, t0.followed o0.queueFresh t2⟩
      · simp only [Except.ok.injEq] at h2
        rw [← h2]; exact ⟨o0, t0⟩
    obtain ⟨o2, t2⟩ := k2
    split at h
    · obtain ⟨o3, t3⟩ := Trade.setContingent_orderly _ _ _ _ _ o2 h
      exact ⟨o3, t2.followed o2.queueFresh t3⟩
    · simp only [Except.ok.injEq] at h
      rw [← h]; exact ⟨o2, t2⟩

theorem broker.reduceTrade_orderly (b : broker) (t : Nat) (size p : ℚ) (bar : Int) (b1 : broker)
    (ho : Orderly b) (h : b.reduceTrade t size p bar = .ok b1) : Orderly b1 ∧ Tame b b1 := by
  simp only [broker.reduceTrade] at h
  split at h
  · cases h
  · split at h
    · exact broker.closeTrade_orderly b t p bar b1 ho h
    · have k1 : Orderly (({ b with
          tradeHeap := (Function.update b.tradeHeap t
            { b.tradeHeap t with Size := (b.tradeHeap t).Size - size }) } : broker).resizeLegs t) ∧
          Tame b (({ b with
          tradeHeap := (Function.update b.tradeHeap t
            { b.tradeHeap t with Size := (b.tradeHeap t).Size - size }) } : broker).resizeLegs t) := by
        refine ho.sameQueue rfl rfl ho.arrNe ho.ordersArr ho.tradesArr ho.tradesIn (Nat.le_refl _) ?_
        intro x _
        rw [broker.resizeLegs_orderHeap]
        split <;> rfl
      obtain ⟨o1, t1⟩ := k1
      obtain ⟨o2, t2⟩ := Orderly.opened _
        { (({ b with
          tradeHeap := (Function.update b.tradeHeap t
            { b.tradeHeap t with Size := (b.tradeHeap t).Size - size }) } : broker).resizeLegs t).tradeHeap t
            with Size := size, legs0 := none, legs1 := none } o1
      obtain ⟨o3, t3⟩ := broker.closeTrade_orderly _ _ p bar b1 o2 h
      exact ⟨o3, (t1.followed o1.queueFresh t2).followed o2.queueFresh t3⟩

theorem broker.setHit_orderly (b : broker) (o : Nat) (ot : OrderType) (ho : Orderly b) :
    Orderly (b.setHit o ot) ∧ Tame b (b.setHit o ot) := by
  refine ho.sameQueue rfl rfl ho.arrNe ho.ordersArr ho.tradesArr ho.tradesIn (Nat.le_refl _) ?_
  intro x _
  show (Function.update b.orderHeap o _ x).trade = _
  by_cases hxo : x = o
  · subst hxo; rw [Function.update_same]
  · rw [Function.update_noteq hxo]

theorem broker.stopStep_orderly (b : broker) (o : Nat) (bar : Bar) (b1 : broker)
    (ho : Orderly b) (h : b.stopStep o bar = some b1) : Orderly b1 ∧ Tame b b1 := by
  simp only [broker.stopStep] at h
  split at h
  · split at h
    · simp only [Option.some.injEq] at h
      rw [← h]; exact broker.setHit_orderly b o _ ho
    · cases h
  · simp only [Option.some.injEq] at h
    rw [← h]; exact ⟨ho, Tame.still b⟩

theorem broker.priceStep_orderly (b : broker) (o : Nat) (bar prevBar : Bar) (b1 : broker) (p : ℚ)
    (ho : Orderly b) (h : b.priceStep o bar prevBar = some (b1, p)) :
    Orderly b1 ∧ Tame b b1 := by
  simp only [broker.priceStep] at h
  split at h
  · split at h
    · simp only [Option.some.injEq, Prod.mk.injEq] at h
      rw [← h.1]; exact broker.setHit_orderly b o _ ho
    · cases h
  · simp only [Option.some.injEq, Prod.mk.injEq] at h
    rw [← h.1]; exact broker.setHit_orderly b o _ ho

theorem broker.matchTrades_orderly (hs o : Nat) (price : ℚ) (bar : Int) :
    ∀ (n i : Nat) (size : ℚ) (b b1 : broker) (size1 : ℚ), Orderly b →
      broker.matchTrades hs o price bar n i size b = .ok (b1, size1) →
      Orderly b1 ∧ Tame b b1 := by
  intro n
  induction n with
  | zero =>
    intro i size b b1 size1 ho h
    simp only [broker.matchTrades, Except.ok.injEq, Prod.mk.injEq] at h
    rw [← h.1]; exact ⟨ho, Tame.still b⟩
  | succ n ih =>
    intro i size b b1 size1 ho h
    simp only [broker.matchTrades] at h
    split at h
    · cases h
    · split at h
      · exact ih _ _ _ _ _ ho h
      · split at h
        · cases h
        · rename_i b2 size2 h2
          have k2 : Orderly b2 ∧ Tame b b2 := by
            split at h2
            · split at h2
              · cases h2
              · rename_i b3 h3
                simp only [Except.ok.injEq, Prod.mk.injEq] at h2
                rw [← h2.1]
                exact broker.closeTrade_orderly _ _ _ _ _ ho h3
            · split at h2
              · cases h2
              · rename_i b3 h3
                simp only [Except.ok.injEq, Prod.mk.injEq] at h2
                rw [← h2.1]
                exact broker.reduceTrade_orderly _ _ _ _ _ _ ho h3
          obtain ⟨o2, t2⟩ := k2
          split at h
          · simp only [Except.ok.injEq, Prod.mk.injEq] at h
            rw [← h.1]; exact ⟨o2, t2⟩
          · obtain ⟨o3, t3⟩ := ih _ _ _ _ _ o2 h
            exact ⟨o3, t2.followed o2.queueFresh t3⟩

theorem broker.fillOrder_orderly (b : broker) (reprocess : Bool) (o barI : Nat) (price : ℚ)
    (b1 : broker) (re1 : Bool) (ho : Orderly b)
    (h : b.fillOrder reprocess o barI price = .ok (b1, re1)) : Orderly b1 ∧ Tame b b1 := by
  simp only [broker.fillOrder] at h
  split at h
  · split at h
    · cases h
    · rename_i b4 h4
      simp only [Except.ok.injEq, Prod.mk.injEq] at h
      rw [← h.1]
      exact Order.remove_orderly _ _ _ ho h4
  · split at h
    · split at h
      · split at h
        · cases h
        · rename_i b4 h4
          simp only [Except.ok.injEq, Prod.mk.injEq] at h
          rw [← h.1]
          exact broker.reduceTrade_orderly _ _ _ _ _ _ ho h4
      · split at h
        · cases h
        · rename_i b4 h4
          simp only [Except.ok.injEq, Prod.mk.injEq] at h
          rw [← h.1]
          exact Order.remove_orderly _ _ _ ho h4
    · split at h
      · cases h
      · rename_i b4 size1 h4
        obtain ⟨o4, t4⟩ := broker.matchTrades_orderly _ _ _ _ _ _ _ _ _ _ ho h4
        split at h
        · cases h
        · rename_i b5 re5 h5
          have k5 : Orderly b5 ∧ Tame b b5 := by
            split at h5
            · split at h5
              · cases h5
              · rename_i b6 h6
                simp only [Except.ok.injEq, Prod.mk.injEq] at h5
                rw [← h5.1]
                obtain ⟨o6, t6⟩ := broker.openTrade_orderly _ _ _ _ _ _ _ _ o4 h6
                exact ⟨o6, t4.followed o4.queueFresh t6⟩
            · simp only [Except.ok.injEq, Prod.mk.injEq] at h5
              rw [← h5.1]; exact ⟨o4, t4⟩
          obtain ⟨o5, t5⟩ := k5
          split at h
          · cases h
          · rename_i b6 h6
            simp only [Except.ok.injEq, Prod.mk.injEq] at h
            rw [← h.1]
            obtain ⟨o6, t6⟩ := Order.remove_orderly _ _ _ o5 h6
            exact ⟨o6, t5.followed o5.queueFresh t6⟩

theorem broker.processOrder_orderly (b : broker) (reprocess : Bool) (o barI : Nat)
    (bar prevBar : Bar) (b1 : broker) (re1 : Bool) (ho : Orderly b)
    (h : b.processOrder reprocess o barI bar prevBar = .ok (b1, re1)) :
    Orderly b1 ∧ Tame b b1 := by
  rw [broker.processOrder_eq_fill] at h
  split at h
  · simp only [Except.ok.injEq, Prod.mk.injEq] at h
    rw [← h.1]; exact ⟨ho, Tame.still b⟩
  · rename_i b2 h2
    obtain ⟨o2, t2⟩ := broker.stopStep_orderly _ _ _ _ ho h2
    split at h
    · simp only [Except.ok.injEq, Prod.mk.injEq] at h
      rw [← h.1]; exact ⟨o2, t2⟩
    · rename_i b3 price h3
      obtain ⟨o3, t3⟩ := broker.priceStep_orderly _ _ _ _ _ _ o2 h3
      obtain ⟨o4, t4⟩ := broker.fillOrder_orderly _ _ _ _ _ _ _ o3 h
      exact ⟨o4, (t2.followed o2.queueFresh t3).followed o3.queueFresh t4⟩

theorem broker.ordersLoop_orderly (hs barI : Nat) (bar prevBar : Bar) :
    ∀ (n i : Nat) (b : broker) (re : Bool) (b1 : broker) (re1 : Bool), Orderly b →
      broker.ordersLoop hs barI bar prevBar n i b re = .ok (b1, re1) →
      Orderly b1 ∧ Tame b b1 := by
  intro n
  induction n with
  | zero =>
    intro i b re b1 re1 ho h
    simp only [broker.ordersLoop, Except.ok.injEq, Prod.mk.injEq] at h
    rw [← h.1]; exact ⟨ho, Tame.still b⟩
  | succ n ih =>
    intro i b re b1 re1 ho h
    simp only [broker.ordersLoop] at h
    split at h
    · cases h
    · split at h
      · cases h
      · rename_i b2 re2 h2
        obtain ⟨o2, t2⟩ := broker.processOrder_orderly _ _ _ _ _ _ _ _ ho h2
        obtain ⟨o3, t3⟩ := ih _ _ _ _ _ o2 h
        exact ⟨o3, t2.followed o2.queueFresh t3⟩

theorem broker.processOrders_orderly :
    ∀ (fuel : Nat) (b b1 : broker), Orderly b → b.processOrders fuel = .ok b1 →
      Orderly b1 ∧ Tame b b1 := by
  intro fuel
  induction fuel with
  | zero => intro b b1 _ h; cases h
  | succ fuel ih =>
    intro b b1 ho h
    simp only [broker.processOrders] at h
    split at h
    · split at h
      · cases h
      · rename_i b2 re h2
        obtain ⟨o2, t2⟩ := broker.ordersLoop_orderly _ _ _ _ _ _ _ _ _ _ ho h2
        split at h
        · obtain ⟨o3, t3⟩ := ih _ _ o2 h
          exact ⟨o3, t2.followed o2.queueFresh t3⟩
        · simp only [Except.ok.injEq] at h
          rw [← h]; exact ⟨o2, t2⟩
    · cases h

theorem broker.next_orderly (fuel : Nat) (b b1 : broker) (ho : Orderly b)
    (h : b.next fuel = .ok b1) : Orderly b1 ∧ Tame b b1 := by
  simp only [broker.next] at h
  split at h
  · cases h
  · rename_i b2 h2
    obtain ⟨o2, t2⟩ := broker.processOrders_orderly fuel b b2 ho h2
    split at h
    · cases h
    · split at h
      · cases h
      · split at h
        · split at h <;> cases h
        · simp only [Except.ok.injEq] at h
          rw [← h]
          exact Orderly.thenSame t2 o2 rfl rfl o2.arrNe o2.ordersArr o2.tradesArr o2.tradesIn
            (Nat.le_refl _) (fun _ _ => rfl)

theorem New_orderly (n : Nat) (opts : Opts) : Orderly (New n opts) :=
  ⟨by simp [New], by simp [New], by simp [New], by simp [New], by simp [New],
    by simp [New, broker.queue, broker.live],
    fun o h => by simp [New, broker.queue, broker.live] at h⟩

/-! ## The cancelling loop of the exclusive mode -/

theorem slot_after_removal (q rest : List Nat) (i j : Nat) (hi : i < q.length) (hij : i < j)
    (hj : j < q.length) (hrest : rest[0]? = q[q.length - 1]?) :
    ∃ m, i < m ∧ m < q.length ∧ (q.eraseIdx i ++ rest)[j]? = q[m]? := by
  have hlen : (q.eraseIdx i).length = q.length - 1 := by
    rw [List.length_eraseIdx, if_pos hi]
  by_cases h : j < q.length - 1
  · refine ⟨j + 1, by omega, by omega, ?_⟩
    rw [List.getElem?_append_left (by omega), List.getElem?_eraseIdx_of_ge _ _ _ (by omega)]
  · refine ⟨q.length - 1, by omega, by omega, ?_⟩
    rw [List.getElem?_append_right (by omega), hlen]
    have : j - (q.length - 1) = 0 := by omega
    rw [this, hrest]

theorem broker.cancelUnbound_skip (hs : Nat) :
    ∀ (n i : Nat) (b : broker),
      (∀ j, i ≤ j → j < i + n →
        ∃ o, (b.arrays hs)[j]? = some o ∧ (b.orderHeap o).trade ≠ none) →
      broker.cancelUnbound hs n i b = .ok b := by
  intro n
  induction n with
  | zero => intro i b _; rfl
  | succ n ih =>
    intro i b hb
    obtain ⟨o, hslot, hbound⟩ := hb i (Nat.le_refl _) (by omega)
    simp only [broker.cancelUnbound, hslot, hbound, if_false]
    exact ih (i + 1) b (fun j h1 h2 => hb j (by omega) (by omega))

theorem queue_slot (b : broker) (j : Nat) (hj : j < b.orders.len) :
    (b.arrays b.orders.arr)[j]? = b.queue[j]? := by
  simp only [broker.queue, broker.live]
  rw [List.getElem?_take_of_lt hj]

theorem queue_length (b : broker) (ho : Orderly b) : b.queue.length = b.orders.len := by
  simp only [broker.queue, broker.live, List.length_take]
  exact Nat.min_eq_left ho.ordersIn

theorem broker.cancelUnbound_from (b : broker) (ho : Orderly b) (hl : Lone b) :
    ∀ (n i : Nat), i + n = b.orders.len →
      (∀ o ∈ b.queue.take i, (b.orderHeap o).trade ≠ none) →
      ∃ b1, broker.cancelUnbound b.orders.arr n i b = .ok b1 ∧
        (∀ o ∈ b1.queue, (b.orderHeap o).trade ≠ none) ∧
        (∀ o ∈ b.queue, (b.orderHeap o).trade ≠ none → o ∈ b1.queue) ∧
        (∀ o ∈ b1.queue, o ∈ b.queue) ∧
        QueueOnly b b1 := by
  intro n
  induction n with
  | zero =>
    intro i hin hpre
    have hall : ∀ o ∈ b.queue, (b.orderHeap o).trade ≠ none := by
      intro o hm
      apply hpre
      rw [List.take_of_length_le (by rw [queue_length b ho]; omega)]
      exact hm
    exact ⟨b, rfl, hall, fun o hm _ => hm, fun o hm => hm, QueueOnly.same b⟩
  | succ n ih =>
    intro i hin hpre
    have hilen : i < b.queue.length := by rw [queue_length b ho]; omega
    have hslot : (b.arrays b.orders.arr)[i]? = some (b.queue[i]) := by
      rw [queue_slot b i (by omega)]
      exact List.getElem?_eq_getElem hilen
    by_cases hb : (b.orderHeap (b.queue[i])).trade = none
    · -- the order of slot `i` has no parent: it is cancelled, the rest is skipped
      have hmem : b.queue[i] ∈ b.queue := List.getElem_mem hilen
      have hidx : b.queue.indexOf (b.queue[i]) = i := List.indexOf_getElem ho.queueNodup i hilen
      have hothers : ∀ m, (hm : m < b.queue.length) → m ≠ i →
          (b.orderHeap (b.queue[m])).trade ≠ none := by
        intro m hm hne hu
        have := hl _ (List.getElem_mem hm) _ hmem hu hb
        exact hne (ho.queueNodup.getElem_inj_iff.mp this)
      have hrem : Order.remove b (b.queue[i]) = .ok
          { b with arrays := (b.sliceRemove b.orders i).1, orders := (b.sliceRemove b.orders i).2 } := by
        simp [Order.remove, Order.indexOf, indexIn_eq_some hmem, hidx]
      obtain ⟨b2, hb2, hq2, hk2⟩ := Order.remove_ok b (b.queue[i]) hmem
      have hb2eq : b2 =
          { b with arrays := (b.sliceRemove b.orders i).1, orders := (b.sliceRemove b.orders i).2 } := by
        rw [hrem] at hb2
        simp only [Except.ok.injEq] at hb2
        exact hb2.symm
      have hskip : broker.cancelUnbound b.orders.arr n (i + 1) b2 = .ok b2 := by
        apply broker.cancelUnbound_skip
        intro j h1 h2
        have hj : j < b.queue.length := by rw [queue_length b ho]; omega
        obtain ⟨m, hm1, hm2, hm3⟩ := slot_after_removal b.queue
          ((b.arrays b.orders.arr).drop (b.orders.len - 1)) i j hilen (by omega) hj (by
            rw [List.getElem?_drop, Nat.add_zero, queue_length b ho]
            exact queue_slot b _ (by omega))
        refine ⟨b.queue[m], ?_, ?_⟩
        · rw [hb2eq]
          show ((b.sliceRemove b.orders i).1 b.orders.arr)[j]? = _
          simp only [broker.sliceRemove, Function.update_same]
          have hq : (b.arrays b.orders.arr).take b.orders.len = b.queue := rfl
          rw [hq, hm3]
          exact List.getElem?_eq_getElem hm2
        · rw [hk2.orderHeap]
          exact hothers m hm2 (by omega)
      refine ⟨b2, ?_, ?_, ?_, ?_, hk2⟩
      · simp only [broker.cancelUnbound, hslot, hb, if_true, Order.Cancel, hb2]
        exact hskip
      · intro o hm
        rw [hq2] at hm
        have hne : o ≠ b.queue[i] := (ho.queueNodup.mem_erase_iff.mp hm).1
        obtain ⟨m, hm2, hme⟩ := List.getElem_of_mem (List.mem_of_mem_erase hm)
        rw [← hme]
        exact hothers m hm2 (fun e => hne (by rw [← hme]; simp only [e]))
      · intro o hm hbound
        rw [hq2]
        exact (List.mem_erase_of_ne (fun e => hbound (by rw [e]; exact hb))).mpr hm
      · intro o hm
        rw [hq2] at hm
        exact List.mem_of_mem_erase hm
    · -- the order of slot `i` has a parent: the loop goes on
      have hpre2 : ∀ o ∈ b.queue.take (i + 1), (b.orderHeap o).trade ≠ none := by
        intro o hm
        rw [List.take_succ, List.getElem?_eq_getElem hilen] at hm
        rcases List.mem_append.mp hm with hm | hm
        · exact hpre o hm
        · simp only [Option.toList, List.mem_singleton] at hm
          rw [hm]; exact hb
      obtain ⟨b1, h1, h2⟩ := ih (i + 1) (by omega) hpre2
      refine ⟨b1, ?_, h2⟩
      simp only [broker.cancelUnbound, hslot, hb, if_false]
      exact h1

theorem trades_slot (b : broker) (ho : Orderly b) (i : Nat) (hi : i < b.trades.len) :
    ∃ t, (b.arrays b.trades.arr)[i]? = some t ∧ b.openTrades[i]? = some t := by
  have hlt : i < (b.arrays b.trades.arr).length := Nat.lt_of_lt_of_le hi ho.tradesIn
  refine ⟨(b.arrays b.trades.arr)[i], List.getElem?_eq_getElem hlt, ?_⟩
  simp only [broker.openTrades, broker.live]
  rw [List.getElem?_take_of_lt hi]
  exact List.getElem?_eq_getElem hlt

theorem broker.closeAll_from :
    ∀ (n i : Nat) (b : broker), Orderly b → i + n = b.trades.len →
      ∃ b1, broker.closeAll b.trades.arr n i b = .ok b1 ∧ Orderly b1 ∧ Tame b b1 ∧
        (∀ o ∈ b.queue, o ∈ b1.queue) ∧
        (∀ o ∈ b1.queue, o ∈ b.queue ∨
          ∃ t ∈ b.openTrades, b1.orderHeap o = Trade.closingOrder b t) ∧
        (∀ t ∈ b.openTrades.drop i, ∃ c ∈ b1.queue, b1.orderHeap c = Trade.closingOrder b t) ∧
        (∀ o, o < b.nextId → b1.orderHeap o = b.orderHeap o) ∧
        b1.trades = b.trades ∧ b1.arrays b.trades.arr = b.arrays b.trades.arr ∧
        b1.tradeHeap = b.tradeHeap ∧ b1.closedTrades = b.closedTrades ∧ b1.cash = b.cash := by
  intro n
  induction n with
  | zero =>
    intro i b ho hin
    refine ⟨b, rfl, ho, Tame.still b, fun _ h => h, fun _ h => Or.inl h, ?_, fun _ _ => rfl,
      rfl, rfl, rfl, rfl, rfl⟩
    intro t ht
    have hlen : b.openTrades.length ≤ i := by
      simp only [broker.openTrades, broker.live, List.length_take]; omega
    rw [List.drop_eq_nil_of_le hlen] at ht
    cases ht
  | succ n ih =>
    intro i b ho hin
    obtain ⟨t, hslot, hopen⟩ := trades_slot b ho i (by omega)
    obtain ⟨o2, t2⟩ := Trade.Close_orderly b t ho
    have harr : (Trade.Close b t).arrays b.trades.arr = b.arrays b.trades.arr := by
      simp only [Trade.Close, broker.slicePrepend]
      rw [Function.update_noteq (Nat.ne_of_lt ho.tradesArr)]
    have hopens : (Trade.Close b t).openTrades = b.openTrades := by
      show ((Trade.Close b t).arrays b.trades.arr).take b.trades.len = _
      rw [harr]; rfl
    have hq : (Trade.Close b t).queue = b.nextId :: b.queue := by
      simp only [Trade.Close, broker.queue, broker.live]
      exact live_slicePrepend b b.orders b.nextId
    have hnew : (Trade.Close b t).orderHeap b.nextId = Trade.closingOrder b t := by
      show Function.update b.orderHeap b.nextId _ b.nextId = _
      rw [Function.update_same]; rfl
    have hold : ∀ o, o < b.nextId → (Trade.Close b t).orderHeap o = b.orderHeap o := by
      intro o hlt
      show Function.update b.orderHeap b.nextId _ o = _
      rw [Function.update_noteq (Nat.ne_of_lt hlt)]
    have hclosing : ∀ x, Trade.closingOrder (Trade.Close b t) x = Trade.closingOrder b x :=
      fun _ => rfl
    have htmem : t ∈ b.openTrades := by
      rcases List.getElem?_eq_some.mp hopen with ⟨hlt, he⟩
      rw [← he]; exact List.getElem_mem hlt
    obtain ⟨b1, h1, o1, t1, hsub, hmem, hcl, hheap, htr, hta, hth, hcd, hcash⟩ :=
      ih (i + 1) (Trade.Close b t) o2 (by show i + 1 + n = b.trades.len; omega)
    have hkeep : b1.orderHeap b.nextId = Trade.closingOrder b t := by
      rw [hheap b.nextId (Nat.lt_succ_self _)]; exact hnew
    have hin1 : b.nextId ∈ b1.queue := hsub _ (by rw [hq]; exact List.mem_cons_self _ _)
    refine ⟨b1, ?_, o1, t2.followed o2.queueFresh t1, ?_, ?_, ?_, ?_, htr, ?_, hth, hcd, hcash⟩
    · simp only [broker.closeAll, hslot]
      exact h1
    · intro o hm
      exact hsub o (by rw [hq]; exact List.mem_cons_of_mem _ hm)
    · intro o hm
      rcases hmem o hm with h | ⟨x, hx, hox⟩
      · rw [hq] at h
        rcases List.mem_cons.mp h with h | h
        · exact Or.inr ⟨t, htmem, by rw [h]; exact hkeep⟩
        · exact Or.inl h
      · exact Or.inr ⟨x, by rw [← hopens]; exact hx, by rw [hox, hclosing]⟩
    · intro x hx
      have hdrop : b.openTrades.drop i = t :: b.openTrades.drop (i + 1) := by
        have hilt : i < b.openTrades.length := by
          rcases List.getElem?_eq_some.mp hopen with ⟨h, _⟩
          exact h
        rw [List.drop_eq_getElem_cons hilt]
        congr 1
        rcases List.getElem?_eq_some.mp hopen with ⟨_, h⟩
        exact h
      rw [hdrop] at hx
      rcases List.mem_cons.mp hx with hx | hx
      · exact ⟨b.nextId, hin1, by rw [hx]; exact hkeep⟩
      · obtain ⟨c, hc, hoc⟩ := hcl x (by rw [hopens]; exact hx)
        exact ⟨c, hc, by rw [hoc, hclosing]⟩
    · intro o hlt
      rw [hheap o (Nat.lt_succ_of_lt hlt)]
      exact hold o hlt
    · exact hta.trans harr

/-- The submission of an order that is not a leg of an open trade, in exclusive
mode, on a well-formed ledger with at most one pending order without parent. -/
theorem broker.newOrder_exclusive (b : broker) (opts : newOrderOpts) (r : ℚ)
    (ho : Orderly b) (hl : Lone b) (hex : b.opts.exclusiveOrder = true)
    (hsz : ¬ ((!b.opts.fractionable) = true ∧ opts.size > 1 ∧ (!isWhole opts.size) = true))
    (hr : b.refPrice opts = some r) (hvalid : checkPrices opts r = none)
    (hleg : ∀ t, opts.trade = some t → t ∉ b.openTrades) :
    ∃ b1, b.newOrder opts = .ok (b1, b.nextId) ∧
      (∀ o ∈ b.queue, (b.orderHeap o).trade = none → o ∉ b1.queue) ∧
      (∀ t ∈ b.openTrades, ∃ c ∈ b1.queue, b1.orderHeap c = Trade.closingOrder b t) ∧
      b1.queue.getLast? = some b.nextId ∧
      b1.orderHeap b.nextId =
        { Size := opts.size, Side := opts.side, Stop := opts.stop, Limit := opts.limit,
          SL := opts.sl, TP := opts.tp, trade := opts.trade, hitAtOt := none } ∧
      (∀ o ∈ b1.queue, o = b.nextId ∨
        (o ∈ b.queue ∧ (b.orderHeap o).trade ≠ none ∧ b1.orderHeap o = b.orderHeap o) ∨
        ∃ t ∈ b.openTrades, b1.orderHeap o = Trade.closingOrder b t) ∧
      b1.openTrades = b.openTrades ∧ b1.tradeHeap = b.tradeHeap ∧
      b1.closedTrades = b.closedTrades ∧ b1.cash = b.cash := by
  have hcond : ¬ (opts.trade.isSome = true ∧
      (opts.trade.bind (Trade.indexOf { b with
        orderHeap := (Function.update b.orderHeap b.nextId
          { Size := opts.size, Side := opts.side, Stop := opts.stop, Limit := opts.limit,
            SL := opts.sl, TP := opts.tp, trade := opts.trade, hitAtOt := none })
        nextId := b.nextId + 1 })).isSome = true) := by
    rintro ⟨h1, h2⟩
    cases ht : opts.trade with
    | none => rw [ht] at h1; cases h1
    | some t =>
      rw [ht] at h2
      simp only [Option.some_bind] at h2
      have h2a : (indexIn t b.openTrades).isSome = true := h2
      rw [indexIn_eq_none (hleg t ht)] at h2a
      cases h2a
  obtain ⟨o0, t0⟩ := Orderly.registered b
    { Size := opts.size, Side := opts.side, Stop := opts.stop, Limit := opts.limit,
      SL := opts.sl, TP := opts.tp, trade := opts.trade, hitAtOt := none } ho
  have hl0 := Lone.tame hl ho.queueFresh t0
  obtain ⟨b2, hcu, hbound2, _, hsub2, hk2⟩ :=
    broker.cancelUnbound_from _ o0 hl0 _ 0 (Nat.zero_add _) (by intro o hm; simp at hm)
  obtain ⟨o2, t2⟩ := broker.cancelUnbound_orderly _ _ _ _ _ o0 hcu
  obtain ⟨b3, hca, o3, t3, hsub3, hmem3, hcl3, hheap3, htr3, hta3, hth3, hcd3, hcash3⟩ :=
    broker.closeAll_from _ 0 b2 o2 (Nat.zero_add _)
  dsimp only at hcu
  have hnew : b.newOrder opts = .ok ({ b3 with
      arrays := (b3.sliceAppend b3.orders b.nextId).1
      nextArr := b3.nextArr + 1
      orders := (b3.sliceAppend b3.orders b.nextId).2 }, b.nextId) := by
    simp only [broker.newOrder, if_neg hsz, hr, hvalid, if_neg hcond, hex, if_true, hcu, hca]
  -- the records of the orders drawn before the submission
  have hold : ∀ o, o < b.nextId → b3.orderHeap o = b.orderHeap o := by
    intro o hlt
    have h2n : b2.nextId = b.nextId + 1 := hk2.nextId
    rw [hheap3 o (by omega), hk2.orderHeap]
    show Function.update b.orderHeap b.nextId _ o = _
    rw [Function.update_noteq (Nat.ne_of_lt hlt)]
  have hid : b3.orderHeap b.nextId =
      { Size := opts.size, Side := opts.side, Stop := opts.stop, Limit := opts.limit,
        SL := opts.sl, TP := opts.tp, trade := opts.trade, hitAtOt := none } := by
    have h2n : b2.nextId = b.nextId + 1 := hk2.nextId
    rw [hheap3 _ (by omega), hk2.orderHeap]
    show Function.update b.orderHeap b.nextId _ b.nextId = _
    rw [Function.update_same]
  have hopen2 : b2.openTrades = b.openTrades := hk2.sameTrades o0.arrNe
  have hheap2 : b2.tradeHeap = b.tradeHeap := hk2.tradeHeap
  have hclosing : ∀ x, Trade.closingOrder b2 x = Trade.closingOrder b x := by
    intro x
    simp only [Trade.closingOrder, hheap2]
  -- the orders queued after the two loops
  have hkinds : ∀ o ∈ b3.queue,
      (o ∈ b.queue ∧ (b.orderHeap o).trade ≠ none ∧ b3.orderHeap o = b.orderHeap o) ∨
      ∃ t ∈ b.openTrades, b3.orderHeap o = Trade.closingOrder b t := by
    intro o hm
    rcases hmem3 o hm with h | ⟨t, ht, hot⟩
    · have hq : o ∈ b.queue := hsub2 o h
      have hlt := ho.queueFresh o hq
      refine Or.inl ⟨hq, ?_, hold o hlt⟩
      rw [← t0.parents o hlt]
      exact hbound2 o h
    · exact Or.inr ⟨t, by rw [← hopen2]; exact ht, by rw [hot, hclosing]⟩
  have hq1 : ({ b3 with
      arrays := (b3.sliceAppend b3.orders b.nextId).1
      nextArr := b3.nextArr + 1
      orders := (b3.sliceAppend b3.orders b.nextId).2 } : broker).queue
        = b3.queue ++ [b.nextId] := queue_pushed b3 b.nextId
  refine ⟨_, hnew, ?_, ?_, ?_, hid, ?_, ?_, ?_, ?_, ?_⟩
  · intro o hq hu hm1
    rw [hq1] at hm1
    rcases List.mem_append.mp hm1 with hm | hm
    · rcases hkinds o hm with ⟨_, hb, _⟩ | ⟨t, _, hot⟩
      · exact hb hu
      · have := hold o (ho.queueFresh o hq)
        rw [hot] at this
        rw [← this] at hu
        cases hu
    · rw [List.mem_singleton.mp hm] at hq
      exact Nat.lt_irrefl _ (ho.queueFresh _ hq)
  · intro t ht
    obtain ⟨c, hc, hoc⟩ := hcl3 t (by rw [List.drop_zero, hopen2]; exact ht)
    exact ⟨c, by rw [hq1]; exact List.mem_append_left _ hc, by
      show b3.orderHeap c = _
      rw [hoc, hclosing]⟩
  · rw [hq1]
    simp
  · intro o hm1
    rw [hq1] at hm1
    rcases List.mem_append.mp hm1 with hm | hm
    · exact Or.inr (hkinds o hm)
    · exact Or.inl (List.mem_singleton.mp hm)
  · show ((b3.sliceAppend b3.orders b.nextId).1 b3.trades.arr).take b3.trades.len = _
    simp only [broker.sliceAppend]
    rw [Function.update_noteq (Nat.ne_of_lt o3.tradesArr), htr3, hta3]
    exact hopen2
  · exact hth3.trans hheap2
  · exact hcd3.trans hk2.closedTrades
  · exact hcash3.trans hk2.cash

theorem Lone.afterExclusive {b b1 : broker}
    (hkinds : ∀ o ∈ b1.queue, o = b.nextId ∨
        (o ∈ b.queue ∧ (b.orderHeap o).trade ≠ none ∧ b1.orderHeap o = b.orderHeap o) ∨
        ∃ t ∈ b.openTrades, b1.orderHeap o = Trade.closingOrder b t) : Lone b1 := by
  have key : ∀ o ∈ b1.queue, (b1.orderHeap o).trade = none → o = b.nextId := by
    intro o hm hu
    rcases hkinds o hm with h | ⟨_, hb, he⟩ | ⟨t, _, he⟩
    · exact h
    · rw [he] at hu; exact absurd hu hb
    · rw [he] at hu; cases hu
  intro o1 h1 o2 h2 u1 u2
  rw [key o1 h1 u1, key o2 h2 u2]

theorem broker.next_opts (fuel : Nat) (b b1 : broker) (h : b.next fuel = .ok b1) :
    b1.opts = b.opts := by
  simp only [broker.next] at h
  split at h
  · cases h
  · rename_i b2 h2
    have f2 := broker.processOrders_frame fuel b b2 h2
    split at h
    · cases h
    · split at h
      · cases h
      · split at h
        · split at h <;> cases h
        · simp only [Except.ok.injEq] at h
          rw [← h]
          exact f2.opts

theorem New_lone (n : Nat) (opts : Opts) : Lone (New n opts) := by
  intro o1 h1
  simp [New, broker.queue, broker.live] at h1

/-- Every ledger a run reaches is well formed on its order side, and in
exclusive mode at most one of its pending orders has no parent trade. -/
theorem Reachable.orderly {b : broker} (h : Reachable b) :
    Orderly b ∧ (b.opts.exclusiveOrder = true → Lone b) := by
  induction h with
  | init n opts => exact ⟨New_orderly n opts, fun _ => New_lone n opts⟩
  | bars b bars i _ ih =>
    have k : Orderly (b.atBar bars i) ∧ Tame b (b.atBar bars i) :=
      ih.1.sameQueue rfl rfl ih.1.arrNe ih.1.ordersArr ih.1.tradesArr ih.1.tradesIn
        (Nat.le_refl _) (fun _ _ => rfl)
    obtain ⟨o1, t1⟩ := k
    exact ⟨o1, fun hex => Lone.tame (ih.2 hex) ih.1.queueFresh t1⟩
  | submit b opts b1 id _ h ih =>
    obtain ⟨o1, t1⟩ := broker.newOrder_orderly b opts b1 id ih.1 h
    refine ⟨o1, fun hex => ?_⟩
    have hopts : b1.opts = b.opts := (broker.newOrder_frame b opts b1 id h).opts
    rw [hopts] at hex
    by_cases hb : opts.trade = none
    · have hsz : ¬ ((!b.opts.fractionable) = true ∧ opts.size > 1 ∧
          (!isWhole opts.size) = true) := by
        intro hsz
        simp only [broker.newOrder, if_pos hsz] at h
        cases h
      cases hr : b.refPrice opts with
      | none => simp only [broker.newOrder, if_neg hsz, hr] at h; cases h
      | some r =>
        cases hv : checkPrices opts r with
        | some f => simp only [broker.newOrder, if_neg hsz, hr, hv] at h; cases h
        | none =>
          obtain ⟨b2, h2, _, _, _, _, hkinds, _⟩ := broker.newOrder_exclusive b opts r ih.1
            (ih.2 hex) hex hsz hr hv (fun t ht => by rw [hb] at ht; cases ht)
          rw [h2] at h
          simp only [Except.ok.injEq, Prod.mk.injEq] at h
          rw [← h.1]
          exact Lone.afterExclusive hkinds
    · exact Lone.tame (ih.2 hex) ih.1.queueFresh (t1 hb)
  | closeTrade b t _ ih =>
    obtain ⟨o1, t1⟩ := Trade.Close_orderly b t ih.1
    exact ⟨o1, fun hex => Lone.tame (ih.2 hex) ih.1.queueFresh t1⟩
  | closePosition b b1 _ h ih =>
    obtain ⟨o1, t1⟩ := broker.closeAll_orderly _ _ _ _ _ ih.1 h
    have hopts : b1.opts = b.opts := (broker.closeAll_frame _ _ _ _ _ h).opts
    exact ⟨o1, fun hex => Lone.tame (ih.2 (hopts ▸ hex)) ih.1.queueFresh t1⟩
  | setLeg b t i price b1 _ h ih =>
    obtain ⟨o1, t1⟩ := Trade.setContingent_orderly _ _ _ _ _ ih.1 h
    have hopts : b1.opts = b.opts := (Trade.setContingent_frame _ _ _ _ _ h).opts
    exact ⟨o1, fun hex => Lone.tame (ih.2 (hopts ▸ hex)) ih.1.queueFresh t1⟩
  | cancel b o b1 _ h ih =>
    obtain ⟨o1, t1⟩ := Order.remove_orderly _ _ _ ih.1 h
    have hopts : b1.opts = b.opts := (frame_of_ok (Order.remove_frame b o) h).opts
    exact ⟨o1, fun hex => Lone.tame (ih.2 (hopts ▸ hex)) ih.1.queueFresh t1⟩
  | settle b fuel b1 _ h ih =>
    obtain ⟨o1, t1⟩ := broker.processOrders_orderly fuel b b1 ih.1 h
    have hopts : b1.opts = b.opts := (broker.processOrders_frame fuel b b1 h).opts
    exact ⟨o1, fun hex => Lone.tame (ih.2 (hopts ▸ hex)) ih.1.queueFresh t1⟩
  | next b fuel b1 _ h ih =>
    obtain ⟨o1, t1⟩ := broker.next_orderly fuel b b1 ih.1 h
    have hopts : b1.opts = b.opts := broker.next_opts fuel b b1 h
    exact ⟨o1, fun hex => Lone.tame (ih.2 (hopts ▸ hex)) ih.1.queueFresh t1⟩

theorem exclusiveReady_reachable : Reachable exclusiveReady := by
  have h0 : Reachable ((New 2 { exOpts 10000 with exclusiveOrder := true }).atBar
      [flatBar 100, flatBar 100] 0) :=
    Reachable.bars _ _ _ (Reachable.init 2 _)
  obtain ⟨v1, hv1⟩ := ok_of_no_fault (show faultOf (Strategy.Buy
      ((New 2 { exOpts 10000 with exclusiveOrder := true }).atBar [flatBar 100, flatBar 100] 0)
      { noOpts with Size := 10 }) = none by decide!)
  have h1 : Reachable v1 := h0.buy _ hv1
  obtain ⟨w2, hw2⟩ := ok_of_no_fault (show faultOf (runBar [flatBar 100, flatBar 100] 0
      (fun b => Strategy.Buy b { noOpts with Size := 10 }) 3
      (New 2 { exOpts 10000 with exclusiveOrder := true })) = none by decide!)
  have e1 : runBar [flatBar 100, flatBar 100] 0
      (fun b => Strategy.Buy b { noOpts with Size := 10 }) 3
      (New 2 { exOpts 10000 with exclusiveOrder := true }) = v1.next 3 := by
    simp only [runBar, hv1]
  have h2 : Reachable w2 := Reachable.next v1 3 w2 h1 (e1.symm.trans hw2)
  have e3 : exclusiveScenario =
      Strategy.Buy (w2.atBar [flatBar 100, flatBar 100] 1) { noOpts with Stop := 200 } := by
    simp only [exclusiveScenario, hw2]
  have e4 : exclusiveScenario = .ok exclusiveReady := ok_of_faultOf_none (by decide!)
  exact (Reachable.bars w2 _ 1 h2).buy _ (e3.symm.trans e4)

/-- C13: in exclusive mode, on every ledger a run reaches, a valid submission
of an order that is not a leg of an open trade returns the new order, and
afterwards: no order that was pending without a parent trade is queued; for
each open trade the queue holds a closing order (opposite side, the size of
the trade, bound to it); the new order is the last of the queue; and the queue
holds nothing but the new order, previously pending orders with a parent
(unchanged) and such closing orders.  Open and closed trades, trade records
and cash are as before. -/
theorem C13_exclusive_submission (b : broker) (opts : newOrderOpts) (r : ℚ)
    (hreach : Reachable b) (hex : b.opts.exclusiveOrder = true)
    (hsize : b.opts.fractionable = true ∨ opts.size ≤ 1 ∨ isWhole opts.size = true)
    (hr : b.refPrice opts = some r) (hvalid : checkPrices opts r = none)
    (hleg : ∀ t, opts.trade = some t → t ∉ b.openTrades) :
    ∃ b1, b.newOrder opts = .ok (b1, b.nextId) ∧
      (∀ o ∈ b.queue, (b.orderHeap o).trade = none → o ∉ b1.queue) ∧
      (∀ t ∈ b.openTrades, ∃ c ∈ b1.queue, b1.orderHeap c = Trade.closingOrder b t) ∧
      b1.queue.getLast? = some b.nextId ∧
      b1.orderHeap b.nextId =
        { Size := opts.size, Side := opts.side, Stop := opts.stop, Limit := opts.limit,
          SL := opts.sl, TP := opts.tp, trade := opts.trade, hitAtOt := none } ∧
      (∀ o ∈ b1.queue, o = b.nextId ∨
        (o ∈ b.queue ∧ (b.orderHeap o).trade ≠ none ∧ b1.orderHeap o = b.orderHeap o) ∨
        ∃ t ∈ b.openTrades, b1.orderHeap o = Trade.closingOrder b t) ∧
      b1.openTrades = b.openTrades ∧ b1.tradeHeap = b.tradeHeap ∧
      b1.closedTrades = b.closedTrades ∧ b1.cash = b.cash := by
  have hsz : ¬ ((!b.opts.fractionable) = true ∧ opts.size > 1 ∧ (!isWhole opts.size) = true) := by
    rintro ⟨h1, h2, h3⟩
    rcases hsize with h | h | h
    · simp [h] at h1
    · exact absurd h2 (not_lt.mpr h)
    · simp [h] at h3
  obtain ⟨ho, hl⟩ := hreach.orderly
  exact broker.newOrder_exclusive b opts r ho (hl hex) hex hsz hr hvalid hleg

/-- Witness for C13 on `exclusiveReady`: the queue holds the closing order 3 of
the open trade 1 and the pending buy 2, which has no parent; a market buy
cancels order 2, queues a closing order (id 5) for trade 1 and goes to the back
(id 4). -/
theorem C13_exclusive_submission_witness :
    (exclusiveReady.opts.exclusiveOrder = true ∧ exclusiveReady.queue = [3, 2] ∧
      (exclusiveReady.orderHeap 3).trade = some 1 ∧ (exclusiveReady.orderHeap 2).trade = none ∧
      exclusiveReady.openTrades = [1] ∧ exclusiveReady.nextId = 4 ∧
      (endState (Strategy.Buy exclusiveReady noOpts)).queue = [5, 3, 4] ∧
      ((endState (Strategy.Buy exclusiveReady noOpts)).orderHeap 5).trade = some 1) ∧
    ∃ b1, exclusiveReady.newOrder ⟨0, Side.Buy, 0, 0, 0, 0, none⟩
        = .ok (b1, exclusiveReady.nextId) ∧
      (∀ o ∈ exclusiveReady.queue, (exclusiveReady.orderHeap o).trade = none → o ∉ b1.queue) ∧
      (∀ t ∈ exclusiveReady.openTrades,
        ∃ c ∈ b1.queue, b1.orderHeap c = Trade.closingOrder exclusiveReady t) ∧
      b1.queue.getLast? = some exclusiveReady.nextId ∧
      b1.orderHeap exclusiveReady.nextId =
        { Size := 0, Side := Side.Buy, Stop := 0, Limit := 0,
          SL := 0, TP := 0, trade := none, hitAtOt := none } ∧
      (∀ o ∈ b1.queue, o = exclusiveReady.nextId ∨
        (o ∈ exclusiveReady.queue ∧ (exclusiveReady.orderHeap o).trade ≠ none ∧
          b1.orderHeap o = exclusiveReady.orderHeap o) ∨
        ∃ t ∈ exclusiveReady.openTrades, b1.orderHeap o = Trade.closingOrder exclusiveReady t) ∧
      b1.openTrades = exclusiveReady.openTrades ∧ b1.tradeHeap = exclusiveReady.tradeHeap ∧
      b1.closedTrades = exclusiveReady.closedTrades ∧ b1.cash = exclusiveReady.cash :=
  ⟨by decide!,
    C13_exclusive_submission exclusiveReady ⟨0, Side.Buy, 0, 0, 0, 0, none⟩ 100
      exclusiveReady_reachable (by decide!) (by decide!) (by decide!) (by decide!)
      (fun t ht => by cases ht)⟩

/-- The hypothesis of C13 that the ledger is reached by a run cannot be dropped.
On `exclusiveQueue`, where the mode was switched on over three pending orders
without parent (a ledger no run reaches, see `Reachable.orderly`), the
cancelling loop removes from the slice it ranges over: it cancels order 0,
skips order 1, cancels order 2 and takes order 2 again from the last slot of
the array, and the submission ends in the fatal `No order found`. -/
theorem exclusiveQueue_aborts :
    exclusiveQueue.opts.exclusiveOrder = true ∧
    exclusiveQueue.queue = [0, 1, 2] ∧
    (exclusiveQueue.orderHeap 0).trade = none ∧
    (exclusiveQueue.orderHeap 1).trade = none ∧
    (exclusiveQueue.orderHeap 2).trade = none ∧
    exclusiveQueue.openTrades = [] ∧
    faultOf (exclusiveQueue.newOrder ⟨0, Side.Buy, 0, 0, 0, 0, none⟩) =
      some Fault.noOrderFound ∧
    (endState (Strategy.Buy exclusiveQueue noOpts)).queue = [1] := by
  decide!

/-- The loop `for _, trade := range b.trades` over an empty slice. -/
theorem broker.matchTrades_none (hs o : Nat) (price : ℚ) (bar : Int) (i : Nat) (size : ℚ)
    (b : broker) : broker.matchTrades hs o price bar 0 i size b = .ok (b, size) := rfl

/-- C14: in whole-unit mode, filling at the open, a market buy of the default
size (no stop, no limit, no stop loss, no take profit, no parent trade), alone
in the queue, with no open trade and `floor (orderSize * cash / open) ≥ 1`:
settling the bar opens one long trade of that size at the open on the current
bar, takes the order off the queue and leaves the cash and the closed trades
as they were. -/
theorem C14_default_size_in_whole_units (b : broker) (fuel o : Nat) (bar prevBar : Bar)
    (hq : b.queue = [o]) (hlen : b.orders.len ≤ (b.arrays b.orders.arr).length)
    (hbar : b.data.bars[b.data.bars.length - 1]? = some bar)
    (hprev : b.data.bars[b.data.bars.length - 1 - 1]? = some prevBar)
    (hfrac : b.opts.fractionable = false) (htoc : b.opts.tradeOnClose = false)
    (hside : (b.orderHeap o).Side = Side.Buy) (hsz : (b.orderHeap o).Size = 0)
    (hstop : (b.orderHeap o).Stop = 0) (hlimit : (b.orderHeap o).Limit = 0)
    (hsl : (b.orderHeap o).SL = 0) (htp : (b.orderHeap o).TP = 0)
    (htrade : (b.orderHeap o).trade = none)
    (hnone : b.trades.len = 0) (hord : b.orders.arr < b.nextArr)
    (hfloor : 1 ≤ ⌊(b.opts.orderSize * b.cash) / bar.Open⌋) :
    ∃ b1, b.processOrders (fuel + 1) = .ok b1 ∧
      b1.openTrades = [b.nextId] ∧
      b1.tradeHeap b.nextId =
        { Size := ((⌊(b.opts.orderSize * b.cash) / bar.Open⌋ : Int) : ℚ), Side := Side.Buy,
          EntryPrice := bar.Open, ExitPrice := 0,
          EntryBar := ((b.data.bars.length - 1 : Nat) : Int), ExitBar := 0,
          legs0 := none, legs1 := none } ∧
      b1.queue = [] ∧ b1.cash = b.cash ∧ b1.closedTrades = b.closedTrades := by
  have hlen1 : b.orders.len = 1 := by
    have h := congrArg List.length hq
    simp only [broker.queue, broker.live, List.length_take, List.length_singleton] at h
    omega
  have hslot : (b.arrays b.orders.arr)[0]? = some o := by
    have h : (b.queue)[0]? = some o := by rw [hq]; rfl
    simp only [broker.queue, broker.live, hlen1] at h
    rw [List.getElem?_take_of_lt (by omega)] at h
    exact h
  have hfl : (1 : ℚ) ≤ ((⌊(b.opts.orderSize * b.cash) / bar.Open⌋ : Int) : ℚ) := by
    exact_mod_cast hfloor
  have h1 : b.stopStep o bar = some b := by simp [broker.stopStep, hstop]
  have h2 : b.priceStep o bar prevBar = some (b.setHit o OrderType.Market, bar.Open) := by
    simp [broker.priceStep, hstop, hlimit, htoc]
  have h3 : (b.setHit o OrderType.Market).resolveSize o bar.Open =
      ((⌊(b.opts.orderSize * b.cash) / bar.Open⌋ : Int) : ℚ) := by
    simp only [broker.resolveSize, broker.setHit, Function.update_same, hfrac, hsz]
    simp only [Bool.false_eq_true, if_false, if_true]
    exact max_eq_left (by linarith)
  have h4 : (b.setHit o OrderType.Market).barOfRecord o (b.data.bars.length - 1) =
      ((b.data.bars.length - 1 : Nat) : Int) := by
    simp [broker.barOfRecord, broker.setHit, htoc]
  -- the ledger after the new trade is opened
  let b4 : broker :=
    { b.setHit o OrderType.Market with
      tradeHeap := (Function.update b.tradeHeap b.nextId
        { Size := ((⌊(b.opts.orderSize * b.cash) / bar.Open⌋ : Int) : ℚ), Side := Side.Buy,
          EntryPrice := bar.Open, ExitPrice := 0,
          EntryBar := ((b.data.bars.length - 1 : Nat) : Int), ExitBar := 0,
          legs0 := none, legs1 := none })
      nextId := b.nextId + 1
      arrays := ((b.setHit o OrderType.Market).sliceAppend b.trades b.nextId).1
      nextArr := b.nextArr + 1
      trades := ((b.setHit o OrderType.Market).sliceAppend b.trades b.nextId).2 }
  have hopenT : (b.setHit o OrderType.Market).openTrade Side.Buy
      ((⌊(b.opts.orderSize * b.cash) / bar.Open⌋ : Int) : ℚ) bar.Open 0 0
      ((b.data.bars.length - 1 : Nat) : Int) = .ok b4 := by
    simp [broker.openTrade, b4, broker.setHit]
  have hq4 : b4.queue = [o] := by
    show (((b.setHit o OrderType.Market).sliceAppend b.trades b.nextId).1 b.orders.arr).take
      b.orders.len = [o]
    simp only [broker.sliceAppend]
    have hn : (b.setHit o OrderType.Market).nextArr = b.nextArr := rfl
    rw [hn, Function.update_noteq (Nat.ne_of_lt hord)]
    exact hq
  have ho4 : b4.openTrades = [b.nextId] := by
    show (((b.setHit o OrderType.Market).sliceAppend b.trades b.nextId).1
      ((b.setHit o OrderType.Market).sliceAppend b.trades b.nextId).2.arr).take
      ((b.setHit o OrderType.Market).sliceAppend b.trades b.nextId).2.len = _
    rw [live_sliceAppend]
    simp [broker.live, broker.setHit, hnone]
  obtain ⟨b6, e6, q6, f6⟩ := Order.remove_ok b4 o (by rw [hq4]; exact List.mem_singleton_self o)
  have hfill : (b.setHit o OrderType.Market).fillOrder false o (b.data.bars.length - 1) bar.Open
      = .ok (b6, false) := by
    have hne0 : ¬ ((⌊(b.opts.orderSize * b.cash) / bar.Open⌋ : Int) : ℚ) = 0 := by
      intro h; rw [h] at hfl; linarith
    have hpos : ((⌊(b.opts.orderSize * b.cash) / bar.Open⌋ : Int) : ℚ) > 0 := by linarith
    have ho : ((b.setHit o OrderType.Market).orderHeap o) =
        { b.orderHeap o with hitAtOt := some OrderType.Market } := by
      simp [broker.setHit]
    have hlen0 : (b.setHit o OrderType.Market).trades.len = 0 := hnone
    simp only [broker.fillOrder, h3, h4, if_neg hne0, ho, htrade, hlen0, broker.matchTrades_none,
      if_pos hpos, hside, hsl, htp, hopenT]
    have hsl4 : (b4.orderHeap o).SL = 0 := by
      show ((b.setHit o OrderType.Market).orderHeap o).SL = 0
      rw [ho]; exact hsl
    have htp4 : (b4.orderHeap o).TP = 0 := by
      show ((b.setHit o OrderType.Market).orderHeap o).TP = 0
      rw [ho]; exact htp
    simp [hsl4, htp4, e6]
  have hbody : b.processOrder false o (b.data.bars.length - 1) bar prevBar = .ok (b6, false) := by
    rw [broker.processOrder_eq_fill]
    simp only [h1, h2, hfill]
  refine ⟨b6, ?_, ?_, ?_, ?_, ?_, ?_⟩
  · simp only [broker.processOrders, Nat.zero_max, hbar, hprev, hlen1, broker.ordersLoop, hslot,
      hbody]
    rfl
  · rw [f6.sameTrades (by show b.orders.arr ≠ b.nextArr; exact Nat.ne_of_lt hord), ho4]
  · rw [f6.tradeHeap]
    show Function.update b.tradeHeap b.nextId _ b.nextId = _
    rw [Function.update_same]
  · rw [q6, hq4]; simp
  · rw [f6.cash]; rfl
  · rw [f6.closedTrades]; rfl

/-- Witness for C14 on `buyQueued`: cash 10000, order size 0.03 and open 100
give a long trade of size 3 at 100. -/
theorem C14_default_size_in_whole_units_witness :
    (buyQueued.queue = [0] ∧ buyQueued.cash = 10000 ∧ buyQueued.opts.orderSize = 3 / 100 ∧
      ⌊(buyQueued.opts.orderSize * buyQueued.cash) / 100⌋ = 3 ∧
      (endState (buyQueued.processOrders 1)).openTrades = [1] ∧
      ((endState (buyQueued.processOrders 1)).tradeHeap 1).Size = 3 ∧
      ((endState (buyQueued.processOrders 1)).tradeHeap 1).EntryPrice = 100) ∧
    ∃ b1, buyQueued.processOrders (0 + 1) = .ok b1 ∧
      b1.openTrades = [buyQueued.nextId] ∧
      b1.tradeHeap buyQueued.nextId =
        { Size := ((⌊(buyQueued.opts.orderSize * buyQueued.cash)
              / (⟨100, 105, 95, 102⟩ : Bar).Open⌋ : Int) : ℚ),
          Side := Side.Buy,
          EntryPrice := (⟨100, 105, 95, 102⟩ : Bar).Open, ExitPrice := 0,
          EntryBar := ((buyQueued.data.bars.length - 1 : Nat) : Int), ExitBar := 0,
          legs0 := none, legs1 := none } ∧
      b1.queue = [] ∧ b1.cash = buyQueued.cash ∧ b1.closedTrades = buyQueued.closedTrades :=
  ⟨by decide!,
    C14_default_size_in_whole_units buyQueued 0 0 ⟨100, 105, 95, 102⟩ ⟨100, 105, 95, 102⟩
      (by decide!) (by decide!) (by decide!) (by decide!) (by decide!) (by decide!) (by decide!)
      (by decide!) (by decide!) (by decide!) (by decide!) (by decide!) (by decide!) (by decide!)
      (by decide!) (by decide!)⟩

/-- C15: an order with a limit, no stop and no marker.  A buy is filled (marker
`Limit`, price `min open limit`) when the low of the bar is below the limit,
and left as it is otherwise; a sell is filled (price `max open limit`) when the
high of the bar is above the limit, and left as it is otherwise.  The price of
a buy is at most the limit, that of a sell at least the limit. -/
theorem C15_limit_order_fill (b : broker) (reprocess : Bool) (o barI : Nat) (bar prevBar : Bar)
    (hlimit : 0 < (b.orderHeap o).Limit) (hstop : (b.orderHeap o).Stop ≤ 0)
    (hunset : (b.orderHeap o).hitAtOt = none) :
    ((b.orderHeap o).Side = Side.Buy →
      (bar.Low < (b.orderHeap o).Limit →
        b.processOrder reprocess o barI bar prevBar =
          (b.setHit o OrderType.Limit).fillOrder reprocess o barI
            (min bar.Open (b.orderHeap o).Limit)) ∧
      (¬ bar.Low < (b.orderHeap o).Limit →
        b.processOrder reprocess o barI bar prevBar = .ok (b, reprocess))) ∧
    ((b.orderHeap o).Side = Side.Sell →
      (bar.High > (b.orderHeap o).Limit →
        b.processOrder reprocess o barI bar prevBar =
          (b.setHit o OrderType.Limit).fillOrder reprocess o barI
            (max bar.Open (b.orderHeap o).Limit)) ∧
      (¬ bar.High > (b.orderHeap o).Limit →
        b.processOrder reprocess o barI bar prevBar = .ok (b, reprocess))) ∧
    min bar.Open (b.orderHeap o).Limit ≤ (b.orderHeap o).Limit ∧
    (b.orderHeap o).Limit ≤ max bar.Open (b.orderHeap o).Limit := by
  have h1 : b.stopStep o bar = some b := by
    simp [broker.stopStep, not_lt.mpr hstop]
  refine ⟨?_, ?_, min_le_right _ _, le_max_right _ _⟩
  · intro hside
    constructor
    · intro hhit
      have h2 : b.priceStep o bar prevBar =
          some (b.setHit o OrderType.Limit, min bar.Open (b.orderHeap o).Limit) := by
        simp [broker.priceStep, hlimit, hunset, Order.IsLong, Order.IsShort, hside, hhit]
      rw [broker.processOrder_eq_fill]
      simp only [h1, h2]
    · intro hmiss
      have h2 : b.priceStep o bar prevBar = none := by
        simp [broker.priceStep, hlimit, hunset, Order.IsLong, Order.IsShort, hside, hmiss]
      rw [broker.processOrder_eq_fill]
      simp only [h1, h2]
  · intro hside
    have hnb : (b.orderHeap o).Side ≠ Side.Buy := by rw [hside]; decide
    constructor
    · intro hhit
      have h2 : b.priceStep o bar prevBar =
          some (b.setHit o OrderType.Limit, max bar.Open (b.orderHeap o).Limit) := by
        simp [broker.priceStep, hlimit, hunset, Order.IsLong, Order.IsShort, hnb, hhit]
      rw [broker.processOrder_eq_fill]
      simp only [h1, h2]
    · intro hmiss
      have h2 : b.priceStep o bar prevBar = none := by
        simp [broker.priceStep, hlimit, hunset, Order.IsLong, Order.IsShort, hnb, hmiss]
      rw [broker.processOrder_eq_fill]
      simp only [h1, h2]

/-- Witness for C15 on `held`, whose take-profit leg (id 3) is a sell with limit
104, no stop and no marker: on a bar with open 100 and high 105 it is filled at
`max 100 104 = 104`; on the flat bar at 100 the ledger is left as it is. -/
theorem C15_limit_order_fill_witness :
    ((held.orderHeap 3).Side = Side.Sell ∧ (held.orderHeap 3).Limit = 104 ∧
      (held.orderHeap 3).Stop = 0 ∧ (held.orderHeap 3).hitAtOt = none ∧
      (held.processOrder false 3 0 (flatBar 100) (flatBar 100)).toOption.map
        (fun r => (r.1.queue, (r.1.orderHeap 3).hitAtOt, r.2)) = some ([3, 2], none, false) ∧
      (held.processOrder false 3 0 ⟨100, 105, 95, 102⟩ (flatBar 100)).toOption.map
        (fun r => (r.1.queue, r.1.openTrades, r.1.closedTrades, (r.1.tradeHeap 1).ExitPrice))
          = some ([], [], [1], 104)) ∧
    (((held.orderHeap 3).Side = Side.Buy →
      ((95 : ℚ) < (held.orderHeap 3).Limit →
        held.processOrder false 3 0 ⟨100, 105, 95, 102⟩ (flatBar 100) =
          (held.setHit 3 OrderType.Limit).fillOrder false 3 0
            (min 100 (held.orderHeap 3).Limit)) ∧
      (¬ (95 : ℚ) < (held.orderHeap 3).Limit →
        held.processOrder false 3 0 ⟨100, 105, 95, 102⟩ (flatBar 100) = .ok (held, false))) ∧
    ((held.orderHeap 3).Side = Side.Sell →
      ((105 : ℚ) > (held.orderHeap 3).Limit →
        held.processOrder false 3 0 ⟨100, 105, 95, 102⟩ (flatBar 100) =
          (held.setHit 3 OrderType.Limit).fillOrder false 3 0
            (max 100 (held.orderHeap 3).Limit)) ∧
      (¬ (105 : ℚ) > (held.orderHeap 3).Limit →
        held.processOrder false 3 0 ⟨100, 105, 95, 102⟩ (flatBar 100) = .ok (held, false))) ∧
    min 100 (held.orderHeap 3).Limit ≤ (held.orderHeap 3).Limit ∧
    (held.orderHeap 3).Limit ≤ max 100 (held.orderHeap 3).Limit) :=
  ⟨by decide!,
    C15_limit_order_fill held false 3 0 ⟨100, 105, 95, 102⟩ (flatBar 100) (by decide!)
      (by decide!) (by decide!)⟩

/-! ## Markers of the orders -/

theorem MarkersKept.asBefore (b : broker) : MarkersKept b b :=
  ⟨Nat.le_refl _, fun _ _ h => h⟩

theorem MarkersKept.before {b b0 b1 : broker} (h2 : MarkersKept b0 b1) (h1 : MarkersKept b b0) :
    MarkersKept b b1 :=
  ⟨Nat.le_trans h1.nextId h2.nextId,
    fun o ho h => h2.marker o (Nat.lt_of_lt_of_le ho h1.nextId) (h1.marker o ho h)⟩

theorem MarkersKept.sameHeap {b b1 : broker} (hh : b1.orderHeap = b.orderHeap)
    (hn : b.nextId ≤ b1.nextId) : MarkersKept b b1 :=
  ⟨hn, fun o _ h => by rw [hh]; exact h⟩

theorem MarkersKept.thenHeap {b b0 b1 : broker} (h1 : MarkersKept b b0)
    (hh : b1.orderHeap = b0.orderHeap) (hn : b0.nextId ≤ b1.nextId) : MarkersKept b b1 :=
  (MarkersKept.sameHeap hh hn).before h1

theorem MarkersKept.newOrder {b b1 : broker} (x : Order)
    (hh : b1.orderHeap = Function.update b.orderHeap b.nextId x)
    (hn : b.nextId ≤ b1.nextId) : MarkersKept b b1 :=
  ⟨hn, fun o ho h => by rw [hh, Function.update_noteq (Nat.ne_of_lt ho)]; exact h⟩

theorem Order.remove_markers (b b1 : broker) (o : Nat) (h : Order.remove b o = .ok b1) :
    MarkersKept b b1 := by
  simp only [Order.remove] at h
  split at h
  · cases h
  · simp only [Except.ok.injEq] at h
    rw [← h]; exact MarkersKept.sameHeap rfl (Nat.le_refl _)

theorem Trade.Close_markers (b : broker) (t : Nat) : MarkersKept b (Trade.Close b t) :=
  MarkersKept.newOrder _ rfl (Nat.le_succ _)

theorem broker.cancelUnbound_markers (hs : Nat) :
    ∀ (n i : Nat) (b b1 : broker), broker.cancelUnbound hs n i b = .ok b1 → MarkersKept b b1 := by
  intro n
  induction n with
  | zero =>
    intro i b b1 h
    simp only [broker.cancelUnbound, Except.ok.injEq] at h
    subst h; exact MarkersKept.asBefore b
  | succ n ih =>
    intro i b b1 h
    simp only [broker.cancelUnbound] at h
    split at h
    · cases h
    · split at h
      · split at h
        · cases h
        · rename_i b2 h2
          exact (ih _ _ _ h).before (Order.remove_markers b b2 _ h2)
      · exact ih _ _ _ h

theorem broker.closeAll_markers (hs : Nat) :
    ∀ (n i : Nat) (b b1 : broker), broker.closeAll hs n i b = .ok b1 → MarkersKept b b1 := by
  intro n
  induction n with
  | zero =>
    intro i b b1 h
    simp only [broker.closeAll, Except.ok.injEq] at h
    subst h; exact MarkersKept.asBefore b
  | succ n ih =>
    intro i b b1 h
    simp only [broker.closeAll] at h
    split at h
    · cases h
    · rename_i t _
      exact (ih _ _ _ h).before (Trade.Close_markers b t)

theorem broker.newOrder_markers (b : broker) (opts : newOrderOpts) (b1 : broker) (id : Nat)
    (h : b.newOrder opts = .ok (b1, id)) : MarkersKept b b1 := by
  simp only [broker.newOrder] at h
  split at h
  · cases h
  · split at h
    · cases h
    · split at h
      · cases h
      · split at h
        · simp only [Except.ok.injEq, Prod.mk.injEq] at h
          rw [← h.1]
          exact MarkersKept.newOrder _ rfl (Nat.le_succ _)
        · split at h
          · cases h
          · rename_i b2 h2
            simp only [Except.ok.injEq, Prod.mk.injEq] at h
            rw [← h.1]
            have k2 : MarkersKept b b2 := by
              split at h2
              · split at h2
                · cases h2
                · rename_i b3 h3
                  exact ((broker.closeAll_markers _ _ _ _ _ h2).before
                    (broker.cancelUnbound_markers _ _ _ _ _ h3)).before
                    (MarkersKept.newOrder _ rfl (Nat.le_succ _))
              · simp only [Except.ok.injEq] at h2
                rw [← h2]
                exact MarkersKept.newOrder _ rfl (Nat.le_succ _)
            exact k2.thenHeap rfl (Nat.le_refl _)

theorem Trade.setContingent_markers (b : broker) (t i : Nat) (price : ℚ) (b1 : broker)
    (h : Trade.setContingent b t i price = .ok b1) : MarkersKept b b1 := by
  simp only [Trade.setContingent] at h
  split at h
  · cases h
  · split at h
    · cases h
    · rename_i b2 h2
      have k2 : MarkersKept b b2 := by
        split at h2
        · exact Order.remove_markers b b2 _ h2
        · simp only [Except.ok.injEq] at h2
          rw [← h2]; exact MarkersKept.asBefore b
      split at h
      · cases h
      · rename_i b3 o h3
        have k3 := (broker.newOrder_markers _ _ _ _ h3).before k2
        simp only [Except.ok.injEq] at h
        rw [← h]
        refine MarkersKept.before (?_ : MarkersKept b3 _) k3
        refine ⟨Nat.le_refl _, ?_⟩
        intro x _ hx
        show (Function.update b3.orderHeap o _ x).hitAtOt ≠ none
        by_cases hxo : x = o
        · subst hxo
          rw [Function.update_same]
          split <;> exact hx
        · rw [Function.update_noteq hxo]; exact hx

theorem broker.openTrade_markers (b : broker) (side : Side) (size price sl tp : ℚ) (bar : Int)
    (b1 : broker) (h : b.openTrade side size price sl tp bar = .ok b1) : MarkersKept b b1 := by
  simp only [broker.openTrade] at h
  split at h
  · cases h
  · rename_i b2 h2
    have k2 : MarkersKept b b2 := by
      split at h2
      · exact (Trade.setContingent_markers _ _ _ _ _ h2).before
          (MarkersKept.sameHeap rfl (Nat.le_succ b.nextId))
      · simp only [Except.ok.injEq] at h2
        rw [← h2]; exact MarkersKept.sameHeap rfl (Nat.le_succ b.nextId)
    split at h
    · exact (Trade.setContingent_markers _ _ _ _ _ h).before k2
    · simp only [Except.ok.injEq] at h
      rw [← h]; exact k2

theorem broker.removeLegs_markers (b : broker) (l0 l1 : Option Nat) (b1 : broker)
    (h : b.removeLegs l0 l1 = .ok b1) : MarkersKept b b1 := by
  cases l0 with
  | none =>
    cases l1 with
    | none =>
      simp only [broker.removeLegs, Except.ok.injEq] at h
      rw [← h]; exact MarkersKept.asBefore b
    | some o1 =>
      simp only [broker.removeLegs] at h
      exact Order.remove_markers b b1 o1 h
  | some o0 =>
    cases h0 : Order.remove b o0 with
    | error e => simp [broker.removeLegs, h0] at h
    | ok b2 =>
      have k2 := Order.remove_markers b b2 o0 h0
      cases l1 with
      | none =>
        simp only [broker.removeLegs, h0, Except.ok.injEq] at h
        rw [← h]; exact k2
      | some o1 =>
        simp only [broker.removeLegs, h0] at h
        exact (Order.remove_markers b2 b1 o1 h).before k2

theorem broker.closeTrade_markers (b : broker) (t : Nat) (p : ℚ) (bar : Int) (b1 : broker)
    (h : b.closeTrade t p bar = .ok b1) : MarkersKept b b1 := by
  simp only [broker.closeTrade] at h
  split at h
  · cases h
  · split at h
    · cases h
    · rename_i b4 h4
      have k4 : MarkersKept b b4 := (broker.removeLegs_markers _ _ _ _ h4).before
        (MarkersKept.sameHeap rfl (Nat.le_refl b.nextId))
      split at h
      · cases h
      · simp only [Except.ok.injEq] at h
        rw [← h]
        exact k4.thenHeap rfl (Nat.le_refl _)

theorem broker.resizeLegs_markers (b : broker) (t : Nat) : MarkersKept b (b.resizeLegs t) := by
  refine ⟨Nat.le_refl _, fun o _ h => ?_⟩
  rw [broker.resizeLegs_orderHeap]
  split <;> exact h

theorem broker.reduceTrade_markers (b : broker) (t : Nat) (size p : ℚ) (bar : Int) (b1 : broker)
    (h : b.reduceTrade t size p bar = .ok b1) : MarkersKept b b1 := by
  simp only [broker.reduceTrade] at h
  split at h
  · cases h
  · split at h
    · exact broker.closeTrade_markers _ _ _ _ _ h
    · have k := broker.closeTrade_markers _ _ _ _ _ h
      have k1 := broker.resizeLegs_markers
        { b with tradeHeap := (Function.update b.tradeHeap t
            { b.tradeHeap t with Size := (b.tradeHeap t).Size - size }) } t
      exact ⟨Nat.le_trans (Nat.le_succ _) k.nextId,
        fun o ho hm => k.marker o (Nat.lt_succ_of_lt ho) (k1.marker o ho hm)⟩

theorem broker.setHit_markers (b : broker) (o : Nat) (ot : OrderType) :
    MarkersKept b (b.setHit o ot) := by
  refine ⟨Nat.le_refl _, fun x _ hx => ?_⟩
  show (Function.update b.orderHeap o _ x).hitAtOt ≠ none
  by_cases hxo : x = o
  · subst hxo
    rw [Function.update_same]
    exact Option.some_ne_none _
  · rw [Function.update_noteq hxo]; exact hx

theorem broker.stopStep_markers (b : broker) (o : Nat) (bar : Bar) (b1 : broker)
    (h : b.stopStep o bar = some b1) : MarkersKept b b1 := by
  simp only [broker.stopStep] at h
  split at h
  · split at h
    · simp only [Option.some.injEq] at h
      rw [← h]; exact broker.setHit_markers b o _
    · cases h
  · simp only [Option.some.injEq] at h
    rw [← h]; exact MarkersKept.asBefore b

theorem broker.priceStep_markers (b : broker) (o : Nat) (bar prevBar : Bar) (b1 : broker) (p : ℚ)
    (h : b.priceStep o bar prevBar = some (b1, p)) : MarkersKept b b1 := by
  simp only [broker.priceStep] at h
  split at h
  · split at h
    · simp only [Option.some.injEq, Prod.mk.injEq] at h
      rw [← h.1]; exact broker.setHit_markers b o _
    · cases h
  · simp only [Option.some.injEq, Prod.mk.injEq] at h
    rw [← h.1]; exact broker.setHit_markers b o _

theorem broker.matchTrades_markers (hs o : Nat) (price : ℚ) (bar : Int) :
    ∀ (n i : Nat) (size : ℚ) (b b1 : broker) (size1 : ℚ),
      broker.matchTrades hs o price bar n i size b = .ok (b1, size1) → MarkersKept b b1 := by
  intro n
  induction n with
  | zero =>
    intro i size b b1 size1 h
    simp only [broker.matchTrades, Except.ok.injEq, Prod.mk.injEq] at h
    rw [← h.1]; exact MarkersKept.asBefore b
  | succ n ih =>
    intro i size b b1 size1 h
    simp only [broker.matchTrades] at h
    split at h
    · cases h
    · split at h
      · exact ih _ _ _ _ _ h
      · split at h
        · cases h
        · rename_i b2 size2 h2
          have f2 : MarkersKept b b2 := by
            split at h2
            · split at h2
              · cases h2
              · rename_i b3 h3
                simp only [Except.ok.injEq, Prod.mk.injEq] at h2
                rw [← h2.1]
                exact broker.closeTrade_markers _ _ _ _ _ h3
            · split at h2
              · cases h2
              · rename_i b3 h3
                simp only [Except.ok.injEq, Prod.mk.injEq] at h2
                rw [← h2.1]
                exact broker.reduceTrade_markers _ _ _ _ _ _ h3
          split at h
          · simp only [Except.ok.injEq, Prod.mk.injEq] at h
            rw [← h.1]; exact f2
          · exact (ih _ _ _ _ _ h).before f2

theorem broker.fillOrder_markers (b : broker) (reprocess : Bool) (o barI : Nat) (price : ℚ)
    (b1 : broker) (re1 : Bool)
    (h : b.fillOrder reprocess o barI price = .ok (b1, re1)) : MarkersKept b b1 := by
  simp only [broker.fillOrder] at h
  split at h
  · split at h
    · cases h
    · rename_i b4 h4
      simp only [Except.ok.injEq, Prod.mk.injEq] at h
      rw [← h.1]
      exact Order.remove_markers _ _ _ h4
  · split at h
    · split at h
      · split at h
        · cases h
        · rename_i b4 h4
          simp only [Except.ok.injEq, Prod.mk.injEq] at h
          rw [← h.1]
          exact broker.reduceTrade_markers _ _ _ _ _ _ h4
      · split at h
        · cases h
        · rename_i b4 h4
          simp only [Except.ok.injEq, Prod.mk.injEq] at h
          rw [← h.1]
          exact Order.remove_markers _ _ _ h4
    · split at h
      · cases h
      · rename_i b4 size1 h4
        have f4 : MarkersKept b b4 := broker.matchTrades_markers _ _ _ _ _ _ _ _ _ _ h4
        split at h
        · cases h
        · rename_i b5 re5 h5
          have f5 : MarkersKept b b5 := by
            split at h5
            · split at h5
              · cases h5
              · rename_i b6 h6
                simp only [Except.ok.injEq, Prod.mk.injEq] at h5
                rw [← h5.1]
                exact (broker.openTrade_markers _ _ _ _ _ _ _ _ h6).before f4
            · simp only [Except.ok.injEq, Prod.mk.injEq] at h5
              rw [← h5.1]; exact f4
          split at h
          · cases h
          · rename_i b6 h6
            simp only [Except.ok.injEq, Prod.mk.injEq] at h
            rw [← h.1]
            exact (Order.remove_markers _ _ _ h6).before f5

theorem broker.processOrder_markers (b : broker) (reprocess : Bool) (o barI : Nat)
    (bar prevBar : Bar) (b1 : broker) (re1 : Bool)
    (h : b.processOrder reprocess o barI bar prevBar = .ok (b1, re1)) : MarkersKept b b1 := by
  rw [broker.processOrder_eq_fill] at h
  split at h
  · simp only [Except.ok.injEq, Prod.mk.injEq] at h
    rw [← h.1]; exact MarkersKept.asBefore b
  · rename_i b2 h2
    have f2 := broker.stopStep_markers _ _ _ _ h2
    split at h
    · simp only [Except.ok.injEq, Prod.mk.injEq] at h
      rw [← h.1]; exact f2
    · rename_i b3 price h3
      exact ((broker.fillOrder_markers _ _ _ _ _ _ _ h).before
        (broker.priceStep_markers _ _ _ _ _ _ h3)).before f2

theorem broker.ordersLoop_markers (hs barI : Nat) (bar prevBar : Bar) :
    ∀ (n i : Nat) (b : broker) (re : Bool) (b1 : broker) (re1 : Bool),
      broker.ordersLoop hs barI bar prevBar n i b re = .ok (b1, re1) → MarkersKept b b1 := by
  intro n
  induction n with
  | zero =>
    intro i b re b1 re1 h
    simp only [broker.ordersLoop, Except.ok.injEq, Prod.mk.injEq] at h
    rw [← h.1]; exact MarkersKept.asBefore b
  | succ n ih =>
    intro i b re b1 re1 h
    simp only [broker.ordersLoop] at h
    split at h
    · cases h
    · split at h
      · cases h
      · rename_i b2 re2 h2
        exact (ih _ _ _ _ _ h).before (broker.processOrder_markers _ _ _ _ _ _ _ _ h2)

theorem broker.processOrders_markers :
    ∀ (fuel : Nat) (b b1 : broker), b.processOrders fuel = .ok b1 → MarkersKept b b1 := by
  intro fuel
  induction fuel with
  | zero => intro b b1 h; cases h
  | succ fuel ih =>
    intro b b1 h
    simp only [broker.processOrders] at h
    split at h
    · split at h
      · cases h
      · rename_i b2 re h2
        have f2 := broker.ordersLoop_markers _ _ _ _ _ _ _ _ _ _ h2
        split at h
        · exact (ih _ _ h).before f2
        · simp only [Except.ok.injEq] at h
          rw [← h]; exact f2
    · cases h

theorem broker.next_markers (fuel : Nat) (b b1 : broker) (h : b.next fuel = .ok b1) :
    MarkersKept b b1 := by
  simp only [broker.next] at h
  split at h
  · cases h
  · rename_i b2 h2
    have f2 := broker.processOrders_markers _ _ _ h2
    split at h
    · cases h
    · split at h
      · cases h
      · split at h
        · split at h <;> cases h
        · simp only [Except.ok.injEq] at h
          rw [← h]
          exact f2.thenHeap rfl (Nat.le_refl _)

/-- C16: an order whose marker is set when the pass takes it up.  The stop and
limit checks are skipped: the order is filled as a market order, at the
reference price of the pass (previous close when trading on close, else the
open) pushed to the stop when the order has one, so the result is the same on
any two bars with the same open, whatever their high and low.  The marker of an
order that exists is still set after the order was evaluated, after a
settlement and after `next`. -/
theorem C16_set_marker_is_final (b : broker) (reprocess : Bool) (o barI : Nat)
    (bar prevBar : Bar) (hset : (b.orderHeap o).hitAtOt ≠ none) (hid : o < b.nextId) :
    b.processOrder reprocess o barI bar prevBar =
      (b.setHit o OrderType.Market).fillOrder reprocess o barI
        (if (b.orderHeap o).Stop > 0 then
          (if (b.orderHeap o).IsLong
            then max (if b.opts.tradeOnClose then prevBar.Close else bar.Open) (b.orderHeap o).Stop
            else min (if b.opts.tradeOnClose then prevBar.Close else bar.Open) (b.orderHeap o).Stop)
        else (if b.opts.tradeOnClose then prevBar.Close else bar.Open)) ∧
    (∀ bar2 : Bar, bar2.Open = bar.Open →
      b.processOrder reprocess o barI bar2 prevBar = b.processOrder reprocess o barI bar prevBar) ∧
    (∀ b1 re1, b.processOrder reprocess o barI bar prevBar = .ok (b1, re1) →
      (b1.orderHeap o).hitAtOt ≠ none) ∧
    (∀ fuel b1, b.processOrders fuel = .ok b1 → (b1.orderHeap o).hitAtOt ≠ none) ∧
    (∀ fuel b1, b.next fuel = .ok b1 → (b1.orderHeap o).hitAtOt ≠ none) := by
  have key : ∀ bar3 : Bar, b.processOrder reprocess o barI bar3 prevBar =
      (b.setHit o OrderType.Market).fillOrder reprocess o barI
        (if (b.orderHeap o).Stop > 0 then
          (if (b.orderHeap o).IsLong
            then max (if b.opts.tradeOnClose then prevBar.Close else bar3.Open) (b.orderHeap o).Stop
            else min (if b.opts.tradeOnClose then prevBar.Close else bar3.Open) (b.orderHeap o).Stop)
        else (if b.opts.tradeOnClose then prevBar.Close else bar3.Open)) := by
    intro bar3
    have h1 : b.stopStep o bar3 = some b := by
      simp [broker.stopStep, hset]
    have h2 : b.priceStep o bar3 prevBar = some (b.setHit o OrderType.Market,
        (if (b.orderHeap o).Stop > 0 then
          (if (b.orderHeap o).IsLong
            then max (if b.opts.tradeOnClose then prevBar.Close else bar3.Open) (b.orderHeap o).Stop
            else min (if b.opts.tradeOnClose then prevBar.Close else bar3.Open) (b.orderHeap o).Stop)
        else (if b.opts.tradeOnClose then prevBar.Close else bar3.Open))) := by
      simp [broker.priceStep, hset]
    rw [broker.processOrder_eq_fill]
    simp only [h1, h2]
  refine ⟨key bar, ?_, ?_, ?_, ?_⟩
  · intro bar2 h2
    rw [key bar2, key bar, h2]
  · intro b1 re1 h
    exact (broker.processOrder_markers _ _ _ _ _ _ _ _ h).marker o hid hset
  · intro fuel b1 h
    exact (broker.processOrders_markers _ _ _ h).marker o hid hset
  · intro fuel b1 h
    exact (broker.next_markers _ _ _ h).marker o hid hset

/-- Witness for C16 on `trimmed`: order 2 has the marker `Market`; a second
settlement on the same bar returns, and the marker is still set afterwards. -/
theorem C16_set_marker_is_final_witness :
    ((trimmed.orderHeap 2).hitAtOt = some OrderType.Market ∧ trimmed.queue = [2] ∧
      trimmed.nextId = 4 ∧ faultOf (trimmed.processOrders 1) = none ∧
      ((endState (trimmed.processOrders 1)).orderHeap 2).hitAtOt = some OrderType.Market) ∧
    (trimmed.processOrder false 2 1 (flatBar 60) (flatBar 50) =
      (trimmed.setHit 2 OrderType.Market).fillOrder false 2 1
        (if (trimmed.orderHeap 2).Stop > 0 then
          (if (trimmed.orderHeap 2).IsLong
            then max (if trimmed.opts.tradeOnClose then (flatBar 50).Close else (flatBar 60).Open)
              (trimmed.orderHeap 2).Stop
            else min (if trimmed.opts.tradeOnClose then (flatBar 50).Close else (flatBar 60).Open)
              (trimmed.orderHeap 2).Stop)
        else (if trimmed.opts.tradeOnClose then (flatBar 50).Close else (flatBar 60).Open)) ∧
    (∀ bar2 : Bar, bar2.Open = (flatBar 60).Open →
      trimmed.processOrder false 2 1 bar2 (flatBar 50) =
        trimmed.processOrder false 2 1 (flatBar 60) (flatBar 50)) ∧
    (∀ b1 re1, trimmed.processOrder false 2 1 (flatBar 60) (flatBar 50) = .ok (b1, re1) →
      (b1.orderHeap 2).hitAtOt ≠ none) ∧
    (∀ fuel b1, trimmed.processOrders fuel = .ok b1 → (b1.orderHeap 2).hitAtOt ≠ none) ∧
    (∀ fuel b1, trimmed.next fuel = .ok b1 → (b1.orderHeap 2).hitAtOt ≠ none)) :=
  ⟨by decide!,
    C16_set_marker_is_final trimmed false 2 1 (flatBar 60) (flatBar 50) (by decide!) (by decide!)⟩

/-- C17, at the failing input: with a single open short trade of size 5,
`Position.Size` is 5, not -5. -/
theorem C17_short_position_size_is_positive :
    shortFive.openTrades = [1] ∧
    (shortFive.tradeHeap 1).Side = Side.Sell ∧
    (shortFive.tradeHeap 1).Size = 5 ∧
    Position.Size shortFive = 5 := by
  decide!

/-- C18, at the failing input: on `held` the stop-loss leg (id 2) of trade 1 is
queued; `Cancel` takes it off the queue and leaves slot 0 of the trade pointing
to it, and closing the trade afterwards ends in the fatal `No order found`. -/
theorem C18_cancel_keeps_the_leg_slot :
    held.queue = [3, 2] ∧ (held.tradeHeap 1).legs0 = some 2 ∧
    (held.orderHeap 2).trade = some 1 ∧
    faultOf (Order.Cancel held 2) = none ∧
    (endState (Order.Cancel held 2)).queue = [3] ∧
    ((endState (Order.Cancel held 2)).tradeHeap 1).legs0 = some 2 ∧
    faultOf ((endState (Order.Cancel held 2)).closeTrade 1 103 0) = some Fault.noOrderFound := by
  decide!

/-! ## The moving average -/

theorem window_step (p : Nat) (values : List ℚ) (i : Nat) (v w : ℚ) (hp : 1 ≤ p) (hpi : p ≤ i)
    (hv : values[i]? = some v) (hw : values[i - p]? = some w) :
    ((values.take (i + 1)).drop (i + 1 - p)).sum =
      ((values.take i).drop (i - p)).sum + v - w := by
  have hi : i < values.length := by
    rcases List.getElem?_eq_some.mp hv with ⟨h, _⟩
    exact h
  have hlen : (values.take i).length = i := by
    rw [List.length_take]; omega
  have h1 : values.take (i + 1) = values.take i ++ [v] := by
    rw [List.take_succ, hv]; rfl
  have h2 : (values.take i ++ [v]).drop (i + 1 - p) = (values.take i).drop (i + 1 - p) ++ [v] :=
    List.drop_append_of_le_length (by rw [hlen]; omega)
  have hlt : i - p < (values.take i).length := by rw [hlen]; omega
  have h3 : (values.take i).drop (i - p) = w :: (values.take i).drop (i - p + 1) := by
    rw [List.drop_eq_getElem_cons hlt]
    congr 1
    have : (values.take i)[i - p]? = some w := by
      rw [List.getElem?_take_of_lt (by omega)]; exact hw
    rcases List.getElem?_eq_some.mp this with ⟨_, h⟩
    exact h
  have h4 : i + 1 - p = i - p + 1 := by omega
  rw [h1, h2, h3, h4, List.sum_append, List.sum_cons]
  simp only [List.sum_cons, List.sum_nil]
  ring

theorem window_grow (p : Nat) (values : List ℚ) (i : Nat) (v : ℚ) (hpi : i < p)
    (hv : values[i]? = some v) :
    ((values.take (i + 1)).drop (i + 1 - p)).sum =
      ((values.take i).drop (i - p)).sum + v := by
  have h1 : values.take (i + 1) = values.take i ++ [v] := by
    rw [List.take_succ, hv]; rfl
  have h2 : i + 1 - p = 0 := by omega
  have h3 : i - p = 0 := by omega
  rw [h1, h2, h3]
  simp

theorem SMA.loop_spec (p : Nat) (values : List ℚ) (hp : 1 ≤ p) :
    ∀ (rest : List ℚ) (i : Nat) (sum : ℚ), values.drop i = rest →
      sum = ((values.take i).drop (i - p)).sum →
      ∃ r, SMA.loop (p : Int) values rest i sum = some r ∧ r.length = rest.length ∧
        ∀ j, j < rest.length → r[j]? = some (windowMean p values (i + j)) := by
  intro rest
  induction rest with
  | nil =>
    intro i sum _ _
    exact ⟨[], rfl, rfl, fun j hj => absurd hj (Nat.not_lt_zero _)⟩
  | cons v rest ih =>
    intro i sum hdrop hsum
    have hi : i < values.length := by
      by_contra hge
      rw [List.drop_eq_nil_of_le (Nat.le_of_not_lt hge)] at hdrop
      cases hdrop
    have hv : values[i]? = some v := by
      have h := List.drop_eq_getElem_cons hi
      rw [hdrop] at h
      rw [List.getElem?_eq_getElem hi]
      injection h with h1 _
      rw [h1]
    have hnext : values.drop (i + 1) = rest := by
      have h := List.drop_eq_getElem_cons hi
      rw [hdrop] at h
      injection h with _ h2
      exact h2.symm
    by_cases hpi : p ≤ i
    · have hlt : i - p < values.length := by omega
      have hw : values[i - p]? = some (values[i - p]) := List.getElem?_eq_getElem hlt
      have hidx : ((i : Int) - (p : Int)).toNat = i - p := by omega
      have hnew := window_step p values i v _ hp hpi hv hw
      rcases ih (i + 1) (sum + v - values[i - p]) hnext (by rw [hnew, hsum]) with ⟨r, hr, hl, hrs⟩
      refine ⟨(sum + v - values[i - p]) / ((p : Int) : ℚ) :: r, ?_, ?_, ?_⟩
      · simp only [SMA.loop, ge_iff_le, Nat.cast_le, hpi, if_true, hidx, hw, hr, Option.map_some']
      · simp [hl]
      · intro j hj
        cases j with
        | zero =>
          simp only [List.getElem?_cons_zero, Nat.add_zero, windowMean, Option.some.injEq]
          rw [hnew, hsum, Nat.min_eq_right (by omega)]
          simp
        | succ j =>
          rw [List.getElem?_cons_succ, hrs j (by simpa using hj)]
          congr 2
          omega
    · have hlt : i < p := Nat.lt_of_not_le hpi
      have hnew := window_grow p values i v hlt hv
      rcases ih (i + 1) (sum + v) hnext (by rw [hnew, hsum]) with ⟨r, hr, hl, hrs⟩
      refine ⟨(sum + v) / (((i + 1 : Nat) : Int) : ℚ) :: r, ?_, ?_, ?_⟩
      · have hn : ¬ ((p : Int) ≤ (i : Int)) := by omega
        simp only [SMA.loop, ge_iff_le, hn, if_false, hr, Option.map_some']
      · simp [hl]
      · intro j hj
        cases j with
        | zero =>
          simp only [List.getElem?_cons_zero, Nat.add_zero, windowMean, Option.some.injEq]
          rw [hnew, hsum, Nat.min_eq_left (by omega)]
          simp
        | succ j =>
          rw [List.getElem?_cons_succ, hrs j (by simpa using hj)]
          congr 2
          omega

/-- C19: for a period of at least one, `SMA` returns (no index panic) a list as
long as the values whose element `i` is the mean of
`values[max(0, i-period+1) .. i]`: the sum of that window divided by its
length `min (i+1) period`. -/
theorem C19_sma_is_windowed_mean (period : Int) (values : List ℚ) (hp : 1 ≤ period) :
    ∃ r, SMA period values = some r ∧ r.length = values.length ∧
      ∀ i, i < values.length → r[i]? = some (windowMean period.toNat values i) := by
  have hcast : ((period.toNat : Nat) : Int) = period := Int.toNat_of_nonneg (by omega)
  have h := SMA.loop_spec period.toNat values (by omega) values 0 0 rfl (by simp)
  rw [hcast] at h
  rcases h with ⟨r, hr, hl, hrs⟩
  refine ⟨r, hr, hl, fun i hi => ?_⟩
  rw [hrs i hi, Nat.zero_add]

/-- Witness for C19, the example of the comment in the source: period 2 over
1, 2, 3, 4 gives 1, 1.5, 2.5, 3.5. -/
theorem C19_sma_is_windowed_mean_witness :
    (SMA 2 [1, 2, 3, 4] = some [1, 3 / 2, 5 / 2, 7 / 2] ∧ (1 : Int) ≤ 2) ∧
    ∃ r, SMA 2 [1, 2, 3, 4] = some r ∧ r.length = [(1 : ℚ), 2, 3, 4].length ∧
      ∀ i, i < [(1 : ℚ), 2, 3, 4].length →
        r[i]? = some (windowMean (2 : Int).toNat [1, 2, 3, 4] i) :=
  ⟨by decide!, C19_sma_is_windowed_mean 2 [1, 2, 3, 4] (by decide)⟩

/-! ## Trade records under the operations on orders -/

theorem BooksKept.idle (b : broker) : BooksKept b b :=
  ⟨fun _ => rfl, rfl, rfl⟩

theorem BooksKept.onto {b b0 b1 : broker} (h2 : BooksKept b0 b1) (h1 : BooksKept b b0) :
    BooksKept b b1 :=
  ⟨fun t => (h2.records t).trans (h1.records t), h2.closedTrades.trans h1.closedTrades,
    h2.cash.trans h1.cash⟩

theorem BooksKept.ofHeap {b b1 : broker} (hh : b1.tradeHeap = b.tradeHeap)
    (hc : b1.closedTrades = b.closedTrades) (hm : b1.cash = b.cash) : BooksKept b b1 :=
  ⟨fun t => by rw [hh], hc, hm⟩

theorem BooksKept.withHeap {b b0 b1 : broker} (h1 : BooksKept b b0)
    (hh : b1.tradeHeap = b0.tradeHeap) (hc : b1.closedTrades = b0.closedTrades)
    (hm : b1.cash = b0.cash) : BooksKept b b1 :=
  (BooksKept.ofHeap hh hc hm).onto h1

theorem BooksKept.size {b b1 : broker} (h : BooksKept b b1) (t : Nat) :
    (b1.tradeHeap t).Size = (b.tradeHeap t).Size :=
  have e : ((b1.tradeHeap t).bare).Size = ((b.tradeHeap t).bare).Size := by rw [h.records t]
  e

theorem Order.remove_books (b b1 : broker) (o : Nat) (h : Order.remove b o = .ok b1) :
    BooksKept b b1 := by
  simp only [Order.remove] at h
  split at h
  · cases h
  · simp only [Except.ok.injEq] at h
    rw [← h]; exact BooksKept.ofHeap rfl rfl rfl

theorem Trade.Close_books (b : broker) (t : Nat) : BooksKept b (Trade.Close b t) :=
  BooksKept.ofHeap rfl rfl rfl

theorem broker.cancelUnbound_books (hs : Nat) :
    ∀ (n i : Nat) (b b1 : broker), broker.cancelUnbound hs n i b = .ok b1 → BooksKept b b1 := by
  intro n
  induction n with
  | zero =>
    intro i b b1 h
    simp only [broker.cancelUnbound, Except.ok.injEq] at h
    subst h; exact BooksKept.idle b
  | succ n ih =>
    intro i b b1 h
    simp only [broker.cancelUnbound] at h
    split at h
    · cases h
    · split at h
      · split at h
        · cases h
        · rename_i b2 h2
          exact (ih _ _ _ h).onto (Order.remove_books b b2 _ h2)
      · exact ih _ _ _ h

theorem broker.closeAll_books (hs : Nat) :
    ∀ (n i : Nat) (b b1 : broker), broker.closeAll hs n i b = .ok b1 → BooksKept b b1 := by
  intro n
  induction n with
  | zero =>
    intro i b b1 h
    simp only [broker.closeAll, Except.ok.injEq] at h
    subst h; exact BooksKept.idle b
  | succ n ih =>
    intro i b b1 h
    simp only [broker.closeAll] at h
    split at h
    · cases h
    · rename_i t _
      exact (ih _ _ _ h).onto (Trade.Close_books b t)

theorem broker.newOrder_books (b : broker) (opts : newOrderOpts) (b1 : broker) (id : Nat)
    (h : b.newOrder opts = .ok (b1, id)) : BooksKept b b1 := by
  simp only [broker.newOrder] at h
  split at h
  · cases h
  · split at h
    · cases h
    · split at h
      · cases h
      · split at h
        · simp only [Except.ok.injEq, Prod.mk.injEq] at h
          rw [← h.1]
          exact BooksKept.ofHeap rfl rfl rfl
        · split at h
          · cases h
          · rename_i b2 h2
            simp only [Except.ok.injEq, Prod.mk.injEq] at h
            rw [← h.1]
            have k2 : BooksKept b b2 := by
              split at h2
              · split at h2
                · cases h2
                · rename_i b3 h3
                  exact ((broker.closeAll_books _ _ _ _ _ h2).onto
                    (broker.cancelUnbound_books _ _ _ _ _ h3)).onto
                    (BooksKept.ofHeap rfl rfl rfl)
              · simp only [Except.ok.injEq] at h2
                rw [← h2]
                exact BooksKept.ofHeap rfl rfl rfl
            exact k2.withHeap rfl rfl rfl

theorem Trade.setContingent_books (b : broker) (t i : Nat) (price : ℚ) (b1 : broker)
    (h : Trade.setContingent b t i price = .ok b1) : BooksKept b b1 := by
  simp only [Trade.setContingent] at h
  split at h
  · cases h
  · split at h
    · cases h
    · rename_i b2 h2
      have k2 : BooksKept b b2 := by
        split at h2
        · exact Order.remove_books b b2 _ h2
        · simp only [Except.ok.injEq] at h2
          rw [← h2]; exact BooksKept.idle b
      split at h
      · cases h
      · rename_i b3 o h3
        have k3 := (broker.newOrder_books _ _ _ _ h3).onto k2
        simp only [Except.ok.injEq] at h
        rw [← h]
        refine BooksKept.onto (?_ : BooksKept b3 _) k3
        refine ⟨fun x => ?_, rfl, rfl⟩
        show (Function.update b3.tradeHeap t _ x).bare = _
        by_cases hx : x = t
        · subst hx
          rw [Function.update_same]
          split <;> rfl
        · rw [Function.update_noteq hx]

theorem broker.removeLegs_books (b : broker) (l0 l1 : Option Nat) (b1 : broker)
    (h : b.removeLegs l0 l1 = .ok b1) : BooksKept b b1 := by
  cases l0 with
  | none =>
    cases l1 with
    | none =>
      simp only [broker.removeLegs, Except.ok.injEq] at h
      rw [← h]; exact BooksKept.idle b
    | some o1 =>
      simp only [broker.removeLegs] at h
      exact Order.remove_books b b1 o1 h
  | some o0 =>
    cases h0 : Order.remove b o0 with
    | error e => simp [broker.removeLegs, h0] at h
    | ok b2 =>
      have k2 := Order.remove_books b b2 o0 h0
      cases l1 with
      | none =>
        simp only [broker.removeLegs, h0, Except.ok.injEq] at h
        rw [← h]; exact k2
      | some o1 =>
        simp only [broker.removeLegs, h0] at h
        exact (Order.remove_books b2 b1 o1 h).onto k2

theorem broker.setHit_books (b : broker) (o : Nat) (ot : OrderType) :
    BooksKept b (b.setHit o ot) :=
  BooksKept.ofHeap rfl rfl rfl

theorem broker.stopStep_books (b : broker) (o : Nat) (bar : Bar) (b1 : broker)
    (h : b.stopStep o bar = some b1) : BooksKept b b1 := by
  simp only [broker.stopStep] at h
  split at h
  · split at h
    · simp only [Option.some.injEq] at h
      rw [← h]; exact broker.setHit_books b o _
    · cases h
  · simp only [Option.some.injEq] at h
    rw [← h]; exact BooksKept.idle b

theorem broker.priceStep_books (b : broker) (o : Nat) (bar prevBar : Bar) (b1 : broker) (p : ℚ)
    (h : b.priceStep o bar prevBar = some (b1, p)) : BooksKept b b1 := by
  simp only [broker.priceStep] at h
  split at h
  · split at h
    · simp only [Option.some.injEq, Prod.mk.injEq] at h
      rw [← h.1]; exact broker.setHit_books b o _
    · cases h
  · simp only [Option.some.injEq, Prod.mk.injEq] at h
    rw [← h.1]; exact broker.setHit_books b o _

/-! ## Sizes of the open trades -/

theorem Healthy.carried {b b1 : broker} (hs : Healthy b) (k : TradesKept b b1)
    (bk : BooksKept b b1) : Healthy b1 :=
  ⟨hs.sound.kept k, by
    rw [k.sameOpen]
    intro t ht
    rw [bk.size t]
    exact hs.positive t ht⟩

theorem broker.closeTrade_open (b : broker) (t : Nat) (p : ℚ) (bar : Int) (b1 : broker)
    (hne : b.orders.arr ≠ b.trades.arr) (h : b.closeTrade t p bar = .ok b1) :
    t ∈ b.openTrades ∧ b1.openTrades = b.openTrades.erase t ∧
      (∀ x, (b1.tradeHeap x).Size = (b.tradeHeap x).Size) ∧
      b1.closedTrades = b.closedTrades ++ [t] := by
  simp only [broker.closeTrade] at h
  split at h
  · cases h
  · rename_i i hi
    obtain ⟨hmem, hidx⟩ := indexIn_some_mem hi
    have hmem2 : t ∈ b.openTrades := hmem
    have hlt : b.openTrades.indexOf t < b.openTrades.length := List.indexOf_lt_length.mpr hmem2
    split at h
    · cases h
    · rename_i b4 h4
      have ho3 : ∀ (b3 : broker), b3.trades = (b.sliceRemove b.trades i).2 →
          b3.arrays = (b.sliceRemove b.trades i).1 → b3.openTrades = b.openTrades.erase t := by
        intro b3 e1 e2
        simp only [broker.openTrades, broker.live, e1, e2, broker.sliceRemove, Function.update_same]
        simp only [broker.openTrades, broker.live] at hlt hidx
        rw [hidx, take_removed _ _ _ hlt]
        exact List.eraseIdx_indexOf_eq_erase _ _
      have k4 := broker.removeLegs_kept _ _ _ _ h4 hne
      have bk4 := broker.removeLegs_books _ _ _ _ h4
      have ho4 : b4.openTrades = b.openTrades.erase t := by
        rw [k4.sameOpen]; exact ho3 _ rfl rfl
      have hsz : ∀ x, (b4.tradeHeap x).Size = (b.tradeHeap x).Size := by
        intro x
        rw [bk4.size x]
        show (Function.update b.tradeHeap t _ x).Size = _
        by_cases hx : x = t
        · subst hx; rw [Function.update_same]
        · rw [Function.update_noteq hx]
      have hc4 : b4.closedTrades = b.closedTrades ++ [t] := bk4.closedTrades
      split at h
      · cases h
      · simp only [Except.ok.injEq] at h
        rw [← h]
        exact ⟨hmem2, ho4, hsz, hc4⟩

theorem broker.closeTrade_healthy (b : broker) (t : Nat) (p : ℚ) (bar : Int) (b1 : broker)
    (hs : SoundBut b t) (hpos : ∀ x ∈ b.openTrades, x ≠ t → 0 < (b.tradeHeap x).Size)
    (h : b.closeTrade t p bar = .ok b1) : Healthy b1 := by
  obtain ⟨_, ho, hsz, _⟩ := broker.closeTrade_open b t p bar b1 hs.arrNe h
  refine ⟨broker.closeTrade_sound b t p bar b1 hs h, ?_⟩
  rw [ho]
  intro x hx
  rw [hsz x]
  have hx2 := hs.nodup.mem_erase_iff.mp hx
  exact hpos x hx2.2 hx2.1

theorem open_append (b : broker) (tr : Trade) :
    ({ b with
        tradeHeap := (Function.update b.tradeHeap b.nextId tr)
        nextId := b.nextId + 1
        arrays := (b.sliceAppend b.trades b.nextId).1
        nextArr := b.nextArr + 1
        trades := (b.sliceAppend b.trades b.nextId).2 } : broker).openTrades
      = b.openTrades ++ [b.nextId] := by
  simp only [broker.openTrades, broker.live]
  exact live_sliceAppend b b.trades b.nextId

theorem positive_append (b : broker) (tr : Trade)
    (hpos : ∀ t ∈ b.openTrades, 0 < (b.tradeHeap t).Size) :
    ∀ x ∈ ({ b with
        tradeHeap := (Function.update b.tradeHeap b.nextId tr)
        nextId := b.nextId + 1
        arrays := (b.sliceAppend b.trades b.nextId).1
        nextArr := b.nextArr + 1
        trades := (b.sliceAppend b.trades b.nextId).2 } : broker).openTrades,
      x ≠ b.nextId → 0 < ((Function.update b.tradeHeap b.nextId tr) x).Size := by
  intro x hx hne
  rw [open_append] at hx
  rw [Function.update_noteq hne]
  rcases List.mem_append.mp hx with hx | hx
  · exact hpos x hx
  · exact absurd (List.mem_singleton.mp hx) hne

theorem broker.openTrade_healthy (b : broker) (side : Side) (size price sl tp : ℚ) (bar : Int)
    (b1 : broker) (hs : Healthy b) (hsize : 0 < size)
    (h : b.openTrade side size price sl tp bar = .ok b1) : Healthy b1 := by
  have hs0 : Healthy
      { b with
        tradeHeap := (Function.update b.tradeHeap b.nextId
          { Size := size, Side := side, EntryPrice := price, ExitPrice := 0,
            EntryBar := bar, ExitBar := 0, legs0 := none, legs1 := none })
        nextId := b.nextId + 1
        arrays := (b.sliceAppend b.trades b.nextId).1
        nextArr := b.nextArr + 1
        trades := (b.sliceAppend b.trades b.nextId).2 } := by
    refine ⟨(sound_append b _ hs.sound).sound
      (by show (Function.update b.tradeHeap b.nextId _ b.nextId).ExitPrice ≤ 0
          rw [Function.update_same]), ?_⟩
    intro x hx
    by_cases hxe : x = b.nextId
    · show 0 < (Function.update b.tradeHeap b.nextId _ x).Size
      rw [hxe, Function.update_same]
      exact hsize
    · exact positive_append b _ hs.positive x hx hxe
  simp only [broker.openTrade] at h
  split at h
  · cases h
  · rename_i b2 h2
    have hs2 : Healthy b2 := by
      split at h2
      · exact hs0.carried (Trade.setContingent_kept _ _ _ _ _ hs0.sound h2)
          (Trade.setContingent_books _ _ _ _ _ h2)
      · simp only [Except.ok.injEq] at h2
        rw [← h2]; exact hs0
    split at h
    · exact hs2.carried (Trade.setContingent_kept _ _ _ _ _ hs2.sound h)
        (Trade.setContingent_books _ _ _ _ _ h)
    · simp only [Except.ok.injEq] at h
      rw [← h]; exact hs2

theorem broker.reduceTrade_healthy (b : broker) (t : Nat) (size p : ℚ) (bar : Int) (b1 : broker)
    (hs : Healthy b) (h : b.reduceTrade t size p bar = .ok b1) : Healthy b1 := by
  simp only [broker.reduceTrade] at h
  split at h
  · cases h
  · rename_i hneg
    split at h
    · exact broker.closeTrade_healthy b t p bar b1 (hs.sound.but t)
        (fun x hx _ => hs.positive x hx) h
    · rename_i hzero
      have hleft : 0 < (b.tradeHeap t).Size - size :=
        lt_of_le_of_ne (not_lt.mp hneg) (Ne.symm hzero)
      have hs1 : Healthy (({ b with
          tradeHeap := (Function.update b.tradeHeap t
            { b.tradeHeap t with Size := (b.tradeHeap t).Size - size }) } : broker).resizeLegs t) := by
        refine ⟨hs.sound.kept ⟨rfl, rfl, ?_, Nat.le_refl _, Nat.le_refl _, Or.inl rfl⟩, ?_⟩
        · intro x
          show (Function.update b.tradeHeap t _ x).ExitPrice = _
          by_cases hx : x = t
          · subst hx; rw [Function.update_same]
          · rw [Function.update_noteq hx]
        · intro x hx
          have hx2 : x ∈ b.openTrades := hx
          show 0 < (Function.update b.tradeHeap t _ x).Size
          by_cases hxt : x = t
          · subst hxt; rw [Function.update_same]; exact hleft
          · rw [Function.update_noteq hxt]; exact hs.positive x hx2
      exact broker.closeTrade_healthy _ _ p bar b1 (sound_append _ _ hs1.sound)
        (positive_append _ _ hs1.positive) h

theorem broker.matchTrades_healthy (hs o : Nat) (price : ℚ) (bar : Int) :
    ∀ (n i : Nat) (size : ℚ) (b b1 : broker) (size1 : ℚ), Healthy b →
      broker.matchTrades hs o price bar n i size b = .ok (b1, size1) → Healthy b1 := by
  intro n
  induction n with
  | zero =>
    intro i size b b1 size1 hsd h
    simp only [broker.matchTrades, Except.ok.injEq, Prod.mk.injEq] at h
    rw [← h.1]; exact hsd
  | succ n ih =>
    intro i size b b1 size1 hsd h
    simp only [broker.matchTrades] at h
    split at h
    · cases h
    · split at h
      · exact ih _ _ _ _ _ hsd h
      · split at h
        · cases h
        · rename_i b2 size2 h2
          have hs2 : Healthy b2 := by
            split at h2
            · split at h2
              · cases h2
              · rename_i b3 h3
                simp only [Except.ok.injEq, Prod.mk.injEq] at h2
                rw [← h2.1]
                exact broker.closeTrade_healthy _ _ _ _ _ (hsd.sound.but _)
                  (fun x hx _ => hsd.positive x hx) h3
            · split at h2
              · cases h2
              · rename_i b3 h3
                simp only [Except.ok.injEq, Prod.mk.injEq] at h2
                rw [← h2.1]
                exact broker.reduceTrade_healthy _ _ _ _ _ _ hsd h3
          split at h
          · simp only [Except.ok.injEq, Prod.mk.injEq] at h
            rw [← h.1]; exact hs2
          · exact ih _ _ _ _ _ hs2 h

theorem broker.fillOrder_healthy (b : broker) (reprocess : Bool) (o barI : Nat) (price : ℚ)
    (b1 : broker) (re1 : Bool) (hs3 : Healthy b)
    (h : b.fillOrder reprocess o barI price = .ok (b1, re1)) : Healthy b1 := by
  simp only [broker.fillOrder] at h
  split at h
  · split at h
    · cases h
    · rename_i b4 h4
      simp only [Except.ok.injEq, Prod.mk.injEq] at h
      rw [← h.1]
      exact hs3.carried (Order.remove_kept _ _ _ hs3.sound.arrNe h4) (Order.remove_books _ _ _ h4)
  · split at h
    · split at h
      · split at h
        · cases h
        · rename_i b4 h4
          simp only [Except.ok.injEq, Prod.mk.injEq] at h
          rw [← h.1]
          exact broker.reduceTrade_healthy _ _ _ _ _ _ hs3 h4
      · split at h
        · cases h
        · rename_i b4 h4
          simp only [Except.ok.injEq, Prod.mk.injEq] at h
          rw [← h.1]
          exact hs3.carried (Order.remove_kept _ _ _ hs3.sound.arrNe h4)
            (Order.remove_books _ _ _ h4)
    · split at h
      · cases h
      · rename_i b4 size1 h4
        have hs4 : Healthy b4 := broker.matchTrades_healthy _ _ _ _ _ _ _ _ _ _ hs3 h4
        split at h
        · cases h
        · rename_i b5 re5 h5
          have hs5 : Healthy b5 := by
            split at h5
            · rename_i hpos
              split at h5
              · cases h5
              · rename_i b6 h6
                simp only [Except.ok.injEq, Prod.mk.injEq] at h5
                rw [← h5.1]
                exact broker.openTrade_healthy _ _ _ _ _ _ _ _ hs4 hpos h6
            · simp only [Except.ok.injEq, Prod.mk.injEq] at h5
              rw [← h5.1]; exact hs4
          split at h
          · cases h
          · rename_i b6 h6
            simp only [Except.ok.injEq, Prod.mk.injEq] at h
            rw [← h.1]
            exact hs5.carried (Order.remove_kept _ _ _ hs5.sound.arrNe h6)
              (Order.remove_books _ _ _ h6)

theorem broker.processOrder_healthy (b : broker) (reprocess : Bool) (o barI : Nat)
    (bar prevBar : Bar) (b1 : broker) (re1 : Bool) (hsd : Healthy b)
    (h : b.processOrder reprocess o barI bar prevBar = .ok (b1, re1)) : Healthy b1 := by
  rw [broker.processOrder_eq_fill] at h
  split at h
  · simp only [Except.ok.injEq, Prod.mk.injEq] at h
    rw [← h.1]; exact hsd
  · rename_i b2 h2
    have hs2 : Healthy b2 :=
      hsd.carried (broker.stopStep_kept _ _ _ _ h2) (broker.stopStep_books _ _ _ _ h2)
    split at h
    · simp only [Except.ok.injEq, Prod.mk.injEq] at h
      rw [← h.1]; exact hs2
    · rename_i b3 price h3
      have hs3 : Healthy b3 :=
        hs2.carried (broker.priceStep_kept _ _ _ _ _ _ h3) (broker.priceStep_books _ _ _ _ _ _ h3)
      exact broker.fillOrder_healthy _ _ _ _ _ _ _ hs3 h

theorem broker.ordersLoop_healthy (hs barI : Nat) (bar prevBar : Bar) :
    ∀ (n i : Nat) (b : broker) (re : Bool) (b1 : broker) (re1 : Bool), Healthy b →
      broker.ordersLoop hs barI bar prevBar n i b re = .ok (b1, re1) → Healthy b1 := by
  intro n
  induction n with
  | zero =>
    intro i b re b1 re1 hsd h
    simp only [broker.ordersLoop, Except.ok.injEq, Prod.mk.injEq] at h
    rw [← h.1]; exact hsd
  | succ n ih =>
    intro i b re b1 re1 hsd h
    simp only [broker.ordersLoop] at h
    split at h
    · cases h
    · split at h
      · cases h
      · rename_i b2 re2 h2
        exact ih _ _ _ _ _ (broker.processOrder_healthy _ _ _ _ _ _ _ _ hsd h2) h

theorem broker.processOrders_healthy :
    ∀ (fuel : Nat) (b b1 : broker), Healthy b → b.processOrders fuel = .ok b1 → Healthy b1 := by
  intro fuel
  induction fuel with
  | zero => intro b b1 _ h; cases h
  | succ fuel ih =>
    intro b b1 hsd h
    simp only [broker.processOrders] at h
    split at h
    · split at h
      · cases h
      · rename_i b2 re h2
        have hs2 := broker.ordersLoop_healthy _ _ _ _ _ _ _ _ _ _ hsd h2
        split at h
        · exact ih _ _ hs2 h
        · simp only [Except.ok.injEq] at h
          rw [← h]; exact hs2
    · cases h

theorem broker.next_healthy (fuel : Nat) (b b1 : broker) (hs : Healthy b)
    (h : b.next fuel = .ok b1) : Healthy b1 := by
  simp only [broker.next] at h
  split at h
  · cases h
  · rename_i b2 h2
    have hs2 := broker.processOrders_healthy fuel b b2 hs h2
    split at h
    · cases h
    · split at h
      · cases h
      · split at h
        · split at h <;> cases h
        · simp only [Except.ok.injEq] at h
          rw [← h]
          exact hs2.carried ⟨rfl, rfl, fun _ => rfl, Nat.le_refl _, Nat.le_refl _, Or.inl rfl⟩
            (BooksKept.ofHeap rfl rfl rfl)

theorem New_healthy (n : Nat) (opts : Opts) : Healthy (New n opts) :=
  ⟨New_sound n opts, fun _ h => absurd h (List.not_mem_nil _)⟩

theorem Reachable.healthy {b : broker} (h : Reachable b) : Healthy b := by
  induction h with
  | init n opts => exact New_healthy n opts
  | bars b bars i _ ih =>
    exact ih.carried ⟨rfl, rfl, fun _ => rfl, Nat.le_refl _, Nat.le_refl _, Or.inl rfl⟩
      (BooksKept.ofHeap rfl rfl rfl)
  | submit b opts b1 id _ h ih =>
    exact ih.carried (broker.newOrder_kept b opts b1 id ih.sound h)
      (broker.newOrder_books b opts b1 id h)
  | closeTrade b t _ ih =>
    exact ih.carried (Trade.Close_kept b t ih.sound) (Trade.Close_books b t)
  | closePosition b b1 _ h ih =>
    exact ih.carried (broker.closeAll_kept _ _ _ _ _ ih.sound h)
      (broker.closeAll_books _ _ _ _ _ h)
  | setLeg b t i price b1 _ h ih =>
    exact ih.carried (Trade.setContingent_kept _ _ _ _ _ ih.sound h)
      (Trade.setContingent_books _ _ _ _ _ h)
  | cancel b o b1 _ h ih =>
    exact ih.carried (Order.remove_kept _ _ _ ih.sound.arrNe h) (Order.remove_books _ _ _ h)
  | settle b fuel b1 _ h ih => exact broker.processOrders_healthy fuel b b1 ih h
  | next b fuel b1 _ h ih => exact broker.next_healthy fuel b b1 ih h

/-- C20: in every ledger reached from the one built by `New` by new bars,
submissions, closing orders, leg updates, cancellations, settlements and
`next`, every open trade has a positive size.  In such a ledger a reduction of
an open trade with remainder 0 (legs queued, a last bar) returns with the trade
out of the open trades and appended to the closed trades, the open trades left
being positive.  And an order of the queue whose resolved size is 0 is
cancelled: the fill returns with the order removed and the open trades, the
trade records, the closed trades and the cash as they were. -/
theorem C20_open_trades_have_positive_size :
    (∀ b, Reachable b → ∀ t ∈ b.openTrades, 0 < (b.tradeHeap t).Size) ∧
    (∀ b, Reachable b → ∀ (t : Nat) (size p : ℚ) (bar : Int) (c : ℚ),
      t ∈ b.openTrades → (b.tradeHeap t).Size - size = 0 → b.data.LastClose = some c →
      (∀ o, (b.tradeHeap t).legs0 = some o → o ∈ b.queue) →
      (∀ o, (b.tradeHeap t).legs1 = some o → o ∈ b.queue) →
      (∀ o, (b.tradeHeap t).legs0 = some o → (b.tradeHeap t).legs1 ≠ some o) →
      ∃ b1, b.reduceTrade t size p bar = .ok b1 ∧ t ∉ b1.openTrades ∧
        b1.openTrades = b.openTrades.erase t ∧
        b1.closedTrades = b.closedTrades ++ [t] ∧
        ∀ x ∈ b1.openTrades, 0 < (b1.tradeHeap x).Size) ∧
    (∀ (b : broker) (reprocess : Bool) (o barI : Nat) (price : ℚ),
      b.orders.arr ≠ b.trades.arr → o ∈ b.queue → b.resolveSize o price = 0 →
      ∃ b1, b.fillOrder reprocess o barI price = .ok (b1, reprocess) ∧
        b1.queue = b.queue.erase o ∧ b1.openTrades = b.openTrades ∧
        b1.tradeHeap = b.tradeHeap ∧ b1.closedTrades = b.closedTrades ∧ b1.cash = b.cash) := by
  refine ⟨fun b hr => hr.healthy.positive, ?_, ?_⟩
  · intro b hr t size p bar c hopen hzero hc h0 h1 hd
    have hh := hr.healthy
    obtain ⟨b1, hb1, ho, _, hcl, _⟩ :=
      broker.closeTrade_spec b t p bar c hopen hh.sound.arrNe hc h0 h1 hd
    have hred : b.reduceTrade t size p bar = .ok b1 := by
      simp only [broker.reduceTrade, hzero, lt_self_iff_false, if_false, if_true]
      exact hb1
    refine ⟨b1, hred, ?_, ho, hcl, (broker.reduceTrade_healthy b t size p bar b1 hh hred).positive⟩
    rw [ho]
    exact fun hm => (hh.sound.nodup.mem_erase_iff.mp hm).1 rfl
  · intro b reprocess o barI price hne ho hzero
    obtain ⟨b1, hb1, hq, hk⟩ := Order.remove_ok b o ho
    refine ⟨b1, ?_, hq, hk.sameTrades hne, hk.tradeHeap, hk.closedTrades, hk.cash⟩
    simp only [broker.fillOrder, hzero, if_true, Order.Cancel, hb1]

/-- Witness for C20.  On `held`, which is reached by a submission and a
settlement, the open trade 1 has size 10, and reducing it by 10 closes it.  On
`buyQueued` at a price of 1000000 the default size resolves to
`floor (300 / 1000000) = 0` and the order is cancelled. -/
theorem C20_open_trades_have_positive_size_witness :
    (held.openTrades = [1] ∧ (held.tradeHeap 1).Size = 10 ∧
      buyQueued.queue = [0] ∧ buyQueued.resolveSize 0 1000000 = 0) ∧
    (0 < (held.tradeHeap 1).Size) ∧
    (∃ b1, held.reduceTrade 1 10 103 0 = .ok b1 ∧ 1 ∉ b1.openTrades ∧
      b1.openTrades = held.openTrades.erase 1 ∧
      b1.closedTrades = held.closedTrades ++ [1] ∧
      ∀ x ∈ b1.openTrades, 0 < (b1.tradeHeap x).Size) ∧
    (∃ b1, buyQueued.fillOrder false 0 0 1000000 = .ok (b1, false) ∧
      b1.queue = buyQueued.queue.erase 0 ∧ b1.openTrades = buyQueued.openTrades ∧
      b1.tradeHeap = buyQueued.tradeHeap ∧ b1.closedTrades = buyQueued.closedTrades ∧
      b1.cash = buyQueued.cash) :=
  ⟨by decide!,
    C20_open_trades_have_positive_size.1 held held_reachable 1 (by decide!),
    C20_open_trades_have_positive_size.2.1 held held_reachable 1 10 103 0 100 (by decide!)
      (by decide!) (by decide!) (by decide!) (by decide!) (by decide!),
    C20_open_trades_have_positive_size.2.2 buyQueued false 0 0 1000000 (by decide!) (by decide!)
      (by decide!)⟩

/-! ## One pass over the queue -/

/-- C21, at the failing input: with the three market buys 0, 1 and 2 queued,
the pass fills order 0, skips order 1 (its marker is still unset, it is still
queued), fills order 2, and takes order 2 again from the last slot of the
array: it is filled a second time, so that three trades are open (ids 3, 4 and
5) for two orders evaluated, and its second removal ends the run in the fatal
`No order found`. -/
theorem C21_an_order_is_skipped_and_one_filled_twice :
    tripleBuy.queue = [0, 1, 2] ∧ tripleBuy.openTrades = [] ∧
    tripleBuy.opts.exclusiveOrder = false ∧
    faultOf (tripleBuy.processOrders 3) = some Fault.noOrderFound ∧
    (endState (tripleBuy.processOrders 3)).queue = [1] ∧
    ((endState (tripleBuy.processOrders 3)).orderHeap 1).hitAtOt = none ∧
    ((endState (tripleBuy.processOrders 3)).orderHeap 2).hitAtOt = some OrderType.Market ∧
    (endState (tripleBuy.processOrders 3)).openTrades = [3, 4, 5] ∧
    (endState (tripleBuy.processOrders 3)).closedTrades = [] := by
  decide!

/-! ## The marker during a fill -/

theorem HitsKept.unmoved (b : broker) : HitsKept b b :=
  ⟨Nat.le_refl _, fun _ _ => rfl⟩

theorem HitsKept.onward {b b0 b1 : broker} (h2 : HitsKept b0 b1) (h1 : HitsKept b b0) :
    HitsKept b b1 :=
  ⟨Nat.le_trans h1.nextId h2.nextId,
    fun o ho => (h2.marker o (Nat.lt_of_lt_of_le ho h1.nextId)).trans (h1.marker o ho)⟩

theorem HitsKept.sameOrders {b b1 : broker} (hh : b1.orderHeap = b.orderHeap)
    (hn : b.nextId ≤ b1.nextId) : HitsKept b b1 :=
  ⟨hn, fun o _ => by rw [hh]⟩

theorem HitsKept.andHeap {b b0 b1 : broker} (h1 : HitsKept b b0)
    (hh : b1.orderHeap = b0.orderHeap) (hn : b0.nextId ≤ b1.nextId) : HitsKept b b1 :=
  (HitsKept.sameOrders hh hn).onward h1

theorem HitsKept.ofNew {b b1 : broker} (x : Order)
    (hh : b1.orderHeap = Function.update b.orderHeap b.nextId x)
    (hn : b.nextId ≤ b1.nextId) : HitsKept b b1 :=
  ⟨hn, fun o ho => by rw [hh, Function.update_noteq (Nat.ne_of_lt ho)]⟩

theorem Order.remove_hits (b b1 : broker) (o : Nat) (h : Order.remove b o = .ok b1) :
    HitsKept b b1 := by
  simp only [Order.remove] at h
  split at h
  · cases h
  · simp only [Except.ok.injEq] at h
    rw [← h]; exact HitsKept.sameOrders rfl (Nat.le_refl _)

theorem Trade.Close_hits (b : broker) (t : Nat) : HitsKept b (Trade.Close b t) :=
  HitsKept.ofNew _ rfl (Nat.le_succ _)

theorem broker.cancelUnbound_hits (hs : Nat) :
    ∀ (n i : Nat) (b b1 : broker), broker.cancelUnbound hs n i b = .ok b1 → HitsKept b b1 := by
  intro n
  induction n with
  | zero =>
    intro i b b1 h
    simp only [broker.cancelUnbound, Except.ok.injEq] at h
    subst h; exact HitsKept.unmoved b
  | succ n ih =>
    intro i b b1 h
    simp only [broker.cancelUnbound] at h
    split at h
    · cases h
    · split at h
      · split at h
        · cases h
        · rename_i b2 h2
          exact (ih _ _ _ h).onward (Order.remove_hits b b2 _ h2)
      · exact ih _ _ _ h

theorem broker.closeAll_hits (hs : Nat) :
    ∀ (n i : Nat) (b b1 : broker), broker.closeAll hs n i b = .ok b1 → HitsKept b b1 := by
  intro n
  induction n with
  | zero =>
    intro i b b1 h
    simp only [broker.closeAll, Except.ok.injEq] at h
    subst h; exact HitsKept.unmoved b
  | succ n ih =>
    intro i b b1 h
    simp only [broker.closeAll] at h
    split at h
    · cases h
    · rename_i t _
      exact (ih _ _ _ h).onward (Trade.Close_hits b t)

/-- The order returned by `newOrder` is the one of the next id. -/
theorem broker.newOrder_id (b : broker) (opts : newOrderOpts) (b1 : broker) (id : Nat)
    (h : b.newOrder opts = .ok (b1, id)) : id = b.nextId := by
  simp only [broker.newOrder] at h
  split at h
  · cases h
  · split at h
    · cases h
    · split at h
      · cases h
      · split at h
        · simp only [Except.ok.injEq, Prod.mk.injEq] at h
          exact h.2.symm
        · split at h
          · cases h
          · simp only [Except.ok.injEq, Prod.mk.injEq] at h
            exact h.2.symm

theorem broker.newOrder_hits (b : broker) (opts : newOrderOpts) (b1 : broker) (id : Nat)
    (h : b.newOrder opts = .ok (b1, id)) : HitsKept b b1 ∧ b.nextId < b1.nextId := by
  simp only [broker.newOrder] at h
  split at h
  · cases h
  · split at h
    · cases h
    · split at h
      · cases h
      · split at h
        · simp only [Except.ok.injEq, Prod.mk.injEq] at h
          rw [← h.1]
          exact ⟨HitsKept.ofNew _ rfl (Nat.le_succ _), Nat.lt_succ_self _⟩
        · split at h
          · cases h
          · rename_i b2 h2
            simp only [Except.ok.injEq, Prod.mk.injEq] at h
            rw [← h.1]
            have k2 : HitsKept b b2 ∧ b.nextId < b2.nextId := by
              split at h2
              · split at h2
                · cases h2
                · rename_i b3 h3
                  have k := (broker.closeAll_hits _ _ _ _ _ h2).onward
                    (broker.cancelUnbound_hits _ _ _ _ _ h3)
                  exact ⟨k.onward (HitsKept.ofNew _ rfl (Nat.le_succ _)), k.nextId⟩
              · simp only [Except.ok.injEq] at h2
                rw [← h2]
                exact ⟨HitsKept.ofNew _ rfl (Nat.le_succ _), Nat.lt_succ_self _⟩
            exact ⟨k2.1.andHeap rfl (Nat.le_refl _), k2.2⟩

theorem Trade.setContingent_hits (b : broker) (t i : Nat) (price : ℚ) (b1 : broker)
    (h : Trade.setContingent b t i price = .ok b1) : HitsKept b b1 := by
  simp only [Trade.setContingent] at h
  split at h
  · cases h
  · split at h
    · cases h
    · rename_i b2 h2
      have k2 : HitsKept b b2 := by
        split at h2
        · exact Order.remove_hits b b2 _ h2
        · simp only [Except.ok.injEq] at h2
          rw [← h2]; exact HitsKept.unmoved b
      split at h
      · cases h
      · rename_i b3 o h3
        have k3 := (broker.newOrder_hits _ _ _ _ h3).1.onward k2
        have hid := broker.newOrder_id _ _ _ _ h3
        simp only [Except.ok.injEq] at h
        rw [← h]
        refine ⟨k3.nextId, fun x hx => ?_⟩
        have hxo : x ≠ o := by
          rw [hid]
          exact Nat.ne_of_lt (Nat.lt_of_lt_of_le hx k2.nextId)
        show (Function.update b3.orderHeap o _ x).hitAtOt = _
        rw [Function.update_noteq hxo]
        exact k3.marker x hx

theorem broker.openTrade_hits (b : broker) (side : Side) (size price sl tp : ℚ) (bar : Int)
    (b1 : broker) (h : b.openTrade side size price sl tp bar = .ok b1) : HitsKept b b1 := by
  simp only [broker.openTrade] at h
  split at h
  · cases h
  · rename_i b2 h2
    have k2 : HitsKept b b2 := by
      split at h2
      · exact (Trade.setContingent_hits _ _ _ _ _ h2).onward
          (HitsKept.sameOrders rfl (Nat.le_succ b.nextId))
      · simp only [Except.ok.injEq] at h2
        rw [← h2]; exact HitsKept.sameOrders rfl (Nat.le_succ b.nextId)
    split at h
    · exact (Trade.setContingent_hits _ _ _ _ _ h).onward k2
    · simp only [Except.ok.injEq] at h
      rw [← h]; exact k2

theorem broker.removeLegs_hits (b : broker) (l0 l1 : Option Nat) (b1 : broker)
    (h : b.removeLegs l0 l1 = .ok b1) : HitsKept b b1 := by
  cases l0 with
  | none =>
    cases l1 with
    | none =>
      simp only [broker.removeLegs, Except.ok.injEq] at h
      rw [← h]; exact HitsKept.unmoved b
    | some o1 =>
      simp only [broker.removeLegs] at h
      exact Order.remove_hits b b1 o1 h
  | some o0 =>
    cases h0 : Order.remove b o0 with
    | error e => simp [broker.removeLegs, h0] at h
    | ok b2 =>
      have k2 := Order.remove_hits b b2 o0 h0
      cases l1 with
      | none =>
        simp only [broker.removeLegs, h0, Except.ok.injEq] at h
        rw [← h]; exact k2
      | some o1 =>
        simp only [broker.removeLegs, h0] at h
        exact (Order.remove_hits b2 b1 o1 h).onward k2

theorem broker.closeTrade_hits (b : broker) (t : Nat) (p : ℚ) (bar : Int) (b1 : broker)
    (h : b.closeTrade t p bar = .ok b1) : HitsKept b b1 := by
  simp only [broker.closeTrade] at h
  split at h
  · cases h
  · split at h
    · cases h
    · rename_i b4 h4
      have k4 : HitsKept b b4 := (broker.removeLegs_hits _ _ _ _ h4).onward
        (HitsKept.sameOrders rfl (Nat.le_refl b.nextId))
      split at h
      · cases h
      · simp only [Except.ok.injEq] at h
        rw [← h]
        exact k4.andHeap rfl (Nat.le_refl _)

theorem broker.resizeLegs_hits (b : broker) (t : Nat) : HitsKept b (b.resizeLegs t) := by
  refine ⟨Nat.le_refl _, fun o _ => ?_⟩
  rw [broker.resizeLegs_orderHeap]
  split <;> rfl

theorem broker.reduceTrade_hits (b : broker) (t : Nat) (size p : ℚ) (bar : Int) (b1 : broker)
    (h : b.reduceTrade t size p bar = .ok b1) : HitsKept b b1 := by
  simp only [broker.reduceTrade] at h
  split at h
  · cases h
  · split at h
    · exact broker.closeTrade_hits _ _ _ _ _ h
    · have k := broker.closeTrade_hits _ _ _ _ _ h
      have k1 := broker.resizeLegs_hits
        { b with tradeHeap := (Function.update b.tradeHeap t
            { b.tradeHeap t with Size := (b.tradeHeap t).Size - size }) } t
      exact ⟨Nat.le_trans (Nat.le_succ _) k.nextId,
        fun o ho => (k.marker o (Nat.lt_succ_of_lt ho)).trans (k1.marker o ho)⟩

theorem broker.matchTrades_hits (hs o : Nat) (price : ℚ) (bar : Int) :
    ∀ (n i : Nat) (size : ℚ) (b b1 : broker) (size1 : ℚ),
      broker.matchTrades hs o price bar n i size b = .ok (b1, size1) → HitsKept b b1 := by
  intro n
  induction n with
  | zero =>
    intro i size b b1 size1 h
    simp only [broker.matchTrades, Except.ok.injEq, Prod.mk.injEq] at h
    rw [← h.1]; exact HitsKept.unmoved b
  | succ n ih =>
    intro i size b b1 size1 h
    simp only [broker.matchTrades] at h
    split at h
    · cases h
    · split at h
      · exact ih _ _ _ _ _ h
      · split at h
        · cases h
        · rename_i b2 size2 h2
          have f2 : HitsKept b b2 := by
            split at h2
            · split at h2
              · cases h2
              · rename_i b3 h3
                simp only [Except.ok.injEq, Prod.mk.injEq] at h2
                rw [← h2.1]
                exact broker.closeTrade_hits _ _ _ _ _ h3
            · split at h2
              · cases h2
              · rename_i b3 h3
                simp only [Except.ok.injEq, Prod.mk.injEq] at h2
                rw [← h2.1]
                exact broker.reduceTrade_hits _ _ _ _ _ _ h3
          split at h
          · simp only [Except.ok.injEq, Prod.mk.injEq] at h
            rw [← h.1]; exact f2
          · exact (ih _ _ _ _ _ h).onward f2

theorem broker.fillOrder_hits (b : broker) (reprocess : Bool) (o barI : Nat) (price : ℚ)
    (b1 : broker) (re1 : Bool)
    (h : b.fillOrder reprocess o barI price = .ok (b1, re1)) : HitsKept b b1 := by
  simp only [broker.fillOrder] at h
  split at h
  · split at h
    · cases h
    · rename_i b4 h4
      simp only [Except.ok.injEq, Prod.mk.injEq] at h
      rw [← h.1]
      exact Order.remove_hits _ _ _ h4
  · split at h
    · split at h
      · split at h
        · cases h
        · rename_i b4 h4
          simp only [Except.ok.injEq, Prod.mk.injEq] at h
          rw [← h.1]
          exact broker.reduceTrade_hits _ _ _ _ _ _ h4
      · split at h
        · cases h
        · rename_i b4 h4
          simp only [Except.ok.injEq, Prod.mk.injEq] at h
          rw [← h.1]
          exact Order.remove_hits _ _ _ h4
    · split at h
      · cases h
      · rename_i b4 size1 h4
        have f4 : HitsKept b b4 := broker.matchTrades_hits _ _ _ _ _ _ _ _ _ _ h4
        split at h
        · cases h
        · rename_i b5 re5 h5
          have f5 : HitsKept b b5 := by
            split at h5
            · split at h5
              · cases h5
              · rename_i b6 h6
                simp only [Except.ok.injEq, Prod.mk.injEq] at h5
                rw [← h5.1]
                exact (broker.openTrade_hits _ _ _ _ _ _ _ _ h6).onward f4
            · simp only [Except.ok.injEq, Prod.mk.injEq] at h5
              rw [← h5.1]; exact f4
          split at h
          · cases h
          · rename_i b6 h6
            simp only [Except.ok.injEq, Prod.mk.injEq] at h
            rw [← h.1]
            exact (Order.remove_hits _ _ _ h6).onward f5

/-- The fill price of an order with a stop and no marker: the base price pushed
to the stop when the bar reaches the stop, none otherwise. -/
theorem broker.fillPrice_stop (b : broker) (o : Nat) (bar prevBar : Bar)
    (hstop : 0 < (b.orderHeap o).Stop) (hunset : (b.orderHeap o).hitAtOt = none) :
    b.fillPrice o bar prevBar =
      if ((b.orderHeap o).Side = Side.Buy ∧ bar.High ≥ (b.orderHeap o).Stop) ∨
          ((b.orderHeap o).Side ≠ Side.Buy ∧ bar.Low ≤ (b.orderHeap o).Stop) then
        some (if (b.orderHeap o).Side = Side.Buy
          then max (if b.opts.tradeOnClose then prevBar.Close else bar.Open) (b.orderHeap o).Stop
          else min (if b.opts.tradeOnClose then prevBar.Close else bar.Open) (b.orderHeap o).Stop)
      else none := by
  by_cases hit : ((b.orderHeap o).Side = Side.Buy ∧ bar.High ≥ (b.orderHeap o).Stop) ∨
      ((b.orderHeap o).Side ≠ Side.Buy ∧ bar.Low ≤ (b.orderHeap o).Stop)
  · have h1 : b.stopStep o bar = some (b.setHit o OrderType.Stop) := by
      simp only [broker.stopStep, Order.IsLong, Order.IsShort]
      simp only [gt_iff_lt, hstop, hunset, and_self, if_true]
      simp only [decide_eq_true_eq, Bool.not_eq_true', decide_eq_false_iff_not]
      rw [if_pos hit]
    rw [if_pos hit]
    simp only [broker.fillPrice, h1, Option.some_bind]
    simp [broker.priceStep, broker.setHit, Order.IsLong, hstop]
  · have h1 : b.stopStep o bar = none := by
      simp only [broker.stopStep, Order.IsLong, Order.IsShort]
      simp only [gt_iff_lt, hstop, hunset, and_self, if_true]
      simp only [decide_eq_true_eq, Bool.not_eq_true', decide_eq_false_iff_not]
      rw [if_neg hit]
    rw [if_neg hit]
    simp only [broker.fillPrice, h1, Option.none_bind]

/-- C22: an order with a stop and no marker, whatever its limit (so also when it
carries one).  A buy whose stop is
not reached (high < stop) and a sell whose stop is not reached (low > stop) are
skipped: the ledger is returned as it is, whatever the limit.  When the stop is
reached the order is filled as a market order, at the base price (previous
close when trading on close, else the open) pushed to the stop (`max` for a
buy, `min` for a sell), with the marker `Market`, which is still the marker of
the order when the loop body returns.  The price of the fill, and whether there
is one, is the same for every value of the limit. -/
theorem C22_stop_decides_for_stop_limit_orders (b : broker) (reprocess : Bool) (o barI : Nat)
    (bar prevBar : Bar) (hstop : 0 < (b.orderHeap o).Stop)
    (hunset : (b.orderHeap o).hitAtOt = none) (hid : o < b.nextId) :
    ((b.orderHeap o).Side = Side.Buy →
      (bar.High < (b.orderHeap o).Stop →
        b.processOrder reprocess o barI bar prevBar = .ok (b, reprocess)) ∧
      (bar.High ≥ (b.orderHeap o).Stop →
        b.processOrder reprocess o barI bar prevBar =
          ((b.setHit o OrderType.Stop).setHit o OrderType.Market).fillOrder reprocess o barI
            (max (if b.opts.tradeOnClose then prevBar.Close else bar.Open) (b.orderHeap o).Stop) ∧
        ∀ b1 re1, b.processOrder reprocess o barI bar prevBar = .ok (b1, re1) →
          (b1.orderHeap o).hitAtOt = some OrderType.Market)) ∧
    ((b.orderHeap o).Side = Side.Sell →
      (bar.Low > (b.orderHeap o).Stop →
        b.processOrder reprocess o barI bar prevBar = .ok (b, reprocess)) ∧
      (bar.Low ≤ (b.orderHeap o).Stop →
        b.processOrder reprocess o barI bar prevBar =
          ((b.setHit o OrderType.Stop).setHit o OrderType.Market).fillOrder reprocess o barI
            (min (if b.opts.tradeOnClose then prevBar.Close else bar.Open) (b.orderHeap o).Stop) ∧
        ∀ b1 re1, b.processOrder reprocess o barI bar prevBar = .ok (b1, re1) →
          (b1.orderHeap o).hitAtOt = some OrderType.Market)) ∧
    (∀ limit : ℚ, (b.withLimit o limit).fillPrice o bar prevBar = b.fillPrice o bar prevBar) := by
  have hmiss : ∀ (hno : ¬ (((b.orderHeap o).IsLong = true ∧ bar.High ≥ (b.orderHeap o).Stop) ∨
      ((b.orderHeap o).IsShort = true ∧ bar.Low ≤ (b.orderHeap o).Stop))),
      b.processOrder reprocess o barI bar prevBar = .ok (b, reprocess) := by
    intro hno
    have h1 : b.stopStep o bar = none := by
      simp only [broker.stopStep, gt_iff_lt, hstop, hunset, and_self, if_true]
      rw [if_neg hno]
    rw [broker.processOrder_eq_fill]
    simp only [h1]
  have hhit : ∀ (hyes : ((b.orderHeap o).IsLong = true ∧ bar.High ≥ (b.orderHeap o).Stop) ∨
      ((b.orderHeap o).IsShort = true ∧ bar.Low ≤ (b.orderHeap o).Stop)),
      b.processOrder reprocess o barI bar prevBar =
        ((b.setHit o OrderType.Stop).setHit o OrderType.Market).fillOrder reprocess o barI
          (if (b.orderHeap o).IsLong = true
            then max (if b.opts.tradeOnClose then prevBar.Close else bar.Open) (b.orderHeap o).Stop
            else min (if b.opts.tradeOnClose then prevBar.Close else bar.Open)
              (b.orderHeap o).Stop) := by
    intro hyes
    have h1 : b.stopStep o bar = some (b.setHit o OrderType.Stop) := by
      simp only [broker.stopStep, gt_iff_lt, hstop, hunset, and_self, if_true]
      rw [if_pos hyes]
    have h2 : (b.setHit o OrderType.Stop).priceStep o bar prevBar =
        some ((b.setHit o OrderType.Stop).setHit o OrderType.Market,
          (if (b.orderHeap o).IsLong = true
            then max (if b.opts.tradeOnClose then prevBar.Close else bar.Open) (b.orderHeap o).Stop
            else min (if b.opts.tradeOnClose then prevBar.Close else bar.Open)
              (b.orderHeap o).Stop)) := by
      simp [broker.priceStep, broker.setHit, Order.IsLong, hstop]
    rw [broker.processOrder_eq_fill]
    simp only [h1, h2]
  have hmark : ∀ (price : ℚ) b1 re1,
      ((b.setHit o OrderType.Stop).setHit o OrderType.Market).fillOrder reprocess o barI price
        = .ok (b1, re1) → (b1.orderHeap o).hitAtOt = some OrderType.Market := by
    intro price b1 re1 h
    have k := broker.fillOrder_hits _ _ _ _ _ _ _ h
    rw [k.marker o hid]
    simp [broker.setHit]
  refine ⟨?_, ?_, ?_⟩
  · intro hside
    have hlong : (b.orderHeap o).IsLong = true := by simp [Order.IsLong, hside]
    have hshort : ¬ ((b.orderHeap o).IsShort = true) := by simp [Order.IsShort, hlong]
    refine ⟨fun hlt => hmiss ?_, fun hge => ?_⟩
    · rintro (⟨_, h⟩ | ⟨h, _⟩)
      · exact absurd hlt (not_lt.mpr h)
      · exact hshort h
    · have e := hhit (Or.inl ⟨hlong, hge⟩)
      rw [if_pos hlong] at e
      exact ⟨e, fun b1 re1 h => hmark _ b1 re1 (e ▸ h)⟩
  · intro hside
    have hlong : ¬ ((b.orderHeap o).IsLong = true) := by simp [Order.IsLong, hside]
    have hshort : (b.orderHeap o).IsShort = true := by simp [Order.IsShort, Order.IsLong, hside]
    refine ⟨fun hgt => hmiss ?_, fun hle => ?_⟩
    · rintro (⟨h, _⟩ | ⟨_, h⟩)
      · exact hlong h
      · exact absurd hgt (not_lt.mpr h)
    · have e := hhit (Or.inr ⟨hshort, hle⟩)
      rw [if_neg hlong] at e
      exact ⟨e, fun b1 re1 h => hmark _ b1 re1 (e ▸ h)⟩
  · intro limit
    have hrec : (b.withLimit o limit).orderHeap o = { b.orderHeap o with Limit := limit } := by
      simp [broker.withLimit]
    rw [broker.fillPrice_stop b o bar prevBar hstop hunset,
      broker.fillPrice_stop (b.withLimit o limit) o bar prevBar (by rw [hrec]; exact hstop)
        (by rw [hrec]; exact hunset), hrec]
    rfl

/-- Witness for C22 on `stopLimitQueued` (buy, stop 103, limit 101).  On the bar
with open 100, high 105 and low 95 the stop is reached: the order is filled at
`max 100 103 = 103`, not at the limit price `min 100 101 = 100`.  On a bar with
high 102 and low 95 the limit condition holds and the stop is not reached: the
order is skipped. -/
theorem C22_stop_decides_for_stop_limit_orders_witness :
    ((stopLimitQueued.orderHeap 0).Side = Side.Buy ∧ (stopLimitQueued.orderHeap 0).Stop = 103 ∧
      (stopLimitQueued.orderHeap 0).Limit = 101 ∧ stopLimitQueued.queue = [0] ∧
      stopLimitQueued.fillPrice 0 ⟨100, 105, 95, 102⟩ (flatBar 100) = some 103 ∧
      stopLimitQueued.fillPrice 0 ⟨100, 102, 95, 101⟩ (flatBar 100) = none ∧
      (stopLimitQueued.processOrder false 0 0 ⟨100, 105, 95, 102⟩ (flatBar 100)).toOption.map
        (fun r => (r.1.queue, r.1.openTrades, (r.1.tradeHeap 1).EntryPrice,
          (r.1.orderHeap 0).hitAtOt)) = some ([], [1], 103, some OrderType.Market)) ∧
    (((stopLimitQueued.orderHeap 0).Side = Side.Buy →
      ((105 : ℚ) < (stopLimitQueued.orderHeap 0).Stop →
        stopLimitQueued.processOrder false 0 0 ⟨100, 105, 95, 102⟩ (flatBar 100)
          = .ok (stopLimitQueued, false)) ∧
      ((105 : ℚ) ≥ (stopLimitQueued.orderHeap 0).Stop →
        stopLimitQueued.processOrder false 0 0 ⟨100, 105, 95, 102⟩ (flatBar 100) =
          ((stopLimitQueued.setHit 0 OrderType.Stop).setHit 0 OrderType.Market).fillOrder false 0 0
            (max (if stopLimitQueued.opts.tradeOnClose then (flatBar 100).Close else 100)
              (stopLimitQueued.orderHeap 0).Stop) ∧
        ∀ b1 re1, stopLimitQueued.processOrder false 0 0 ⟨100, 105, 95, 102⟩ (flatBar 100)
            = .ok (b1, re1) → (b1.orderHeap 0).hitAtOt = some OrderType.Market)) ∧
    ((stopLimitQueued.orderHeap 0).Side = Side.Sell →
      ((95 : ℚ) > (stopLimitQueued.orderHeap 0).Stop →
        stopLimitQueued.processOrder false 0 0 ⟨100, 105, 95, 102⟩ (flatBar 100)
          = .ok (stopLimitQueued, false)) ∧
      ((95 : ℚ) ≤ (stopLimitQueued.orderHeap 0).Stop →
        stopLimitQueued.processOrder false 0 0 ⟨100, 105, 95, 102⟩ (flatBar 100) =
          ((stopLimitQueued.setHit 0 OrderType.Stop).setHit 0 OrderType.Market).fillOrder false 0 0
            (min (if stopLimitQueued.opts.tradeOnClose then (flatBar 100).Close else 100)
              (stopLimitQueued.orderHeap 0).Stop) ∧
        ∀ b1 re1, stopLimitQueued.processOrder false 0 0 ⟨100, 105, 95, 102⟩ (flatBar 100)
            = .ok (b1, re1) → (b1.orderHeap 0).hitAtOt = some OrderType.Market)) ∧
    (∀ limit : ℚ, (stopLimitQueued.withLimit 0 limit).fillPrice 0 ⟨100, 105, 95, 102⟩ (flatBar 100)
      = stopLimitQueued.fillPrice 0 ⟨100, 105, 95, 102⟩ (flatBar 100))) :=
  ⟨by decide!,
    C22_stop_decides_for_stop_limit_orders stopLimitQueued false 0 0 ⟨100, 105, 95, 102⟩
      (flatBar 100) (by decide!) (by decide!) (by decide!)⟩

/-! ## No operation of a pass runs out of fuel -/

theorem inTime_of_error {α β : Type} {r : Run α} {e : Fault × broker}
    (h : faultOf r ≠ some Fault.outOfFuel) (he : r = .error e) :
    faultOf (Except.error e : Run β) ≠ some Fault.outOfFuel := by
  subst he; exact h

theorem inTime_ok {α : Type} (v : α) : faultOf (Except.ok v : Run α) ≠ some Fault.outOfFuel := by
  simp [faultOf]

theorem Order.remove_inTime (b : broker) (o : Nat) :
    faultOf (Order.remove b o) ≠ some Fault.outOfFuel := by
  simp only [Order.remove]
  split <;> simp [faultOf]

theorem broker.cancelUnbound_inTime (hs : Nat) (n i : Nat) (b : broker) :
    faultOf (broker.cancelUnbound hs n i b) ≠ some Fault.outOfFuel := by
  intro h
  rcases broker.cancelUnbound_fault hs n i b _ h with h1 | h1 <;> cases h1

theorem broker.closeAll_inTime (hs : Nat) (n i : Nat) (b : broker) :
    faultOf (broker.closeAll hs n i b) ≠ some Fault.outOfFuel := by
  intro h
  have h1 := broker.closeAll_fault hs n i b _ h
  cases h1

theorem broker.newOrder_inTime (b : broker) (opts : newOrderOpts) :
    faultOf (b.newOrder opts) ≠ some Fault.outOfFuel := by
  simp only [broker.newOrder]
  split
  · simp [faultOf]
  · split
    · simp [faultOf]
    · split
      · rename_i f hf
        intro h
        simp only [faultOf, Option.some.injEq] at h
        rw [h] at hf
        simp only [checkPrices] at hf
        split at hf
        · rename_i f2 hf2
          simp only [Option.some.injEq] at hf
          rw [hf] at hf2
          split at hf2
          · split at hf2
            · cases hf2
            · split at hf2
              · cases hf2
              · split at hf2 <;> cases hf2
          · cases hf2
        · split at hf
          · split at hf
            · cases hf
            · split at hf
              · cases hf
              · split at hf <;> cases hf
          · cases hf
      · split
        · exact inTime_ok _
        · split
          · rename_i e he
            refine inTime_of_error ?_ he
            split
            · split
              · rename_i e2 he2
                exact inTime_of_error (broker.cancelUnbound_inTime _ _ _ _) he2
              · exact broker.closeAll_inTime _ _ _ _
            · exact inTime_ok _
          · exact inTime_ok _

theorem Trade.setContingent_inTime (b : broker) (t i : Nat) (price : ℚ) :
    faultOf (Trade.setContingent b t i price) ≠ some Fault.outOfFuel := by
  simp only [Trade.setContingent]
  split
  · simp [faultOf]
  · split
    · rename_i e he
      refine inTime_of_error ?_ he
      split
      · exact Order.remove_inTime _ _
      · exact inTime_ok _
    · split
      · rename_i e he
        exact inTime_of_error (broker.newOrder_inTime _ _) he
      · exact inTime_ok _

theorem broker.openTrade_inTime (b : broker) (side : Side) (size price sl tp : ℚ) (bar : Int) :
    faultOf (b.openTrade side size price sl tp bar) ≠ some Fault.outOfFuel := by
  simp only [broker.openTrade]
  split
  · rename_i e he
    refine inTime_of_error ?_ he
    split
    · exact Trade.setContingent_inTime _ _ _ _
    · exact inTime_ok _
  · split
    · exact Trade.setContingent_inTime _ _ _ _
    · exact inTime_ok _

theorem broker.removeLegs_inTime (b : broker) (l0 l1 : Option Nat) :
    faultOf (b.removeLegs l0 l1) ≠ some Fault.outOfFuel := by
  simp only [broker.removeLegs]
  split
  · rename_i e he
    refine inTime_of_error ?_ he
    split
    · exact Order.remove_inTime _ _
    · exact inTime_ok _
  · split
    · exact Order.remove_inTime _ _
    · exact inTime_ok _

theorem Trade.Pnl_inTime (b : broker) (t : Nat) :
    faultOf (Trade.Pnl b t) ≠ some Fault.outOfFuel := by
  simp only [Trade.Pnl]
  split
  · simp [faultOf]
  · split <;> exact inTime_ok _

theorem broker.closeTrade_inTime (b : broker) (t : Nat) (p : ℚ) (bar : Int) :
    faultOf (b.closeTrade t p bar) ≠ some Fault.outOfFuel := by
  simp only [broker.closeTrade]
  split
  · simp [faultOf]
  · split
    · rename_i e he
      exact inTime_of_error (broker.removeLegs_inTime _ _ _) he
    · split
      · rename_i e he
        exact inTime_of_error (Trade.Pnl_inTime _ _) he
      · exact inTime_ok _

theorem broker.reduceTrade_inTime (b : broker) (t : Nat) (size p : ℚ) (bar : Int) :
    faultOf (b.reduceTrade t size p bar) ≠ some Fault.outOfFuel := by
  simp only [broker.reduceTrade]
  split
  · simp [faultOf]
  · split <;> exact broker.closeTrade_inTime _ _ _ _

theorem broker.matchTrades_inTime (hs o : Nat) (price : ℚ) (bar : Int) :
    ∀ (n i : Nat) (size : ℚ) (b : broker),
      faultOf (broker.matchTrades hs o price bar n i size b) ≠ some Fault.outOfFuel := by
  intro n
  induction n with
  | zero => intro i size b; exact inTime_ok _
  | succ n ih =>
    intro i size b
    simp only [broker.matchTrades]
    split
    · simp [faultOf]
    · split
      · exact ih _ _ _
      · split
        · rename_i e he
          refine inTime_of_error ?_ he
          split
          · split
            · rename_i e2 he2
              exact inTime_of_error (broker.closeTrade_inTime _ _ _ _) he2
            · exact inTime_ok _
          · split
            · rename_i e2 he2
              exact inTime_of_error (broker.reduceTrade_inTime _ _ _ _ _) he2
            · exact inTime_ok _
        · split
          · exact inTime_ok _
          · exact ih _ _ _

theorem broker.fillOrder_inTime (b : broker) (reprocess : Bool) (o barI : Nat) (price : ℚ) :
    faultOf (b.fillOrder reprocess o barI price) ≠ some Fault.outOfFuel := by
  simp only [broker.fillOrder]
  split
  · split
    · rename_i e he
      exact inTime_of_error (Order.remove_inTime _ _) he
    · exact inTime_ok _
  · split
    · split
      · split
        · rename_i e he
          exact inTime_of_error (broker.reduceTrade_inTime _ _ _ _ _) he
        · exact inTime_ok _
      · split
        · rename_i e he
          exact inTime_of_error (Order.remove_inTime _ _) he
        · exact inTime_ok _
    · split
      · rename_i e he
        exact inTime_of_error (broker.matchTrades_inTime _ _ _ _ _ _ _ _) he
      · split
        · rename_i e he
          refine inTime_of_error ?_ he
          split
          · split
            · rename_i e2 he2
              exact inTime_of_error (broker.openTrade_inTime _ _ _ _ _ _ _) he2
            · exact inTime_ok _
          · exact inTime_ok _
        · split
          · rename_i e he
            exact inTime_of_error (Order.remove_inTime _ _) he
          · exact inTime_ok _

theorem broker.processOrder_inTime (b : broker) (reprocess : Bool) (o barI : Nat)
    (bar prevBar : Bar) :
    faultOf (b.processOrder reprocess o barI bar prevBar) ≠ some Fault.outOfFuel := by
  rw [broker.processOrder_eq_fill]
  split
  · exact inTime_ok _
  · split
    · exact inTime_ok _
    · exact broker.fillOrder_inTime _ _ _ _ _

theorem broker.ordersLoop_inTime (hs barI : Nat) (bar prevBar : Bar) :
    ∀ (n i : Nat) (b : broker) (re : Bool),
      faultOf (broker.ordersLoop hs barI bar prevBar n i b re) ≠ some Fault.outOfFuel := by
  intro n
  induction n with
  | zero => intro i b re; exact inTime_ok _
  | succ n ih =>
    intro i b re
    simp only [broker.ordersLoop]
    split
    · simp [faultOf]
    · split
      · rename_i e he
        exact inTime_of_error (broker.processOrder_inTime _ _ _ _ _ _) he
      · exact ih _ _ _

/-! ## The orders with a stop loss or a take profit -/

theorem Lighter.noStep (b : broker) : Lighter b b :=
  ⟨Nat.le_refl _, fun _ _ => rfl, Nat.le_refl _⟩

theorem Lighter.step {b b0 b1 : broker} (h1 : Lighter b b0) (h2 : Lighter b0 b1) :
    Lighter b b1 :=
  ⟨Nat.le_trans h1.nextId h2.nextId,
    fun o ho => (h2.levels o (Nat.lt_of_lt_of_le ho h1.nextId)).trans (h1.levels o ho),
    Nat.le_trans h2.load h1.load⟩

theorem Lighter.ofSameQueue {b b1 : broker} (hq : b1.queue = b.queue)
    (hn : b.nextId ≤ b1.nextId)
    (hl : ∀ o, (b1.orderHeap o).hasLevels = (b.orderHeap o).hasLevels) : Lighter b b1 := by
  refine ⟨hn, fun o _ => hl o, ?_⟩
  simp only [broker.load, hq, hl]
  exact Nat.le_refl _

theorem Lighter.afterSame {b b0 b1 : broker} (h1 : Lighter b b0) (hq : b1.queue = b0.queue)
    (hn : b0.nextId ≤ b1.nextId)
    (hl : ∀ o, (b1.orderHeap o).hasLevels = (b0.orderHeap o).hasLevels) : Lighter b b1 :=
  h1.step (Lighter.ofSameQueue hq hn hl)

theorem load_mono (q : List Nat) (h1 h : Nat → Order) (x : Nat) (r : Order)
    (hr : r.hasLevels = false) (hh : h1 = Function.update h x r) :
    q.countP (fun o => (h1 o).hasLevels) ≤ q.countP (fun o => (h o).hasLevels) := by
  apply List.countP_mono_left
  intro o _ ho
  by_cases hox : o = x
  · rw [hh, hox, Function.update_same, hr] at ho
    cases ho
  · rw [hh, Function.update_noteq hox] at ho
    exact ho

theorem Lighter.ofRegister {b b1 : broker} (r : Order) (hr : r.hasLevels = false)
    (hq : b1.queue = b.queue) (hh : b1.orderHeap = Function.update b.orderHeap b.nextId r)
    (hn : b.nextId ≤ b1.nextId) : Lighter b b1 := by
  refine ⟨hn, fun o ho => by rw [hh, Function.update_noteq (Nat.ne_of_lt ho)], ?_⟩
  simp only [broker.load, hq]
  exact load_mono _ _ _ _ r hr hh

theorem Lighter.ofFront {b b1 : broker} (id : Nat) (hq : b1.queue = id :: b.queue)
    (hh : b1.orderHeap = b.orderHeap) (hid : (b.orderHeap id).hasLevels = false)
    (hn : b.nextId ≤ b1.nextId) : Lighter b b1 := by
  refine ⟨hn, fun o _ => by rw [hh], ?_⟩
  simp only [broker.load, hq, hh, List.countP_cons, hid]
  simp

theorem Lighter.ofBack {b b1 : broker} (id : Nat) (hq : b1.queue = b.queue ++ [id])
    (hh : b1.orderHeap = b.orderHeap) (hid : (b.orderHeap id).hasLevels = false)
    (hn : b.nextId ≤ b1.nextId) : Lighter b b1 := by
  refine ⟨hn, fun o _ => by rw [hh], ?_⟩
  simp only [broker.load, hq, hh, List.countP_append, List.countP_cons, List.countP_nil, hid]
  simp

theorem countP_erase_le (q : List Nat) (p : Nat → Bool) (o : Nat) :
    (q.erase o).countP p ≤ q.countP p :=
  (List.erase_sublist o q).countP_le p

theorem countP_erase_lt (q : List Nat) (p : Nat → Bool) (o : Nat) (hm : o ∈ q) (hp : p o = true) :
    (q.erase o).countP p + 1 = q.countP p := by
  have h := (List.perm_cons_erase hm).countP_eq p
  rw [h, List.countP_cons, hp]
  simp

theorem Order.remove_lighter (b b1 : broker) (o : Nat) (h : Order.remove b o = .ok b1) :
    Lighter b b1 ∧ ((b.orderHeap o).hasLevels = true → b1.load + 1 ≤ b.load) := by
  have hmem : o ∈ b.queue := by
    by_contra hn
    rw [Order.remove_missing b o hn] at h
    cases h
  obtain ⟨b2, h2, hq, hk⟩ := Order.remove_ok b o hmem
  rw [h2] at h
  simp only [Except.ok.injEq] at h
  subst h
  refine ⟨⟨Nat.le_of_eq hk.nextId.symm, fun x _ => by rw [hk.orderHeap], ?_⟩, fun hl => ?_⟩
  · simp only [broker.load, hq, hk.orderHeap]
    exact countP_erase_le _ _ _
  · simp only [broker.load, hq, hk.orderHeap]
    exact Nat.le_of_eq (countP_erase_lt _ _ o hmem hl)

theorem Trade.Close_lighter (b : broker) (t : Nat) : Lighter b (Trade.Close b t) := by
  have hq : (Trade.Close b t).queue = b.nextId :: b.queue := by
    simp only [Trade.Close, broker.queue, broker.live]
    exact live_slicePrepend b b.orders b.nextId
  refine ⟨Nat.le_succ _, fun o ho => ?_, ?_⟩
  · show (Function.update b.orderHeap b.nextId _ o).hasLevels = _
    rw [Function.update_noteq (Nat.ne_of_lt ho)]
  · simp only [broker.load, hq, List.countP_cons]
    have hnew : ((Trade.Close b t).orderHeap b.nextId).hasLevels = false := by
      show (Function.update b.orderHeap b.nextId _ b.nextId).hasLevels = false
      rw [Function.update_same]
      simp [Order.hasLevels]
    rw [hnew]
    simp only [Bool.false_eq_true, if_false, Nat.add_zero]
    exact load_mono _ _ _ b.nextId _ (by simp [Order.hasLevels]) rfl

theorem broker.cancelUnbound_lighter (hs : Nat) :
    ∀ (n i : Nat) (b b1 : broker), broker.cancelUnbound hs n i b = .ok b1 → Lighter b b1 := by
  intro n
  induction n with
  | zero =>
    intro i b b1 h
    simp only [broker.cancelUnbound, Except.ok.injEq] at h
    subst h; exact Lighter.noStep b
  | succ n ih =>
    intro i b b1 h
    simp only [broker.cancelUnbound] at h
    split at h
    · cases h
    · split at h
      · split at h
        · cases h
        · rename_i b2 h2
          exact (Order.remove_lighter b b2 _ h2).1.step (ih _ _ _ h)
      · exact ih _ _ _ h

theorem broker.closeAll_lighter (hs : Nat) :
    ∀ (n i : Nat) (b b1 : broker), broker.closeAll hs n i b = .ok b1 → Lighter b b1 := by
  intro n
  induction n with
  | zero =>
    intro i b b1 h
    simp only [broker.closeAll, Except.ok.injEq] at h
    subst h; exact Lighter.noStep b
  | succ n ih =>
    intro i b b1 h
    simp only [broker.closeAll] at h
    split at h
    · cases h
    · rename_i t _
      exact (Trade.Close_lighter b t).step (ih _ _ _ h)

theorem queue_unmoved {b b1 : broker} (ho : b1.orders = b.orders)
    (ha : b1.arrays b.orders.arr = b.arrays b.orders.arr) : b1.queue = b.queue := by
  simp only [broker.queue, broker.live, ho, ha]

theorem Lighter.ordersUntouched {b b1 : broker} (ho : b1.orders = b.orders)
    (ha : b1.arrays b.orders.arr = b.arrays b.orders.arr) (hn : b.nextId ≤ b1.nextId)
    (hl : ∀ o, (b1.orderHeap o).hasLevels = (b.orderHeap o).hasLevels) : Lighter b b1 :=
  Lighter.ofSameQueue (queue_unmoved ho ha) hn hl

theorem broker.newOrder_lighter (b : broker) (opts : newOrderOpts) (b1 : broker) (id : Nat)
    (hsl : opts.sl ≤ 0) (htp : opts.tp ≤ 0) (h : b.newOrder opts = .ok (b1, id)) :
    Lighter b b1 := by
  have hbare : Order.hasLevels
      { Size := opts.size, Side := opts.side, Stop := opts.stop, Limit := opts.limit,
        SL := opts.sl, TP := opts.tp, trade := opts.trade, hitAtOt := none } = false := by
    simp [Order.hasLevels, hsl, htp]
  have l0 : Lighter b { b with
      orderHeap := (Function.update b.orderHeap b.nextId
        { Size := opts.size, Side := opts.side, Stop := opts.stop, Limit := opts.limit,
          SL := opts.sl, TP := opts.tp, trade := opts.trade, hitAtOt := none })
      nextId := b.nextId + 1 } :=
    Lighter.ofRegister _ hbare rfl rfl (Nat.le_succ _)
  have hid0 : Order.hasLevels (Function.update b.orderHeap b.nextId
        { Size := opts.size, Side := opts.side, Stop := opts.stop, Limit := opts.limit,
          SL := opts.sl, TP := opts.tp, trade := opts.trade, hitAtOt := none }
        b.nextId) = false := by
    rw [Function.update_same]; exact hbare
  simp only [broker.newOrder] at h
  split at h
  · cases h
  · split at h
    · cases h
    · split at h
      · cases h
      · split at h
        · simp only [Except.ok.injEq, Prod.mk.injEq] at h
          rw [← h.1]
          exact l0.step (Lighter.ofFront b.nextId (queue_fronted _ _) rfl hid0 (Nat.le_refl _))
        · split at h
          · cases h
          · rename_i b2 h2
            simp only [Except.ok.injEq, Prod.mk.injEq] at h
            rw [← h.1]
            have k2 : Lighter { b with
                orderHeap := (Function.update b.orderHeap b.nextId
                  { Size := opts.size, Side := opts.side, Stop := opts.stop, Limit := opts.limit,
                    SL := opts.sl, TP := opts.tp, trade := opts.trade, hitAtOt := none })
                nextId := b.nextId + 1 } b2 := by
              split at h2
              · split at h2
                · cases h2
                · rename_i b3 h3
                  exact (broker.cancelUnbound_lighter _ _ _ _ _ h3).step
                    (broker.closeAll_lighter _ _ _ _ _ h2)
              · simp only [Except.ok.injEq] at h2
                rw [← h2]
                exact Lighter.noStep _
            have hid2 : (b2.orderHeap b.nextId).hasLevels = false := by
              rw [k2.levels b.nextId (Nat.lt_succ_self _)]
              exact hid0
            exact (l0.step k2).step
              (Lighter.ofBack b.nextId (queue_pushed _ _) rfl hid2 (Nat.le_refl _))

theorem Trade.setContingent_lighter (b : broker) (t i : Nat) (price : ℚ) (b1 : broker)
    (h : Trade.setContingent b t i price = .ok b1) : Lighter b b1 := by
  simp only [Trade.setContingent] at h
  split at h
  · cases h
  · split at h
    · cases h
    · rename_i b2 h2
      have k2 : Lighter b b2 := by
        split at h2
        · exact (Order.remove_lighter b b2 _ h2).1
        · simp only [Except.ok.injEq] at h2
          rw [← h2]; exact Lighter.noStep b
      split at h
      · cases h
      · rename_i b3 o h3
        have k3 := broker.newOrder_lighter _ _ _ _ (le_refl _) (le_refl _) h3
        simp only [Except.ok.injEq] at h
        rw [← h]
        refine (k2.step k3).afterSame rfl (Nat.le_refl _) ?_
        intro x
        show (Function.update b3.orderHeap o _ x).hasLevels = _
        by_cases hxo : x = o
        · subst hxo
          rw [Function.update_same]
          split <;> rfl
        · rw [Function.update_noteq hxo]

theorem broker.removeLegs_lighter (b : broker) (l0 l1 : Option Nat) (b1 : broker)
    (h : b.removeLegs l0 l1 = .ok b1) : Lighter b b1 := by
  cases l0 with
  | none =>
    cases l1 with
    | none =>
      simp only [broker.removeLegs, Except.ok.injEq] at h
      rw [← h]; exact Lighter.noStep b
    | some o1 =>
      simp only [broker.removeLegs] at h
      exact (Order.remove_lighter b b1 o1 h).1
  | some o0 =>
    cases h0 : Order.remove b o0 with
    | error e => simp [broker.removeLegs, h0] at h
    | ok b2 =>
      have k2 := (Order.remove_lighter b b2 o0 h0).1
      cases l1 with
      | none =>
        simp only [broker.removeLegs, h0, Except.ok.injEq] at h
        rw [← h]; exact k2
      | some o1 =>
        simp only [broker.removeLegs, h0] at h
        exact k2.step (Order.remove_lighter b2 b1 o1 h).1

theorem broker.closeTrade_lighter (b : broker) (t : Nat) (p : ℚ) (bar : Int) (b1 : broker)
    (ho : Orderly b) (h : b.closeTrade t p bar = .ok b1) : Lighter b b1 := by
  simp only [broker.closeTrade] at h
  split at h
  · cases h
  · rename_i i hi
    split at h
    · cases h
    · rename_i b4 h4
      have k3 : Lighter b
          { b with
            tradeHeap := (Function.update b.tradeHeap t
              { b.tradeHeap t with ExitPrice := p, ExitBar := bar })
            closedTrades := b.closedTrades ++ [t]
            arrays := (b.sliceRemove b.trades i).1
            trades := (b.sliceRemove b.trades i).2 } := by
        refine Lighter.ordersUntouched rfl ?_ (Nat.le_refl _) (fun _ => rfl)
        simp only [broker.sliceRemove]
        rw [Function.update_noteq ho.arrNe]
      have k4 := broker.removeLegs_lighter _ _ _ _ h4
      split at h
      · cases h
      · simp only [Except.ok.injEq] at h
        rw [← h]
        exact (k3.step k4).afterSame rfl (Nat.le_refl _) (fun _ => rfl)

theorem Lighter.tradeAdded (b : broker) (tr : Trade) (ho : Orderly b) :
    Lighter b { b with
        tradeHeap := (Function.update b.tradeHeap b.nextId tr)
        nextId := b.nextId + 1
        arrays := (b.sliceAppend b.trades b.nextId).1
        nextArr := b.nextArr + 1
        trades := (b.sliceAppend b.trades b.nextId).2 } := by
  refine Lighter.ordersUntouched rfl ?_ (Nat.le_succ _) (fun _ => rfl)
  simp only [broker.sliceAppend]
  rw [Function.update_noteq (Nat.ne_of_lt ho.ordersArr)]

theorem broker.openTrade_lighter (b : broker) (side : Side) (size price sl tp : ℚ) (bar : Int)
    (b1 : broker) (ho : Orderly b) (h : b.openTrade side size price sl tp bar = .ok b1) :
    Lighter b b1 := by
  have l0 := Lighter.tradeAdded b
    { Size := size, Side := side, EntryPrice := price, ExitPrice := 0,
      EntryBar := bar, ExitBar := 0, legs0 := none, legs1 := none } ho
  simp only [broker.openTrade] at h
  split at h
  · cases h
  · rename_i b2 h2
    have k2 : Lighter b b2 := by
      split at h2
      · exact l0.step (Trade.setContingent_lighter _ _ _ _ _ h2)
      · simp only [Except.ok.injEq] at h2
        rw [← h2]; exact l0
    split at h
    · exact k2.step (Trade.setContingent_lighter _ _ _ _ _ h)
    · simp only [Except.ok.injEq] at h
      rw [← h]; exact k2

theorem broker.reduceTrade_lighter (b : broker) (t : Nat) (size p : ℚ) (bar : Int) (b1 : broker)
    (ho : Orderly b) (h : b.reduceTrade t size p bar = .ok b1) : Lighter b b1 := by
  simp only [broker.reduceTrade] at h
  split at h
  · cases h
  · split at h
    · exact broker.closeTrade_lighter b t p bar b1 ho h
    · have k1 : Orderly (({ b with
          tradeHeap := (Function.update b.tradeHeap t
            { b.tradeHeap t with Size := (b.tradeHeap t).Size - size }) } : broker).resizeLegs t) ∧
          Tame b (({ b with
          tradeHeap := (Function.update b.tradeHeap t
            { b.tradeHeap t with Size := (b.tradeHeap t).Size - size }) } : broker).resizeLegs t) := by
        refine ho.sameQueue rfl rfl ho.arrNe ho.ordersArr ho.tradesArr ho.tradesIn (Nat.le_refl _) ?_
        intro x _
        rw [broker.resizeLegs_orderHeap]
        split <;> rfl
      have l1 : Lighter b (({ b with
          tradeHeap := (Function.update b.tradeHeap t
            { b.tradeHeap t with Size := (b.tradeHeap t).Size - size }) } : broker).resizeLegs t) := by
        refine Lighter.ordersUntouched rfl rfl (Nat.le_refl _) ?_
        intro x
        rw [broker.resizeLegs_orderHeap]
        split <;> rfl
      obtain ⟨o1, _⟩ := k1
      obtain ⟨o2, _⟩ := Orderly.opened _
        { (({ b with
          tradeHeap := (Function.update b.tradeHeap t
            { b.tradeHeap t with Size := (b.tradeHeap t).Size - size }) } : broker).resizeLegs t).tradeHeap t
            with Size := size, legs0 := none, legs1 := none } o1
      have l2 := Lighter.tradeAdded _
        { (({ b with
          tradeHeap := (Function.update b.tradeHeap t
            { b.tradeHeap t with Size := (b.tradeHeap t).Size - size }) } : broker).resizeLegs t).tradeHeap t
            with Size := size, legs0 := none, legs1 := none } o1
      exact (l1.step l2).step (broker.closeTrade_lighter _ _ p bar b1 o2 h)

theorem broker.setHit_lighter (b : broker) (o : Nat) (ot : OrderType) :
    Lighter b (b.setHit o ot) := by
  refine Lighter.ordersUntouched rfl rfl (Nat.le_refl _) ?_
  intro x
  show (Function.update b.orderHeap o _ x).hasLevels = _
  by_cases hxo : x = o
  · subst hxo; rw [Function.update_same]; rfl
  · rw [Function.update_noteq hxo]

theorem broker.stopStep_lighter (b : broker) (o : Nat) (bar : Bar) (b1 : broker)
    (h : b.stopStep o bar = some b1) : Lighter b b1 := by
  simp only [broker.stopStep] at h
  split at h
  · split at h
    · simp only [Option.some.injEq] at h
      rw [← h]; exact broker.setHit_lighter b o _
    · cases h
  · simp only [Option.some.injEq] at h
    rw [← h]; exact Lighter.noStep b

theorem broker.priceStep_lighter (b : broker) (o : Nat) (bar prevBar : Bar) (b1 : broker) (p : ℚ)
    (h : b.priceStep o bar prevBar = some (b1, p)) : Lighter b b1 := by
  simp only [broker.priceStep] at h
  split at h
  · split at h
    · simp only [Option.some.injEq, Prod.mk.injEq] at h
      rw [← h.1]; exact broker.setHit_lighter b o _
    · cases h
  · simp only [Option.some.injEq, Prod.mk.injEq] at h
    rw [← h.1]; exact broker.setHit_lighter b o _

theorem broker.matchTrades_lighter (hs o : Nat) (price : ℚ) (bar : Int) :
    ∀ (n i : Nat) (size : ℚ) (b b1 : broker) (size1 : ℚ), Orderly b →
      broker.matchTrades hs o price bar n i size b = .ok (b1, size1) → Lighter b b1 := by
  intro n
  induction n with
  | zero =>
    intro i size b b1 size1 ho h
    simp only [broker.matchTrades, Except.ok.injEq, Prod.mk.injEq] at h
    rw [← h.1]; exact Lighter.noStep b
  | succ n ih =>
    intro i size b b1 size1 ho h
    simp only [broker.matchTrades] at h
    split at h
    · cases h
    · split at h
      · exact ih _ _ _ _ _ ho h
      · split at h
        · cases h
        · rename_i b2 size2 h2
          have k2 : Orderly b2 ∧ Lighter b b2 := by
            split at h2
            · split at h2
              · cases h2
              · rename_i b3 h3
                simp only [Except.ok.injEq, Prod.mk.injEq] at h2
                rw [← h2.1]
                exact ⟨(broker.closeTrade_orderly _ _ _ _ _ ho h3).1,
                  broker.closeTrade_lighter _ _ _ _ _ ho h3⟩
            · split at h2
              · cases h2
              · rename_i b3 h3
                simp only [Except.ok.injEq, Prod.mk.injEq] at h2
                rw [← h2.1]
                exact ⟨(broker.reduceTrade_orderly _ _ _ _ _ _ ho h3).1,
                  broker.reduceTrade_lighter _ _ _ _ _ _ ho h3⟩
          obtain ⟨o2, l2⟩ := k2
          split at h
          · simp only [Except.ok.injEq, Prod.mk.injEq] at h
            rw [← h.1]; exact l2
          · exact l2.step (ih _ _ _ _ _ o2 h)

theorem broker.fillOrder_lighter (b : broker) (reprocess : Bool) (o barI : Nat) (price : ℚ)
    (b1 : broker) (re1 : Bool) (ho : Orderly b)
    (h : b.fillOrder reprocess o barI price = .ok (b1, re1)) :
    Lighter b b1 ∧ (re1 = true → reprocess = false → b1.load + 1 ≤ b.load) := by
  simp only [broker.fillOrder] at h
  split at h
  · split at h
    · cases h
    · rename_i b4 h4
      simp only [Except.ok.injEq, Prod.mk.injEq] at h
      rw [← h.1, ← h.2]
      exact ⟨(Order.remove_lighter _ _ _ h4).1, fun h1 h2 => by rw [h1] at h2; cases h2⟩
  · split at h
    · split at h
      · split at h
        · cases h
        · rename_i b4 h4
          simp only [Except.ok.injEq, Prod.mk.injEq] at h
          rw [← h.1, ← h.2]
          exact ⟨broker.reduceTrade_lighter _ _ _ _ _ _ ho h4,
            fun h1 h2 => by rw [h1] at h2; cases h2⟩
      · split at h
        · cases h
        · rename_i b4 h4
          simp only [Except.ok.injEq, Prod.mk.injEq] at h
          rw [← h.1, ← h.2]
          exact ⟨(Order.remove_lighter _ _ _ h4).1, fun h1 h2 => by rw [h1] at h2; cases h2⟩
    · split at h
      · cases h
      · rename_i b4 size1 h4
        obtain ⟨o4, _⟩ := broker.matchTrades_orderly _ _ _ _ _ _ _ _ _ _ ho h4
        have l4 := broker.matchTrades_lighter _ _ _ _ _ _ _ _ _ _ ho h4
        split at h
        · cases h
        · rename_i b5 re5 h5
          have k5 : Lighter b b5 ∧
              (re5 = true → reprocess = false → (b5.orderHeap o).hasLevels = true) := by
            split at h5
            · split at h5
              · cases h5
              · rename_i b6 h6
                simp only [Except.ok.injEq, Prod.mk.injEq] at h5
                rw [← h5.1, ← h5.2]
                refine ⟨l4.step (broker.openTrade_lighter _ _ _ _ _ _ _ _ o4 h6), ?_⟩
                intro h1 h2
                split at h1
                · rename_i hc
                  simp only [Order.hasLevels, decide_eq_true_eq]
                  exact hc.2
                · rw [h1] at h2; cases h2
            · simp only [Except.ok.injEq, Prod.mk.injEq] at h5
              rw [← h5.1, ← h5.2]
              exact ⟨l4, fun h1 h2 => by rw [h1] at h2; cases h2⟩
          obtain ⟨l5, s5⟩ := k5
          split at h
          · cases h
          · rename_i b6 h6
            simp only [Except.ok.injEq, Prod.mk.injEq] at h
            rw [← h.1, ← h.2]
            obtain ⟨l6, s6⟩ := Order.remove_lighter _ _ _ h6
            exact ⟨l5.step l6, fun h1 h2 => Nat.le_trans (s6 (s5 h1 h2)) l5.load⟩

theorem broker.processOrder_lighter (b : broker) (reprocess : Bool) (o barI : Nat)
    (bar prevBar : Bar) (b1 : broker) (re1 : Bool) (ho : Orderly b)
    (h : b.processOrder reprocess o barI bar prevBar = .ok (b1, re1)) :
    Lighter b b1 ∧ (re1 = true → reprocess = false → b1.load + 1 ≤ b.load) := by
  rw [broker.processOrder_eq_fill] at h
  split at h
  · simp only [Except.ok.injEq, Prod.mk.injEq] at h
    rw [← h.1, ← h.2]
    exact ⟨Lighter.noStep b, fun h1 h2 => by rw [h1] at h2; cases h2⟩
  · rename_i b2 h2
    obtain ⟨o2, _⟩ := broker.stopStep_orderly _ _ _ _ ho h2
    have l2 := broker.stopStep_lighter _ _ _ _ h2
    split at h
    · simp only [Except.ok.injEq, Prod.mk.injEq] at h
      rw [← h.1, ← h.2]
      exact ⟨l2, fun h1 h2 => by rw [h1] at h2; cases h2⟩
    · rename_i b3 price h3
      obtain ⟨o3, _⟩ := broker.priceStep_orderly _ _ _ _ _ _ o2 h3
      have l3 := broker.priceStep_lighter _ _ _ _ _ _ h3
      obtain ⟨l4, s4⟩ := broker.fillOrder_lighter _ _ _ _ _ _ _ o3 h
      exact ⟨(l2.step l3).step l4, fun h1 h2 => Nat.le_trans (s4 h1 h2) (l2.step l3).load⟩

theorem broker.ordersLoop_lighter (hs barI : Nat) (bar prevBar : Bar) :
    ∀ (n i : Nat) (b : broker) (re : Bool) (b1 : broker) (re1 : Bool), Orderly b →
      broker.ordersLoop hs barI bar prevBar n i b re = .ok (b1, re1) →
      Lighter b b1 ∧ (re1 = true → re = false → b1.load + 1 ≤ b.load) := by
  intro n
  induction n with
  | zero =>
    intro i b re b1 re1 ho h
    simp only [broker.ordersLoop, Except.ok.injEq, Prod.mk.injEq] at h
    rw [← h.1, ← h.2]
    exact ⟨Lighter.noStep b, fun h1 h2 => by rw [h1] at h2; cases h2⟩
  | succ n ih =>
    intro i b re b1 re1 ho h
    simp only [broker.ordersLoop] at h
    split at h
    · cases h
    · split at h
      · cases h
      · rename_i b2 re2 h2
        obtain ⟨o2, _⟩ := broker.processOrder_orderly _ _ _ _ _ _ _ _ ho h2
        obtain ⟨l2, s2⟩ := broker.processOrder_lighter _ _ _ _ _ _ _ _ ho h2
        obtain ⟨l3, s3⟩ := ih _ _ _ _ _ o2 h
        refine ⟨l2.step l3, fun h1 h0 => ?_⟩
        cases hre : re2 with
        | true => exact Nat.le_trans (Nat.add_le_add_right l3.load 1) (s2 hre h0)
        | false => exact Nat.le_trans (s3 h1 hre) l2.load

/-- A settlement on an orderly ledger with more passes allowed than queued
orders carry a stop loss or a take profit does not run out of passes. -/
theorem broker.processOrders_inTime :
    ∀ (fuel : Nat) (b : broker), Orderly b → b.load < fuel →
      faultOf (b.processOrders fuel) ≠ some Fault.outOfFuel := by
  intro fuel
  induction fuel with
  | zero => intro b _ h; exact absurd h (Nat.not_lt_zero _)
  | succ fuel ih =>
    intro b ho hl
    simp only [broker.processOrders]
    split
    · split
      · rename_i e he
        exact inTime_of_error (broker.ordersLoop_inTime _ _ _ _ _ _ _ _) he
      · rename_i b2 re h2
        obtain ⟨o2, _⟩ := broker.ordersLoop_orderly _ _ _ _ _ _ _ _ _ _ ho h2
        obtain ⟨_, s2⟩ := broker.ordersLoop_lighter _ _ _ _ _ _ _ _ _ _ ho h2
        split
        · rename_i hre
          have := s2 hre rfl
          exact ih b2 o2 (by omega)
        · exact inTime_ok _
    · simp [faultOf]

/-- More passes allowed than needed do not change the result of a settlement. -/
theorem broker.processOrders_fuel :
    ∀ (fuel : Nat) (b : broker), Orderly b → b.load < fuel →
      ∀ more, b.processOrders (fuel + more) = b.processOrders fuel := by
  intro fuel
  induction fuel with
  | zero => intro b _ h; exact absurd h (Nat.not_lt_zero _)
  | succ fuel ih =>
    intro b ho hl more
    rw [Nat.add_right_comm]
    simp only [broker.processOrders]
    split
    · split
      · rfl
      · rename_i b2 re h2
        obtain ⟨o2, _⟩ := broker.ordersLoop_orderly _ _ _ _ _ _ _ _ _ _ ho h2
        obtain ⟨_, s2⟩ := broker.ordersLoop_lighter _ _ _ _ _ _ _ _ _ _ ho h2
        split
        · rename_i hre
          have := s2 hre rfl
          exact ih b2 o2 (by omega) more
        · rfl
    · rfl

theorem bracketQueued_reachable : Reachable bracketQueued := by
  obtain ⟨v, hv⟩ := ok_of_no_fault (show faultOf (Strategy.Buy ((New 1 (exOpts 10000)).atBar
      [{ Open := 100, High := 101, Low := 99, Close := 100 }] 0)
      { noOpts with Size := 10, SL := 96, TP := 104 }) = none by decide!)
  have h : bracketQueued = v := by
    show endState (Strategy.Buy _ _) = v
    rw [hv]; rfl
  rw [h]
  exact (Reachable.bars _ _ _ (Reachable.init 1 (exOpts 10000))).buy _ hv

/-- C23: on an orderly ledger (every reachable ledger is one) a settlement makes
at most `1 + k` passes, `k` the number of queued orders with a stop loss or a
take profit: with `1 + k` passes allowed it does not run out of passes, and
every larger allowance gives the same result.  A pass that completes leaves no
more such orders in the queue than it found, and one fewer at least when it
asks for another pass. -/
theorem C23_settlement_ends_within_the_bound (b : broker) (horderly : Orderly b) :
    faultOf (b.processOrders (1 + b.load)) ≠ some Fault.outOfFuel ∧
    (∀ fuel, 1 + b.load ≤ fuel → b.processOrders fuel = b.processOrders (1 + b.load)) ∧
    (∀ barI bar prevBar b1 reprocess,
      broker.ordersLoop b.orders.arr barI bar prevBar b.orders.len 0 b false
          = .ok (b1, reprocess) →
        b1.load ≤ b.load ∧ (reprocess = true → b1.load + 1 ≤ b.load)) := by
  refine ⟨broker.processOrders_inTime _ b horderly (by omega), ?_, ?_⟩
  · intro fuel hf
    obtain ⟨more, rfl⟩ := Nat.exists_eq_add_of_le hf
    exact broker.processOrders_fuel _ b horderly (by omega) more
  · intro barI bar prevBar b1 reprocess h
    obtain ⟨l, s⟩ := broker.ordersLoop_lighter _ _ _ _ _ _ _ _ _ _ horderly h
    exact ⟨l.load, fun hr => s hr rfl⟩

theorem C23_settlement_ends_within_the_bound_witness :
    bracketQueued.load = 1 ∧
    faultOf (bracketQueued.processOrders 1) = some Fault.outOfFuel ∧
    faultOf (bracketQueued.processOrders 2) = none ∧
    (faultOf (bracketQueued.processOrders (1 + bracketQueued.load)) ≠ some Fault.outOfFuel ∧
      (∀ fuel, 1 + bracketQueued.load ≤ fuel →
        bracketQueued.processOrders fuel
          = bracketQueued.processOrders (1 + bracketQueued.load)) ∧
      (∀ barI bar prevBar b1 reprocess,
        broker.ordersLoop bracketQueued.orders.arr barI bar prevBar bracketQueued.orders.len 0
            bracketQueued false = .ok (b1, reprocess) →
          b1.load ≤ bracketQueued.load ∧
            (reprocess = true → b1.load + 1 ≤ bracketQueued.load))) :=
  ⟨by decide!, by decide!, by decide!,
    C23_settlement_ends_within_the_bound bracketQueued
      (Reachable.orderly bracketQueued_reachable).1⟩

/-! ## Setting a leg -/

theorem checkPrices_bare (opts : newOrderOpts) (r : ℚ) (hsl : opts.sl = 0) (htp : opts.tp = 0) :
    checkPrices opts r = none := by
  simp [checkPrices, hsl, htp]

/-- A valid order whose parent trade is open goes to the front of the queue. -/
theorem broker.newOrder_front (b : broker) (opts : newOrderOpts) (r : ℚ) (t : Nat)
    (hsize : b.opts.fractionable = true ∨ opts.size ≤ 1 ∨ isWhole opts.size = true)
    (hr : b.refPrice opts = some r) (hvalid : checkPrices opts r = none)
    (ht : opts.trade = some t) (hmem : t ∈ b.openTrades) :
    b.newOrder opts = .ok
      ({ b with
          orderHeap := (Function.update b.orderHeap b.nextId
            { Size := opts.size, Side := opts.side, Stop := opts.stop, Limit := opts.limit,
              SL := opts.sl, TP := opts.tp, trade := opts.trade, hitAtOt := none })
          nextId := b.nextId + 1
          arrays := (b.slicePrepend b.orders b.nextId).1
          nextArr := b.nextArr + 1
          orders := (b.slicePrepend b.orders b.nextId).2 }, b.nextId) := by
  have hsz : ¬ ((!b.opts.fractionable) = true ∧ opts.size > 1 ∧ (!isWhole opts.size) = true) := by
    rintro ⟨h1, h2, h3⟩
    rcases hsize with h | h | h
    · simp [h] at h1
    · exact absurd h2 (not_lt.mpr h)
    · simp [h] at h3
  have hcond : opts.trade.isSome = true ∧
      (opts.trade.bind (Trade.indexOf { b with
        orderHeap := (Function.update b.orderHeap b.nextId
          { Size := opts.size, Side := opts.side, Stop := opts.stop, Limit := opts.limit,
            SL := opts.sl, TP := opts.tp, trade := opts.trade, hitAtOt := none })
        nextId := b.nextId + 1 })).isSome = true := by
    rw [ht]
    refine ⟨rfl, ?_⟩
    simp only [Option.some_bind]
    have : Trade.indexOf { b with
        orderHeap := (Function.update b.orderHeap b.nextId
          { Size := opts.size, Side := opts.side, Stop := opts.stop, Limit := opts.limit,
            SL := opts.sl, TP := opts.tp, trade := some t, hitAtOt := none })
        nextId := b.nextId + 1 } t = some (b.openTrades.indexOf t) := indexIn_eq_some hmem
    rw [this]; rfl
  simp only [broker.newOrder, if_neg hsz, hr, hvalid, if_pos hcond]
  rfl

theorem Trade.setContingent_returns (b : broker) (t i : Nat) (p c : ℚ) (ho : Orderly b)
    (hp : 0 < p) (hopen : t ∈ b.openTrades)
    (hsize : b.opts.fractionable = true ∨ (b.tradeHeap t).Size ≤ 1 ∨
      isWhole (b.tradeHeap t).Size = true)
    (hc : b.data.LastClose = some c)
    (hslot : ∀ o, (if i = 0 then (b.tradeHeap t).legs0 else (b.tradeHeap t).legs1) = some o →
      o ∈ b.queue) :
    ∃ b1, Trade.setContingent b t i p = .ok b1 := by
  have hfront : ∀ b1, QueueOnly b b1 → b1.newOrder
      { size := (b1.tradeHeap t).Size, side := reverseSide (b1.tradeHeap t).Side, stop := 0,
        limit := 0, sl := 0, tp := 0, trade := some t } = .ok
      ({ b1 with
          orderHeap := (Function.update b1.orderHeap b1.nextId
            { Size := (b1.tradeHeap t).Size, Side := reverseSide (b1.tradeHeap t).Side, Stop := 0,
              Limit := 0, SL := 0, TP := 0, trade := some t, hitAtOt := none })
          nextId := b1.nextId + 1
          arrays := (b1.slicePrepend b1.orders b1.nextId).1
          nextArr := b1.nextArr + 1
          orders := (b1.slicePrepend b1.orders b1.nextId).2 }, b1.nextId) := by
    intro b1 hk1
    exact broker.newOrder_front b1 _ c t
      (by rw [hk1.tradeHeap, hk1.opts]; exact hsize)
      (by simp [broker.refPrice, hk1.data, hc]) (checkPrices_bare _ _ rfl rfl) rfl
      (by rw [hk1.sameTrades ho.arrNe]; exact hopen)
  rcases Option.eq_none_or_eq_some
    (if i = 0 then (b.tradeHeap t).legs0 else (b.tradeHeap t).legs1) with hs | ⟨o, hs⟩
  · simp only [Trade.setContingent, if_neg (not_le.mpr hp), hs, hfront b (QueueOnly.same b)]
    exact ⟨_, rfl⟩
  · obtain ⟨b1, h1, _, h3⟩ := Order.remove_ok b o (hslot o hs)
    simp only [Trade.setContingent, if_neg (not_le.mpr hp), hs, h1, hfront b1 h3]
    exact ⟨_, rfl⟩

theorem Trade.setContingent_spec (b : broker) (t i : Nat) (p c : ℚ) (ho : Orderly b)
    (hp : 0 < p) (hopen : t ∈ b.openTrades)
    (hsize : b.opts.fractionable = true ∨ (b.tradeHeap t).Size ≤ 1 ∨
      isWhole (b.tradeHeap t).Size = true)
    (hc : b.data.LastClose = some c)
    (hslot : ∀ o, (if i = 0 then (b.tradeHeap t).legs0 else (b.tradeHeap t).legs1) = some o →
      o ∈ b.queue) :
    ∃ bf, Trade.setContingent b t i p = .ok bf ∧
      bf.queue = b.nextId ::
        eraseOpt b.queue (if i = 0 then (b.tradeHeap t).legs0 else (b.tradeHeap t).legs1) ∧
      (∀ o, (if i = 0 then (b.tradeHeap t).legs0 else (b.tradeHeap t).legs1) = some o →
        o ∉ bf.queue) ∧
      bf.orderHeap b.nextId =
        { Size := (b.tradeHeap t).Size, Side := reverseSide (b.tradeHeap t).Side,
          Stop := if i = 0 then p else 0, Limit := if i = 0 then 0 else p,
          SL := 0, TP := 0, trade := some t, hitAtOt := none } ∧
      (∀ o, o ≠ b.nextId → bf.orderHeap o = b.orderHeap o) ∧
      bf.tradeHeap t =
        (if i = 0 then { b.tradeHeap t with legs0 := some b.nextId }
          else { b.tradeHeap t with legs1 := some b.nextId }) ∧
      (∀ x, x ≠ t → bf.tradeHeap x = b.tradeHeap x) ∧
      bf.openTrades = b.openTrades ∧ bf.closedTrades = b.closedTrades ∧ bf.cash = b.cash := by
  obtain ⟨bf, h⟩ := Trade.setContingent_returns b t i p c ho hp hopen hsize hc hslot
  refine ⟨bf, h, ?_⟩
  simp only [Trade.setContingent] at h
  split at h
  · cases h
  · split at h
    · cases h
    · rename_i b1 h1
      -- the ledger after the removal of the previous leg
      have hrem : b1.queue = eraseOpt b.queue
          (if i = 0 then (b.tradeHeap t).legs0 else (b.tradeHeap t).legs1) ∧ QueueOnly b b1 := by
        split at h1
        · rename_i o hs
          obtain ⟨b2, h2, hq2, hk2⟩ := Order.remove_ok b o (hslot o hs)
          rw [h2] at h1
          simp only [Except.ok.injEq] at h1
          rw [← h1, hs]
          exact ⟨hq2, hk2⟩
        · rename_i hs
          simp only [Except.ok.injEq] at h1
          rw [← h1, hs]
          exact ⟨rfl, QueueOnly.same b⟩
      obtain ⟨hq1, hk1⟩ := hrem
      have hnew := broker.newOrder_front b1
        { size := (b1.tradeHeap t).Size, side := reverseSide (b1.tradeHeap t).Side, stop := 0,
          limit := 0, sl := 0, tp := 0, trade := some t } c t
        (by rw [hk1.tradeHeap, hk1.opts]; exact hsize)
        (by simp [broker.refPrice, hk1.data, hc]) (checkPrices_bare _ _ rfl rfl) rfl
        (by rw [hk1.sameTrades ho.arrNe]; exact hopen)
      split at h
      · cases h
      · rename_i b3 o h3
        rw [hnew] at h3
        simp only [Except.ok.injEq, Prod.mk.injEq] at h3
        obtain ⟨e3, eo⟩ := h3
        simp only [Except.ok.injEq] at h
        subst eo
        subst e3
        subst h
        have hidne : ∀ x ∈ b.queue, x ≠ b.nextId :=
          fun x hm => Nat.ne_of_lt (ho.queueFresh x hm)
        have hn1 : b1.nextId = b.nextId := hk1.nextId
        have hqf : ∀ (oh : Nat → Order) (th : Nat → Trade), ({ b1 with
            orderHeap := oh
            tradeHeap := th
            nextId := b1.nextId + 1
            arrays := (b1.slicePrepend b1.orders b1.nextId).1
            nextArr := b1.nextArr + 1
            orders := (b1.slicePrepend b1.orders b1.nextId).2 } : broker).queue
              = b.nextId :: eraseOpt b.queue
                (if i = 0 then (b.tradeHeap t).legs0 else (b.tradeHeap t).legs1) := by
          intro oh th
          rw [← hq1, ← hn1]
          simp [broker.queue, broker.live, broker.slicePrepend]
        refine ⟨hqf _ _, ?_, ?_, ?_, ?_, ?_, ?_, ?_, ?_⟩
        · intro x hs hm
          rw [hqf, hs] at hm
          rcases List.mem_cons.mp hm with hx | hx
          · exact hidne x (hslot x hs) hx
          · exact (ho.queueNodup.mem_erase_iff.mp hx).1 rfl
        · rw [← hn1]
          simp only [Function.update_same, hk1.tradeHeap]
          split <;> rfl
        · intro x hne
          rw [← hn1] at hne
          simp only
          rw [Function.update_noteq hne, Function.update_noteq hne, hk1.orderHeap]
        · rw [← hn1]
          simp only [hk1.tradeHeap, Function.update_same]
        · intro x hx
          simp only
          rw [Function.update_noteq hx, hk1.tradeHeap]
        · simp only [broker.openTrades, broker.live, broker.slicePrepend]
          rw [hk1.trades, hk1.nextArr, Function.update_noteq (Nat.ne_of_lt ho.tradesArr),
            hk1.arrays _ (Ne.symm ho.arrNe)]
        · exact hk1.closedTrades
        · exact hk1.cash

/-- Setting a leg where the slot is empty or its order queued: on a ledger
reached by a run, for an open trade `t` (its size valid for an order, a last
close to validate against) and a price `p > 0`, `SetSL` returns; the order of
the stop-loss slot is taken off the queue, the new leg (the next id) is put at
the front with the opposite side, the size of the trade, `Stop = p`, no limit,
no stop loss or take profit of its own, bound to `t`; the stop-loss slot refers
to it and the take-profit slot, the other orders, the other trades, the open and
closed trades and the cash are as before.  `SetTP` does the same for the
take-profit slot with `Limit = p`.  For `p ≤ 0` both abort. -/
theorem setLeg_replaces_the_slot (b : broker) (t : Nat) (p c : ℚ) (hreach : Reachable b)
    (hopen : t ∈ b.openTrades)
    (hsize : b.opts.fractionable = true ∨ (b.tradeHeap t).Size ≤ 1 ∨
      isWhole (b.tradeHeap t).Size = true)
    (hc : b.data.LastClose = some c) :
    (0 < p → (∀ o, (b.tradeHeap t).legs0 = some o → o ∈ b.queue) →
      ∃ bf, Trade.SetSL b t p = .ok bf ∧
        bf.queue = b.nextId :: eraseOpt b.queue (b.tradeHeap t).legs0 ∧
        (∀ o, (b.tradeHeap t).legs0 = some o → o ∉ bf.queue) ∧
        bf.orderHeap b.nextId =
          { Size := (b.tradeHeap t).Size, Side := reverseSide (b.tradeHeap t).Side,
            Stop := p, Limit := 0, SL := 0, TP := 0, trade := some t, hitAtOt := none } ∧
        (∀ o, o ≠ b.nextId → bf.orderHeap o = b.orderHeap o) ∧
        bf.tradeHeap t = { b.tradeHeap t with legs0 := some b.nextId } ∧
        (∀ x, x ≠ t → bf.tradeHeap x = b.tradeHeap x) ∧
        bf.openTrades = b.openTrades ∧ bf.closedTrades = b.closedTrades ∧ bf.cash = b.cash) ∧
    (0 < p → (∀ o, (b.tradeHeap t).legs1 = some o → o ∈ b.queue) →
      ∃ bf, Trade.SetTP b t p = .ok bf ∧
        bf.queue = b.nextId :: eraseOpt b.queue (b.tradeHeap t).legs1 ∧
        (∀ o, (b.tradeHeap t).legs1 = some o → o ∉ bf.queue) ∧
        bf.orderHeap b.nextId =
          { Size := (b.tradeHeap t).Size, Side := reverseSide (b.tradeHeap t).Side,
            Stop := 0, Limit := p, SL := 0, TP := 0, trade := some t, hitAtOt := none } ∧
        (∀ o, o ≠ b.nextId → bf.orderHeap o = b.orderHeap o) ∧
        bf.tradeHeap t = { b.tradeHeap t with legs1 := some b.nextId } ∧
        (∀ x, x ≠ t → bf.tradeHeap x = b.tradeHeap x) ∧
        bf.openTrades = b.openTrades ∧ bf.closedTrades = b.closedTrades ∧ bf.cash = b.cash) ∧
    (p ≤ 0 → Trade.SetSL b t p = .error (Fault.priceNotPositive, b) ∧
      Trade.SetTP b t p = .error (Fault.priceNotPositive, b)) := by
  have ho := hreach.orderly.1
  refine ⟨fun hp hslot => ?_, fun hp hslot => ?_, fun hp => ?_⟩
  · have h := Trade.setContingent_spec b t 0 p c ho hp hopen hsize hc
      (by simpa using hslot)
    simpa [Trade.SetSL] using h
  · have h := Trade.setContingent_spec b t 1 p c ho hp hopen hsize hc
      (by simpa using hslot)
    simpa [Trade.SetTP] using h
  · simp [Trade.SetSL, Trade.SetTP, Trade.setContingent, hp]

/-- On `held` (trade 1, long 10, stop-loss leg 2 and take-profit leg 3 queued
as `[3, 2]`): `SetSL 97` takes order 2 off the queue and puts the new leg 4 in
front, `SetTP 105` does the same with order 3, and `SetSL 0` aborts. -/
theorem setLeg_on_held :
    (held.queue = [3, 2] ∧ held.openTrades = [1] ∧ held.nextId = 4 ∧
      (held.tradeHeap 1).legs0 = some 2 ∧ (held.tradeHeap 1).legs1 = some 3 ∧
      (endState (Trade.SetSL held 1 97)).queue = [4, 3] ∧
      ((endState (Trade.SetSL held 1 97)).orderHeap 4).Stop = 97 ∧
      (endState (Trade.SetTP held 1 105)).queue = [4, 2] ∧
      faultOf (Trade.SetSL held 1 0) = some Fault.priceNotPositive) ∧
    (∃ bf, Trade.SetSL held 1 97 = .ok bf ∧
        bf.queue = held.nextId :: eraseOpt held.queue (held.tradeHeap 1).legs0 ∧
        (∀ o, (held.tradeHeap 1).legs0 = some o → o ∉ bf.queue) ∧
        bf.orderHeap held.nextId =
          { Size := (held.tradeHeap 1).Size, Side := reverseSide (held.tradeHeap 1).Side,
            Stop := 97, Limit := 0, SL := 0, TP := 0, trade := some 1, hitAtOt := none } ∧
        (∀ o, o ≠ held.nextId → bf.orderHeap o = held.orderHeap o) ∧
        bf.tradeHeap 1 = { held.tradeHeap 1 with legs0 := some held.nextId } ∧
        (∀ x, x ≠ 1 → bf.tradeHeap x = held.tradeHeap x) ∧
        bf.openTrades = held.openTrades ∧ bf.closedTrades = held.closedTrades ∧
        bf.cash = held.cash) ∧
    (∃ bf, Trade.SetTP held 1 105 = .ok bf ∧
        bf.queue = held.nextId :: eraseOpt held.queue (held.tradeHeap 1).legs1 ∧
        (∀ o, (held.tradeHeap 1).legs1 = some o → o ∉ bf.queue) ∧
        bf.orderHeap held.nextId =
          { Size := (held.tradeHeap 1).Size, Side := reverseSide (held.tradeHeap 1).Side,
            Stop := 0, Limit := 105, SL := 0, TP := 0, trade := some 1, hitAtOt := none } ∧
        (∀ o, o ≠ held.nextId → bf.orderHeap o = held.orderHeap o) ∧
        bf.tradeHeap 1 = { held.tradeHeap 1 with legs1 := some held.nextId } ∧
        (∀ x, x ≠ 1 → bf.tradeHeap x = held.tradeHeap x) ∧
        bf.openTrades = held.openTrades ∧ bf.closedTrades = held.closedTrades ∧
        bf.cash = held.cash) ∧
    (Trade.SetSL held 1 0 = .error (Fault.priceNotPositive, held) ∧
      Trade.SetTP held 1 0 = .error (Fault.priceNotPositive, held)) :=
  ⟨by decide!,
    (setLeg_replaces_the_slot held 1 97 100 held_reachable (by decide!) (by decide!)
      (by decide!)).1 (by decide!) (fun o ho => by
        have h2 : (held.tradeHeap 1).legs0 = some 2 := by decide!
        rw [h2] at ho
        cases ho
        decide!),
    (setLeg_replaces_the_slot held 1 105 100 held_reachable (by decide!) (by decide!)
      (by decide!)).2.1 (by decide!) (fun o ho => by
        have h3 : (held.tradeHeap 1).legs1 = some 3 := by decide!
        rw [h3] at ho
        cases ho
        decide!),
    (setLeg_replaces_the_slot held 1 0 100 held_reachable (by decide!) (by decide!)
      (by decide!)).2.2 (by decide!)⟩

/-- C24, at the failing input: on `held` the trade 1 is open with its stop-loss
leg (id 2) queued.  `Cancel` on that leg takes it off the queue and leaves slot
0 of the trade referring to it; `SetSL 97` on the trade, still open, then calls
`remove` on the cancelled order and ends in the fatal `No order found`: no
stop-loss leg is queued and no new order was made. -/
theorem C24_set_stop_loss_after_cancel_aborts :
    held.openTrades = [1] ∧ (held.tradeHeap 1).legs0 = some 2 ∧ held.queue = [3, 2] ∧
    (held.orderHeap 2).trade = some 1 ∧
    faultOf (Order.Cancel held 2) = none ∧
    (endState (Order.Cancel held 2)).openTrades = [1] ∧
    (endState (Order.Cancel held 2)).queue = [3] ∧
    ((endState (Order.Cancel held 2)).tradeHeap 1).legs0 = some 2 ∧
    faultOf (Trade.SetSL (endState (Order.Cancel held 2)) 1 97) = some Fault.noOrderFound ∧
    (endState (Trade.SetSL (endState (Order.Cancel held 2)) 1 97)).queue = [3] ∧
    (endState (Trade.SetSL (endState (Order.Cancel held 2)) 1 97)).nextId = held.nextId := by
  decide!

/-! ## Cash and the closed records -/

/-- C25, at the failing input: the run completes the four bars.  The buy of
size 5 closes trade 1, skips trade 3, closes trade 5 (size 3) and then takes
trade 5 again from the last slot of the array: the closed record is reduced by
the size 1 that is left, to size 2, and a copy of size 1 (id 7) is closed.  The
cash has grown by 10 + 30 + 10 = 50, while the closed records 1, 5 and 7 now
add up to a realized profit of 10 + 20 + 10 = 40. -/
theorem C25_cash_differs_from_the_closed_records :
    faultOf unevenCover = none ∧
    (endState unevenCover).opts.cash = 10000 ∧
    (endState unevenCover).cash = 10050 ∧
    (endState unevenCover).closedTrades = [1, 5, 7] ∧
    ((endState unevenCover).closedTrades.map
      (fun t => ((endState unevenCover).tradeHeap t).Size)) = [1, 2, 1] ∧
    ((endState unevenCover).closedTrades.map
      (fun t => ((endState unevenCover).tradeHeap t).realized)) = [10, 20, 10] ∧
    (endState unevenCover).opts.cash +
      ((endState unevenCover).closedTrades.map
        (fun t => ((endState unevenCover).tradeHeap t).realized)).sum = 10040 ∧
    (endState unevenCover).openTrades = [3] ∧
    (endState unevenCover).queue = [] := by
  decide!

/-! ## The bar of record -/

/-- C26, at the failing input: with `tradeOnClose` on, the market buy settled on
the first bar opens trade 1 with entry bar `0 - 1 = -1`, the run completes the
bar, and the lookup of the entry bar is out of the series. -/
theorem C26_entry_bar_before_the_series :
    (New 1 { exOpts 10000 with tradeOnClose := true }).opts.tradeOnClose = true ∧
    faultOf closeFirstBar = none ∧
    (endState closeFirstBar).data.bars.length = 1 ∧
    (endState closeFirstBar).openTrades = [1] ∧
    ((endState closeFirstBar).tradeHeap 1).EntryBar = -1 ∧
    Trade.EntryTime (endState closeFirstBar) 1 = none := by
  decide!

end Backtest
